import Mathlib

/-!
GBAnisotropy: calibration and per-point evaluation.

A shallow embedding of `modules/phase_field/src/materials/GBAnisotropy.C`, in two models of
the type `Real` of the source.

The exact model: `Real` is an arbitrary linearly ordered field `α`.

* The theorems that depend on the square root instantiate `α` with `ℝ` and `Real.sqrt`.
* Division is the total division of the field (`x / 0 = 0`), and `Real.sqrt` of a negative
  number is `0`; the double arithmetic of the source yields `inf` or `NaN` there, and rounds.
  The theorems of this model that are stated for the source exclude these inputs by
  hypothesis or do not depend on them.
* `std::sqrt` is a parameter of the constructor; `std::exp`, `std::sin`,
  `std::cos` and `libMesh::pi` are collected in `MathFns`.
* `std::vector<std::vector<Real> >` is a function `Nat → Nat → α` with point update.
* The unbounded `while` loop of the calibration carries a bound on the number of
  body executions and returns `none` when the bound is exhausted.
* `mooseError` is `Except.error`.

The binary64 model (`Double`, namespace `IEEE`): `Real` is an IEEE 754 binary64 number, a
rational of the format, a signed zero, an infinity or a NaN, with round-to-nearest-even
arithmetic, a correctly rounded square root and comparisons that are false on a NaN.  The
constructor and the evaluator are the same program text over this type.  The library functions
`exp`, `sin` and `cos` stay parameters.
-/

namespace GBAnisotropy

/-! ## Data model -/

/-- Square table indexed by a pair of grain ids (`std::vector<std::vector<Real> >`). -/
abbrev Table (α : Type) := Nat → Nat → α

/-- Assignment `t[i][j] = v`. -/
def Table.set {α : Type} (t : Table α) (i j : Nat) (v : α) : Table α :=
  fun a b => if a = i ∧ b = j then v else t a b

/-- The pairs visited by
`for (m = 0; m < _ncrys - 1; ++m) for (n = m + 1; n < _ncrys; ++n)`, in order.
For `_ncrys = 0` the unsigned bound wraps around but the inner loop is empty for every `m`,
so no pair is visited, as here. -/
def pairs (ncrys : Nat) : List (Nat × Nat) :=
  (List.range (ncrys - 1)).flatMap fun m =>
    (List.range' (m + 1) (ncrys - (m + 1))).map fun n => (m, n)

/-- Boltzmann constant in eV/K (`_kb`). -/
def kb {α : Type} [LinearOrderedField α] : α := 8.617343e-5

/-- Joule to eV conversion (`_JtoeV`). -/
def JtoeV {α : Type} [LinearOrderedField α] : α := 6.24150974e18

/-- Input parameters and mesh data read by the constructor's initialiser list. -/
structure Params (α : Type) where
  mesh_dimension : Nat
  length_scale : α
  time_scale : α
  wGB : α
  M_V : α
  delta_sigma : α
  delta_mob : α
  inclination_anisotropy : Bool
  ncrys : Nat

/-- The member tables filled by the constructor. -/
structure Members (α : Type) where
  sigma : Table α
  mob : Table α
  Q : Table α
  kappa_gamma : Table α
  a_g2 : Table α
  mu_qp : α

/-! ## Constructor: unit conversion and the scan for the extreme energies -/

/-- Variables written by the unit-conversion loop (lines 119-138). -/
structure ScanState (α : Type) where
  sigma : Table α
  mob : Table α
  sigma_big : α
  sigma_small : α

/-- Body of the unit-conversion loop for the pair `p = (m, n)`. -/
def convertStep {α : Type} [LinearOrderedField α] (length_scale time_scale : α)
    (s : ScanState α) (p : Nat × Nat) : ScanState α :=
  let m := p.1
  let n := p.2
  let sigma := s.sigma.set m n (s.sigma m n * (JtoeV * (length_scale * length_scale)))
  let mob := s.mob.set m n
    (s.mob m n * (time_scale / (JtoeV * (length_scale * length_scale * length_scale * length_scale))))
  if m = 0 ∧ n = 1 then
    { sigma := sigma, mob := mob, sigma_big := sigma m n, sigma_small := sigma m n }
  else if sigma m n > s.sigma_big then
    { sigma := sigma, mob := mob, sigma_big := sigma m n, sigma_small := s.sigma_small }
  else if sigma m n < s.sigma_small then
    { sigma := sigma, mob := mob, sigma_big := s.sigma_big, sigma_small := sigma m n }
  else
    { sigma := sigma, mob := mob, sigma_big := s.sigma_big, sigma_small := s.sigma_small }

/-- The whole unit-conversion loop, started with `sigma_big = sigma_small = 0.0`. -/
def convertUnits {α : Type} [LinearOrderedField α] (length_scale time_scale : α) (ncrys : Nat)
    (sigma mob : Table α) : ScanState α :=
  (pairs ncrys).foldl (convertStep length_scale time_scale)
    { sigma := sigma, mob := mob, sigma_big := 0, sigma_small := 0 }

/-- Lines 140-141: `sigma_init = (sigma_big + sigma_small) / 2.0; _mu_qp = 6.0 * sigma_init / _wGB`. -/
def mu_of_scan {α : Type} [LinearOrderedField α] (wGB : α) (s : ScanState α) : α :=
  let sigma_init := (s.sigma_big + s.sigma_small) / 2.0
  6.0 * sigma_init / wGB

/-! ## Constructor: the calibration loop -/

/-- The quartic in `g2` of lines 155 and 214. -/
def y_of_g2 {α : Type} [LinearOrderedField α] (g2 : α) : α :=
  -5.288 * g2*g2*g2*g2 - 0.09364 * g2*g2*g2 + 9.965 * g2*g2 - 8.183 * g2 + 2.007

/-- Line 158, with `yyy` the local of line 157. -/
def f_interf_of {α : Type} [LinearOrderedField α] (y yyy : α) : α :=
  0.05676 * yyy*yyy - 0.2924 * yyy*y*y + 0.6367 * yyy*y - 0.7749 * yyy + 0.6107 * y*y
    - 0.4324 * y + 0.2792

/-- Lines 157-158 as a function of `y`. -/
def f_interf {α : Type} [LinearOrderedField α] (y : α) : α :=
  let yyy := y*y*y
  f_interf_of y yyy

/-- The locals declared on lines 107-114; they live across all pairs. -/
structure CalibLocals (α : Type) where
  g2 : α
  f_interf : α
  a_0 : α
  a_star : α
  kappa_star : α
  gamma_star : α
  y : α
  yyy : α

/-- Values of the locals at their declaration. -/
def initLocals {α : Type} [LinearOrderedField α] : CalibLocals α :=
  { g2 := 0.0, f_interf := 0.0, a_0 := 0.75, a_star := 0.0, kappa_star := 0.0,
    gamma_star := 0.0, y := 0.0, yyy := 0.0 }

/-- Lines 147-148: `a_star = a_0; a_0 = 0.0;`. -/
def pairEntry {α : Type} [LinearOrderedField α] (s : CalibLocals α) : CalibLocals α :=
  { s with a_star := s.a_0, a_0 := 0.0 }

/-- Body of the `while` loop (lines 152-159) for a pair with energy `sigma_mn`. -/
def calibBody {α : Type} [LinearOrderedField α] (sqrt : α → α) (wGB mu_qp sigma_mn : α)
    (s : CalibLocals α) : CalibLocals α :=
  let a_0 := s.a_star
  let kappa_star := a_0 * wGB * sigma_mn
  let g2 := sigma_mn * sigma_mn / (kappa_star * mu_qp)
  let y := y_of_g2 g2
  let gamma_star := 1 / y
  let yyy := y*y*y
  let f_interf := f_interf_of y yyy
  let a_star := sqrt (f_interf / g2)
  { g2 := g2, f_interf := f_interf, a_0 := a_0, a_star := a_star, kappa_star := kappa_star,
    gamma_star := gamma_star, y := y, yyy := yyy }

/-- The loop `while (std::abs(a_0 - a_star) > 1.0e-9) body`, with at most `fuel` executions
of the body. -/
def calibWhile {α : Type} [LinearOrderedField α] (sqrt : α → α) (wGB mu_qp sigma_mn : α) :
    Nat → CalibLocals α → Option (CalibLocals α)
  | fuel, s =>
    if |s.a_0 - s.a_star| > 1.0e-9 then
      match fuel with
      | 0 => none
      | k + 1 => calibWhile sqrt wGB mu_qp sigma_mn k (calibBody sqrt wGB mu_qp sigma_mn s)
    else some s

/-- Locals and output tables of the calibration loop. -/
structure CalibState (α : Type) where
  loc : CalibLocals α
  kappa_gamma : Table α
  a_g2 : Table α

/-- Lines 162-166: the packed store for the pair `(m, n)`. -/
def storePair {α : Type} (s : CalibState α) (m n : Nat) (l : CalibLocals α) : CalibState α :=
  { loc := l
    kappa_gamma := (s.kappa_gamma.set m n l.kappa_star).set n m l.gamma_star
    a_g2 := (s.a_g2.set m n l.a_star).set n m l.g2 }

/-- One pass of the body of the pair loop (lines 145-167). -/
def calibPair {α : Type} [LinearOrderedField α] (sqrt : α → α) (wGB mu_qp : α)
    (sigma : Table α) (fuel : Nat) (s : CalibState α) (p : Nat × Nat) : Option (CalibState α) :=
  match calibWhile sqrt wGB mu_qp (sigma p.1 p.2) fuel (pairEntry s.loc) with
  | none => none
  | some l => some (storePair s p.1 p.2 l)

/-- The pair loop over a list of pairs. -/
def calibPairs {α : Type} [LinearOrderedField α] (sqrt : α → α) (wGB mu_qp : α)
    (sigma : Table α) (fuel : Nat) : List (Nat × Nat) → CalibState α → Option (CalibState α)
  | [], s => some s
  | p :: ps, s =>
    match calibPair sqrt wGB mu_qp sigma fuel s p with
    | none => none
    | some s1 => calibPairs sqrt wGB mu_qp sigma fuel ps s1

/-- State at the start of the calibration loop: the declared locals and the tables as
`resize` leaves them (all zero). -/
def initCalib {α : Type} [LinearOrderedField α] : CalibState α :=
  { loc := initLocals, kappa_gamma := fun _ _ => 0, a_g2 := fun _ _ => 0 }

/-- The constructor from line 106 on, given the three tables read from the file.
`fuel` bounds the number of iterations of each pair's `while` loop. -/
def construct {α : Type} [LinearOrderedField α] (sqrt : α → α) (P : Params α) (fuel : Nat)
    (sigma mob Q : Table α) : Option (Members α) :=
  let sc := convertUnits P.length_scale P.time_scale P.ncrys sigma mob
  let mu_qp := mu_of_scan P.wGB sc
  match calibPairs sqrt P.wGB mu_qp sc.sigma fuel (pairs P.ncrys) initCalib with
  | none => none
  | some c =>
    some { sigma := sc.sigma, mob := sc.mob, Q := Q, kappa_gamma := c.kappa_gamma,
           a_g2 := c.a_g2, mu_qp := mu_qp }

/-! ## Per-point evaluation -/

/-- The library functions used by `computeProperties`. -/
structure MathFns (α : Type) where
  exp : α → α
  sin : α → α
  cos : α → α
  pi : α

/-- The coupled values at one quadrature point: `_T[_qp]`, `(*_vals[m])[_qp]` and
`(*_grad_vals[m])[_qp](c)`. -/
structure QpInput (α : Type) where
  T : α
  vals : Nat → α
  grad_vals : Nat → Nat → α

/-- The locals of `computeProperties` declared on lines 175-184. -/
structure EvalAcc (α : Type) where
  MOB : Table α
  sum_kappa : α
  sum_gamma : α
  sum_L : α
  Val : α
  sum_val : α
  f_sigma : α
  f_mob : α
  gamma_value : α

/-- Values of the locals at their declaration (lines 175-184). -/
def initAcc {α : Type} [LinearOrderedField α] (M : Members α) : EvalAcc α :=
  { MOB := M.mob, sum_kappa := 0.0, sum_gamma := 0.0, sum_L := 0.0, Val := 0.0, sum_val := 0.0,
    f_sigma := 1.0, f_mob := 1.0, gamma_value := 0.0 }

/-- Line 218: the weight of the pair `(m, n)`. -/
def pairVal {α : Type} [LinearOrderedField α] (vals : Nat → α) (m n : Nat) : α :=
  (100000.0 * (vals m) * (vals m) + 0.01) * (100000.0 * (vals n) * (vals n) + 0.01)

/-- Lines 220-223: the accumulation, once `MOB`, `gamma_value`, `f_sigma` and `f_mob` are set. -/
def accumulate {α : Type} [LinearOrderedField α] (P : Params α) (M : Members α) (q : QpInput α)
    (m n : Nat) (a : EvalAcc α) : EvalAcc α :=
  let Val := pairVal q.vals m n
  { a with
    Val := Val
    sum_val := a.sum_val + Val
    sum_kappa := a.sum_kappa + M.kappa_gamma m n * a.f_sigma * Val
    sum_gamma := a.sum_gamma + a.gamma_value * Val
    sum_L := a.sum_L + Val * a.MOB m n * a.f_mob / (P.wGB * M.a_g2 m n) }

/-- Lines 199-215: the inclination branch after the dimension check. -/
def inclination {α : Type} [LinearOrderedField α] (F : MathFns α) (P : Params α) (M : Members α)
    (q : QpInput α) (m n : Nat) (a : EvalAcc α) : EvalAcc α :=
  let phi_ave := F.pi * (n : α) / (2.0 * (P.ncrys : α))
  let sin_phi := F.sin (2.0 * phi_ave)
  let cos_phi := F.cos (2.0 * phi_ave)
  let ga := q.grad_vals m 0 - q.grad_vals n 0
  let gb := q.grad_vals m 1 - q.grad_vals n 1
  let ab := ga*ga + gb*gb + 1.0e-7
  let cos_2phi := cos_phi*(ga*ga - gb*gb) / ab + sin_phi * 2.0 * ga * gb / ab
  let cos_4phi := 2.0 * cos_2phi * cos_2phi - 1.0
  let f_sigma := 1.0 + P.delta_sigma * cos_4phi
  let f_mob := 1.0 + P.delta_mob * cos_4phi
  let g2 := M.a_g2 n m * f_sigma
  let y := y_of_g2 g2
  { a with f_sigma := f_sigma, f_mob := f_mob, gamma_value := 1.0 / y }

/-- Body of the pair loop of `computeProperties` (lines 190-223) for the pair `p = (m, n)`. -/
def evalStep {α : Type} [LinearOrderedField α] (F : MathFns α) (P : Params α) (M : Members α)
    (q : QpInput α) (a : EvalAcc α) (p : Nat × Nat) : Except String (EvalAcc α) :=
  let m := p.1
  let n := p.2
  let a1 : EvalAcc α :=
    { a with MOB := a.MOB.set m n (a.MOB m n * F.exp (-M.Q m n / (kb * q.T))) }
  let a2 : EvalAcc α := { a1 with gamma_value := M.kappa_gamma n m }
  if P.inclination_anisotropy then
    if P.mesh_dimension = 3 then
      Except.error "This material doesn't support inclination dependence for 3D for now!"
    else
      Except.ok (accumulate P M q m n (inclination F P M q m n a2))
  else
    Except.ok (accumulate P M q m n a2)

/-- The pair loop of `computeProperties` over a list of pairs. -/
def evalPairs {α : Type} [LinearOrderedField α] (F : MathFns α) (P : Params α) (M : Members α)
    (q : QpInput α) : List (Nat × Nat) → EvalAcc α → Except String (EvalAcc α)
  | [], a => Except.ok a
  | p :: ps, a =>
    match evalStep F P M q a p with
    | Except.error e => Except.error e
    | Except.ok a1 => evalPairs F P M q ps a1

/-- The material properties written at one quadrature point. -/
structure QpOutput (α : Type) where
  kappa : α
  gamma : α
  L : α
  mu : α
  molar_volume : α
  entropy_diff : α
  act_wGB : α
  tgrad_corr_mult : α

/-- Lines 227-235: the properties stored after the pair loop. -/
def outputs {α : Type} [LinearOrderedField α] (P : Params α) (M : Members α) (a : EvalAcc α) :
    QpOutput α :=
  { kappa := a.sum_kappa / a.sum_val
    gamma := a.sum_gamma / a.sum_val
    L := a.sum_L / a.sum_val
    mu := M.mu_qp
    molar_volume := P.M_V / (P.length_scale * P.length_scale * P.length_scale)
    entropy_diff := 9.5 * JtoeV
    act_wGB := 0.5e-9 / P.length_scale
    tgrad_corr_mult := M.mu_qp * 9.0 / 8.0 }

/-- Body of the loop over quadrature points (lines 175-235). -/
def computeQp {α : Type} [LinearOrderedField α] (F : MathFns α) (P : Params α) (M : Members α)
    (q : QpInput α) : Except String (QpOutput α) :=
  match evalPairs F P M q (pairs P.ncrys) (initAcc M) with
  | Except.error e => Except.error e
  | Except.ok a => Except.ok (outputs P M a)

/-- The loop over the quadrature points of the element, in order. -/
def computeProperties {α : Type} [LinearOrderedField α] (F : MathFns α) (P : Params α)
    (M : Members α) : List (QpInput α) → Except String (List (QpOutput α))
  | [] => Except.ok []
  | q :: qs =>
    match computeQp F P M q with
    | Except.error e => Except.error e
    | Except.ok o =>
      match computeProperties F P M qs with
      | Except.error e => Except.error e
      | Except.ok os => Except.ok (o :: os)

/-- Term added to `sum_L` for the pair `p` when `MOB` still holds `mob0` there. -/
def termL {α : Type} [LinearOrderedField α] (F : MathFns α) (P : Params α) (M : Members α)
    (q : QpInput α) (mob0 : Table α) (f_mob : α) (p : Nat × Nat) : α :=
  pairVal q.vals p.1 p.2 * (mob0 p.1 p.2 * F.exp (-M.Q p.1 p.2 / (kb * q.T))) * f_mob
    / (P.wGB * M.a_g2 p.1 p.2)

/-- The factor applied to the energies by the unit conversion. -/
def sigmaFactor {α : Type} [LinearOrderedField α] (length_scale : α) : α := JtoeV * (length_scale * length_scale)

/-- The factor applied to the mobilities by the unit conversion. -/
def mobFactor {α : Type} [LinearOrderedField α] (length_scale time_scale : α) : α :=
  time_scale / (JtoeV * (length_scale * length_scale * length_scale * length_scale))

/-- The relations that one execution of the loop body (lines 152-159) establishes between
the locals. -/
def BodyRel {α : Type} [LinearOrderedField α] (sqrt : α → α) (wGB mu_qp sigma_mn : α)
    (l : CalibLocals α) : Prop :=
  l.kappa_star = l.a_0 * wGB * sigma_mn ∧
  l.g2 = sigma_mn * sigma_mn / (l.kappa_star * mu_qp) ∧
  l.y = y_of_g2 l.g2 ∧
  l.gamma_star = 1 / l.y ∧
  l.a_star = sqrt (f_interf l.y / l.g2)

/-- The relation between the locals `gamma_star` and `g2` after any execution of the body. -/
def GammaRel {α : Type} [LinearOrderedField α] (l : CalibLocals α) : Prop :=
  l.gamma_star = 1 / y_of_g2 l.g2

/-- The map iterated by the loop when all pair energies are equal (then `g2 = 1 / (6 a)`). -/
def uniformStep {α : Type} [LinearOrderedField α] (sqrt : α → α) (a : α) : α :=
  sqrt (f_interf (y_of_g2 (1 / (6 * a))) / (1 / (6 * a)))

/-- The `while` loop of the pair `(m, n)` executes its body at least once: the locals `s1`
left by the pairs visited before it have `|a_0| > 1e-9`. -/
def PairEntered {α : Type} [LinearOrderedField α] (sqrt : α → α) (wGB mu_qp : α)
    (sigma : Table α) (fuel : Nat) (ncrys : Nat) (m n : Nat) : Prop :=
  ∃ l1 l2 s1, pairs ncrys = l1 ++ (m, n) :: l2 ∧
    calibPairs sqrt wGB mu_qp sigma fuel l1 initCalib = some s1 ∧ 1.0e-9 < |s1.loc.a_0|

/-- Example parameters: 2-D mesh, unit scales, `wGB = 6`, no inclination anisotropy. -/
def exParams (α : Type) [LinearOrderedField α] (ncrys : Nat) : Params α :=
  { mesh_dimension := 2, length_scale := 1, time_scale := 1, wGB := 6, M_V := 1,
    delta_sigma := 0, delta_mob := 0, inclination_anisotropy := false, ncrys := ncrys }

/-- Example tables: everything 1 except `kappa_gamma`, which is 1 at `[0][1]` and 0 elsewhere. -/
def exMembers (α : Type) [LinearOrderedField α] : Members α :=
  { sigma := fun _ _ => 1, mob := fun _ _ => 1, Q := fun _ _ => 1,
    kappa_gamma := fun i j => if i = 0 ∧ j = 1 then 1 else 0, a_g2 := fun _ _ => 1, mu_qp := 1 }

/-- Example point: 300 K, grain 0 has order parameter 1, all others 0, no gradients. -/
def exPoint (α : Type) [LinearOrderedField α] : QpInput α :=
  { T := 300, vals := fun i => if i = 0 then 1 else 0, grad_vals := fun _ _ => 0 }

/-! ## Constructor: the file read -/

/-- Assignment `t[i] = row` of a whole row. -/
def Table.setRow {α : Type} [Zero α] (t : Table α) (i : Nat) (row : List α) : Table α :=
  fun a b => if a = i then row.getD b 0 else t a b

/-- The statement `inFile >> data`: the next number of the input is stored in `data`; when
the input is exhausted the extraction fails and `data` keeps its value. -/
def readData {α : Type} (data : α) (input : List α) : α × List α :=
  match input with
  | [] => (data, [])
  | x :: xs => (x, xs)

/-- Lines 87-92: a row of `k` values pushed back in reading order, with the final `data` and
the rest of the input. -/
def readRow {α : Type} : Nat → α → List α → List α × α × List α
  | 0, data, input => ([], data, input)
  | k + 1, data, input =>
    let r := readData data input
    let rs := readRow k r.1 r.2
    (r.1 :: rs.1, rs.2.1, rs.2.2)

/-- Variables of the file read (lines 84-102). -/
structure ReadState (α : Type) where
  data : α
  input : List α
  sigma : Table α
  mob : Table α
  Q : Table α

/-- Body of the loop over the `3 * _ncrys` rows (lines 86-102). -/
def readStep {α : Type} [Zero α] (ncrys : Nat) (s : ReadState α) (i : Nat) : ReadState α :=
  let r := readRow ncrys s.data s.input
  if i < ncrys then
    { data := r.2.1, input := r.2.2, sigma := s.sigma.setRow i r.1, mob := s.mob, Q := s.Q }
  else if i < 2 * ncrys then
    { data := r.2.1, input := r.2.2, sigma := s.sigma, mob := s.mob.setRow (i - ncrys) r.1,
      Q := s.Q }
  else
    { data := r.2.1, input := r.2.2, sigma := s.sigma, mob := s.mob,
      Q := s.Q.setRow (i - 2 * ncrys) r.1 }

/-- The file read after the two header lines: `input` holds the numbers of the file in
order, `data0` is the indeterminate initial value of `data`, and the tables start as `resize`
leaves them (all zero). -/
def readTables {α : Type} [Zero α] (ncrys : Nat) (data0 : α) (input : List α) : ReadState α :=
  (List.range (3 * ncrys)).foldl (readStep ncrys)
    { data := data0, input := input, sigma := fun _ _ => 0, mob := fun _ _ => 0,
      Q := fun _ _ => 0 }

/-- The whole constructor: the file cannot be opened (`none`) or holds the numbers `input`
after its header. -/
def constructFromFile {α : Type} [LinearOrderedField α] (sqrt : α → α) (P : Params α)
    (fuel : Nat) (data0 : α) (inFile : Option (List α)) : Except String (Option (Members α)) :=
  match inFile with
  | none => Except.error "Can't open GB anisotropy input file"
  | some input =>
    let t := readTables P.ncrys data0 input
    Except.ok (construct sqrt P fuel t.sigma t.mob t.Q)

/-- Entry `b` of the row number `r` of an input with rows of length `N`. -/
def rowEntry {α : Type} [Zero α] (N : Nat) (input : List α) (r b : Nat) : α :=
  ((input.drop (r * N)).take N).getD b 0

/-! ## Runs with two interface widths -/

/-- The value of the local `cos_2phi` (lines 199-207) for the pair `(m, n)`. -/
def cos_2phi_of {α : Type} [LinearOrderedField α] (F : MathFns α) (P : Params α)
    (q : QpInput α) (m n : Nat) : α :=
  let phi_ave := F.pi * (n : α) / (2.0 * (P.ncrys : α))
  let sin_phi := F.sin (2.0 * phi_ave)
  let cos_phi := F.cos (2.0 * phi_ave)
  let ga := q.grad_vals m 0 - q.grad_vals n 0
  let gb := q.grad_vals m 1 - q.grad_vals n 1
  let ab := ga*ga + gb*gb + 1.0e-7
  cos_phi*(ga*ga - gb*gb) / ab + sin_phi * 2.0 * ga * gb / ab

/-- The value of the local `cos_4phi` (line 208) for the pair `(m, n)`. -/
def cos_4phi_of {α : Type} [LinearOrderedField α] (F : MathFns α) (P : Params α)
    (q : QpInput α) (m n : Nat) : α :=
  2.0 * cos_2phi_of F P q m n * cos_2phi_of F P q m n - 1.0

/-- The value of `f_sigma` when line 221 runs for the pair `(m, n)`: line 210 with inclination
anisotropy, the initial value of line 182 without. -/
def pair_f_sigma {α : Type} [LinearOrderedField α] (F : MathFns α) (P : Params α)
    (q : QpInput α) (m n : Nat) : α :=
  if P.inclination_anisotropy then 1.0 + P.delta_sigma * cos_4phi_of F P q m n else 1.0

/-- The value of `f_mob` when line 223 runs for the pair `(m, n)`: line 211 with inclination
anisotropy, the initial value of line 183 without. -/
def pair_f_mob {α : Type} [LinearOrderedField α] (F : MathFns α) (P : Params α)
    (q : QpInput α) (m n : Nat) : α :=
  if P.inclination_anisotropy then 1.0 + P.delta_mob * cos_4phi_of F P q m n else 1.0

/-- The value of `gamma_value` when line 222 runs for the pair `(m, n)`: line 215 with
inclination anisotropy, line 192 without. -/
def pair_gamma {α : Type} [LinearOrderedField α] (F : MathFns α) (P : Params α)
    (M : Members α) (q : QpInput α) (m n : Nat) : α :=
  if P.inclination_anisotropy then
    1.0 / y_of_g2 (M.a_g2 n m * (1.0 + P.delta_sigma * cos_4phi_of F P q m n))
  else M.kappa_gamma n m

/-! ## Denominators of the evaluator -/

/-- A magnitude between `1e-10` and `1e10`.  For a length scale, an interface width and
pair energies of this size the constructor stays far from the smallest and the largest
`double`, where the real-number model is meant. -/
def Moderate {α : Type} [LinearOrderedField α] (x : α) : Prop := 1.0e-10 ≤ |x| ∧ |x| ≤ 1.0e10

/-! ## The material object through a call of the evaluator -/

/-- The part of the object that `computeProperties` reaches: the member tables filled by the
constructor, the member `_qp`, and the declared material properties, each with one value per
quadrature point. -/
structure Material (α : Type) where
  tables : Members α
  qp : Nat
  kappa : Nat → α
  gamma : Nat → α
  L : Nat → α
  mu : Nat → α
  molar_volume : Nat → α
  entropy_diff : Nat → α
  act_wGB : Nat → α
  tgrad_corr_mult : Nat → α

/-- The properties of the quadrature point `i` as a record. -/
def Material.propsAt {α : Type} (s : Material α) (i : Nat) : QpOutput α :=
  { kappa := s.kappa i, gamma := s.gamma i, L := s.L i, mu := s.mu i,
    molar_volume := s.molar_volume i, entropy_diff := s.entropy_diff i,
    act_wGB := s.act_wGB i, tgrad_corr_mult := s.tgrad_corr_mult i }

/-- Body of the loop over quadrature points as a change of the object (lines 175-235): the
locals are declared, `MOB` as a copy of `_mob`; the pair loop runs on the locals; lines 227-235
assign the properties at index `_qp`. -/
def qpBody {α : Type} [LinearOrderedField α] (F : MathFns α) (P : Params α) (q : QpInput α)
    (s : Material α) : Except String (Material α) :=
  match evalPairs F P s.tables q (pairs P.ncrys) (initAcc s.tables) with
  | Except.error e => Except.error e
  | Except.ok a =>
    Except.ok { s with
      kappa := Function.update s.kappa s.qp (a.sum_kappa / a.sum_val)
      gamma := Function.update s.gamma s.qp (a.sum_gamma / a.sum_val)
      L := Function.update s.L s.qp (a.sum_L / a.sum_val)
      mu := Function.update s.mu s.qp s.tables.mu_qp
      molar_volume := Function.update s.molar_volume s.qp
        (P.M_V / (P.length_scale * P.length_scale * P.length_scale))
      entropy_diff := Function.update s.entropy_diff s.qp (9.5 * JtoeV)
      act_wGB := Function.update s.act_wGB s.qp (0.5e-9 / P.length_scale)
      tgrad_corr_mult := Function.update s.tgrad_corr_mult s.qp
        (Function.update s.mu s.qp s.tables.mu_qp s.qp * 9.0 / 8.0) }

/-- The loop `for (...; _qp < _qrule->n_points(); ++_qp)` from the current `_qp` on; the list
holds the coupled values of the remaining quadrature points. -/
def qpLoop {α : Type} [LinearOrderedField α] (F : MathFns α) (P : Params α) :
    List (QpInput α) → Material α → Except String (Material α)
  | [], s => Except.ok s
  | q :: qs, s =>
    match qpBody F P q s with
    | Except.error e => Except.error e
    | Except.ok s1 => qpLoop F P qs { s1 with qp := s1.qp + 1 }

/-- One call of `computeProperties` on the object `s` (lines 173-236), the element having
the quadrature points `qs`. -/
def computePropertiesOn {α : Type} [LinearOrderedField α] (F : MathFns α) (P : Params α)
    (qs : List (QpInput α)) (s : Material α) : Except String (Material α) :=
  qpLoop F P qs { s with qp := 0 }

/-- Example object: the example tables, no property assigned yet. -/
def exMaterial (α : Type) [LinearOrderedField α] : Material α :=
  { tables := exMembers α, qp := 0, kappa := fun _ => 0, gamma := fun _ => 0, L := fun _ => 0,
    mu := fun _ => 0, molar_volume := fun _ => 0, entropy_diff := fun _ => 0,
    act_wGB := fun _ => 0, tgrad_corr_mult := fun _ => 0 }

/-! ## IEEE 754 binary64 arithmetic -/

/-- A value of the type `double`: a finite number (`num 0` is `+0`), `-0`, an infinity with
its sign bit, or a NaN. -/
inductive Double where
  | num (q : ℚ)
  | negZero
  | inf (neg : Bool)
  | nan
  deriving DecidableEq

namespace Double

/-- Nearest integer, ties to the even one. -/
def roundHalfEven (x : ℚ) : ℤ :=
  if x - ⌊x⌋ < 1 / 2 then ⌊x⌋
  else if 1 / 2 < x - ⌊x⌋ then ⌊x⌋ + 1
  else if ⌊x⌋ % 2 = 0 then ⌊x⌋ else ⌊x⌋ + 1

/-- Exponent of the spacing of the binary64 numbers around `q`: `e - 52` for
`2^e ≤ |q| < 2^(e+1)` in the normal range, `-1074` in the subnormal range. -/
def ulpExp (q : ℚ) : ℤ := max (Int.log 2 |q|) (-1022) - 52

/-- Round to nearest, ties to even, onto the binary64 grid (exponent not bounded above). -/
def roundNearest (q : ℚ) : ℚ := roundHalfEven (q / 2 ^ ulpExp q) * 2 ^ ulpExp q

/-- The zero with sign bit `s`. -/
def zero (s : Bool) : Double := if s then negZero else num 0

/-- The `double` delivered by an operation whose exact result is `q`: overflow gives an
infinity, and `s` is the sign bit of a zero result. -/
def ofRat (s : Bool) (q : ℚ) : Double :=
  if 2 ^ 1024 ≤ |roundNearest q| then inf (decide (q < 0))
  else if roundNearest q = 0 then zero s
  else num (roundNearest q)

/-- The sign bit. -/
def signBit : Double → Bool
  | num q => decide (q < 0)
  | negZero => true
  | inf s => s
  | nan => false

/-- The value of a finite number (`0` for the others). -/
def toRat : Double → ℚ
  | num q => q
  | _ => 0

/-- Test for NaN. -/
def isNaN : Double → Bool
  | nan => true
  | _ => false

/-- Test for an infinity. -/
def isInf : Double → Bool
  | inf _ => true
  | _ => false

/-- Test for `+0` or `-0`. -/
def isZero : Double → Bool
  | num q => decide (q = 0)
  | negZero => true
  | _ => false

/-- Multiplication. -/
def mul (a b : Double) : Double :=
  if a.isNaN || b.isNaN then nan
  else if a.isInf || b.isInf then
    (if a.isZero || b.isZero then nan else inf (xor a.signBit b.signBit))
  else ofRat (xor a.signBit b.signBit) (a.toRat * b.toRat)

/-- Division. -/
def div (a b : Double) : Double :=
  if a.isNaN || b.isNaN then nan
  else if a.isInf then (if b.isInf then nan else inf (xor a.signBit b.signBit))
  else if b.isInf then zero (xor a.signBit b.signBit)
  else if b.isZero then (if a.isZero then nan else inf (xor a.signBit b.signBit))
  else ofRat (xor a.signBit b.signBit) (a.toRat / b.toRat)

/-- Addition. -/
def add (a b : Double) : Double :=
  if a.isNaN || b.isNaN then nan
  else if a.isInf then (if b.isInf && (a.signBit != b.signBit) then nan else a)
  else if b.isInf then b
  else ofRat (if a.toRat + b.toRat = 0 then a.signBit && b.signBit
      else decide (a.toRat + b.toRat < 0)) (a.toRat + b.toRat)

/-- Negation. -/
def neg : Double → Double
  | num q => if q = 0 then negZero else num (-q)
  | negZero => num 0
  | inf s => inf (!s)
  | nan => nan

/-- Subtraction. -/
def sub (a b : Double) : Double := add a (neg b)

/-- The function `std::abs`. -/
def abs : Double → Double
  | num q => num |q|
  | negZero => num 0
  | inf _ => inf false
  | nan => nan

/-- The square root of a positive rational, rounded to nearest with ties to even: with
`4^k ≤ q < 4^(k+1)` the result is `m * 2^(k-52)` for the integer `m` nearest to
`sqrt (q / 4^(k-52))`. -/
def sqrtNearest (q : ℚ) : ℚ :=
  let k : ℤ := ⌊((Int.log 2 q : ℤ) : ℚ) / 2⌋
  let x : ℚ := q / 2 ^ (2 * (k - 52))
  let n : ℤ := Nat.sqrt ⌊x⌋₊
  let m : ℤ :=
    if x < (n + 1 / 2) ^ 2 then n
    else if (n + 1 / 2) ^ 2 < x then n + 1
    else if n % 2 = 0 then n else n + 1
  m * 2 ^ (k - 52)

/-- The function `std::sqrt`. -/
def sqrt : Double → Double
  | num q => if q < 0 then nan else if q = 0 then num 0 else num (sqrtNearest q)
  | negZero => negZero
  | inf s => if s then nan else inf false
  | nan => nan

/-- The comparison `a < b`; false when an operand is a NaN. -/
def lt (a b : Double) : Bool :=
  match a, b with
  | nan, _ => false
  | _, nan => false
  | inf s, inf t => s && !t
  | inf s, _ => s
  | _, inf t => !t
  | a, b => decide (a.toRat < b.toRat)

/-- The comparison `a == b`: false when an operand is a NaN, true for zeros of either sign. -/
def eq (a b : Double) : Bool :=
  match a, b with
  | nan, _ => false
  | _, nan => false
  | inf s, inf t => s == t
  | inf _, _ => false
  | _, inf _ => false
  | a, b => decide (a.toRat = b.toRat)

instance : Add Double := ⟨add⟩

instance : Sub Double := ⟨sub⟩

instance : Mul Double := ⟨mul⟩

instance : Div Double := ⟨div⟩

instance : Neg Double := ⟨neg⟩

instance : LT Double := ⟨fun a b => lt a b = true⟩

instance (a b : Double) : Decidable (a < b) := inferInstanceAs (Decidable (lt a b = true))

/-- A decimal literal of the source denotes the nearest `double`. -/
instance : OfScientific Double := ⟨fun m s e => ofRat false (OfScientific.ofScientific m s e)⟩

/-- An integer literal or an `unsigned int` converted to `double` (exact below `2^53`). -/
instance (n : Nat) : OfNat Double n := ⟨num n⟩

instance : NatCast Double := ⟨fun n => num n⟩

end Double

namespace Double

/-- The unit roundoff `2^-53` of binary64: the relative error of one rounding in the normal
range is at most this. -/
def unitRoundoff : ℚ := 1 / 2 ^ 53

/-- Neither a NaN nor an infinity. -/
def IsFinite (a : Double) : Prop := a.isNaN = false ∧ a.isInf = false

/-- Zero, or of magnitude between `lo` and `hi`. -/
def ZeroOrBetween (lo hi y : ℚ) : Prop := y = 0 ∨ (lo ≤ |y| ∧ |y| ≤ hi)

end Double

/-! ## The constructor and the evaluator in binary64 arithmetic

The same statements as above, each operation rounded once to the nearest `double` (the code
of a compiler that keeps every intermediate result in a `double` and fuses no operations). -/

namespace IEEE

/-- Boltzmann constant in eV/K (`_kb`). -/
def kb : Double := 8.617343e-5

/-- Joule to eV conversion (`_JtoeV`). -/
def JtoeV : Double := 6.24150974e18

/-- Body of the unit-conversion loop (lines 123-137) for the pair `p = (m, n)`. -/
def convertStep (length_scale time_scale : Double) (s : ScanState Double) (p : Nat × Nat) :
    ScanState Double :=
  let m := p.1
  let n := p.2
  let sigma := s.sigma.set m n (s.sigma m n * (JtoeV * (length_scale * length_scale)))
  let mob := s.mob.set m n
    (s.mob m n * (time_scale / (JtoeV * (length_scale * length_scale * length_scale * length_scale))))
  if m = 0 ∧ n = 1 then
    { sigma := sigma, mob := mob, sigma_big := sigma m n, sigma_small := sigma m n }
  else if sigma m n > s.sigma_big then
    { sigma := sigma, mob := mob, sigma_big := sigma m n, sigma_small := s.sigma_small }
  else if sigma m n < s.sigma_small then
    { sigma := sigma, mob := mob, sigma_big := s.sigma_big, sigma_small := sigma m n }
  else
    { sigma := sigma, mob := mob, sigma_big := s.sigma_big, sigma_small := s.sigma_small }

/-- The unit-conversion loop (lines 116-138). -/
def convertUnits (length_scale time_scale : Double) (ncrys : Nat) (sigma mob : Table Double) :
    ScanState Double :=
  (pairs ncrys).foldl (convertStep length_scale time_scale)
    { sigma := sigma, mob := mob, sigma_big := 0.0, sigma_small := 0.0 }

/-- Lines 140-141. -/
def mu_of_scan (wGB : Double) (s : ScanState Double) : Double :=
  let sigma_init := (s.sigma_big + s.sigma_small) / 2.0
  6.0 * sigma_init / wGB

/-- The quartic in `g2` of lines 155 and 214. -/
def y_of_g2 (g2 : Double) : Double :=
  -5.288 * g2*g2*g2*g2 - 0.09364 * g2*g2*g2 + 9.965 * g2*g2 - 8.183 * g2 + 2.007

/-- Line 158, with `yyy` the local of line 157. -/
def f_interf_of (y yyy : Double) : Double :=
  0.05676 * yyy*yyy - 0.2924 * yyy*y*y + 0.6367 * yyy*y - 0.7749 * yyy + 0.6107 * y*y
    - 0.4324 * y + 0.2792

/-- Values of the locals at their declaration (lines 107-114). -/
def initLocals : CalibLocals Double :=
  { g2 := 0.0, f_interf := 0.0, a_0 := 0.75, a_star := 0.0, kappa_star := 0.0,
    gamma_star := 0.0, y := 0.0, yyy := 0.0 }

/-- Lines 147-148: `a_star = a_0; a_0 = 0.0;`. -/
def pairEntry (s : CalibLocals Double) : CalibLocals Double :=
  { s with a_star := s.a_0, a_0 := 0.0 }

/-- Body of the `while` loop (lines 152-159) for a pair with energy `sigma_mn`. -/
def calibBody (wGB mu_qp sigma_mn : Double) (s : CalibLocals Double) : CalibLocals Double :=
  let a_0 := s.a_star
  let kappa_star := a_0 * wGB * sigma_mn
  let g2 := sigma_mn * sigma_mn / (kappa_star * mu_qp)
  let y := y_of_g2 g2
  let gamma_star := 1 / y
  let yyy := y*y*y
  let f_interf := f_interf_of y yyy
  let a_star := Double.sqrt (f_interf / g2)
  { g2 := g2, f_interf := f_interf, a_0 := a_0, a_star := a_star, kappa_star := kappa_star,
    gamma_star := gamma_star, y := y, yyy := yyy }

/-- The loop `while (std::abs(a_0 - a_star) > 1.0e-9) body`, with at most `fuel` executions
of the body; the test is false when `a_star` is a NaN. -/
def calibWhile (wGB mu_qp sigma_mn : Double) :
    Nat → CalibLocals Double → Option (CalibLocals Double)
  | fuel, s =>
    if Double.abs (s.a_0 - s.a_star) > 1.0e-9 then
      match fuel with
      | 0 => none
      | k + 1 => calibWhile wGB mu_qp sigma_mn k (calibBody wGB mu_qp sigma_mn s)
    else some s

/-- One pass of the body of the pair loop (lines 145-167). -/
def calibPair (wGB mu_qp : Double) (sigma : Table Double) (fuel : Nat) (s : CalibState Double)
    (p : Nat × Nat) : Option (CalibState Double) :=
  match calibWhile wGB mu_qp (sigma p.1 p.2) fuel (pairEntry s.loc) with
  | none => none
  | some l => some (storePair s p.1 p.2 l)

/-- The pair loop over a list of pairs. -/
def calibPairs (wGB mu_qp : Double) (sigma : Table Double) (fuel : Nat) :
    List (Nat × Nat) → CalibState Double → Option (CalibState Double)
  | [], s => some s
  | p :: ps, s =>
    match calibPair wGB mu_qp sigma fuel s p with
    | none => none
    | some s1 => calibPairs wGB mu_qp sigma fuel ps s1

/-- State at the start of the calibration loop. -/
def initCalib : CalibState Double :=
  { loc := initLocals, kappa_gamma := fun _ _ => 0, a_g2 := fun _ _ => 0 }

/-- The constructor from line 106 on, given the three tables read from the file. -/
def construct (P : Params Double) (fuel : Nat) (sigma mob Q : Table Double) :
    Option (Members Double) :=
  let sc := convertUnits P.length_scale P.time_scale P.ncrys sigma mob
  let mu_qp := mu_of_scan P.wGB sc
  match calibPairs P.wGB mu_qp sc.sigma fuel (pairs P.ncrys) initCalib with
  | none => none
  | some c =>
    some { sigma := sc.sigma, mob := sc.mob, Q := Q, kappa_gamma := c.kappa_gamma,
           a_g2 := c.a_g2, mu_qp := mu_qp }

/-- Values of the locals of `computeProperties` at their declaration (lines 175-184). -/
def initAcc (M : Members Double) : EvalAcc Double :=
  { MOB := M.mob, sum_kappa := 0.0, sum_gamma := 0.0, sum_L := 0.0, Val := 0.0, sum_val := 0.0,
    f_sigma := 1.0, f_mob := 1.0, gamma_value := 0.0 }

/-- Line 218: the weight of the pair `(m, n)`. -/
def pairVal (vals : Nat → Double) (m n : Nat) : Double :=
  (100000.0 * (vals m) * (vals m) + 0.01) * (100000.0 * (vals n) * (vals n) + 0.01)

/-- Lines 220-223: the accumulation. -/
def accumulate (P : Params Double) (M : Members Double) (q : QpInput Double) (m n : Nat)
    (a : EvalAcc Double) : EvalAcc Double :=
  let Val := pairVal q.vals m n
  { a with
    Val := Val
    sum_val := a.sum_val + Val
    sum_kappa := a.sum_kappa + M.kappa_gamma m n * a.f_sigma * Val
    sum_gamma := a.sum_gamma + a.gamma_value * Val
    sum_L := a.sum_L + Val * a.MOB m n * a.f_mob / (P.wGB * M.a_g2 m n) }

/-- Lines 199-215: the inclination branch after the dimension check. -/
def inclination (F : MathFns Double) (P : Params Double) (M : Members Double)
    (q : QpInput Double) (m n : Nat) (a : EvalAcc Double) : EvalAcc Double :=
  let phi_ave := F.pi * (n : Double) / (2.0 * (P.ncrys : Double))
  let sin_phi := F.sin (2.0 * phi_ave)
  let cos_phi := F.cos (2.0 * phi_ave)
  let ga := q.grad_vals m 0 - q.grad_vals n 0
  let gb := q.grad_vals m 1 - q.grad_vals n 1
  let ab := ga*ga + gb*gb + 1.0e-7
  let cos_2phi := cos_phi*(ga*ga - gb*gb) / ab + sin_phi * 2.0 * ga * gb / ab
  let cos_4phi := 2.0 * cos_2phi * cos_2phi - 1.0
  let f_sigma := 1.0 + P.delta_sigma * cos_4phi
  let f_mob := 1.0 + P.delta_mob * cos_4phi
  let g2 := M.a_g2 n m * f_sigma
  let y := y_of_g2 g2
  { a with f_sigma := f_sigma, f_mob := f_mob, gamma_value := 1.0 / y }

/-- Body of the pair loop of `computeProperties` (lines 190-223) for the pair `p = (m, n)`. -/
def evalStep (F : MathFns Double) (P : Params Double) (M : Members Double) (q : QpInput Double)
    (a : EvalAcc Double) (p : Nat × Nat) : Except String (EvalAcc Double) :=
  let m := p.1
  let n := p.2
  let a1 : EvalAcc Double :=
    { a with MOB := a.MOB.set m n (a.MOB m n * F.exp (-M.Q m n / (kb * q.T))) }
  let a2 : EvalAcc Double := { a1 with gamma_value := M.kappa_gamma n m }
  if P.inclination_anisotropy then
    if P.mesh_dimension = 3 then
      Except.error "This material doesn't support inclination dependence for 3D for now!"
    else
      Except.ok (accumulate P M q m n (inclination F P M q m n a2))
  else
    Except.ok (accumulate P M q m n a2)

/-- The pair loop of `computeProperties` over a list of pairs. -/
def evalPairs (F : MathFns Double) (P : Params Double) (M : Members Double) (q : QpInput Double) :
    List (Nat × Nat) → EvalAcc Double → Except String (EvalAcc Double)
  | [], a => Except.ok a
  | p :: ps, a =>
    match evalStep F P M q a p with
    | Except.error e => Except.error e
    | Except.ok a1 => evalPairs F P M q ps a1

/-- Lines 227-235: the properties stored after the pair loop. -/
def outputs (P : Params Double) (M : Members Double) (a : EvalAcc Double) : QpOutput Double :=
  { kappa := a.sum_kappa / a.sum_val
    gamma := a.sum_gamma / a.sum_val
    L := a.sum_L / a.sum_val
    mu := M.mu_qp
    molar_volume := P.M_V / (P.length_scale * P.length_scale * P.length_scale)
    entropy_diff := 9.5 * JtoeV
    act_wGB := 0.5e-9 / P.length_scale
    tgrad_corr_mult := M.mu_qp * 9.0 / 8.0 }

/-- Body of the loop over quadrature points (lines 175-235). -/
def computeQp (F : MathFns Double) (P : Params Double) (M : Members Double) (q : QpInput Double) :
    Except String (QpOutput Double) :=
  match evalPairs F P M q (pairs P.ncrys) (initAcc M) with
  | Except.error e => Except.error e
  | Except.ok a => Except.ok (outputs P M a)

end IEEE

namespace IEEE

/-- Example parameters: 2-D mesh, unit scales, `wGB = 6`, no inclination anisotropy. -/
def exParams (ncrys : Nat) : Params Double :=
  { mesh_dimension := 2, length_scale := 1, time_scale := 1, wGB := 6, M_V := 1,
    delta_sigma := 0, delta_mob := 0, inclination_anisotropy := false, ncrys := ncrys }

/-- Example tables: `kappa_gamma` holds `k` above the diagonal and `g` elsewhere, every other
entry is 1. -/
def exMembers (k g : Double) : Members Double :=
  { sigma := fun _ _ => 1, mob := fun _ _ => 1, Q := fun _ _ => 1,
    kappa_gamma := fun i j => if i < j then k else g, a_g2 := fun _ _ => 1, mu_qp := 1 }

/-- Example point: 300 K, every order parameter 1, no gradients. -/
def exPoint : QpInput Double :=
  { T := 300, vals := fun _ => 1, grad_vals := fun _ _ => 0 }

/-- Example library functions: the values the C library returns at the arguments the example
point reaches with two grains, `exp (-1 / (kb * 300))`, `sin` and `cos` of the double nearest
to `pi / 2`, and the double nearest to `pi`. -/
def exFns : MathFns Double :=
  { exp := fun _ => 1.5876631538323448e-17, sin := fun _ => 1.0,
    cos := fun _ => 6.123233995736766e-17, pi := 3.141592653589793 }

end IEEE

namespace IEEE

/-- The sums of the pair loop after `i` pairs whose weights add up to `T`, with table entries
between `lo` and `hi` above and between `lo2` and `hi2` below the diagonal: every sum is
finite and within the rounding factors accumulated so far of its exact value. -/
def SumsWithin (lo hi lo2 hi2 : ℚ) (i : Nat) (T : ℚ) (a : EvalAcc Double) : Prop :=
  a.f_sigma = 1.0 ∧ a.sum_val.IsFinite ∧ a.sum_kappa.IsFinite ∧ a.sum_gamma.IsFinite ∧
  8 / 100000 * (i : ℚ) ≤ T ∧ T ≤ 2 * 10 ^ 35 * (i : ℚ) ∧
  (1 - Double.unitRoundoff) ^ i * T ≤ a.sum_val.toRat ∧
  a.sum_val.toRat ≤ (1 + Double.unitRoundoff) ^ i * T ∧
  lo * (1 - Double.unitRoundoff) ^ (i + 2) * T ≤ a.sum_kappa.toRat ∧
  a.sum_kappa.toRat ≤ hi * (1 + Double.unitRoundoff) ^ (i + 2) * T ∧
  lo2 * (1 - Double.unitRoundoff) ^ (i + 2) * T ≤ a.sum_gamma.toRat ∧
  a.sum_gamma.toRat ≤ hi2 * (1 + Double.unitRoundoff) ^ (i + 2) * T

end IEEE

namespace IEEE

/-- The value of the local `cos_2phi` (lines 199-207) for the pair `(m, n)`. -/
def cos_2phi_of (F : MathFns Double) (P : Params Double) (q : QpInput Double) (m n : Nat) :
    Double :=
  let phi_ave := F.pi * (n : Double) / (2.0 * (P.ncrys : Double))
  let sin_phi := F.sin (2.0 * phi_ave)
  let cos_phi := F.cos (2.0 * phi_ave)
  let ga := q.grad_vals m 0 - q.grad_vals n 0
  let gb := q.grad_vals m 1 - q.grad_vals n 1
  let ab := ga*ga + gb*gb + 1.0e-7
  cos_phi*(ga*ga - gb*gb) / ab + sin_phi * 2.0 * ga * gb / ab

/-- The value of the local `cos_4phi` (line 208) for the pair `(m, n)`. -/
def cos_4phi_of (F : MathFns Double) (P : Params Double) (q : QpInput Double) (m n : Nat) :
    Double :=
  2.0 * cos_2phi_of F P q m n * cos_2phi_of F P q m n - 1.0

/-- Example parameters with inclination anisotropy: two grains, `delta_sigma = delta_mob = 0.5`
on a 2-D mesh. -/
def exInclined : Params Double :=
  { exParams 2 with inclination_anisotropy := true, delta_sigma := 0.5, delta_mob := 0.5 }

/-- Example point with a steep gradient of grain 0: `(1000000009, 1000000008)`, and no
gradient of the other grains. -/
def exSteepPoint : QpInput Double :=
  { T := 300, vals := fun _ => 1,
    grad_vals := fun i j => if i = 0 then (if j = 0 then 1000000009 else 1000000008) else 0 }

end IEEE

/-! ## The visited pairs -/

theorem mem_pairs {N m n : Nat} : (m, n) ∈ pairs N ↔ m < n ∧ n < N := by
  simp only [pairs, List.mem_flatMap, List.mem_range, List.mem_map, List.mem_range', Prod.mk.injEq]
  constructor
  · rintro ⟨a, ha, b, ⟨i, hi, rfl⟩, rfl, rfl⟩
    omega
  · rintro ⟨h1, h2⟩
    refine ⟨m, by omega, n, ⟨n - (m+1), by omega, by omega⟩, rfl, rfl⟩

theorem pairs_lt {N : Nat} {p : Nat × Nat} (h : p ∈ pairs N) : p.1 < p.2 ∧ p.2 < N := by
  obtain ⟨m, n⟩ := p
  exact mem_pairs.1 h

theorem nodup_pairs (N : Nat) : (pairs N).Nodup := by
  unfold pairs
  rw [List.nodup_flatMap]
  refine ⟨?_, ?_⟩
  · intro m _
    exact (List.nodup_range' _ _).map (fun a b h => by simpa using h)
  · apply List.Pairwise.imp _ (List.nodup_range _)
    intro a b hab
    simp only [Function.onFun, List.Disjoint, List.mem_map, List.mem_range']
    rintro ⟨x, y⟩ ⟨c, _, hc⟩ ⟨d, _, hd⟩
    simp only [Prod.mk.injEq] at hc hd
    exact hab (hc.1.trans hd.1.symm)

theorem pairs_two : pairs 2 = [(0, 1)] := by decide

theorem pairs_cons {N : Nat} (h : 2 ≤ N) : ∃ rest, pairs N = (0, 1) :: rest := by
  obtain ⟨k, rfl⟩ : ∃ k, N = k + 2 := ⟨N - 2, by omega⟩
  simp only [pairs, show k + 2 - 1 = k + 1 by omega, List.range_succ_eq_map, List.flatMap_cons,
    zero_add, List.range'_succ, List.map_cons, List.cons_append]
  exact ⟨_, rfl⟩

/-! ## The correlation polynomials -/

theorem y_of_g2_eq {α : Type} [LinearOrderedField α] (g : α) :
    y_of_g2 g = -5.288 * g^4 - 0.09364 * g^3 + 9.965 * g^2 - 8.183 * g + 2.007 := by
  unfold y_of_g2; ring

theorem f_interf_eq {α : Type} [LinearOrderedField α] (y : α) :
    f_interf y = 0.05676 * y^6 - 0.2924 * y^5 + 0.6367 * y^4 - 0.7749 * y^3 + 0.6107 * y^2
      - 0.4324 * y + 0.2792 := by
  unfold f_interf f_interf_of; ring

/-! ## The file read -/

section Read
variable {α : Type}

theorem readRow_spec : ∀ (k : Nat) (data : α) (input : List α), k ≤ input.length →
    (readRow k data input).1 = input.take k ∧ (readRow k data input).2.2 = input.drop k := by
  intro k
  induction k with
  | zero => intro data input _; exact ⟨rfl, rfl⟩
  | succ k ih =>
    intro data input h
    cases input with
    | nil => simp at h
    | cons x xs =>
      have hk : k ≤ xs.length := by simpa using h
      obtain ⟨h1, h2⟩ := ih x xs hk
      simp only [readRow, readData, List.take_succ_cons, List.drop_succ_cons]
      exact ⟨by rw [h1], h2⟩

theorem rowEntry_eq [Zero α] (N : Nat) (input : List α) (r b : Nat) (hb : b < N)
    (hlen : (r + 1) * N ≤ input.length) :
    input[r * N + b]? = some (rowEntry N input r b) := by
  have h1 : r * N + b < input.length := by
    have : (r + 1) * N = r * N + N := by ring
    omega
  unfold rowEntry
  rw [List.getD_eq_getElem?_getD, List.getElem?_take_of_lt hb, List.getElem?_drop,
    List.getElem?_eq_getElem h1]
  rfl

theorem readTables_fold [Zero α] (N : Nat) (data0 : α) (input : List α)
    (hlen : input.length = 3 * N * N) :
    ∀ k, k ≤ 3 * N →
      ((List.range k).foldl (readStep N)
        { data := data0, input := input, sigma := fun _ _ => 0, mob := fun _ _ => 0,
          Q := fun _ _ => 0 }).input = input.drop (k * N) ∧
      ∀ a b,
        ((List.range k).foldl (readStep N)
          { data := data0, input := input, sigma := fun _ _ => 0, mob := fun _ _ => 0,
            Q := fun _ _ => 0 }).sigma a b
          = (if a < N ∧ a < k then rowEntry N input a b else 0) ∧
        ((List.range k).foldl (readStep N)
          { data := data0, input := input, sigma := fun _ _ => 0, mob := fun _ _ => 0,
            Q := fun _ _ => 0 }).mob a b
          = (if a < N ∧ N + a < k then rowEntry N input (N + a) b else 0) ∧
        ((List.range k).foldl (readStep N)
          { data := data0, input := input, sigma := fun _ _ => 0, mob := fun _ _ => 0,
            Q := fun _ _ => 0 }).Q a b
          = (if 2 * N + a < k then rowEntry N input (2 * N + a) b else 0) := by
  intro k
  induction k with
  | zero =>
    intro _
    refine ⟨by simp, fun a b => ⟨?_, ?_, ?_⟩⟩ <;> simp
  | succ k ih =>
    intro hk
    obtain ⟨hin, htab⟩ := ih (by omega)
    rw [List.range_succ, List.foldl_append, List.foldl_cons, List.foldl_nil]
    generalize (List.range k).foldl (readStep N)
        { data := data0, input := input, sigma := fun _ _ => 0, mob := fun _ _ => 0,
          Q := fun _ _ => 0 } = s at hin htab ⊢
    have hrem : N ≤ s.input.length := by
      rw [hin, List.length_drop, hlen]
      have : (k + 1) * N ≤ 3 * N * N := Nat.mul_le_mul_right N hk
      have : (k + 1) * N = k * N + N := by ring
      omega
    obtain ⟨r1, r2⟩ := readRow_spec N s.data s.input hrem
    have hrow : ∀ b, (readRow N s.data s.input).1.getD b 0 = rowEntry N input k b := by
      intro b; rw [r1, hin]; rfl
    have hdrop : (readRow N s.data s.input).2.2 = input.drop ((k + 1) * N) := by
      rw [r2, hin, List.drop_drop]
      congr 1; ring
    unfold readStep
    simp only
    split_ifs with h1 h2
    · refine ⟨hdrop, fun a b => ⟨?_, ?_, ?_⟩⟩
      · simp only [Table.setRow]
        by_cases ha : a = k
        · subst ha
          rw [if_pos rfl, hrow, if_pos ⟨h1, Nat.lt_succ_self _⟩]
        · rw [if_neg ha, (htab a b).1]
          have : (a < N ∧ a < k) ↔ (a < N ∧ a < k + 1) := by omega
          simp only [this]
      · rw [(htab a b).2.1]
        have e1 : ¬ (a < N ∧ N + a < k) := by omega
        have e2 : ¬ (a < N ∧ N + a < k + 1) := by omega
        simp only [e1, e2, if_false]
      · rw [(htab a b).2.2]
        have e1 : ¬ (2 * N + a < k) := by omega
        have e2 : ¬ (2 * N + a < k + 1) := by omega
        simp only [e1, e2, if_false]
    · refine ⟨hdrop, fun a b => ⟨?_, ?_, ?_⟩⟩
      · rw [(htab a b).1]
        have : (a < N ∧ a < k) ↔ (a < N ∧ a < k + 1) := by omega
        simp only [this]
      · simp only [Table.setRow]
        by_cases ha : a = k - N
        · subst ha
          have e : N + (k - N) = k := by omega
          have e2 : k - N < N ∧ N + (k - N) < k + 1 := by omega
          rw [if_pos rfl, hrow, if_pos e2, e]
        · rw [if_neg ha, (htab a b).2.1]
          have : (a < N ∧ N + a < k) ↔ (a < N ∧ N + a < k + 1) := by omega
          simp only [this]
      · rw [(htab a b).2.2]
        have e1 : ¬ (2 * N + a < k) := by omega
        have e2 : ¬ (2 * N + a < k + 1) := by omega
        simp only [e1, e2, if_false]
    · refine ⟨hdrop, fun a b => ⟨?_, ?_, ?_⟩⟩
      · rw [(htab a b).1]
        have : (a < N ∧ a < k) ↔ (a < N ∧ a < k + 1) := by omega
        simp only [this]
      · rw [(htab a b).2.1]
        have : (a < N ∧ N + a < k) ↔ (a < N ∧ N + a < k + 1) := by omega
        simp only [this]
      · simp only [Table.setRow]
        by_cases ha : a = k - 2 * N
        · subst ha
          have e : 2 * N + (k - 2 * N) = k := by omega
          have e2 : 2 * N + (k - 2 * N) < k + 1 := by omega
          rw [if_pos rfl, hrow, if_pos e2, e]
        · rw [if_neg ha, (htab a b).2.2]
          have : (2 * N + a < k) ↔ (2 * N + a < k + 1) := by omega
          simp only [this]

end Read

/-! ## The unit conversion and the scan -/

section Scan
variable {α : Type} [LinearOrderedField α]

theorem convertStep_sigma (ls ts : α) (s : ScanState α) (p : Nat × Nat) :
    (convertStep ls ts s p).sigma = s.sigma.set p.1 p.2 (s.sigma p.1 p.2 * sigmaFactor ls) := by
  unfold convertStep
  simp only
  split_ifs <;> rfl

theorem convertStep_mob (ls ts : α) (s : ScanState α) (p : Nat × Nat) :
    (convertStep ls ts s p).mob = s.mob.set p.1 p.2 (s.mob p.1 p.2 * mobFactor ls ts) := by
  unfold convertStep
  simp only
  split_ifs <;> rfl

omit [LinearOrderedField α] in
theorem Table.set_same (t : Table α) (i j : Nat) (v : α) : (t.set i j v) i j = v := by
  simp [Table.set]

omit [LinearOrderedField α] in
theorem Table.set_other (t : Table α) (i j a b : Nat) (v : α) (h : (a, b) ≠ (i, j)) :
    (t.set i j v) a b = t a b := by
  have : ¬ (a = i ∧ b = j) := fun h' => h (Prod.ext h'.1 h'.2)
  simp [Table.set, this]

/-- Tables after the conversion loop over a duplicate-free list of pairs. -/
theorem foldl_convertStep_tables (ls ts : α) :
    ∀ (l : List (Nat × Nat)) (s : ScanState α), l.Nodup →
      ∀ i j, ((l.foldl (convertStep ls ts) s).sigma i j
          = if (i, j) ∈ l then s.sigma i j * sigmaFactor ls else s.sigma i j) ∧
        ((l.foldl (convertStep ls ts) s).mob i j
          = if (i, j) ∈ l then s.mob i j * mobFactor ls ts else s.mob i j) := by
  intro l
  induction l with
  | nil => intro s _ i j; simp
  | cons p ps ih =>
    intro s hnd i j
    obtain ⟨hp, hps⟩ := List.nodup_cons.1 hnd
    rw [List.foldl_cons]
    obtain ⟨h1, h2⟩ := ih (convertStep ls ts s p) hps i j
    rw [h1, h2, convertStep_sigma, convertStep_mob]
    by_cases hij : (i, j) = p
    · subst hij
      simp [hp, Table.set_same]
    · have hne : (i, j) ≠ (p.1, p.2) := hij
      simp [hij, Table.set_other _ _ _ _ _ _ hne]

/-- The scan over pairs other than `(0,1)`: the running extremes stay ordered, are attained,
and bound every energy seen. `conv` is the converted energy of each pair of the list. -/
theorem foldl_convertStep_extremes (ls ts : α) (conv : Nat × Nat → α) :
    ∀ (l : List (Nat × Nat)) (s : ScanState α), l.Nodup → (0, 1) ∉ l →
      (∀ p ∈ l, s.sigma p.1 p.2 * sigmaFactor ls = conv p) → s.sigma_small ≤ s.sigma_big →
      (l.foldl (convertStep ls ts) s).sigma_small ≤ (l.foldl (convertStep ls ts) s).sigma_big ∧
      s.sigma_big ≤ (l.foldl (convertStep ls ts) s).sigma_big ∧
      (l.foldl (convertStep ls ts) s).sigma_small ≤ s.sigma_small ∧
      (∀ p ∈ l, conv p ≤ (l.foldl (convertStep ls ts) s).sigma_big) ∧
      (∀ p ∈ l, (l.foldl (convertStep ls ts) s).sigma_small ≤ conv p) ∧
      ((l.foldl (convertStep ls ts) s).sigma_big = s.sigma_big ∨
        ∃ p ∈ l, (l.foldl (convertStep ls ts) s).sigma_big = conv p) ∧
      ((l.foldl (convertStep ls ts) s).sigma_small = s.sigma_small ∨
        ∃ p ∈ l, (l.foldl (convertStep ls ts) s).sigma_small = conv p) := by
  intro l
  induction l with
  | nil => intro s _ _ _ h; simp [h]
  | cons p ps ih =>
    intro s hnd h01 hconv hord
    obtain ⟨hp, hps⟩ := List.nodup_cons.1 hnd
    have hp01 : ¬ (p.1 = 0 ∧ p.2 = 1) := fun h => h01 (by
      rw [show ((0 : Nat), (1 : Nat)) = p from (Prod.ext h.1 h.2).symm]; exact List.mem_cons_self _ _)
    have h01' : (0, 1) ∉ ps := fun h => h01 (List.mem_cons_of_mem _ h)
    have hcp : s.sigma p.1 p.2 * sigmaFactor ls = conv p := hconv p (List.mem_cons_self _ _)
    -- the step at `p`
    have hstep : (convertStep ls ts s p).sigma_big = max s.sigma_big (conv p) ∧
        (convertStep ls ts s p).sigma_small = min s.sigma_small (conv p) := by
      have hv : (s.sigma.set p.1 p.2 (s.sigma p.1 p.2 * (JtoeV * (ls * ls)))) p.1 p.2 = conv p := by
        rw [Table.set_same]; exact hcp
      unfold convertStep
      simp only [hp01, if_false, hv]
      split_ifs with h1 h2
      · exact ⟨(max_eq_right h1.le).symm, (min_eq_left (hord.trans h1.le)).symm⟩
      · exact ⟨(max_eq_left (not_lt.1 h1)).symm, (min_eq_right h2.le).symm⟩
      · exact ⟨(max_eq_left (not_lt.1 h1)).symm, (min_eq_left (not_lt.1 h2)).symm⟩
    have hconv' : ∀ p' ∈ ps, (convertStep ls ts s p).sigma p'.1 p'.2 * sigmaFactor ls = conv p' := by
      intro p' hp'
      rw [convertStep_sigma, Table.set_other _ _ _ _ _ _ (fun h => hp (by
        rw [show p = p' from (Prod.ext (by simpa using (congrArg Prod.fst h).symm)
          (by simpa using (congrArg Prod.snd h).symm))]; exact hp'))]
      exact hconv p' (List.mem_cons_of_mem _ hp')
    have hord' : (convertStep ls ts s p).sigma_small ≤ (convertStep ls ts s p).sigma_big := by
      rw [hstep.1, hstep.2]; exact (min_le_left _ _).trans (hord.trans (le_max_left _ _))
    obtain ⟨i1, i2, i3, i4, i5, i6, i7⟩ := ih (convertStep ls ts s p) hps h01' hconv' hord'
    rw [List.foldl_cons]
    rw [hstep.1] at i2 i6
    rw [hstep.2] at i3 i7
    refine ⟨i1, (le_max_left _ _).trans i2, i3.trans (min_le_left _ _), ?_, ?_, ?_, ?_⟩
    · intro p' hp'
      rcases List.mem_cons.1 hp' with rfl | h
      · exact (le_max_right _ _).trans i2
      · exact i4 p' h
    · intro p' hp'
      rcases List.mem_cons.1 hp' with rfl | h
      · exact i3.trans (min_le_right _ _)
      · exact i5 p' h
    · rcases i6 with h | ⟨p', hp', h⟩
      · rcases max_choice s.sigma_big (conv p) with hm | hm
        · left; rw [h, hm]
        · right; exact ⟨p, List.mem_cons_self _ _, by rw [h, hm]⟩
      · right; exact ⟨p', List.mem_cons_of_mem _ hp', h⟩
    · rcases i7 with h | ⟨p', hp', h⟩
      · rcases min_choice s.sigma_small (conv p) with hm | hm
        · left; rw [h, hm]
        · right; exact ⟨p, List.mem_cons_self _ _, by rw [h, hm]⟩
      · right; exact ⟨p', List.mem_cons_of_mem _ hp', h⟩


theorem convertUnits_sigma (ls ts : α) (N : Nat) (sigma mob : Table α) (i j : Nat) :
    (convertUnits ls ts N sigma mob).sigma i j
      = if i < j ∧ j < N then sigma i j * sigmaFactor ls else sigma i j := by
  have h := (foldl_convertStep_tables ls ts (pairs N)
    { sigma := sigma, mob := mob, sigma_big := 0, sigma_small := 0 } (nodup_pairs N) i j).1
  simp only [mem_pairs] at h
  exact h

theorem convertUnits_mob (ls ts : α) (N : Nat) (sigma mob : Table α) (i j : Nat) :
    (convertUnits ls ts N sigma mob).mob i j
      = if i < j ∧ j < N then mob i j * mobFactor ls ts else mob i j := by
  have h := (foldl_convertStep_tables ls ts (pairs N)
    { sigma := sigma, mob := mob, sigma_big := 0, sigma_small := 0 } (nodup_pairs N) i j).2
  simp only [mem_pairs] at h
  exact h

/-- After the conversion loop for at least two grains, `sigma_big` and `sigma_small` are the
greatest and the least converted energy over the visited pairs. -/
theorem convertUnits_extremes (ls ts : α) (N : Nat) (sigma mob : Table α) (hN : 2 ≤ N) :
    IsGreatest {x | ∃ m n, m < n ∧ n < N ∧ x = (convertUnits ls ts N sigma mob).sigma m n}
      (convertUnits ls ts N sigma mob).sigma_big ∧
    IsLeast {x | ∃ m n, m < n ∧ n < N ∧ x = (convertUnits ls ts N sigma mob).sigma m n}
      (convertUnits ls ts N sigma mob).sigma_small := by
  obtain ⟨rest, hr⟩ := pairs_cons hN
  have hnd : ((0, 1) :: rest).Nodup := hr ▸ nodup_pairs N
  obtain ⟨h01, hrest⟩ := List.nodup_cons.1 hnd
  have hfinal : ∀ p ∈ pairs N, (convertUnits ls ts N sigma mob).sigma p.1 p.2
      = sigma p.1 p.2 * sigmaFactor ls := by
    intro p hp
    rw [convertUnits_sigma, if_pos (pairs_lt hp)]
  have hmem : ∀ p : Nat × Nat, p ∈ pairs N ↔ p = (0, 1) ∨ p ∈ rest := by
    intro p; rw [hr, List.mem_cons]
  set s0 : ScanState α := { sigma := sigma, mob := mob, sigma_big := 0, sigma_small := 0 }
    with hs0
  have hstep0 : (convertStep ls ts s0 (0, 1)).sigma_big = sigma 0 1 * sigmaFactor ls ∧
      (convertStep ls ts s0 (0, 1)).sigma_small = sigma 0 1 * sigmaFactor ls := by
    unfold convertStep
    simp only [and_self, if_true, Table.set_same]
    rfl
  have hfold : convertUnits ls ts N sigma mob
      = rest.foldl (convertStep ls ts) (convertStep ls ts s0 (0, 1)) := by
    unfold convertUnits; rw [hr, List.foldl_cons]
  obtain ⟨-, -, -, i4, i5, i6, i7⟩ := foldl_convertStep_extremes ls ts
    (fun p => sigma p.1 p.2 * sigmaFactor ls) rest (convertStep ls ts s0 (0, 1)) hrest h01
    (by
      intro p hp
      have hne : (p.1, p.2) ≠ (0, 1) := fun h => h01 (by
        rw [show ((0 : Nat), (1 : Nat)) = p from h.symm]; exact hp)
      rw [convertStep_sigma, Table.set_other _ _ _ _ _ _ hne])
    (by rw [hstep0.1, hstep0.2])
  rw [← hfold, hstep0.1] at i6
  rw [← hfold, hstep0.2] at i7
  rw [← hfold] at i4 i5
  have hbig01 : sigma 0 1 * sigmaFactor ls ≤ (convertUnits ls ts N sigma mob).sigma_big := by
    have := (foldl_convertStep_extremes ls ts
      (fun p => sigma p.1 p.2 * sigmaFactor ls) rest (convertStep ls ts s0 (0, 1)) hrest h01
      (by
        intro p hp
        have hne : (p.1, p.2) ≠ (0, 1) := fun h => h01 (by
          rw [show ((0 : Nat), (1 : Nat)) = p from h.symm]; exact hp)
        rw [convertStep_sigma, Table.set_other _ _ _ _ _ _ hne])
      (by rw [hstep0.1, hstep0.2])).2.1
    rw [← hfold, hstep0.1] at this
    exact this
  have hsmall01 : (convertUnits ls ts N sigma mob).sigma_small ≤ sigma 0 1 * sigmaFactor ls := by
    have := (foldl_convertStep_extremes ls ts
      (fun p => sigma p.1 p.2 * sigmaFactor ls) rest (convertStep ls ts s0 (0, 1)) hrest h01
      (by
        intro p hp
        have hne : (p.1, p.2) ≠ (0, 1) := fun h => h01 (by
          rw [show ((0 : Nat), (1 : Nat)) = p from h.symm]; exact hp)
        rw [convertStep_sigma, Table.set_other _ _ _ _ _ _ hne])
      (by rw [hstep0.1, hstep0.2])).2.2.1
    rw [← hfold, hstep0.2] at this
    exact this
  have h01mem : ((0 : Nat), (1 : Nat)) ∈ pairs N := (hmem _).2 (Or.inl rfl)
  refine ⟨⟨?_, ?_⟩, ⟨?_, ?_⟩⟩
  · rcases i6 with h | ⟨p, hp, h⟩
    · exact ⟨0, 1, (pairs_lt h01mem).1, (pairs_lt h01mem).2, by rw [h, hfinal _ h01mem]⟩
    · have hpm : p ∈ pairs N := (hmem p).2 (Or.inr hp)
      exact ⟨p.1, p.2, (pairs_lt hpm).1, (pairs_lt hpm).2, by rw [h, hfinal _ hpm]⟩
  · rintro x ⟨m, n, hmn, hn, rfl⟩
    have hpm : (m, n) ∈ pairs N := mem_pairs.2 ⟨hmn, hn⟩
    rw [hfinal _ hpm]
    rcases (hmem _).1 hpm with h | h
    · rw [show m = 0 from congrArg Prod.fst h, show n = 1 from congrArg Prod.snd h]
      exact hbig01
    · exact i4 _ h
  · rcases i7 with h | ⟨p, hp, h⟩
    · exact ⟨0, 1, (pairs_lt h01mem).1, (pairs_lt h01mem).2, by rw [h, hfinal _ h01mem]⟩
    · have hpm : p ∈ pairs N := (hmem p).2 (Or.inr hp)
      exact ⟨p.1, p.2, (pairs_lt hpm).1, (pairs_lt hpm).2, by rw [h, hfinal _ hpm]⟩
  · rintro x ⟨m, n, hmn, hn, rfl⟩
    have hpm : (m, n) ∈ pairs N := mem_pairs.2 ⟨hmn, hn⟩
    rw [hfinal _ hpm]
    rcases (hmem _).1 hpm with h | h
    · rw [show m = 0 from congrArg Prod.fst h, show n = 1 from congrArg Prod.snd h]
      exact hsmall01
    · exact i5 _ h

theorem construct_some (sqrt : α → α) (P : Params α) (fuel : Nat) (sigma mob Q : Table α)
    (M : Members α) (h : construct sqrt P fuel sigma mob Q = some M) :
    ∃ c, calibPairs sqrt P.wGB
        (mu_of_scan P.wGB (convertUnits P.length_scale P.time_scale P.ncrys sigma mob))
        (convertUnits P.length_scale P.time_scale P.ncrys sigma mob).sigma fuel (pairs P.ncrys)
        initCalib = some c ∧
      M.sigma = (convertUnits P.length_scale P.time_scale P.ncrys sigma mob).sigma ∧
      M.mob = (convertUnits P.length_scale P.time_scale P.ncrys sigma mob).mob ∧
      M.Q = Q ∧ M.kappa_gamma = c.kappa_gamma ∧ M.a_g2 = c.a_g2 ∧
      M.mu_qp = mu_of_scan P.wGB (convertUnits P.length_scale P.time_scale P.ncrys sigma mob) := by
  unfold construct at h
  simp only at h
  split at h
  · exact absurd h (by simp)
  · rename_i c hc
    simp only [Option.some.injEq] at h
    subst h
    exact ⟨c, hc, rfl, rfl, rfl, rfl, rfl, rfl⟩

end Scan

/-! ## The calibration loops -/

section Calib
variable {α : Type} [LinearOrderedField α]

theorem calibBody_rel (sqrt : α → α) (wGB mu_qp sigma_mn : α) (s : CalibLocals α) :
    BodyRel sqrt wGB mu_qp sigma_mn (calibBody sqrt wGB mu_qp sigma_mn s) :=
  ⟨rfl, rfl, rfl, rfl, rfl⟩

theorem BodyRel.gammaRel {sqrt : α → α} {wGB mu_qp sigma_mn : α} {l : CalibLocals α}
    (h : BodyRel sqrt wGB mu_qp sigma_mn l) : GammaRel l := by
  unfold GammaRel
  rw [h.2.2.2.1, h.2.2.1]

theorem calibWhile_zero (sqrt : α → α) (wGB mu_qp sigma_mn : α) (s : CalibLocals α) :
    calibWhile sqrt wGB mu_qp sigma_mn 0 s
      = if |s.a_0 - s.a_star| > 1.0e-9 then none else some s := by
  rw [calibWhile]

theorem calibWhile_succ (sqrt : α → α) (wGB mu_qp sigma_mn : α) (k : Nat) (s : CalibLocals α) :
    calibWhile sqrt wGB mu_qp sigma_mn (k + 1) s
      = if |s.a_0 - s.a_star| > 1.0e-9 then
          calibWhile sqrt wGB mu_qp sigma_mn k (calibBody sqrt wGB mu_qp sigma_mn s)
        else some s := by
  rw [calibWhile]

theorem calibWhile_of_not (sqrt : α → α) (wGB mu_qp sigma_mn : α) (k : Nat) (s : CalibLocals α)
    (h : ¬ |s.a_0 - s.a_star| > 1.0e-9) : calibWhile sqrt wGB mu_qp sigma_mn k s = some s := by
  cases k with
  | zero => rw [calibWhile_zero, if_neg h]
  | succ k => rw [calibWhile_succ, if_neg h]

/-- What is known of the locals when the `while` loop is left: the exit test failed, and the
locals are either untouched (no iteration) or the result of a body execution. -/
theorem calibWhile_some (sqrt : α → α) (wGB mu_qp sigma_mn : α) :
    ∀ (fuel : Nat) (s r : CalibLocals α), calibWhile sqrt wGB mu_qp sigma_mn fuel s = some r →
      |r.a_0 - r.a_star| ≤ 1.0e-9 ∧
      ((¬ |s.a_0 - s.a_star| > 1.0e-9 ∧ r = s) ∨
        (|s.a_0 - s.a_star| > 1.0e-9 ∧ BodyRel sqrt wGB mu_qp sigma_mn r)) := by
  intro fuel
  induction fuel with
  | zero =>
    intro s r h
    rw [calibWhile_zero] at h
    split_ifs at h with hc
    simp only [Option.some.injEq] at h
    subst h
    exact ⟨not_lt.1 hc, Or.inl ⟨hc, rfl⟩⟩
  | succ k ih =>
    intro s r h
    rw [calibWhile_succ] at h
    split_ifs at h with hc
    · obtain ⟨h1, h2⟩ := ih _ r h
      refine ⟨h1, Or.inr ⟨hc, ?_⟩⟩
      rcases h2 with ⟨-, rfl⟩ | ⟨-, h3⟩
      · exact calibBody_rel sqrt wGB mu_qp sigma_mn s
      · exact h3
    · simp only [Option.some.injEq] at h
      subst h
      exact ⟨not_lt.1 hc, Or.inl ⟨hc, rfl⟩⟩

theorem calibWhile_gammaRel (sqrt : α → α) (wGB mu_qp sigma_mn : α) (fuel : Nat)
    (s r : CalibLocals α) (h : calibWhile sqrt wGB mu_qp sigma_mn fuel s = some r)
    (hs : GammaRel s ∨ |s.a_0 - s.a_star| > 1.0e-9) : GammaRel r := by
  rcases (calibWhile_some sqrt wGB mu_qp sigma_mn fuel s r h).2 with ⟨hc, rfl⟩ | ⟨-, hb⟩
  · rcases hs with hs | hs
    · exact hs
    · exact absurd hs hc
  · exact hb.gammaRel

theorem calibPair_some (sqrt : α → α) (wGB mu_qp : α) (sigma : Table α) (fuel : Nat)
    (s c : CalibState α) (p : Nat × Nat) (h : calibPair sqrt wGB mu_qp sigma fuel s p = some c) :
    ∃ r, calibWhile sqrt wGB mu_qp (sigma p.1 p.2) fuel (pairEntry s.loc) = some r ∧
      c = storePair s p.1 p.2 r := by
  unfold calibPair at h
  split at h
  · exact absurd h (by simp)
  · rename_i r hr
    simp only [Option.some.injEq] at h
    exact ⟨r, hr, h.symm⟩

theorem calibPairs_nil (sqrt : α → α) (wGB mu_qp : α) (sigma : Table α) (fuel : Nat)
    (s : CalibState α) : calibPairs sqrt wGB mu_qp sigma fuel [] s = some s := rfl

theorem calibPairs_cons_some (sqrt : α → α) (wGB mu_qp : α) (sigma : Table α) (fuel : Nat)
    (p : Nat × Nat) (ps : List (Nat × Nat)) (s c : CalibState α)
    (h : calibPairs sqrt wGB mu_qp sigma fuel (p :: ps) s = some c) :
    ∃ s1, calibPair sqrt wGB mu_qp sigma fuel s p = some s1 ∧
      calibPairs sqrt wGB mu_qp sigma fuel ps s1 = some c := by
  simp only [calibPairs] at h
  split at h
  · exact absurd h (by simp)
  · rename_i s1 h1
    exact ⟨s1, h1, h⟩

theorem calibPairs_append_some (sqrt : α → α) (wGB mu_qp : α) (sigma : Table α) (fuel : Nat) :
    ∀ (l1 l2 : List (Nat × Nat)) (s c : CalibState α),
      calibPairs sqrt wGB mu_qp sigma fuel (l1 ++ l2) s = some c →
      ∃ s1, calibPairs sqrt wGB mu_qp sigma fuel l1 s = some s1 ∧
        calibPairs sqrt wGB mu_qp sigma fuel l2 s1 = some c := by
  intro l1
  induction l1 with
  | nil => intro l2 s c h; exact ⟨s, rfl, h⟩
  | cons p ps ih =>
    intro l2 s c h
    obtain ⟨s1, h1, h2⟩ := calibPairs_cons_some sqrt wGB mu_qp sigma fuel p (ps ++ l2) s c h
    obtain ⟨s2, h3, h4⟩ := ih l2 s1 c h2
    refine ⟨s2, ?_, h4⟩
    simp only [calibPairs, h1]
    exact h3

/-- Entries that no pair of the list addresses, in either order, are left as they were. -/
theorem calibPairs_frame (sqrt : α → α) (wGB mu_qp : α) (sigma : Table α) (fuel : Nat) :
    ∀ (l : List (Nat × Nat)) (s c : CalibState α),
      calibPairs sqrt wGB mu_qp sigma fuel l s = some c →
      ∀ i j, (i, j) ∉ l → (j, i) ∉ l →
        c.kappa_gamma i j = s.kappa_gamma i j ∧ c.a_g2 i j = s.a_g2 i j := by
  intro l
  induction l with
  | nil =>
    intro s c h i j _ _
    simp only [calibPairs, Option.some.injEq] at h
    subst h; exact ⟨rfl, rfl⟩
  | cons p ps ih =>
    intro s c h i j h1 h2
    obtain ⟨s1, hs1, hc⟩ := calibPairs_cons_some sqrt wGB mu_qp sigma fuel p ps s c h
    obtain ⟨r, -, rfl⟩ := calibPair_some sqrt wGB mu_qp sigma fuel s s1 p hs1
    obtain ⟨e1, e2⟩ := ih _ c hc i j (fun h => h1 (List.mem_cons_of_mem _ h))
      (fun h => h2 (List.mem_cons_of_mem _ h))
    have n1 : (i, j) ≠ (p.1, p.2) := fun h => h1 (by rw [h]; exact List.mem_cons_self _ _)
    have n2 : (i, j) ≠ (p.2, p.1) := fun h => h2 (by
      have : (j, i) = p := Prod.ext (congrArg Prod.snd h) (congrArg Prod.fst h)
      rw [this]; exact List.mem_cons_self _ _)
    rw [e1, e2]
    simp only [storePair, Table.set_other _ _ _ _ _ _ n1, Table.set_other _ _ _ _ _ _ n2,
      and_self]

/-- The four entries of a pair hold the locals with which its `while` loop was left. -/
theorem calibPairs_entries (sqrt : α → α) (wGB mu_qp : α) (sigma : Table α) (fuel : Nat)
    (l1 l2 : List (Nat × Nat)) (m n : Nat) (s c : CalibState α)
    (hnd : (l1 ++ (m, n) :: l2).Nodup) (hlt : ∀ p ∈ l1 ++ (m, n) :: l2, p.1 < p.2)
    (h : calibPairs sqrt wGB mu_qp sigma fuel (l1 ++ (m, n) :: l2) s = some c) :
    ∃ s1 r, calibPairs sqrt wGB mu_qp sigma fuel l1 s = some s1 ∧
      calibWhile sqrt wGB mu_qp (sigma m n) fuel (pairEntry s1.loc) = some r ∧
      c.kappa_gamma m n = r.kappa_star ∧ c.kappa_gamma n m = r.gamma_star ∧
      c.a_g2 m n = r.a_star ∧ c.a_g2 n m = r.g2 := by
  obtain ⟨s1, h1, h2⟩ := calibPairs_append_some sqrt wGB mu_qp sigma fuel l1 _ s c h
  obtain ⟨s2, h3, h4⟩ := calibPairs_cons_some sqrt wGB mu_qp sigma fuel _ l2 s1 c h2
  obtain ⟨r, hr, rfl⟩ := calibPair_some sqrt wGB mu_qp sigma fuel s1 s2 _ h3
  have hmn : m < n := hlt (m, n) (by simp)
  have hnot : (m, n) ∉ l2 := by
    have := (List.nodup_append.1 hnd).2.1
    exact (List.nodup_cons.1 this).1
  have hnot' : (n, m) ∉ l2 := fun hm => by
    have := hlt (n, m) (by simp [hm])
    simp only at this
    omega
  obtain ⟨f1, f2⟩ := calibPairs_frame sqrt wGB mu_qp sigma fuel l2 _ c h4 m n hnot hnot'
  obtain ⟨f3, f4⟩ := calibPairs_frame sqrt wGB mu_qp sigma fuel l2 _ c h4 n m hnot' hnot
  have hne : (m, n) ≠ (n, m) := fun h => by
    have := congrArg Prod.fst h
    simp only at this
    omega
  refine ⟨s1, r, h1, hr, ?_, ?_, ?_, ?_⟩
  · rw [f1]; simp only [storePair]
    rw [Table.set_other _ _ _ _ _ _ hne, Table.set_same]
  · rw [f3]; simp only [storePair]
    rw [Table.set_same]
  · rw [f2]; simp only [storePair]
    rw [Table.set_other _ _ _ _ _ _ hne, Table.set_same]
  · rw [f4]; simp only [storePair]
    rw [Table.set_same]

theorem calibPairs_gammaRel (sqrt : α → α) (wGB mu_qp : α) (sigma : Table α) (fuel : Nat) :
    ∀ (l : List (Nat × Nat)) (s c : CalibState α),
      calibPairs sqrt wGB mu_qp sigma fuel l s = some c → GammaRel s.loc → GammaRel c.loc := by
  intro l
  induction l with
  | nil =>
    intro s c h hs
    simp only [calibPairs, Option.some.injEq] at h
    subst h; exact hs
  | cons p ps ih =>
    intro s c h hs
    obtain ⟨s1, hs1, hc⟩ := calibPairs_cons_some sqrt wGB mu_qp sigma fuel p ps s c h
    obtain ⟨r, hr, rfl⟩ := calibPair_some sqrt wGB mu_qp sigma fuel s s1 p hs1
    exact ih _ c hc (calibWhile_gammaRel sqrt wGB mu_qp _ fuel _ r hr (Or.inl hs))

theorem initLocals_entered :
    |(pairEntry (initLocals (α := α))).a_0 - (pairEntry (initLocals (α := α))).a_star| > 1.0e-9 := by
  simp only [pairEntry, initLocals]
  norm_num
  rw [abs_of_pos (by norm_num : (0 : α) < 3 / 4)]
  norm_num

/-- Whenever the loop over the visited pairs of `N` grains ends, every pair's lower-triangle
entries satisfy `kappa_gamma[n][m] = 1 / y(a_g2[n][m])`. -/
theorem calibPairs_gamma_entries (sqrt : α → α) (wGB mu_qp : α) (sigma : Table α) (fuel : Nat)
    (N : Nat) (c : CalibState α)
    (h : calibPairs sqrt wGB mu_qp sigma fuel (pairs N) initCalib = some c) (m n : Nat)
    (hmn : m < n) (hn : n < N) :
    c.kappa_gamma n m = 1 / y_of_g2 (c.a_g2 n m) := by
  have hmem : (m, n) ∈ pairs N := mem_pairs.2 ⟨hmn, hn⟩
  obtain ⟨l1, l2, hl⟩ := List.append_of_mem hmem
  have hnd := nodup_pairs N
  have hlt : ∀ p ∈ pairs N, p.1 < p.2 := fun p hp => (pairs_lt hp).1
  rw [hl] at h hnd hlt
  obtain ⟨s1, r, h1, hr, -, e2, -, e4⟩ :=
    calibPairs_entries sqrt wGB mu_qp sigma fuel l1 l2 m n initCalib c hnd hlt h
  rw [e2, e4]
  have hN : 2 ≤ N := by omega
  obtain ⟨rest, hrest⟩ := pairs_cons hN
  apply calibWhile_gammaRel sqrt wGB mu_qp _ fuel _ r hr
  cases l1 with
  | nil =>
    right
    simp only [calibPairs, Option.some.injEq] at h1
    subst h1
    exact initLocals_entered
  | cons p ps =>
    left
    have hp : p = (0, 1) := by
      rw [hrest] at hl
      simp only [List.cons_append, List.cons.injEq] at hl
      exact hl.1.symm
    subst hp
    obtain ⟨s2, h3, h4⟩ := calibPairs_cons_some sqrt wGB mu_qp sigma fuel _ ps initCalib s1 h1
    obtain ⟨r0, hr0, rfl⟩ := calibPair_some sqrt wGB mu_qp sigma fuel initCalib s2 _ h3
    have g0 : GammaRel r0 :=
      calibWhile_gammaRel sqrt wGB mu_qp _ fuel _ r0 hr0 (Or.inr initLocals_entered)
    have := calibPairs_gammaRel sqrt wGB mu_qp sigma fuel ps _ s1 h4 g0
    exact this

end Calib

/-! ## The evaluator -/

section Eval
variable {α : Type} [LinearOrderedField α]

theorem pairVal_pos (vals : Nat → α) (m n : Nat) : 0 < pairVal vals m n := by
  unfold pairVal
  have h1 : 0 ≤ 100000.0 * vals m * vals m := by
    have := mul_self_nonneg (vals m); rw [mul_assoc]; norm_num; exact this
  have h2 : 0 ≤ 100000.0 * vals n * vals n := by
    have := mul_self_nonneg (vals n); rw [mul_assoc]; norm_num; exact this
  have h3 : (0:α) < 0.01 := by norm_num
  exact mul_pos (by linarith) (by linarith)

theorem evalPairs_sum_val (F : MathFns α) (P : Params α) (M : Members α) (q : QpInput α) :
    ∀ (l : List (Nat × Nat)) (a0 a : EvalAcc α), evalPairs F P M q l a0 = Except.ok a →
      a.sum_val = a0.sum_val + (l.map fun p => pairVal q.vals p.1 p.2).sum := by
  intro l
  induction l with
  | nil => intro a0 a h; simp only [evalPairs, Except.ok.injEq] at h; simp [h]
  | cons p ps ih =>
    intro a0 a h
    simp only [evalPairs] at h
    split at h
    · exact absurd h (by simp)
    · rename_i a1 h1
      rw [ih a1 a h, List.map_cons, List.sum_cons, ← add_assoc]
      congr 1
      simp only [evalStep] at h1
      split_ifs at h1 <;> simp only [Except.ok.injEq] at h1 <;> rw [← h1] <;> rfl

theorem evalPairs_ok (F : MathFns α) (P : Params α) (M : Members α) (q : QpInput α)
    (h : P.inclination_anisotropy = false ∨ P.mesh_dimension ≠ 3) :
    ∀ (l : List (Nat × Nat)) (a0 : EvalAcc α), ∃ a, evalPairs F P M q l a0 = Except.ok a := by
  intro l
  induction l with
  | nil => intro a0; exact ⟨a0, rfl⟩
  | cons p ps ih =>
    intro a0
    simp only [evalPairs, evalStep]
    rcases h with h | h
    · simp only [h]; exact ih _
    · simp only [h, if_false]
      split_ifs <;> exact ih _

theorem sum_pairVal_pos (vals : Nat → α) :
    ∀ l : List (Nat × Nat), l ≠ [] → 0 < (l.map fun p => pairVal vals p.1 p.2).sum := by
  intro l hl
  cases l with
  | nil => exact absurd rfl hl
  | cons p ps =>
    rw [List.map_cons, List.sum_cons]
    have h1 := pairVal_pos vals p.1 p.2
    have h2 : 0 ≤ (ps.map fun p => pairVal vals p.1 p.2).sum :=
      List.sum_nonneg (by
        intro x hx
        obtain ⟨p', _, rfl⟩ := List.mem_map.1 hx
        exact (pairVal_pos vals p'.1 p'.2).le)
    linarith

end Eval

theorem computeQp_of_evalPairs {α : Type} [LinearOrderedField α] (F : MathFns α) (P : Params α)
    (M : Members α) (q : QpInput α) (a : EvalAcc α)
    (h : evalPairs F P M q (pairs P.ncrys) (initAcc M) = Except.ok a) :
    computeQp F P M q = Except.ok (outputs P M a) := by
  simp only [computeQp, h]

theorem pairs_three : pairs 3 = [(0, 1), (0, 2), (1, 2)] := by decide

/-! ## The loop over the sample points -/

section Props
variable {α : Type} [LinearOrderedField α]

theorem evalPairs_error (F : MathFns α) (P : Params α) (M : Members α) (q : QpInput α)
    (hinc : P.inclination_anisotropy = true) (hd : P.mesh_dimension = 3)
    (p : Nat × Nat) (ps : List (Nat × Nat)) (a : EvalAcc α) :
    evalPairs F P M q (p :: ps) a
      = Except.error "This material doesn't support inclination dependence for 3D for now!" := by
  simp only [evalPairs, evalStep, hinc, hd, if_true]

theorem computeQp_ok (F : MathFns α) (P : Params α) (M : Members α) (q : QpInput α)
    (h : P.inclination_anisotropy = false ∨ P.mesh_dimension ≠ 3) :
    ∃ o, computeQp F P M q = Except.ok o := by
  obtain ⟨a, ha⟩ := evalPairs_ok F P M q h (pairs P.ncrys) (initAcc M)
  exact ⟨_, computeQp_of_evalPairs F P M q a ha⟩

theorem computeProperties_cons_error (F : MathFns α) (P : Params α) (M : Members α)
    (q : QpInput α) (qs : List (QpInput α)) (e : String)
    (h : computeQp F P M q = Except.error e) :
    computeProperties F P M (q :: qs) = Except.error e := by
  simp only [computeProperties, h]

theorem computeProperties_cons_ok (F : MathFns α) (P : Params α) (M : Members α)
    (q : QpInput α) (qs : List (QpInput α)) (o : QpOutput α) (os : List (QpOutput α))
    (h : computeQp F P M q = Except.ok o) (hs : computeProperties F P M qs = Except.ok os) :
    computeProperties F P M (q :: qs) = Except.ok (o :: os) := by
  simp only [computeProperties, h, hs]

theorem computeProperties_cons_inv (F : MathFns α) (P : Params α) (M : Members α)
    (q : QpInput α) (qs : List (QpInput α)) (os : List (QpOutput α))
    (h : computeProperties F P M (q :: qs) = Except.ok os) :
    ∃ o os', computeQp F P M q = Except.ok o ∧ computeProperties F P M qs = Except.ok os' ∧
      os = o :: os' := by
  simp only [computeProperties] at h
  split at h
  · exact absurd h (by simp)
  · rename_i o ho
    split at h
    · exact absurd h (by simp)
    · rename_i os' hos
      simp only [Except.ok.injEq] at h
      exact ⟨o, os', ho, hos, h.symm⟩

/-- The outputs of a successful call are, point by point, those of `computeQp`. -/
theorem computeProperties_ok_iff (F : MathFns α) (P : Params α) (M : Members α) :
    ∀ (qs : List (QpInput α)) (os : List (QpOutput α)),
      computeProperties F P M qs = Except.ok os ↔
        List.Forall₂ (fun q o => computeQp F P M q = Except.ok o) qs os := by
  intro qs
  induction qs with
  | nil =>
    intro os
    simp only [computeProperties, Except.ok.injEq, List.forall₂_nil_left_iff]
    exact eq_comm
  | cons q qs ih =>
    intro os
    constructor
    · intro h
      obtain ⟨o, os', ho, hos, rfl⟩ := computeProperties_cons_inv F P M q qs os h
      exact List.Forall₂.cons ho ((ih os').1 hos)
    · intro h
      cases h with
      | cons ho hrest =>
        exact computeProperties_cons_ok F P M q qs _ _ ho ((ih _).2 hrest)

theorem computeProperties_ok (F : MathFns α) (P : Params α) (M : Members α)
    (h : P.inclination_anisotropy = false ∨ P.mesh_dimension ≠ 3) :
    ∀ qs : List (QpInput α), ∃ os, computeProperties F P M qs = Except.ok os := by
  intro qs
  induction qs with
  | nil => exact ⟨[], rfl⟩
  | cons q qs ih =>
    obtain ⟨o, ho⟩ := computeQp_ok F P M q h
    obtain ⟨os, hos⟩ := ih
    exact ⟨o :: os, (computeProperties_ok_iff F P M _ _).2
      (List.Forall₂.cons ho ((computeProperties_ok_iff F P M _ _).1 hos))⟩

end Props

/-! ## Closed forms of the accumulated sums -/

section Closed
variable {α : Type} [LinearOrderedField α]

theorem inclination_fields (F : MathFns α) (P : Params α) (M : Members α) (q : QpInput α)
    (m n : Nat) (a : EvalAcc α) :
    (inclination F P M q m n a).f_sigma = 1.0 + P.delta_sigma * cos_4phi_of F P q m n ∧
    (inclination F P M q m n a).f_mob = 1.0 + P.delta_mob * cos_4phi_of F P q m n ∧
    (inclination F P M q m n a).gamma_value
      = 1.0 / y_of_g2 (M.a_g2 n m * (1.0 + P.delta_sigma * cos_4phi_of F P q m n)) ∧
    (inclination F P M q m n a).MOB = a.MOB ∧
    (inclination F P M q m n a).sum_kappa = a.sum_kappa ∧
    (inclination F P M q m n a).sum_gamma = a.sum_gamma ∧
    (inclination F P M q m n a).sum_L = a.sum_L ∧
    (inclination F P M q m n a).sum_val = a.sum_val :=
  ⟨rfl, rfl, rfl, rfl, rfl, rfl, rfl, rfl⟩

/-- One pass of the body of the pair loop, when it raises no error. -/
theorem evalStep_ok (F : MathFns α) (P : Params α) (M : Members α) (q : QpInput α)
    (a a1 : EvalAcc α) (p : Nat × Nat) (h : evalStep F P M q a p = Except.ok a1)
    (hf : P.inclination_anisotropy = false → a.f_sigma = 1.0 ∧ a.f_mob = 1.0) :
    a1.sum_val = a.sum_val + pairVal q.vals p.1 p.2 ∧
    a1.sum_kappa = a.sum_kappa
      + M.kappa_gamma p.1 p.2 * pair_f_sigma F P q p.1 p.2 * pairVal q.vals p.1 p.2 ∧
    a1.sum_gamma = a.sum_gamma + pair_gamma F P M q p.1 p.2 * pairVal q.vals p.1 p.2 ∧
    a1.sum_L = a.sum_L + termL F P M q a.MOB (pair_f_mob F P q p.1 p.2) p ∧
    (∀ p', p' ≠ p → a1.MOB p'.1 p'.2 = a.MOB p'.1 p'.2) ∧
    (P.inclination_anisotropy = false → a1.f_sigma = 1.0 ∧ a1.f_mob = 1.0) := by
  have hset : ∀ p' : Nat × Nat, p' ≠ p → ∀ v : α,
      (a.MOB.set p.1 p.2 v) p'.1 p'.2 = a.MOB p'.1 p'.2 := by
    intro p' hne v
    exact Table.set_other _ _ _ _ _ _ (fun h => hne (Prod.ext (congrArg Prod.fst h)
      (congrArg Prod.snd h)))
  simp only [evalStep] at h
  by_cases hinc : P.inclination_anisotropy = true
  · simp only [hinc, if_true] at h
    split_ifs at h
    simp only [Except.ok.injEq] at h
    subst h
    simp only [pair_f_sigma, pair_f_mob, pair_gamma, hinc, if_true, accumulate, termL,
      inclination, cos_4phi_of, cos_2phi_of, Table.set_same]
    refine ⟨?_, ?_, ?_, ?_, ?_, ?_⟩
    · trivial
    · trivial
    · trivial
    · trivial
    · exact fun p' hne => hset p' hne _
    · exact fun h => absurd h (by simp)
  · have hinc' : P.inclination_anisotropy = false := by
      cases hb : P.inclination_anisotropy
      · rfl
      · exact absurd hb hinc
    obtain ⟨f1, f2⟩ := hf hinc'
    simp only [hinc', Bool.false_eq_true, if_false, Except.ok.injEq] at h
    subst h
    simp only [pair_f_sigma, pair_f_mob, pair_gamma, hinc', Bool.false_eq_true, if_false,
      accumulate, termL, Table.set_same, f1, f2]
    refine ⟨?_, ?_, ?_, ?_, ?_, ?_⟩
    · trivial
    · trivial
    · trivial
    · trivial
    · exact fun p' hne => hset p' hne _
    · exact fun _ => ⟨trivial, trivial⟩

/-- Closed form of the sums accumulated by the pair loop, in either mode. -/
theorem evalPairs_closed (F : MathFns α) (P : Params α) (M : Members α) (q : QpInput α) :
    ∀ (l : List (Nat × Nat)) (a0 a : EvalAcc α), l.Nodup →
      (P.inclination_anisotropy = false → a0.f_sigma = 1.0 ∧ a0.f_mob = 1.0) →
      evalPairs F P M q l a0 = Except.ok a →
        a.sum_val = a0.sum_val + (l.map fun p => pairVal q.vals p.1 p.2).sum ∧
        a.sum_kappa = a0.sum_kappa + (l.map fun p =>
          M.kappa_gamma p.1 p.2 * pair_f_sigma F P q p.1 p.2 * pairVal q.vals p.1 p.2).sum ∧
        a.sum_gamma = a0.sum_gamma
          + (l.map fun p => pair_gamma F P M q p.1 p.2 * pairVal q.vals p.1 p.2).sum ∧
        a.sum_L = a0.sum_L
          + (l.map fun p => termL F P M q a0.MOB (pair_f_mob F P q p.1 p.2) p).sum := by
  intro l
  induction l with
  | nil =>
    intro a0 a _ _ h
    simp only [evalPairs, Except.ok.injEq] at h
    subst h
    simp
  | cons p ps ih =>
    intro a0 a hnd hf h
    obtain ⟨hp, hps⟩ := List.nodup_cons.1 hnd
    simp only [evalPairs] at h
    split at h
    · exact absurd h (by simp)
    · rename_i a1 h1
      obtain ⟨s1, s2, s3, s4, s5, s6⟩ := evalStep_ok F P M q a0 a1 p h1 hf
      obtain ⟨t1, t2, t3, t4⟩ := ih a1 a hps s6 h
      have hcongr : (ps.map fun p => termL F P M q a1.MOB (pair_f_mob F P q p.1 p.2) p)
          = ps.map fun p => termL F P M q a0.MOB (pair_f_mob F P q p.1 p.2) p := by
        apply List.map_congr_left
        intro p' hp'
        have hne : p' ≠ p := fun h => hp (h ▸ hp')
        simp only [termL, s5 p' hne]
      refine ⟨?_, ?_, ?_, ?_⟩
      · rw [t1, s1, List.map_cons, List.sum_cons, add_assoc]
      · rw [t2, s2, List.map_cons, List.sum_cons, add_assoc]
      · rw [t3, s3, List.map_cons, List.sum_cons, add_assoc]
      · rw [t4, s4, hcongr, List.map_cons, List.sum_cons, add_assoc]

/-- The outputs of `computeQp` in closed form. -/
theorem computeQp_closed (F : MathFns α) (P : Params α) (M : Members α) (q : QpInput α)
    (o : QpOutput α) (h : computeQp F P M q = Except.ok o) :
    o.kappa = ((pairs P.ncrys).map fun p =>
        M.kappa_gamma p.1 p.2 * pair_f_sigma F P q p.1 p.2 * pairVal q.vals p.1 p.2).sum
      / ((pairs P.ncrys).map fun p => pairVal q.vals p.1 p.2).sum ∧
    o.gamma = ((pairs P.ncrys).map fun p =>
        pair_gamma F P M q p.1 p.2 * pairVal q.vals p.1 p.2).sum
      / ((pairs P.ncrys).map fun p => pairVal q.vals p.1 p.2).sum ∧
    o.L = ((pairs P.ncrys).map fun p =>
        termL F P M q M.mob (pair_f_mob F P q p.1 p.2) p).sum
      / ((pairs P.ncrys).map fun p => pairVal q.vals p.1 p.2).sum := by
  unfold computeQp at h
  split at h
  · exact absurd h (by simp)
  · rename_i a ha
    simp only [Except.ok.injEq] at h
    subst h
    obtain ⟨t1, t2, t3, t4⟩ := evalPairs_closed F P M q (pairs P.ncrys) (initAcc M) a
      (nodup_pairs _) (fun _ => ⟨rfl, rfl⟩) ha
    simp only [outputs, t1, t2, t3, t4, initAcc]
    norm_num

end Closed

/-! ## Weighted means -/

section Avg
variable {α : Type} [LinearOrderedField α]

/-- A mean with positive weights lies between any bounds of the averaged values. -/
theorem weighted_mean_bounds {ι : Type} (l : List ι) (v w : ι → α) (lo hi : α)
    (hl : l ≠ []) (hw : ∀ p ∈ l, 0 < w p) (hv : ∀ p ∈ l, lo ≤ v p ∧ v p ≤ hi) :
    lo ≤ (l.map fun p => v p * w p).sum / (l.map w).sum ∧
    (l.map fun p => v p * w p).sum / (l.map w).sum ≤ hi := by
  have hsum : ∀ l' : List ι, (∀ p ∈ l', 0 < w p) → (∀ p ∈ l', lo ≤ v p ∧ v p ≤ hi) →
      lo * (l'.map w).sum ≤ (l'.map fun p => v p * w p).sum ∧
      (l'.map fun p => v p * w p).sum ≤ hi * (l'.map w).sum ∧ 0 ≤ (l'.map w).sum := by
    intro l'
    induction l' with
    | nil => intro _ _; simp
    | cons p ps ih =>
      intro hw' hv'
      obtain ⟨i1, i2, i3⟩ := ih (fun x hx => hw' x (List.mem_cons_of_mem _ hx))
        (fun x hx => hv' x (List.mem_cons_of_mem _ hx))
      have wp := hw' p (List.mem_cons_self _ _)
      obtain ⟨v1, v2⟩ := hv' p (List.mem_cons_self _ _)
      simp only [List.map_cons, List.sum_cons]
      have m1 : lo * w p ≤ v p * w p := mul_le_mul_of_nonneg_right v1 wp.le
      have m2 : v p * w p ≤ hi * w p := mul_le_mul_of_nonneg_right v2 wp.le
      refine ⟨?_, ?_, ?_⟩
      · rw [mul_add]; linarith
      · rw [mul_add]; linarith
      · linarith
  obtain ⟨s1, s2, -⟩ := hsum l hw hv
  have hpos : 0 < (l.map w).sum := by
    cases l with
    | nil => exact absurd rfl hl
    | cons p ps =>
      simp only [List.map_cons, List.sum_cons]
      have := (hsum ps (fun x hx => hw x (List.mem_cons_of_mem _ hx))
        (fun x hx => hv x (List.mem_cons_of_mem _ hx))).2.2
      have := hw p (List.mem_cons_self _ _)
      linarith
  exact ⟨(le_div_iff₀ hpos).2 s1, (div_le_iff₀ hpos).2 s2⟩

end Avg

/-! ## The double-angle expression -/

theorem cos_2phi_of_eq {α : Type} [LinearOrderedField α] (F : MathFns α) (P : Params α)
    (q : QpInput α) (m n : Nat) :
    cos_2phi_of F P q m n
      = (F.cos (2 * (F.pi * (n : α) / (2 * (P.ncrys : α))))
            * ((q.grad_vals m 0 - q.grad_vals n 0) ^ 2 - (q.grad_vals m 1 - q.grad_vals n 1) ^ 2)
          + F.sin (2 * (F.pi * (n : α) / (2 * (P.ncrys : α)))) * 2
            * (q.grad_vals m 0 - q.grad_vals n 0) * (q.grad_vals m 1 - q.grad_vals n 1))
        / ((q.grad_vals m 0 - q.grad_vals n 0) ^ 2 + (q.grad_vals m 1 - q.grad_vals n 1) ^ 2
            + 1e-7) := by
  unfold cos_2phi_of
  simp only
  rw [← add_div]
  norm_num
  ring_nf

/-- For a cosine and a sine of one angle, `|c (a^2 - b^2) + s 2 a b| ≤ a^2 + b^2`. -/
theorem double_angle_bound (c s a b : ℝ) (h : s ^ 2 + c ^ 2 = 1) :
    |c * (a ^ 2 - b ^ 2) + s * 2 * a * b| ≤ a ^ 2 + b ^ 2 := by
  have hb : 0 ≤ a ^ 2 + b ^ 2 := by positivity
  apply abs_le.2
  apply abs_le_of_sq_le_sq' _ hb
  have : (a ^ 2 + b ^ 2) ^ 2 - (c * (a ^ 2 - b ^ 2) + s * 2 * a * b) ^ 2
      = (c * (2 * a * b) - s * (a ^ 2 - b ^ 2)) ^ 2
        + (1 - (s ^ 2 + c ^ 2)) * (a ^ 2 + b ^ 2) ^ 2 := by ring
  rw [h] at this
  have h2 : 0 ≤ (c * (2 * a * b) - s * (a ^ 2 - b ^ 2)) ^ 2 := sq_nonneg _
  linarith

/-! ## The inclination branch with zero anisotropy magnitudes -/

section Incl
variable {α : Type} [LinearOrderedField α]

end Incl

/-! ## Interval enclosure of the iteration for equal pair energies -/

theorem y_of_g2_bounds (gl gu g : ℝ) (h0 : 0 ≤ gl) (h1 : gl ≤ g) (h2 : g ≤ gu) :
    -5.288 * gu^4 - 0.09364 * gu^3 + 9.965 * gl^2 - 8.183 * gu + 2.007 ≤ y_of_g2 g ∧
    y_of_g2 g ≤ -5.288 * gl^4 - 0.09364 * gl^3 + 9.965 * gu^2 - 8.183 * gl + 2.007 := by
  have hg : 0 ≤ g := h0.trans h1
  have a4 := pow_le_pow_left₀ hg h2 4
  have a3 := pow_le_pow_left₀ hg h2 3
  have a2 := pow_le_pow_left₀ hg h2 2
  have b4 := pow_le_pow_left₀ h0 h1 4
  have b3 := pow_le_pow_left₀ h0 h1 3
  have b2 := pow_le_pow_left₀ h0 h1 2
  rw [y_of_g2_eq]
  constructor <;> norm_num <;> linarith

theorem f_interf_bounds (yl yu y : ℝ) (h0 : 0 ≤ yl) (h1 : yl ≤ y) (h2 : y ≤ yu) :
    0.05676 * yl^6 - 0.2924 * yu^5 + 0.6367 * yl^4 - 0.7749 * yu^3 + 0.6107 * yl^2
        - 0.4324 * yu + 0.2792 ≤ f_interf y ∧
    f_interf y ≤ 0.05676 * yu^6 - 0.2924 * yl^5 + 0.6367 * yu^4 - 0.7749 * yl^3 + 0.6107 * yu^2
        - 0.4324 * yl + 0.2792 := by
  have hy : 0 ≤ y := h0.trans h1
  have a6 := pow_le_pow_left₀ hy h2 6
  have a5 := pow_le_pow_left₀ hy h2 5
  have a4 := pow_le_pow_left₀ hy h2 4
  have a3 := pow_le_pow_left₀ hy h2 3
  have a2 := pow_le_pow_left₀ hy h2 2
  have b6 := pow_le_pow_left₀ h0 h1 6
  have b5 := pow_le_pow_left₀ h0 h1 5
  have b4 := pow_le_pow_left₀ h0 h1 4
  have b3 := pow_le_pow_left₀ h0 h1 3
  have b2 := pow_le_pow_left₀ h0 h1 2
  rw [f_interf_eq]
  constructor <;> norm_num <;> linarith

/-- Interval enclosure of one step of the uniform iteration, from rational certificates. -/
theorem uniformStep_bounds (l u gl gu yl yu fl fu L U a : ℝ)
    (hl : 0 < l) (hla : l ≤ a) (hau : a ≤ u)
    (hgl0 : 0 < gl) (hgl : gl * (6 * u) ≤ 1) (hgu : 1 ≤ gu * (6 * l))
    (hyl0 : 0 ≤ yl)
    (hyl : yl ≤ -5.288 * gu^4 - 0.09364 * gu^3 + 9.965 * gl^2 - 8.183 * gu + 2.007)
    (hyu : -5.288 * gl^4 - 0.09364 * gl^3 + 9.965 * gu^2 - 8.183 * gl + 2.007 ≤ yu)
    (hfl : fl ≤ 0.05676 * yl^6 - 0.2924 * yu^5 + 0.6367 * yl^4 - 0.7749 * yu^3 + 0.6107 * yl^2
        - 0.4324 * yu + 0.2792)
    (hfu : 0.05676 * yu^6 - 0.2924 * yl^5 + 0.6367 * yu^4 - 0.7749 * yl^3 + 0.6107 * yu^2
        - 0.4324 * yl + 0.2792 ≤ fu)
    (hL : L^2 * gu ≤ fl) (hU0 : 0 ≤ U) (hU : fu ≤ U^2 * gl) :
    L ≤ uniformStep Real.sqrt a ∧ uniformStep Real.sqrt a ≤ U := by
  have ha : 0 < a := hl.trans_le hla
  have hu : 0 < u := ha.trans_le hau
  have h6a : 0 < 6 * a := by positivity
  have hg1 : gl ≤ 1 / (6 * a) := by
    rw [le_div_iff₀ h6a]
    calc gl * (6 * a) ≤ gl * (6 * u) := by
          apply mul_le_mul_of_nonneg_left _ hgl0.le; linarith
      _ ≤ 1 := hgl
  have hg2 : 1 / (6 * a) ≤ gu := by
    rw [div_le_iff₀ h6a]
    have hgu0 : 0 ≤ gu := by
      by_contra hneg
      push_neg at hneg
      have : gu * (6 * l) < 0 := mul_neg_of_neg_of_pos hneg (by positivity)
      linarith
    calc 1 ≤ gu * (6 * l) := hgu
      _ ≤ gu * (6 * a) := by
          apply mul_le_mul_of_nonneg_left _ hgu0; linarith
  have hg0 : 0 < 1 / (6 * a) := by positivity
  obtain ⟨y1, y2⟩ := y_of_g2_bounds gl gu (1 / (6 * a)) hgl0.le hg1 hg2
  obtain ⟨f1, f2⟩ := f_interf_bounds yl yu (y_of_g2 (1 / (6 * a))) hyl0 (hyl.trans y1)
    (y2.trans hyu)
  have F1 : fl ≤ f_interf (y_of_g2 (1 / (6 * a))) := hfl.trans f1
  have F2 : f_interf (y_of_g2 (1 / (6 * a))) ≤ fu := f2.trans hfu
  have hgu0 : 0 < gu := hg0.trans_le hg2
  unfold uniformStep
  constructor
  · apply Real.le_sqrt_of_sq_le
    rw [le_div_iff₀ hg0]
    calc L ^ 2 * (1 / (6 * a)) ≤ L ^ 2 * gu := by
          apply mul_le_mul_of_nonneg_left hg2 (by positivity)
      _ ≤ fl := hL
      _ ≤ _ := F1
  · rw [Real.sqrt_le_left hU0, div_le_iff₀ hg0]
    calc f_interf (y_of_g2 (1 / (6 * a))) ≤ fu := F2
      _ ≤ U ^ 2 * gl := hU
      _ ≤ U ^ 2 * (1 / (6 * a)) := by
          apply mul_le_mul_of_nonneg_left hg1 (by positivity)

/-- Enclosure of the iterate number 1 of the uniform iteration started at `0.75`. -/
theorem iterate1_bounds :
    (0.74997625479978133532 : ℝ) ≤ uniformStep Real.sqrt (3 / 4) ∧
    uniformStep Real.sqrt (3 / 4) ≤ 0.74997625479978133681 :=
  uniformStep_bounds (3 / 4) (3 / 4)
    0.22222222222222222222 0.22222222222222222223
    0.66673112635269013862 0.66673112635269013876
    0.12499208505855700810 0.12499208505855700858
    0.74997625479978133532 0.74997625479978133681 _
    (by norm_num) le_rfl le_rfl
    (by norm_num) (by norm_num) (by norm_num) (by norm_num) (by norm_num) (by norm_num)
    (by norm_num) (by norm_num) (by norm_num) (by norm_num) (by norm_num)

/-- Enclosure of the iterate number 2 of the uniform iteration started at `0.75`. -/
theorem iterate2_bounds :
    (0.74997625885678644782 : ℝ) ≤ uniformStep Real.sqrt (uniformStep Real.sqrt (3 / 4)) ∧
    uniformStep Real.sqrt (uniformStep Real.sqrt (3 / 4)) ≤ 0.74997625885678650726 :=
  uniformStep_bounds 0.74997625479978133532 0.74997625479978133681
    0.22222925805985832396 0.22222925805985832441
    0.66670298268012807982 0.66670298268012808562
    0.12499604381896526372 0.12499604381896528327
    0.74997625885678644782 0.74997625885678650726 _
    (by norm_num) iterate1_bounds.1 iterate1_bounds.2
    (by norm_num) (by norm_num) (by norm_num) (by norm_num) (by norm_num) (by norm_num)
    (by norm_num) (by norm_num) (by norm_num) (by norm_num) (by norm_num)

/-- Enclosure of the iterate number 3 of the uniform iteration started at `0.75`. -/
theorem iterate3_bounds :
    (0.74997625885609731563 : ℝ) ≤ uniformStep Real.sqrt (uniformStep Real.sqrt (uniformStep Real.sqrt (3 / 4))) ∧
    uniformStep Real.sqrt (uniformStep Real.sqrt (uniformStep Real.sqrt (3 / 4))) ≤ 0.74997625885609963502 :=
  uniformStep_bounds 0.74997625885678644782 0.74997625885678650726
    0.22222925685770660472 0.22222925685770662234
    0.66670298748871933995 0.66670298748871956652
    0.12499604314256803058 0.12499604314256879379
    0.74997625885609731563 0.74997625885609963502 _
    (by norm_num) iterate2_bounds.1 iterate2_bounds.2
    (by norm_num) (by norm_num) (by norm_num) (by norm_num) (by norm_num) (by norm_num)
    (by norm_num) (by norm_num) (by norm_num) (by norm_num) (by norm_num)

/-! ## Equal pair energies -/

section Uniform
variable {α : Type} [LinearOrderedField α]

/-- With `mu_qp = 6 sigma / wGB` (all pair energies equal) the body computes `g2 = 1 / (6 a)`
and the next iterate `uniformStep a`. -/
theorem calibBody_uniform (sqrt : α → α) (wGB sigma_mn : α) (hw : wGB ≠ 0) (hs : sigma_mn ≠ 0)
    (s : CalibLocals α) :
    (calibBody sqrt wGB (6 * sigma_mn / wGB) sigma_mn s).a_0 = s.a_star ∧
    (calibBody sqrt wGB (6 * sigma_mn / wGB) sigma_mn s).g2 = 1 / (6 * s.a_star) ∧
    (calibBody sqrt wGB (6 * sigma_mn / wGB) sigma_mn s).a_star = uniformStep sqrt s.a_star := by
  have hg : sigma_mn * sigma_mn / (s.a_star * wGB * sigma_mn * (6 * sigma_mn / wGB))
      = 1 / (6 * s.a_star) := by
    by_cases ha : s.a_star = 0
    · simp [ha]
    · field_simp
      ring
  refine ⟨rfl, hg, ?_⟩
  simp only [calibBody, uniformStep, f_interf]
  rw [hg]

/-- With a zero pair energy or a zero `wGB` the body computes `g2 = 0`. -/
theorem calibBody_degenerate (sqrt : α → α) (wGB mu_qp sigma_mn : α)
    (h : wGB = 0 ∨ sigma_mn = 0) (s : CalibLocals α) :
    (calibBody sqrt wGB mu_qp sigma_mn s).a_0 = s.a_star ∧
    (calibBody sqrt wGB mu_qp sigma_mn s).g2 = 0 ∧
    (calibBody sqrt wGB mu_qp sigma_mn s).a_star = sqrt 0 := by
  have hg : sigma_mn * sigma_mn / (s.a_star * wGB * sigma_mn * mu_qp) = 0 := by
    rcases h with h | h <;> simp [h]
  refine ⟨rfl, hg, ?_⟩
  simp only [calibBody]
  rw [hg, div_zero]

theorem convertUnits_uniform (ls ts : α) (N : Nat) (sigma mob : Table α) (s0 : α)
    (hN : 2 ≤ N) (hu : ∀ m n, m < n → n < N → sigma m n = s0) :
    (convertUnits ls ts N sigma mob).sigma_big = s0 * sigmaFactor ls ∧
    (convertUnits ls ts N sigma mob).sigma_small = s0 * sigmaFactor ls := by
  obtain ⟨hb, hs⟩ := convertUnits_extremes ls ts N sigma mob hN
  obtain ⟨m, n, hmn, hn, e⟩ := hb.1
  obtain ⟨m', n', hmn', hn', e'⟩ := hs.1
  rw [convertUnits_sigma, if_pos ⟨hmn, hn⟩, hu m n hmn hn] at e
  rw [convertUnits_sigma, if_pos ⟨hmn', hn'⟩, hu m' n' hmn' hn'] at e'
  exact ⟨e, e'⟩

theorem mu_of_scan_uniform (wGB : α) (sc : ScanState α) (s : α) (hb : sc.sigma_big = s)
    (hs : sc.sigma_small = s) : mu_of_scan wGB sc = 6 * s / wGB := by
  unfold mu_of_scan
  rw [hb, hs]
  norm_num

end Uniform

/-! ### The run of the loop over the reals for equal pair energies -/

theorem uniform_run (wGB sigma_mn : ℝ) (hw : wGB ≠ 0) (hs : sigma_mn ≠ 0) (l : CalibLocals ℝ)
    (hl : l.a_0 = 0.75) (fuel : Nat) :
    calibWhile Real.sqrt wGB (6 * sigma_mn / wGB) sigma_mn fuel (pairEntry l)
      = if 3 ≤ fuel then
          some (calibBody Real.sqrt wGB (6 * sigma_mn / wGB) sigma_mn
            (calibBody Real.sqrt wGB (6 * sigma_mn / wGB) sigma_mn
              (calibBody Real.sqrt wGB (6 * sigma_mn / wGB) sigma_mn (pairEntry l))))
        else none := by
  set b := calibBody Real.sqrt wGB (6 * sigma_mn / wGB) sigma_mn with hb
  have e0 : (pairEntry l).a_0 = 0 ∧ (pairEntry l).a_star = 3 / 4 := by
    simp only [pairEntry, hl]; norm_num
  obtain ⟨p1, -, q1⟩ := calibBody_uniform Real.sqrt wGB sigma_mn hw hs (pairEntry l)
  obtain ⟨p2, -, q2⟩ := calibBody_uniform Real.sqrt wGB sigma_mn hw hs (b (pairEntry l))
  obtain ⟨p3, -, q3⟩ := calibBody_uniform Real.sqrt wGB sigma_mn hw hs (b (b (pairEntry l)))
  rw [← hb] at p1 q1 p2 q2 p3 q3
  rw [e0.2] at p1 q1
  rw [q1] at p2 q2
  rw [q2] at p3 q3
  have c0 : |(pairEntry l).a_0 - (pairEntry l).a_star| > 1.0e-9 := by
    rw [e0.1, e0.2]; norm_num
    rw [abs_of_pos (by norm_num : (0 : ℝ) < 3 / 4)]; norm_num
  have c1 : |(b (pairEntry l)).a_0 - (b (pairEntry l)).a_star| > 1.0e-9 := by
    rw [p1, q1]
    have := iterate1_bounds.2
    rw [abs_of_pos (by linarith)]
    norm_num at this ⊢
    linarith
  have c2 : |(b (b (pairEntry l))).a_0 - (b (b (pairEntry l))).a_star| > 1.0e-9 := by
    rw [p2, q2]
    have h1 := iterate1_bounds.2
    have h2 := iterate2_bounds.1
    rw [abs_sub_comm, abs_of_pos (by linarith)]
    norm_num at h1 h2 ⊢
    linarith
  have c3 : ¬ |(b (b (b (pairEntry l)))).a_0 - (b (b (b (pairEntry l)))).a_star| > 1.0e-9 := by
    rw [p3, q3, not_lt, abs_le]
    have h1 := iterate2_bounds
    have h2 := iterate3_bounds
    norm_num at h1 h2 ⊢
    constructor <;> linarith
  match fuel with
  | 0 => rw [calibWhile_zero, if_pos c0]; rfl
  | 1 => rw [calibWhile_succ, if_pos c0, calibWhile_zero, if_pos c1]; rfl
  | 2 => rw [calibWhile_succ, if_pos c0, calibWhile_succ, if_pos c1, calibWhile_zero, if_pos c2]; rfl
  | k + 3 =>
    rw [calibWhile_succ, if_pos c0, calibWhile_succ, if_pos c1, calibWhile_succ, if_pos c2,
      calibWhile_of_not _ _ _ _ _ _ c3, if_pos (by omega)]

theorem degenerate_run (wGB mu_qp sigma_mn : ℝ) (h : wGB = 0 ∨ sigma_mn = 0)
    (l : CalibLocals ℝ) (hl : l.a_0 = 0.75) (fuel : Nat) :
    calibWhile Real.sqrt wGB mu_qp sigma_mn fuel (pairEntry l)
      = if 2 ≤ fuel then
          some (calibBody Real.sqrt wGB mu_qp sigma_mn
            (calibBody Real.sqrt wGB mu_qp sigma_mn (pairEntry l)))
        else none := by
  set b := calibBody Real.sqrt wGB mu_qp sigma_mn with hb
  have e0 : (pairEntry l).a_0 = 0 ∧ (pairEntry l).a_star = 3 / 4 := by
    simp only [pairEntry, hl]; norm_num
  obtain ⟨p1, -, q1⟩ := calibBody_degenerate Real.sqrt wGB mu_qp sigma_mn h (pairEntry l)
  obtain ⟨p2, -, q2⟩ := calibBody_degenerate Real.sqrt wGB mu_qp sigma_mn h (b (pairEntry l))
  rw [← hb] at p1 q1 p2 q2
  rw [Real.sqrt_zero] at q1 q2
  rw [e0.2] at p1
  rw [q1] at p2
  have c0 : |(pairEntry l).a_0 - (pairEntry l).a_star| > 1.0e-9 := by
    rw [e0.1, e0.2]; norm_num
    rw [abs_of_pos (by norm_num : (0 : ℝ) < 3 / 4)]; norm_num
  have c1 : |(b (pairEntry l)).a_0 - (b (pairEntry l)).a_star| > 1.0e-9 := by
    rw [p1, q1]; norm_num
    rw [abs_of_pos (by norm_num : (0 : ℝ) < 3 / 4)]; norm_num
  have c2 : ¬ |(b (b (pairEntry l))).a_0 - (b (b (pairEntry l))).a_star| > 1.0e-9 := by
    rw [p2, q2]; norm_num
  match fuel with
  | 0 => rw [calibWhile_zero, if_pos c0]; rfl
  | 1 => rw [calibWhile_succ, if_pos c0, calibWhile_zero, if_pos c1]; rfl
  | k + 2 =>
    rw [calibWhile_succ, if_pos c0, calibWhile_succ, if_pos c1,
      calibWhile_of_not _ _ _ _ _ _ c2, if_pos (by omega)]

/-! ## Pairs whose loop is entered -/

section CalibClaims
variable {α : Type} [LinearOrderedField α]

theorem pairEntry_entered_iff (s : CalibLocals α) :
    |(pairEntry s).a_0 - (pairEntry s).a_star| > 1.0e-9 ↔ 1.0e-9 < |s.a_0| := by
  simp only [pairEntry]
  norm_num

theorem pairEntered_first (sqrt : α → α) (wGB mu_qp : α) (sigma : Table α) (fuel : Nat)
    (N : Nat) (hN : 2 ≤ N) : PairEntered sqrt wGB mu_qp sigma fuel N 0 1 := by
  obtain ⟨rest, hr⟩ := pairs_cons hN
  refine ⟨[], rest, initCalib, hr, rfl, ?_⟩
  exact (pairEntry_entered_iff initLocals).1 initLocals_entered

/-- The entries of an entered pair satisfy the relations of the loop body, and the two
iterates stored are within the tolerance. -/
theorem entered_pair_entries (sqrt : α → α) (wGB mu_qp : α) (sigma : Table α) (fuel : Nat)
    (N : Nat) (c : CalibState α)
    (h : calibPairs sqrt wGB mu_qp sigma fuel (pairs N) initCalib = some c) (m n : Nat)
    (he : PairEntered sqrt wGB mu_qp sigma fuel N m n) :
    ∃ r : CalibLocals α, BodyRel sqrt wGB mu_qp (sigma m n) r ∧ |r.a_0 - r.a_star| ≤ 1.0e-9 ∧
      c.kappa_gamma m n = r.kappa_star ∧ c.kappa_gamma n m = r.gamma_star ∧
      c.a_g2 m n = r.a_star ∧ c.a_g2 n m = r.g2 := by
  obtain ⟨l1, l2, s1, hl, hs1, hent⟩ := he
  have hnd := nodup_pairs N
  have hlt : ∀ p ∈ pairs N, p.1 < p.2 := fun p hp => (pairs_lt hp).1
  rw [hl] at h hnd hlt
  obtain ⟨s1', r, h1, hr, e1, e2, e3, e4⟩ :=
    calibPairs_entries sqrt wGB mu_qp sigma fuel l1 l2 m n initCalib c hnd hlt h
  rw [hs1, Option.some.injEq] at h1
  subst h1
  obtain ⟨hx, hcase⟩ := calibWhile_some sqrt wGB mu_qp (sigma m n) fuel _ r hr
  rcases hcase with ⟨hc, -⟩ | ⟨-, hb⟩
  · exact absurd ((pairEntry_entered_iff s1.loc).2 hent) hc
  · exact ⟨r, hb, hx, e1, e2, e3, e4⟩

end CalibClaims

/-! ## Two grains -/

section TwoGrains
variable {α : Type} [LinearOrderedField α]

theorem mu_of_scan_two (P : Params α) (sigma mob : Table α) (hN : P.ncrys = 2) :
    mu_of_scan P.wGB (convertUnits P.length_scale P.time_scale P.ncrys sigma mob)
      = 6 * (convertUnits P.length_scale P.time_scale P.ncrys sigma mob).sigma 0 1 / P.wGB := by
  have hu : ∀ m n, m < n → n < P.ncrys → sigma m n = sigma 0 1 := by
    intro m n hmn hn
    have h1 : n = 1 := by omega
    have h0 : m = 0 := by omega
    rw [h0, h1]
  obtain ⟨hb, hs⟩ := convertUnits_uniform P.length_scale P.time_scale P.ncrys sigma mob
    (sigma 0 1) (by omega) hu
  rw [mu_of_scan_uniform P.wGB _ _ hb hs, convertUnits_sigma, if_pos ⟨by omega, by omega⟩]

/-- With two grains the constructor is the single `while` loop for the pair `(0,1)`. -/
theorem construct_two (sqrt : α → α) (P : Params α) (fuel : Nat) (sigma mob Q : Table α)
    (hN : P.ncrys = 2) :
    construct sqrt P fuel sigma mob Q
      = match calibWhile sqrt P.wGB
          (6 * (convertUnits P.length_scale P.time_scale P.ncrys sigma mob).sigma 0 1 / P.wGB)
          ((convertUnits P.length_scale P.time_scale P.ncrys sigma mob).sigma 0 1) fuel
          (pairEntry initLocals) with
        | none => none
        | some r => some
          { sigma := (convertUnits P.length_scale P.time_scale P.ncrys sigma mob).sigma
            mob := (convertUnits P.length_scale P.time_scale P.ncrys sigma mob).mob
            Q := Q
            kappa_gamma := (storePair initCalib 0 1 r).kappa_gamma
            a_g2 := (storePair initCalib 0 1 r).a_g2
            mu_qp := 6 * (convertUnits P.length_scale P.time_scale P.ncrys sigma mob).sigma 0 1
              / P.wGB } := by
  unfold construct
  simp only
  rw [mu_of_scan_two P sigma mob hN]
  obtain ⟨md, ls, ts, wGB, MV, ds, dm, inc, N⟩ := P
  simp only at hN
  subst hN
  simp only [pairs_two, calibPairs, calibPair]
  rw [show pairEntry (initCalib (α := α)).loc = pairEntry initLocals from rfl]
  rcases calibWhile sqrt wGB (6 * (convertUnits ls ts 2 sigma mob).sigma 0 1 / wGB)
      ((convertUnits ls ts 2 sigma mob).sigma 0 1) fuel (pairEntry initLocals) with _ | r
  · rfl
  · rfl

end TwoGrains

/-- The locals with which the loop for equal pair energies is left, started from `0.75`. -/
theorem uniform_exit (wGB sigma_mn : ℝ) (l : CalibLocals ℝ) (hl : l.a_0 = 0.75) (fuel : Nat)
    (r : CalibLocals ℝ)
    (h : calibWhile Real.sqrt wGB (6 * sigma_mn / wGB) sigma_mn fuel (pairEntry l) = some r) :
    BodyRel Real.sqrt wGB (6 * sigma_mn / wGB) sigma_mn r ∧ |r.a_0 - r.a_star| < 1e-9 ∧
    (wGB ≠ 0 → sigma_mn ≠ 0 →
      r.a_0 = uniformStep Real.sqrt (uniformStep Real.sqrt (3 / 4)) ∧
      r.a_star = uniformStep Real.sqrt (uniformStep Real.sqrt (uniformStep Real.sqrt (3 / 4)))) := by
  have e0 : (pairEntry l).a_star = 3 / 4 := by
    simp only [pairEntry, hl]; norm_num
  by_cases hd : wGB ≠ 0 ∧ sigma_mn ≠ 0
  · obtain ⟨hw, hs⟩ := hd
    rw [uniform_run wGB sigma_mn hw hs l hl fuel] at h
    split_ifs at h
    simp only [Option.some.injEq] at h
    obtain ⟨p1, -, q1⟩ := calibBody_uniform Real.sqrt wGB sigma_mn hw hs (pairEntry l)
    obtain ⟨p2, -, q2⟩ := calibBody_uniform Real.sqrt wGB sigma_mn hw hs
      (calibBody Real.sqrt wGB (6 * sigma_mn / wGB) sigma_mn (pairEntry l))
    obtain ⟨p3, -, q3⟩ := calibBody_uniform Real.sqrt wGB sigma_mn hw hs
      (calibBody Real.sqrt wGB (6 * sigma_mn / wGB) sigma_mn
        (calibBody Real.sqrt wGB (6 * sigma_mn / wGB) sigma_mn (pairEntry l)))
    rw [e0] at q1
    rw [q1] at q2
    rw [q2] at p3 q3
    rw [h] at p3 q3
    refine ⟨h ▸ calibBody_rel _ _ _ _ _, ?_, fun _ _ => ⟨p3, q3⟩⟩
    rw [p3, q3, abs_lt]
    have h1 := iterate2_bounds
    have h2 := iterate3_bounds
    norm_num at h1 h2 ⊢
    constructor <;> linarith
  · have hd' : wGB = 0 ∨ sigma_mn = 0 := by
      by_contra hc
      push_neg at hc
      exact hd hc
    rw [degenerate_run wGB _ sigma_mn hd' l hl fuel] at h
    split_ifs at h
    simp only [Option.some.injEq] at h
    obtain ⟨p1, -, q1⟩ := calibBody_degenerate Real.sqrt wGB (6 * sigma_mn / wGB) sigma_mn hd'
      (pairEntry l)
    obtain ⟨p2, -, q2⟩ := calibBody_degenerate Real.sqrt wGB (6 * sigma_mn / wGB) sigma_mn hd'
      (calibBody Real.sqrt wGB (6 * sigma_mn / wGB) sigma_mn (pairEntry l))
    rw [Real.sqrt_zero] at q1 q2
    rw [q1] at p2
    rw [h] at p2 q2
    refine ⟨h ▸ calibBody_rel _ _ _ _ _, ?_, fun hw hs => ?_⟩
    · rw [p2, q2]; norm_num
    · rcases hd' with h0 | h0
      · exact absurd h0 hw
      · exact absurd h0 hs

theorem uniform_terminates (wGB sigma_mn : ℝ) (l : CalibLocals ℝ) (hl : l.a_0 = 0.75)
    (fuel : Nat) (hf : 3 ≤ fuel) :
    ∃ r, calibWhile Real.sqrt wGB (6 * sigma_mn / wGB) sigma_mn fuel (pairEntry l) = some r := by
  by_cases hd : wGB ≠ 0 ∧ sigma_mn ≠ 0
  · obtain ⟨hw, hs⟩ := hd
    rw [uniform_run wGB sigma_mn hw hs l hl fuel, if_pos hf]
    exact ⟨_, rfl⟩
  · have hd' : wGB = 0 ∨ sigma_mn = 0 := by
      by_contra hc
      push_neg at hc
      exact hd hc
    rw [degenerate_run wGB _ sigma_mn hd' l hl fuel, if_pos (by omega)]
    exact ⟨_, rfl⟩

theorem initLocals_a_0 : (initLocals (α := ℝ)).a_0 = 0.75 := rfl

/-- Outcome of the constructor over the reals for two grains. -/
theorem construct_two_real (P : Params ℝ) (fuel : Nat) (sigma mob Q : Table ℝ)
    (hN : P.ncrys = 2) :
    (3 ≤ fuel → ∃ M, construct Real.sqrt P fuel sigma mob Q = some M) ∧
    ∀ M, construct Real.sqrt P fuel sigma mob Q = some M →
      ∃ r : CalibLocals ℝ,
        BodyRel Real.sqrt P.wGB M.mu_qp (M.sigma 0 1) r ∧ |r.a_0 - r.a_star| < 1e-9 ∧
        (P.wGB ≠ 0 → M.sigma 0 1 ≠ 0 →
          r.a_0 = uniformStep Real.sqrt (uniformStep Real.sqrt (3 / 4)) ∧
          r.a_star
            = uniformStep Real.sqrt (uniformStep Real.sqrt (uniformStep Real.sqrt (3 / 4)))) ∧
        M.kappa_gamma 0 1 = r.kappa_star ∧ M.kappa_gamma 1 0 = r.gamma_star ∧
        M.a_g2 0 1 = r.a_star ∧ M.a_g2 1 0 = r.g2 := by
  rw [construct_two Real.sqrt P fuel sigma mob Q hN]
  constructor
  · intro hf
    obtain ⟨r, hr⟩ := uniform_terminates P.wGB
      ((convertUnits P.length_scale P.time_scale P.ncrys sigma mob).sigma 0 1) initLocals
      initLocals_a_0 fuel hf
    rw [hr]
    exact ⟨_, rfl⟩
  · intro M hM
    split at hM
    · exact absurd hM (by simp)
    · rename_i r hr
      simp only [Option.some.injEq] at hM
      subst hM
      obtain ⟨h1, h2, h3⟩ := uniform_exit P.wGB _ initLocals initLocals_a_0 fuel r hr
      refine ⟨r, h1, h2, h3, ?_, ?_, ?_, ?_⟩ <;>
        simp [storePair, Table.set]

/-! ## Three grains with equal energies -/

/-- The loop for equal pair energies, started from the iterate left by an earlier pair:
one iteration, which leaves the same `a_0`. -/
theorem uniform_run_warm (wGB sigma_mn : ℝ) (hw : wGB ≠ 0) (hs : sigma_mn ≠ 0)
    (l : CalibLocals ℝ) (hl : l.a_0 = uniformStep Real.sqrt (uniformStep Real.sqrt (3 / 4)))
    (fuel : Nat) (hf : 1 ≤ fuel) :
    1.0e-9 < |l.a_0| ∧
    ∃ r, calibWhile Real.sqrt wGB (6 * sigma_mn / wGB) sigma_mn fuel (pairEntry l) = some r ∧
      r.a_0 = uniformStep Real.sqrt (uniformStep Real.sqrt (3 / 4)) := by
  have h2 := iterate2_bounds
  have h3 := iterate3_bounds
  have hent : 1.0e-9 < |l.a_0| := by
    rw [hl, abs_of_pos (by norm_num at h2 ⊢; linarith)]
    norm_num at h2 ⊢
    linarith
  refine ⟨hent, ?_⟩
  have c0 : |(pairEntry l).a_0 - (pairEntry l).a_star| > 1.0e-9 :=
    (pairEntry_entered_iff l).2 hent
  obtain ⟨p1, -, q1⟩ := calibBody_uniform Real.sqrt wGB sigma_mn hw hs (pairEntry l)
  have e0 : (pairEntry l).a_star = uniformStep Real.sqrt (uniformStep Real.sqrt (3 / 4)) := hl
  rw [e0] at p1 q1
  have c1 : ¬ |(calibBody Real.sqrt wGB (6 * sigma_mn / wGB) sigma_mn (pairEntry l)).a_0
      - (calibBody Real.sqrt wGB (6 * sigma_mn / wGB) sigma_mn (pairEntry l)).a_star|
        > 1.0e-9 := by
    rw [p1, q1, not_lt, abs_le]
    norm_num at h2 h3 ⊢
    constructor <;> linarith
  obtain ⟨k, rfl⟩ : ∃ k, fuel = k + 1 := ⟨fuel - 1, by omega⟩
  refine ⟨_, ?_, p1⟩
  rw [calibWhile_succ, if_pos c0, calibWhile_of_not _ _ _ _ _ _ c1]

/-- Three grains with input energies 1, unit scales and `wGB = 6`: the constructor returns
and the loop of the second pair `(0,2)` is entered. -/
theorem construct_three_uniform :
    ∃ M, construct Real.sqrt (exParams ℝ 3) 3 (fun _ _ => 1) (fun _ _ => 1) (fun _ _ => 1)
        = some M ∧
      PairEntered Real.sqrt (exParams ℝ 3).wGB M.mu_qp M.sigma 3 (exParams ℝ 3).ncrys 0 2 := by
  have hsig : ∀ m n, m < n → n < 3 →
      (convertUnits 1 1 3 (fun _ _ => (1 : ℝ)) (fun _ _ => 1)).sigma m n = 6.24150974e18 := by
    intro m n hmn hn
    rw [convertUnits_sigma, if_pos ⟨hmn, hn⟩]
    simp only [sigmaFactor, JtoeV]
    norm_num
  obtain ⟨hb, hs⟩ := convertUnits_uniform (1 : ℝ) 1 3 (fun _ _ => 1) (fun _ _ => 1) 1
    (by decide) (fun _ _ _ _ => rfl)
  have hmu : mu_of_scan 6 (convertUnits 1 1 3 (fun _ _ => (1 : ℝ)) (fun _ _ => 1))
      = 6 * 6.24150974e18 / 6 := by
    rw [mu_of_scan_uniform 6 _ _ hb hs]
    simp only [sigmaFactor, JtoeV]
    norm_num
  -- pair (0,1)
  obtain ⟨r1, hr1⟩ := uniform_terminates 6 6.24150974e18 initLocals initLocals_a_0 3 (le_refl 3)
  obtain ⟨-, -, hu⟩ := uniform_exit 6 6.24150974e18 initLocals initLocals_a_0 3 r1 hr1
  obtain ⟨ha1, -⟩ := hu (by norm_num) (by norm_num)
  -- pair (0,2)
  obtain ⟨hent2, r2, hr2, ha2⟩ := uniform_run_warm 6 6.24150974e18 (by norm_num) (by norm_num)
    r1 ha1 3 (by decide)
  -- pair (1,2)
  obtain ⟨-, r3, hr3, -⟩ := uniform_run_warm 6 6.24150974e18 (by norm_num) (by norm_num)
    r2 ha2 3 (by decide)
  have hfirst : calibPairs Real.sqrt 6 (6 * 6.24150974e18 / 6)
      (convertUnits 1 1 3 (fun _ _ => (1 : ℝ)) (fun _ _ => 1)).sigma 3 [(0, 1)] initCalib
      = some (storePair initCalib 0 1 r1) := by
    simp only [calibPairs, calibPair, hsig 0 1 (by decide) (by decide)]
    rw [show pairEntry (initCalib (α := ℝ)).loc = pairEntry initLocals from rfl, hr1]
  have hall : calibPairs Real.sqrt 6 (6 * 6.24150974e18 / 6)
      (convertUnits 1 1 3 (fun _ _ => (1 : ℝ)) (fun _ _ => 1)).sigma 3 (pairs 3) initCalib
      = some (storePair (storePair (storePair initCalib 0 1 r1) 0 2 r2) 1 2 r3) := by
    rw [pairs_three]
    simp only [calibPairs, calibPair, hsig 0 1 (by decide) (by decide),
      hsig 0 2 (by decide) (by decide), hsig 1 2 (by decide) (by decide)]
    rw [show pairEntry (initCalib (α := ℝ)).loc = pairEntry initLocals from rfl, hr1]
    simp only []
    rw [show (storePair (initCalib (α := ℝ)) 0 1 r1).loc = r1 from rfl, hr2]
    simp only []
    rw [show (storePair (storePair (initCalib (α := ℝ)) 0 1 r1) 0 2 r2).loc = r2 from rfl, hr3]
  refine ⟨{ sigma := (convertUnits 1 1 3 (fun _ _ => (1 : ℝ)) (fun _ _ => 1)).sigma,
             mob := (convertUnits 1 1 3 (fun _ _ => (1 : ℝ)) (fun _ _ => 1)).mob,
             Q := fun _ _ => 1,
             kappa_gamma :=
               (storePair (storePair (storePair initCalib 0 1 r1) 0 2 r2) 1 2 r3).kappa_gamma,
             a_g2 := (storePair (storePair (storePair initCalib 0 1 r1) 0 2 r2) 1 2 r3).a_g2,
             mu_qp := mu_of_scan 6 (convertUnits 1 1 3 (fun _ _ => (1 : ℝ)) (fun _ _ => 1)) },
    ?_, ?_⟩
  · unfold construct
    simp only [exParams]
    rw [hmu, hall]
  · refine ⟨[(0, 1)], [(1, 2)], storePair initCalib 0 1 r1, pairs_three, ?_, hent2⟩
    show calibPairs Real.sqrt 6 (mu_of_scan 6 (convertUnits 1 1 3 (fun _ _ => (1 : ℝ))
      (fun _ _ => 1))) (convertUnits 1 1 3 (fun _ _ => (1 : ℝ)) (fun _ _ => 1)).sigma 3
      [(0, 1)] initCalib = some (storePair initCalib 0 1 r1)
    rw [hmu]
    exact hfirst

/-! ## Scaling of the calibration with the interface width -/

section Width
variable {α : Type} [LinearOrderedField α]

end Width

/-! ## Extremes of the example tables -/

theorem exMembers_upper_bounds :
    IsLeast {x : ℝ | ∃ m n, m < n ∧ n < (exParams ℝ 3).ncrys ∧ x = (exMembers ℝ).kappa_gamma m n}
      0 ∧
    IsGreatest
      {x : ℝ | ∃ m n, m < n ∧ n < (exParams ℝ 3).ncrys ∧ x = (exMembers ℝ).kappa_gamma m n} 1 := by
  refine ⟨⟨⟨0, 2, by decide, by decide, ?_⟩, ?_⟩, ⟨⟨0, 1, by decide, by decide, ?_⟩, ?_⟩⟩
  · simp [exMembers]
  · rintro x ⟨m, n, -, -, rfl⟩
    simp only [exMembers]
    split_ifs <;> norm_num
  · simp [exMembers]
  · rintro x ⟨m, n, -, -, rfl⟩
    simp only [exMembers]
    split_ifs <;> norm_num

theorem exMembers_lower_bounds :
    IsLeast {x : ℝ | ∃ m n, m < n ∧ n < (exParams ℝ 3).ncrys ∧ x = (exMembers ℝ).kappa_gamma n m}
      0 ∧
    IsGreatest
      {x : ℝ | ∃ m n, m < n ∧ n < (exParams ℝ 3).ncrys ∧ x = (exMembers ℝ).kappa_gamma n m} 0 := by
  have h : ∀ m n : Nat, m < n → (exMembers ℝ).kappa_gamma n m = 0 := by
    intro m n hmn
    simp only [exMembers]
    rw [if_neg (by omega)]
  refine ⟨⟨⟨0, 1, by decide, by decide, (h 0 1 (by decide)).symm⟩, ?_⟩,
    ⟨⟨0, 1, by decide, by decide, (h 0 1 (by decide)).symm⟩, ?_⟩⟩
  · rintro x ⟨m, n, hmn, -, rfl⟩
    rw [h m n hmn]
  · rintro x ⟨m, n, hmn, -, rfl⟩
    rw [h m n hmn]

/-! ## Positive pair energies of moderate magnitude -/

theorem Moderate.ne_zero {α : Type} [LinearOrderedField α] {x : α} (h : Moderate x) : x ≠ 0 := by
  intro h0
  have := h.1
  rw [h0, abs_zero] at this
  norm_num at this

/-- The interface function has no real zero: it is at least `0.03` everywhere (a sum of
squares plus `0.03`). -/
theorem f_interf_lower (y : ℝ) : 0.03 ≤ f_interf y := by
  have e : f_interf y = 0.03
      + 623 / 2500 * (1 - 1081 / 1246 * y - 165 / 1246 * y ^ 2 + 110 / 623 * y ^ 3) ^ 2
      + 38091 / 77875 * (y - 5732597 / 6094560 * y ^ 2 + 20595 / 101576 * y ^ 3) ^ 2
      + 9455671657 / 121891200000 * (y ^ 2 - 5739859140 / 9455671657 * y ^ 3) ^ 2
      + 70519802083 / 236391791425000 * (y ^ 3) ^ 2 := by
    rw [f_interf_eq]
    ring
  rw [e]
  have h1 := sq_nonneg (1 - 1081 / 1246 * y - 165 / 1246 * y ^ 2 + 110 / 623 * y ^ 3)
  have h2 := sq_nonneg (y - 5732597 / 6094560 * y ^ 2 + 20595 / 101576 * y ^ 3)
  have h3 := sq_nonneg (y ^ 2 - 5739859140 / 9455671657 * y ^ 3)
  have h4 := sq_nonneg (y ^ 3)
  nlinarith


/-- One execution of the loop body for a pair with positive energy not above
`wGB * mu_qp / 3` (twice the mean of the extremes), from an iterate of at least `0.09`:
no denominator is zero, the square root is taken of a positive number, and the next iterate
is again at least `0.09`. -/
theorem calibBody_lower (wGB mu_qp sigma_mn : ℝ) (s : CalibLocals ℝ)
    (hwm : 0 < wGB * mu_qp) (hs : 0 < sigma_mn) (h3 : 3 * sigma_mn ≤ wGB * mu_qp)
    (ha : 0.09 ≤ s.a_star) :
    (calibBody Real.sqrt wGB mu_qp sigma_mn s).a_0 = s.a_star ∧
    0 < (calibBody Real.sqrt wGB mu_qp sigma_mn s).kappa_star * mu_qp ∧
    0 < (calibBody Real.sqrt wGB mu_qp sigma_mn s).g2 ∧
    0.09 ≤ (calibBody Real.sqrt wGB mu_qp sigma_mn s).a_star := by
  have ha0 : 0 < s.a_star := lt_of_lt_of_le (by norm_num) ha
  have hk : 0 < s.a_star * wGB * sigma_mn * mu_qp := by
    have : 0 < s.a_star * sigma_mn * (wGB * mu_qp) := by positivity
    calc (0 : ℝ) < s.a_star * sigma_mn * (wGB * mu_qp) := this
      _ = s.a_star * wGB * sigma_mn * mu_qp := by ring
  have hg : 0 < sigma_mn * sigma_mn / (s.a_star * wGB * sigma_mn * mu_qp) := by positivity
  have hg3 : sigma_mn * sigma_mn / (s.a_star * wGB * sigma_mn * mu_qp) * (3 * s.a_star) ≤ 1 := by
    rw [div_mul_eq_mul_div, div_le_one hk]
    have : 0 < s.a_star * sigma_mn := by positivity
    nlinarith
  refine ⟨rfl, hk, hg, ?_⟩
  show (0.09 : ℝ) ≤ Real.sqrt (f_interf_of _ _ / (sigma_mn * sigma_mn / (s.a_star * wGB * sigma_mn * mu_qp)))
  apply Real.le_sqrt_of_sq_le
  rw [le_div_iff₀ hg]
  have hf := f_interf_lower (y_of_g2 (sigma_mn * sigma_mn / (s.a_star * wGB * sigma_mn * mu_qp)))
  unfold f_interf at hf
  simp only at hf
  set g := sigma_mn * sigma_mn / (s.a_star * wGB * sigma_mn * mu_qp)
  set F := f_interf_of (y_of_g2 g) (y_of_g2 g * y_of_g2 g * y_of_g2 g)
  norm_num at ha hf ⊢
  nlinarith


theorem calibWhile_lower (wGB mu_qp sigma_mn : ℝ) (hwm : 0 < wGB * mu_qp)
    (hs : 0 < sigma_mn) (h3 : 3 * sigma_mn ≤ wGB * mu_qp) :
    ∀ (fuel : Nat) (s r : CalibLocals ℝ), 0.09 ≤ s.a_star →
      (0.09 ≤ s.a_0 ∨ |s.a_0 - s.a_star| > 1.0e-9) →
      calibWhile Real.sqrt wGB mu_qp sigma_mn fuel s = some r →
      0.09 ≤ r.a_0 ∧ 0.09 ≤ r.a_star := by
  intro fuel
  induction fuel with
  | zero =>
    intro s r ha h0 h
    rw [calibWhile_zero] at h
    split_ifs at h with hc
    simp only [Option.some.injEq] at h
    subst h
    rcases h0 with h0 | h0
    · exact ⟨h0, ha⟩
    · exact absurd h0 hc
  | succ k ih =>
    intro s r ha h0 h
    rw [calibWhile_succ] at h
    split_ifs at h with hc
    · obtain ⟨e0, -, -, e1⟩ := calibBody_lower wGB mu_qp sigma_mn s hwm hs h3 ha
      exact ih _ r e1 (Or.inl (by rw [e0]; exact ha)) h
    · simp only [Option.some.injEq] at h
      subst h
      rcases h0 with h0 | h0
      · exact ⟨h0, ha⟩
      · exact absurd h0 hc

theorem calibPairs_lower (wGB mu_qp : ℝ) (sigma : Table ℝ) (fuel : Nat)
    (hwm : 0 < wGB * mu_qp) :
    ∀ (l : List (Nat × Nat)) (s c : CalibState ℝ),
      (∀ p ∈ l, 0 < sigma p.1 p.2 ∧ 3 * sigma p.1 p.2 ≤ wGB * mu_qp) → 0.09 ≤ s.loc.a_0 →
      calibPairs Real.sqrt wGB mu_qp sigma fuel l s = some c → 0.09 ≤ c.loc.a_0 := by
  intro l
  induction l with
  | nil =>
    intro s c _ h0 h
    simp only [calibPairs, Option.some.injEq] at h
    subst h; exact h0
  | cons p ps ih =>
    intro s c hall h0 h
    obtain ⟨s1, hs1, hc⟩ := calibPairs_cons_some Real.sqrt wGB mu_qp sigma fuel p ps s c h
    obtain ⟨r, hr, rfl⟩ := calibPair_some Real.sqrt wGB mu_qp sigma fuel s s1 p hs1
    obtain ⟨hp1, hp2⟩ := hall p (List.mem_cons_self _ _)
    have hent : |(pairEntry s.loc).a_0 - (pairEntry s.loc).a_star| > 1.0e-9 := by
      rw [pairEntry_entered_iff, abs_of_pos (lt_of_lt_of_le (by norm_num) h0)]
      exact lt_of_lt_of_le (by norm_num) h0
    obtain ⟨e0, -⟩ := calibWhile_lower wGB mu_qp (sigma p.1 p.2) hwm hp1 hp2 fuel _ r
      (show (0.09 : ℝ) ≤ (pairEntry s.loc).a_star from h0) (Or.inr hent) hr
    exact ih _ c (fun q hq => hall q (List.mem_cons_of_mem _ hq)) e0 hc

/-- With positive pair energies, none above `wGB * mu_qp / 3`, the loop of every pair is
entered: the iterate carried from pair to pair never falls below `0.09`. -/
theorem pairEntered_of_pos (wGB mu_qp : ℝ) (sigma : Table ℝ) (fuel : Nat) (N : Nat)
    (hwm : 0 < wGB * mu_qp)
    (hall : ∀ p ∈ pairs N, 0 < sigma p.1 p.2 ∧ 3 * sigma p.1 p.2 ≤ wGB * mu_qp)
    (c : CalibState ℝ)
    (h : calibPairs Real.sqrt wGB mu_qp sigma fuel (pairs N) initCalib = some c) (m n : Nat)
    (hmn : m < n) (hn : n < N) : PairEntered Real.sqrt wGB mu_qp sigma fuel N m n := by
  have hmem : (m, n) ∈ pairs N := mem_pairs.2 ⟨hmn, hn⟩
  obtain ⟨l1, l2, hl⟩ := List.append_of_mem hmem
  rw [hl] at h hall
  obtain ⟨s1, h1, -⟩ := calibPairs_append_some Real.sqrt wGB mu_qp sigma fuel l1 _ _ c h
  have h0 : (0.09 : ℝ) ≤ (initCalib (α := ℝ)).loc.a_0 := by
    simp only [initCalib, initLocals]; norm_num
  have := calibPairs_lower wGB mu_qp sigma fuel hwm l1 _ s1
    (fun p hp => hall p (List.mem_append_left _ hp)) h0 h1
  refine ⟨l1, l2, s1, hl, h1, ?_⟩
  rw [abs_of_pos (lt_of_lt_of_le (by norm_num) this)]
  exact lt_of_lt_of_le (by norm_num) this

/-- Positive input energies and a non-zero length scale and width make `wGB * mu_qp` and
every converted pair energy positive, and no converted pair energy exceeds `wGB * mu_qp / 3`,
which is twice the mean of the extremes. -/
theorem positive_input (P : Params ℝ) (sigma mob : Table ℝ) (hN : 2 ≤ P.ncrys)
    (hw : P.wGB ≠ 0) (hl : P.length_scale ≠ 0)
    (hpos : ∀ m n, m < n → n < P.ncrys → 0 < sigma m n) :
    0 < P.wGB * mu_of_scan P.wGB
      (convertUnits P.length_scale P.time_scale P.ncrys sigma mob) ∧
    ∀ p ∈ pairs P.ncrys,
      0 < (convertUnits P.length_scale P.time_scale P.ncrys sigma mob).sigma p.1 p.2 ∧
      3 * (convertUnits P.length_scale P.time_scale P.ncrys sigma mob).sigma p.1 p.2
        ≤ P.wGB * mu_of_scan P.wGB
            (convertUnits P.length_scale P.time_scale P.ncrys sigma mob) := by
  obtain ⟨hb, hs⟩ := convertUnits_extremes P.length_scale P.time_scale P.ncrys sigma mob hN
  set sc := convertUnits P.length_scale P.time_scale P.ncrys sigma mob with hsc
  have hf : 0 < sigmaFactor P.length_scale := by
    unfold sigmaFactor JtoeV
    have := mul_self_pos.2 hl
    positivity
  have hsig : ∀ m n, m < n → n < P.ncrys → 0 < sc.sigma m n := by
    intro m n hmn hn
    rw [hsc, convertUnits_sigma, if_pos ⟨hmn, hn⟩]
    exact mul_pos (hpos m n hmn hn) hf
  have hbig : 0 < sc.sigma_big := by
    obtain ⟨m, n, hmn, hn, e⟩ := hb.1
    rw [e]; exact hsig m n hmn hn
  have hsmall : 0 < sc.sigma_small := by
    obtain ⟨m, n, hmn, hn, e⟩ := hs.1
    rw [e]; exact hsig m n hmn hn
  have hmu : P.wGB * mu_of_scan P.wGB sc = 3 * (sc.sigma_big + sc.sigma_small) := by
    unfold mu_of_scan
    field_simp
    ring
  have hmupos : 0 < P.wGB * mu_of_scan P.wGB sc := by
    rw [hmu]; positivity
  refine ⟨hmupos, fun p hp => ⟨hsig p.1 p.2 (pairs_lt hp).1 (pairs_lt hp).2, ?_⟩⟩
  rw [hmu]
  have := hb.2 ⟨p.1, p.2, (pairs_lt hp).1, (pairs_lt hp).2, rfl⟩
  linarith



/-- With positive pair energies, none above `wGB * mu_qp / 3`, the entries of every pair hold
the locals of a body execution whose iterate `a_0` is at least `0.09` and within the
tolerance of the next one. -/
theorem positive_pair_entries (wGB mu_qp : ℝ) (sigma : Table ℝ) (fuel : Nat) (N : Nat)
    (hwm : 0 < wGB * mu_qp)
    (hall : ∀ p ∈ pairs N, 0 < sigma p.1 p.2 ∧ 3 * sigma p.1 p.2 ≤ wGB * mu_qp)
    (c : CalibState ℝ)
    (h : calibPairs Real.sqrt wGB mu_qp sigma fuel (pairs N) initCalib = some c) (m n : Nat)
    (hmn : m < n) (hn : n < N) :
    ∃ r : CalibLocals ℝ, BodyRel Real.sqrt wGB mu_qp (sigma m n) r ∧
      |r.a_0 - r.a_star| ≤ 1.0e-9 ∧ 0.09 ≤ r.a_0 ∧
      c.kappa_gamma m n = r.kappa_star ∧ c.kappa_gamma n m = r.gamma_star ∧
      c.a_g2 m n = r.a_star ∧ c.a_g2 n m = r.g2 := by
  have hmem : (m, n) ∈ pairs N := mem_pairs.2 ⟨hmn, hn⟩
  obtain ⟨l1, l2, hl⟩ := List.append_of_mem hmem
  have hnd := nodup_pairs N
  have hlt : ∀ p ∈ pairs N, p.1 < p.2 := fun p hp => (pairs_lt hp).1
  obtain ⟨hp1, hp2⟩ := hall (m, n) hmem
  simp only at hp1 hp2
  rw [hl] at h hnd hlt hall
  obtain ⟨s1, r, h1, hr, e1, e2, e3, e4⟩ :=
    calibPairs_entries Real.sqrt wGB mu_qp sigma fuel l1 l2 m n initCalib c hnd hlt h
  have h0 : (0.09 : ℝ) ≤ (initCalib (α := ℝ)).loc.a_0 := by
    simp only [initCalib, initLocals]; norm_num
  have hs1 := calibPairs_lower wGB mu_qp sigma fuel hwm l1 _ s1
    (fun p hp => hall p (List.mem_append_left _ hp)) h0 h1
  have hent : |(pairEntry s1.loc).a_0 - (pairEntry s1.loc).a_star| > 1.0e-9 := by
    rw [pairEntry_entered_iff, abs_of_pos (lt_of_lt_of_le (by norm_num) hs1)]
    exact lt_of_lt_of_le (by norm_num) hs1
  obtain ⟨hx, hcase⟩ := calibWhile_some Real.sqrt wGB mu_qp (sigma m n) fuel _ r hr
  obtain ⟨ha0, -⟩ := calibWhile_lower wGB mu_qp (sigma m n) hwm hp1 hp2 fuel _ r
    (show (0.09 : ℝ) ≤ (pairEntry s1.loc).a_star from hs1) (Or.inr hent) hr
  rcases hcase with ⟨hc, -⟩ | ⟨-, hb⟩
  · exact absurd hent hc
  · exact ⟨r, hb, hx, ha0, e1, e2, e3, e4⟩

theorem exParams_moderate (N : Nat) :
    Moderate (exParams ℝ N).length_scale ∧ Moderate (exParams ℝ N).wGB ∧
    ∀ m n : Nat, m < n → n < (exParams ℝ N).ncrys →
      0 < (fun _ _ => (1 : ℝ)) m n ∧ Moderate ((fun _ _ => (1 : ℝ)) m n) := by
  refine ⟨?_, ?_, fun m n _ _ => ⟨by norm_num, ?_⟩⟩ <;>
    simp only [Moderate, exParams] <;> norm_num

/-! ## The material object through a call of the evaluator -/

theorem qpBody_ok {α : Type} [LinearOrderedField α] (F : MathFns α) (P : Params α)
    (q : QpInput α) (s s1 : Material α) (h : qpBody F P q s = Except.ok s1) :
    s1.tables = s.tables ∧ s1.qp = s.qp ∧
    computeQp F P s.tables q = Except.ok (s1.propsAt s.qp) ∧
    ∀ i, i ≠ s.qp → s1.propsAt i = s.propsAt i := by
  unfold qpBody at h
  unfold computeQp
  cases he : evalPairs F P s.tables q (pairs P.ncrys) (initAcc s.tables) with
  | error e => rw [he] at h; cases h
  | ok a =>
    rw [he] at h
    simp only [Except.ok.injEq] at h
    subst h
    refine ⟨rfl, rfl, ?_, ?_⟩
    · simp only [Material.propsAt, outputs, Function.update_same]
    · intro i hi
      simp only [Material.propsAt, Function.update_noteq hi]

theorem qpLoop_ok {α : Type} [LinearOrderedField α] (F : MathFns α) (P : Params α)
    (qs : List (QpInput α)) : ∀ (s s' : Material α), qpLoop F P qs s = Except.ok s' →
    s'.tables = s.tables ∧
    (∀ i (q : QpInput α), qs[i]? = some q →
      computeQp F P s.tables q = Except.ok (s'.propsAt (s.qp + i))) ∧
    ∀ i, i < s.qp → s'.propsAt i = s.propsAt i := by
  induction qs with
  | nil =>
    intro s s' h
    simp only [qpLoop, Except.ok.injEq] at h
    subst h
    exact ⟨rfl, fun i q hq => by simp at hq, fun _ _ => rfl⟩
  | cons x xs ih =>
    intro s s' h
    unfold qpLoop at h
    cases hb : qpBody F P x s with
    | error e => rw [hb] at h; cases h
    | ok s1 =>
      rw [hb] at h
      simp only at h
      obtain ⟨t1, q1, c1, o1⟩ := qpBody_ok F P x s s1 hb
      obtain ⟨t2, c2, o2⟩ := ih _ _ h
      simp only at t2 c2 o2
      refine ⟨t2.trans t1, ?_, ?_⟩
      · intro i q hq
        cases i with
        | zero =>
          simp only [List.getElem?_cons_zero, Option.some.injEq] at hq
          subst hq
          rw [Nat.add_zero, o2 s.qp (by omega)]
          exact c1
        | succ i =>
          simp only [List.getElem?_cons_succ] at hq
          have := c2 i q hq
          rw [t1, q1] at this
          rw [show s.qp + (i + 1) = s.qp + 1 + i by omega]
          exact this
      · intro i hi
        rw [o2 i (by omega)]
        exact o1 i (by omega)


theorem qpLoop_total {α : Type} [LinearOrderedField α] (F : MathFns α) (P : Params α)
    (h : P.inclination_anisotropy = false ∨ P.mesh_dimension ≠ 3) (qs : List (QpInput α)) :
    ∀ s : Material α, ∃ s', qpLoop F P qs s = Except.ok s' := by
  induction qs with
  | nil => exact fun s => ⟨s, rfl⟩
  | cons x xs ih =>
    intro s
    obtain ⟨a, ha⟩ := evalPairs_ok F P s.tables x h (pairs P.ncrys) (initAcc s.tables)
    simp only [qpLoop, qpBody, ha]
    exact ih _

namespace Double

/-! ## Rounding to the nearest binary64 number -/

theorem roundHalfEven_sub_le (x : ℚ) : |(roundHalfEven x : ℚ) - x| ≤ 1 / 2 := by
  have h1 := Int.floor_le x
  have h2 := Int.lt_floor_add_one x
  unfold roundHalfEven
  rw [abs_le]
  split_ifs with c1 c2 c3 <;> push_cast <;> constructor <;> linarith

theorem roundHalfEven_of_near (x : ℚ) (m : ℤ) (h : |x - m| < 1 / 2) : roundHalfEven x = m := by
  obtain ⟨h1, h2⟩ := abs_lt.1 h
  unfold roundHalfEven
  by_cases hc : (m : ℚ) ≤ x
  · have hf : ⌊x⌋ = m := Int.floor_eq_iff.2 ⟨hc, by linarith⟩
    rw [hf, if_pos h2]
  · have hf : ⌊x⌋ = m - 1 := Int.floor_eq_iff.2 ⟨by push_cast; linarith, by push_cast; linarith⟩
    rw [hf]
    push_cast
    rw [if_neg (by linarith), if_pos (by linarith)]
    ring

/-- The integer `m` is the rounding of `x` when it is within `1/2` of it and, should `x` lie
half-way between two integers, `m` is even. -/
theorem roundHalfEven_eq (x : ℚ) (m : ℤ) (h1 : (m : ℚ) - 1 / 2 ≤ x) (h2 : x ≤ m + 1 / 2)
    (ht : (x = m - 1 / 2 ∨ x = m + 1 / 2) → m % 2 = 0) : roundHalfEven x = m := by
  rcases eq_or_lt_of_le h1 with e1 | l1
  · have hm := ht (Or.inl e1.symm)
    have hf : ⌊x⌋ = m - 1 :=
      Int.floor_eq_iff.2 ⟨by push_cast; linarith, by push_cast; linarith⟩
    unfold roundHalfEven
    rw [hf]
    push_cast
    rw [if_neg (by linarith), if_neg (by linarith), if_neg (by omega)]
    ring
  rcases eq_or_lt_of_le h2 with e2 | l2
  · have hm := ht (Or.inr e2)
    have hf : ⌊x⌋ = m := Int.floor_eq_iff.2 ⟨by linarith, by linarith⟩
    unfold roundHalfEven
    rw [hf, if_neg (by linarith), if_neg (by linarith), if_pos hm]
  · exact roundHalfEven_of_near x m (abs_lt.2 ⟨by linarith, by linarith⟩)

theorem roundHalfEven_nonneg (x : ℚ) (h : 0 ≤ x) : 0 ≤ roundHalfEven x := by
  have h0 : 0 ≤ ⌊x⌋ := Int.floor_nonneg.2 h
  unfold roundHalfEven
  split_ifs <;> omega

theorem roundHalfEven_nonpos (x : ℚ) (h : x ≤ 0) : roundHalfEven x ≤ 0 := by
  have h1 := Int.floor_le x
  have h0 : ⌊x⌋ ≤ 0 := by
    have : (⌊x⌋ : ℚ) ≤ 0 := le_trans h1 h
    exact_mod_cast this
  unfold roundHalfEven
  split_ifs with c1 c2 c3
  · exact h0
  · have : ⌊x⌋ ≠ 0 := by
      intro h3
      rw [h3] at c2
      push_cast at c2
      linarith
    omega
  · exact h0
  · have : ⌊x⌋ ≠ 0 := by
      intro h3
      rw [h3] at c3
      exact c3 rfl
    omega

theorem two_zpow_pos (e : ℤ) : (0 : ℚ) < 2 ^ e := zpow_pos (by norm_num) e

theorem log_eq_of_binade (a : ℚ) (e : ℤ) (h1 : (2 : ℚ) ^ e ≤ a) (h2 : a < 2 ^ (e + 1)) :
    Int.log 2 a = e := by
  have ha : 0 < a := lt_of_lt_of_le (two_zpow_pos e) h1
  have l1 : e ≤ Int.log 2 a :=
    (Int.zpow_le_iff_le_log (by norm_num) ha).1 (by push_cast; exact h1)
  have l2 : Int.log 2 a < e + 1 :=
    (Int.lt_zpow_iff_log_lt (by norm_num) ha).1 (by push_cast; exact h2)
  omega

theorem ulpExp_of_binade (q : ℚ) (e : ℤ) (he : -1022 ≤ e) (h1 : (2 : ℚ) ^ e ≤ |q|)
    (h2 : |q| < 2 ^ (e + 1)) : ulpExp q = e - 52 := by
  unfold ulpExp
  rw [log_eq_of_binade _ e h1 h2, max_eq_left he]

theorem ulpExp_ge (q : ℚ) : -1074 ≤ ulpExp q := by
  unfold ulpExp
  have := le_max_right (Int.log 2 |q|) (-1022)
  omega

theorem ulpExp_normal (q : ℚ) (h : (2 : ℚ) ^ (-1022 : ℤ) ≤ |q|) :
    (2 : ℚ) ^ ulpExp q ≤ 2 ^ (-52 : ℤ) * |q| := by
  have ha : 0 < |q| := lt_of_lt_of_le (two_zpow_pos _) h
  have l1 : (-1022 : ℤ) ≤ Int.log 2 |q| :=
    (Int.zpow_le_iff_le_log (by norm_num) ha).1 (by push_cast; exact h)
  have l2 : ((2 : ℕ) : ℚ) ^ Int.log 2 |q| ≤ |q| := Int.zpow_log_le_self (by norm_num) ha
  push_cast at l2
  unfold ulpExp
  rw [max_eq_left l1, sub_eq_add_neg, zpow_add₀ (by norm_num : (2 : ℚ) ≠ 0), mul_comm]
  exact mul_le_mul_of_nonneg_left l2 (two_zpow_pos _).le

theorem ulpExp_subnormal (q : ℚ) (h0 : q ≠ 0) (h : |q| < (2 : ℚ) ^ (-1022 : ℤ)) :
    ulpExp q = -1074 := by
  unfold ulpExp
  have : Int.log 2 |q| ≤ -1022 := by
    have := (Int.lt_zpow_iff_log_lt (b := 2) (by norm_num) (abs_pos.2 h0)).1
      (by push_cast; exact h)
    omega
  rw [max_eq_right this]
  norm_num

theorem roundNearest_sub_le (q : ℚ) : |roundNearest q - q| ≤ 2 ^ ulpExp q / 2 := by
  have hU := two_zpow_pos (ulpExp q)
  have h := roundHalfEven_sub_le (q / 2 ^ ulpExp q)
  unfold roundNearest
  have e : (roundHalfEven (q / 2 ^ ulpExp q) : ℚ) * 2 ^ ulpExp q - q
      = ((roundHalfEven (q / 2 ^ ulpExp q) : ℚ) - q / 2 ^ ulpExp q) * 2 ^ ulpExp q := by
    field_simp
  rw [e, abs_mul, abs_of_pos hU]
  calc |(roundHalfEven (q / 2 ^ ulpExp q) : ℚ) - q / 2 ^ ulpExp q| * 2 ^ ulpExp q
      ≤ 1 / 2 * 2 ^ ulpExp q := mul_le_mul_of_nonneg_right h hU.le
    _ = 2 ^ ulpExp q / 2 := by ring

theorem roundNearest_rel (q : ℚ) (h : (2 : ℚ) ^ (-1022 : ℤ) ≤ |q|) :
    |roundNearest q - q| ≤ unitRoundoff * |q| := by
  have h1 := roundNearest_sub_le q
  have h2 := ulpExp_normal q h
  have e : (2 : ℚ) ^ (-52 : ℤ) = 2 * unitRoundoff := by
    unfold unitRoundoff; norm_num
  rw [e] at h2
  linarith

theorem roundNearest_zero : roundNearest 0 = 0 := by
  unfold roundNearest
  rw [zero_div]
  have : roundHalfEven 0 = 0 := roundHalfEven_of_near 0 0 (by norm_num)
  rw [this]; simp

theorem roundNearest_nonneg (q : ℚ) (h : 0 ≤ q) : 0 ≤ roundNearest q := by
  unfold roundNearest
  have := roundHalfEven_nonneg (q / 2 ^ ulpExp q) (div_nonneg h (two_zpow_pos _).le)
  have h2 : (0 : ℚ) ≤ roundHalfEven (q / 2 ^ ulpExp q) := by exact_mod_cast this
  exact mul_nonneg h2 (two_zpow_pos _).le

theorem roundNearest_nonpos (q : ℚ) (h : q ≤ 0) : roundNearest q ≤ 0 := by
  unfold roundNearest
  have := roundHalfEven_nonpos (q / 2 ^ ulpExp q) (div_nonpos_of_nonpos_of_nonneg h (two_zpow_pos _).le)
  have h2 : (roundHalfEven (q / 2 ^ ulpExp q) : ℚ) ≤ 0 := by exact_mod_cast this
  exact mul_nonpos_of_nonpos_of_nonneg h2 (two_zpow_pos _).le

/-- Evaluation of a rounding: `q` lies in the binade of `2^e` and `m` is the integer nearest
to `q / 2^(e-52)`. -/
theorem roundNearest_eq (q : ℚ) (e m : ℤ) (he : -1022 ≤ e) (h1 : (2 : ℚ) ^ e ≤ |q|)
    (h2 : |q| < 2 ^ (e + 1)) (hm1 : (m : ℚ) - 1 / 2 ≤ q / 2 ^ (e - 52))
    (hm2 : q / 2 ^ (e - 52) ≤ m + 1 / 2)
    (ht : (q / 2 ^ (e - 52) = m - 1 / 2 ∨ q / 2 ^ (e - 52) = m + 1 / 2) → m % 2 = 0) :
    roundNearest q = m * 2 ^ (e - 52) := by
  unfold roundNearest
  rw [ulpExp_of_binade q e he h1 h2, roundHalfEven_eq _ m hm1 hm2 ht]

theorem unitRoundoff_pos : 0 < unitRoundoff := by unfold unitRoundoff; norm_num

theorem unitRoundoff_lt : unitRoundoff < 1 / 2 ^ 52 := by unfold unitRoundoff; norm_num

/-- One rounding of a number that is zero or in the normal range multiplies it by `1 + d`
with `|d| ≤ 2^-53`. -/
theorem roundNearest_factor (q : ℚ) (h : q = 0 ∨ (2 : ℚ) ^ (-1022 : ℤ) ≤ |q|) :
    ∃ d : ℚ, |d| ≤ unitRoundoff ∧ roundNearest q = q * (1 + d) := by
  rcases h with h | h
  · refine ⟨0, by rw [abs_zero]; exact unitRoundoff_pos.le, ?_⟩
    rw [h, roundNearest_zero]; ring
  · have ha : 0 < |q| := lt_of_lt_of_le (two_zpow_pos _) h
    have hq : q ≠ 0 := abs_pos.1 ha
    refine ⟨(roundNearest q - q) / q, ?_, by field_simp⟩
    rw [abs_div, div_le_iff₀ ha]
    exact roundNearest_rel q h

theorem roundNearest_abs_le (q : ℚ) :
    |roundNearest q| ≤ (1 + unitRoundoff) * |q| + 2 ^ (-1075 : ℤ) := by
  have h1 := roundNearest_sub_le q
  have h3 : |roundNearest q| ≤ |q| + |roundNearest q - q| := by
    have := abs_add (roundNearest q - q) q
    rw [sub_add_cancel] at this
    linarith
  by_cases hq : q = 0
  · rw [hq, roundNearest_zero, abs_zero, mul_zero, zero_add]
    exact (two_zpow_pos _).le
  by_cases h : (2 : ℚ) ^ (-1022 : ℤ) ≤ |q|
  · have := roundNearest_rel q h
    have := two_zpow_pos (-1075)
    linarith
  · rw [ulpExp_subnormal q hq (not_le.1 h)] at h1
    have e : (2 : ℚ) ^ (-1074 : ℤ) / 2 = 2 ^ (-1075 : ℤ) := by
      rw [show (-1074 : ℤ) = -1075 + 1 by norm_num, zpow_add₀ (by norm_num : (2 : ℚ) ≠ 0)]
      norm_num
    rw [e] at h1
    have := mul_nonneg unitRoundoff_pos.le (abs_nonneg q)
    linarith

theorem roundNearest_abs_lt (q : ℚ) (h : |q| ≤ 2 ^ 1023) : |roundNearest q| < 2 ^ 1024 := by
  have h1 := roundNearest_abs_le q
  have h2 : (2 : ℚ) ^ (-1075 : ℤ) ≤ 1 := by
    rw [zpow_neg]
    apply inv_le_one_of_one_le₀
    exact one_le_zpow₀ (by norm_num) (by norm_num)
  have h3 : (1 + unitRoundoff) * |q| ≤ (1 + 1 / 2) * 2 ^ 1023 := by
    apply mul_le_mul _ h (abs_nonneg q) (by norm_num)
    have := unitRoundoff_lt
    have : (1 : ℚ) / 2 ^ 52 ≤ 1 / 2 := by norm_num
    linarith
  have h4 : (1 + 1 / 2 : ℚ) * 2 ^ 1023 + 1 < 2 ^ 1024 := by norm_num
  linarith

end Double

namespace Double

/-! ## Operations on finite numbers -/

theorem zero_finite (s : Bool) : (zero s).IsFinite ∧ (zero s).toRat = 0 := by
  cases s <;> exact ⟨⟨rfl, rfl⟩, rfl⟩

theorem num_finite (q : ℚ) : (num q).IsFinite := ⟨rfl, rfl⟩

/-- An operation whose exact result is at most `2^1023` in absolute value delivers the
rounded result. -/
theorem ofRat_finite (s : Bool) (q : ℚ) (h : |q| ≤ 2 ^ 1023) :
    (ofRat s q).IsFinite ∧ (ofRat s q).toRat = roundNearest q := by
  unfold ofRat
  rw [if_neg (not_le.2 (roundNearest_abs_lt q h))]
  split_ifs with h0
  · rw [h0]; exact zero_finite s
  · exact ⟨⟨rfl, rfl⟩, rfl⟩

theorem ofRat_of_ne_zero (s : Bool) (q : ℚ) (h : |q| ≤ 2 ^ 1023) (h0 : roundNearest q ≠ 0) :
    ofRat s q = num (roundNearest q) := by
  unfold ofRat
  rw [if_neg (not_le.2 (roundNearest_abs_lt q h)), if_neg h0]

theorem eq_num_of_finite (a : Double) (h : a.IsFinite) (h0 : a.toRat ≠ 0) : a = num a.toRat := by
  cases a with
  | num q => rfl
  | negZero => exact absurd rfl h0
  | inf s => exact absurd h.2 (by simp [isInf])
  | nan => exact absurd h.1 (by simp [isNaN])

theorem isZero_eq_false (a : Double) (h0 : a.toRat ≠ 0) : a.isZero = false := by
  cases a with
  | num q => simpa [isZero, toRat] using h0
  | negZero => exact absurd rfl h0
  | inf s => rfl
  | nan => rfl

theorem mul_def (a b : Double) : a * b = mul a b := rfl

theorem div_def (a b : Double) : a / b = div a b := rfl

theorem add_def (a b : Double) : a + b = add a b := rfl

theorem sub_def (a b : Double) : a - b = add a (neg b) := rfl

theorem neg_def (a : Double) : -a = neg a := rfl

theorem mul_finite (a b : Double) (ha : a.IsFinite) (hb : b.IsFinite)
    (h : |a.toRat * b.toRat| ≤ 2 ^ 1023) :
    (a * b).IsFinite ∧ (a * b).toRat = roundNearest (a.toRat * b.toRat) := by
  rw [mul_def]
  unfold mul
  rw [ha.1, hb.1, ha.2, hb.2]
  simp only [Bool.or_self, Bool.false_eq_true, if_false]
  exact ofRat_finite _ _ h

theorem div_finite (a b : Double) (ha : a.IsFinite) (hb : b.IsFinite) (h0 : b.toRat ≠ 0)
    (h : |a.toRat / b.toRat| ≤ 2 ^ 1023) :
    (a / b).IsFinite ∧ (a / b).toRat = roundNearest (a.toRat / b.toRat) := by
  rw [div_def]
  unfold div
  rw [ha.1, hb.1, ha.2, hb.2, isZero_eq_false b h0]
  simp only [Bool.or_self, Bool.false_eq_true, if_false]
  exact ofRat_finite _ _ h

theorem add_finite (a b : Double) (ha : a.IsFinite) (hb : b.IsFinite)
    (h : |a.toRat + b.toRat| ≤ 2 ^ 1023) :
    (a + b).IsFinite ∧ (a + b).toRat = roundNearest (a.toRat + b.toRat) := by
  rw [add_def]
  unfold add
  rw [ha.1, hb.1, ha.2, hb.2]
  simp only [Bool.or_self, Bool.false_eq_true, if_false]
  exact ofRat_finite _ _ h

theorem neg_finite (a : Double) (ha : a.IsFinite) : (-a).IsFinite ∧ (-a).toRat = -a.toRat := by
  rw [neg_def]
  cases a with
  | num q =>
    simp only [neg]
    split_ifs with h
    · rw [h]; exact ⟨⟨rfl, rfl⟩, by simp [toRat]⟩
    · exact ⟨⟨rfl, rfl⟩, rfl⟩
  | negZero => exact ⟨⟨rfl, rfl⟩, by simp [neg, toRat]⟩
  | inf s => exact absurd ha.2 (by simp [isInf])
  | nan => exact absurd ha.1 (by simp [isNaN])

theorem sub_finite (a b : Double) (ha : a.IsFinite) (hb : b.IsFinite)
    (h : |a.toRat - b.toRat| ≤ 2 ^ 1023) :
    (a - b).IsFinite ∧ (a - b).toRat = roundNearest (a.toRat - b.toRat) := by
  rw [sub_def, ← add_def, ← neg_def]
  obtain ⟨f, e⟩ := neg_finite b hb
  have := add_finite a (-b) ha f (by rw [e, ← sub_eq_add_neg]; exact h)
  rw [e, ← sub_eq_add_neg] at this
  exact this

theorem ofScientific_def (m : Nat) (s : Bool) (e : Nat) :
    (OfScientific.ofScientific m s e : Double)
      = ofRat false (OfScientific.ofScientific m s e : ℚ) := rfl

theorem ofNat_def (n : Nat) : (OfNat.ofNat n : Double) = num n := rfl

theorem natCast_def (n : Nat) : ((n : Nat) : Double) = num n := rfl

end Double

namespace Double

/-! ## Evaluation of a rounding at a given number -/

/-- The `double` delivered for a positive exact result `q` in the binade of `2^e`: the
multiple `m * 2^(e-52)` nearest to `q`, the even one of the two when `q` lies half-way. -/
theorem ofRat_eval (s : Bool) (q : ℚ) (e m : ℤ) (he : -1022 ≤ e) (he2 : e ≤ 1022)
    (h1 : (2 : ℚ) ^ e ≤ q) (h2 : q < 2 ^ (e + 1))
    (hm1 : (2 * (m : ℚ) - 1) * 2 ^ (e - 52) ≤ 2 * q)
    (hm2 : 2 * q ≤ (2 * (m : ℚ) + 1) * 2 ^ (e - 52))
    (ht : (2 * q = (2 * (m : ℚ) - 1) * 2 ^ (e - 52) ∨ 2 * q = (2 * (m : ℚ) + 1) * 2 ^ (e - 52))
      → m % 2 = 0) :
    ofRat s q = num (m * 2 ^ (e - 52)) := by
  have hq : 0 < q := lt_of_lt_of_le (two_zpow_pos e) h1
  have hU := two_zpow_pos (e - 52)
  have hr : roundNearest q = m * 2 ^ (e - 52) := by
    apply roundNearest_eq q e m he (by rw [abs_of_pos hq]; exact h1)
      (by rw [abs_of_pos hq]; exact h2)
    · rw [le_div_iff₀ hU]; linarith
    · rw [div_le_iff₀ hU]; linarith
    · intro h
      apply ht
      rcases h with h | h
      · left
        rw [div_eq_iff hU.ne'] at h
        rw [h]; ring
      · right
        rw [div_eq_iff hU.ne'] at h
        rw [h]; ring
  have hle : (2 : ℚ) ^ (e + 1) ≤ 2 ^ (1023 : ℤ) :=
    zpow_le_zpow_right₀ (by norm_num) (by omega)
  have hfin : |q| ≤ 2 ^ 1023 := by
    rw [abs_of_pos hq]
    have : (2 : ℚ) ^ (1023 : ℤ) = 2 ^ 1023 := by norm_num
    linarith
  have hm : (0 : ℚ) < m := by
    by_contra hc
    push_neg at hc
    have : (2 * (m : ℚ) + 1) * 2 ^ (e - 52) ≤ 1 * 2 ^ (e - 52) :=
      mul_le_mul_of_nonneg_right (by linarith) hU.le
    have h52 : (2 : ℚ) ^ (e - 52) < 2 ^ e := zpow_lt_zpow_right₀ (by norm_num) (by omega)
    linarith
  rw [ofRat_of_ne_zero s q hfin (by rw [hr]; exact (mul_pos hm hU).ne'), hr]


theorem mul_num (a b : ℚ) :
    num a * num b = ofRat (xor (decide (a < 0)) (decide (b < 0))) (a * b) := rfl

theorem add_num (a b : ℚ) :
    num a + num b
      = ofRat (if a + b = 0 then decide (a < 0) && decide (b < 0) else decide (a + b < 0))
          (a + b) := rfl

theorem div_num (a b : ℚ) (hb : b ≠ 0) :
    num a / num b = ofRat (xor (decide (a < 0)) (decide (b < 0))) (a / b) := by
  rw [div_def]
  unfold div
  simp [isNaN, isInf, isZero, hb, signBit, toRat]

/-- Evaluation of a product with a positive exact value. -/
theorem mul_eval (a b c : ℚ) (e m : ℤ) (he : -1022 ≤ e) (he2 : e ≤ 1022)
    (hc : c = m * 2 ^ (e - 52)) (h1 : (2 : ℚ) ^ e ≤ a * b) (h2 : a * b < 2 ^ (e + 1))
    (hm1 : (2 * (m : ℚ) - 1) * 2 ^ (e - 52) ≤ 2 * (a * b))
    (hm2 : 2 * (a * b) ≤ (2 * (m : ℚ) + 1) * 2 ^ (e - 52))
    (ht : (2 * (a * b) = (2 * (m : ℚ) - 1) * 2 ^ (e - 52)
      ∨ 2 * (a * b) = (2 * (m : ℚ) + 1) * 2 ^ (e - 52)) → m % 2 = 0) : num a * num b = num c := by
  rw [mul_num, ofRat_eval _ _ e m he he2 h1 h2 hm1 hm2 ht, hc]

/-- Evaluation of a sum with a positive exact value. -/
theorem add_eval (a b c : ℚ) (e m : ℤ) (he : -1022 ≤ e) (he2 : e ≤ 1022)
    (hc : c = m * 2 ^ (e - 52)) (h1 : (2 : ℚ) ^ e ≤ a + b) (h2 : a + b < 2 ^ (e + 1))
    (hm1 : (2 * (m : ℚ) - 1) * 2 ^ (e - 52) ≤ 2 * (a + b))
    (hm2 : 2 * (a + b) ≤ (2 * (m : ℚ) + 1) * 2 ^ (e - 52))
    (ht : (2 * (a + b) = (2 * (m : ℚ) - 1) * 2 ^ (e - 52)
      ∨ 2 * (a + b) = (2 * (m : ℚ) + 1) * 2 ^ (e - 52)) → m % 2 = 0) : num a + num b = num c := by
  rw [add_num, ofRat_eval _ _ e m he he2 h1 h2 hm1 hm2 ht, hc]

/-- Evaluation of a quotient with a positive exact value. -/
theorem div_eval (a b c : ℚ) (e m : ℤ) (hb : b ≠ 0) (he : -1022 ≤ e) (he2 : e ≤ 1022)
    (hc : c = m * 2 ^ (e - 52)) (h1 : (2 : ℚ) ^ e ≤ a / b) (h2 : a / b < 2 ^ (e + 1))
    (hm1 : (2 * (m : ℚ) - 1) * 2 ^ (e - 52) ≤ 2 * (a / b))
    (hm2 : 2 * (a / b) ≤ (2 * (m : ℚ) + 1) * 2 ^ (e - 52))
    (ht : (2 * (a / b) = (2 * (m : ℚ) - 1) * 2 ^ (e - 52)
      ∨ 2 * (a / b) = (2 * (m : ℚ) + 1) * 2 ^ (e - 52)) → m % 2 = 0) : num a / num b = num c := by
  rw [div_num a b hb, ofRat_eval _ _ e m he he2 h1 h2 hm1 hm2 ht, hc]

/-- Evaluation of a positive decimal literal. -/
theorem lit_eval (x : Double) (q c : ℚ) (e m : ℤ) (hx : x = ofRat false q) (he : -1022 ≤ e)
    (he2 : e ≤ 1022) (hc : c = m * 2 ^ (e - 52)) (h1 : (2 : ℚ) ^ e ≤ q) (h2 : q < 2 ^ (e + 1))
    (hm1 : (2 * (m : ℚ) - 1) * 2 ^ (e - 52) ≤ 2 * q)
    (hm2 : 2 * q ≤ (2 * (m : ℚ) + 1) * 2 ^ (e - 52))
    (ht : (2 * q = (2 * (m : ℚ) - 1) * 2 ^ (e - 52) ∨ 2 * q = (2 * (m : ℚ) + 1) * 2 ^ (e - 52))
      → m % 2 = 0) : x = num c := by
  rw [hx, ofRat_eval _ _ e m he he2 h1 h2 hm1 hm2 ht, hc]

theorem lit_zero : (0.0 : Double) = num 0 := by
  rw [ofScientific_def]
  have e : (0.0 : ℚ) = 0 := by norm_num
  simp only [e, ofRat, roundNearest_zero]
  norm_num [zero]

theorem lit_one : (1.0 : Double) = num 1 :=
  lit_eval _ 1.0 1 0 (2 ^ 52) rfl (by norm_num) (by norm_num) (by norm_num) (by norm_num)
    (by norm_num) (by norm_num) (by norm_num) (by norm_num)

theorem lit_100000 : (100000.0 : Double) = num 100000 :=
  lit_eval _ 100000.0 100000 16 (100000 * 2 ^ 36) rfl (by norm_num) (by norm_num) (by norm_num)
    (by norm_num) (by norm_num) (by norm_num) (by norm_num) (by norm_num)

theorem lit_hundredth : (0.01 : Double) = num (5764607523034235 / 2 ^ 59) :=
  lit_eval _ 0.01 _ (-7) 5764607523034235 rfl (by norm_num) (by norm_num) (by norm_num)
    (by norm_num) (by norm_num) (by norm_num) (by norm_num) (by norm_num)

theorem zero_add_num (a : ℚ) (e m : ℤ) (he : -1022 ≤ e) (he2 : e ≤ 1022)
    (hc : a = m * 2 ^ (e - 52)) (h1 : (2 : ℚ) ^ e ≤ a) (h2 : a < 2 ^ (e + 1)) :
    num 0 + num a = num a := by
  have hU := two_zpow_pos (e - 52)
  apply add_eval 0 a a e m he he2 hc <;> rw [zero_add]
  · exact h1
  · exact h2
  · rw [hc]; linarith
  · rw [hc]; linarith
  · rw [hc]
    intro h
    rcases h with h | h <;> linarith

end Double

namespace IEEE
open Double

/-! ## The evaluator for two grains in binary64 arithmetic -/

/-- With two grains and no inclination anisotropy the outputs `kappa` and `gamma` are one
product divided by the weight, each accumulated from `0.0`. -/
theorem computeQp_two (F : MathFns Double) (P : Params Double) (M : Members Double)
    (q : QpInput Double) (hN : P.ncrys = 2) (hinc : P.inclination_anisotropy = false) :
    ∃ o, computeQp F P M q = Except.ok o ∧
      o.kappa = (0.0 + M.kappa_gamma 0 1 * 1.0 * pairVal q.vals 0 1) / (0.0 + pairVal q.vals 0 1) ∧
      o.gamma = (0.0 + M.kappa_gamma 1 0 * pairVal q.vals 0 1) / (0.0 + pairVal q.vals 0 1) := by
  simp only [computeQp, hN, pairs_two, evalPairs, evalStep, hinc]
  exact ⟨_, rfl, rfl, rfl⟩

theorem one_eq : (1 : Double) = num 1 := by
  rw [ofNat_def]; norm_num

/-- The weight of a pair whose two order parameters are 1. -/
theorem pairVal_ones : pairVal (fun _ => 1) 0 1 = num (1310720262144013 / 2 ^ 17) := by
  have h1 : num 100000 * num 1 = num 100000 :=
    Double.mul_eval 100000 1 100000 16 (100000 * 2 ^ 36) (by norm_num) (by norm_num)
      (by norm_num) (by norm_num) (by norm_num) (by norm_num) (by norm_num) (by norm_num)
  have h2 : num 100000 + num (5764607523034235 / 2 ^ 59) = num (6871948360794767 / 2 ^ 36) :=
    Double.add_eval (100000) (5764607523034235 / 2 ^ 59) (6871948360794767 / 2 ^ 36) 16
      6871948360794767 (by norm_num) (by norm_num) (by norm_num) (by norm_num) (by norm_num)
      (by norm_num) (by norm_num) (by norm_num)
  have h3 : num (6871948360794767 / 2 ^ 36) * num (6871948360794767 / 2 ^ 36)
      = num (1310720262144013 / 2 ^ 17) :=
    Double.mul_eval (6871948360794767 / 2 ^ 36) (6871948360794767 / 2 ^ 36)
      (1310720262144013 / 2 ^ 17) 33 5242881048576052 (by norm_num) (by norm_num) (by norm_num)
      (by norm_num) (by norm_num) (by norm_num) (by norm_num) (by norm_num)
  simp only [pairVal]
  rw [lit_100000, lit_hundredth, one_eq, h1, h1, h2, h3]

/-- The quotient `(0.0 + 7 * Val) / (0.0 + Val)` for that weight is the `double` after 7. -/
theorem mean_of_seven :
    (0.0 + num 7 * num (1310720262144013 / 2 ^ 17)) / (0.0 + num (1310720262144013 / 2 ^ 17))
      = num (7 + 1 / 2 ^ 50) := by
  have h1 : num 7 * num (1310720262144013 / 2 ^ 17) = num (2293760458752023 / 2 ^ 15) :=
    Double.mul_eval (7) (1310720262144013 / 2 ^ 17) (2293760458752023 / 2 ^ 15) 36
      4587520917504046 (by norm_num) (by norm_num) (by norm_num) (by norm_num) (by norm_num)
      (by norm_num) (by norm_num) (by norm_num)
  have h2 : num 0 + num (2293760458752023 / 2 ^ 15) = num (2293760458752023 / 2 ^ 15) :=
    Double.zero_add_num _ 36 4587520917504046 (by norm_num) (by norm_num) (by norm_num)
      (by norm_num) (by norm_num)
  have h3 : num 0 + num (1310720262144013 / 2 ^ 17) = num (1310720262144013 / 2 ^ 17) :=
    Double.zero_add_num _ 33 5242881048576052 (by norm_num) (by norm_num) (by norm_num)
      (by norm_num) (by norm_num)
  have h4 : num (2293760458752023 / 2 ^ 15) / num (1310720262144013 / 2 ^ 17)
      = num (7 + 1 / 2 ^ 50) :=
    Double.div_eval (2293760458752023 / 2 ^ 15) (1310720262144013 / 2 ^ 17) (7 + 1 / 2 ^ 50) 2
      7881299347898369 (by norm_num) (by norm_num) (by norm_num) (by norm_num) (by norm_num)
      (by norm_num) (by norm_num) (by norm_num) (by norm_num)
  rw [lit_zero, h1, h2, h3, h4]

theorem seven_times_one : num 7 * (1.0 : Double) = num 7 := by
  rw [lit_one]
  exact Double.mul_eval 7 1 7 2 (7 * 2 ^ 50) (by norm_num) (by norm_num) (by norm_num)
    (by norm_num) (by norm_num) (by norm_num) (by norm_num) (by norm_num)

end IEEE

namespace Double

/-! ## NaN in the operations -/

theorem mul_nan (a : Double) : a * nan = nan := by
  rw [mul_def]; simp [mul, isNaN]

theorem nan_mul (a : Double) : nan * a = nan := by
  rw [mul_def]; simp [mul, isNaN]

theorem add_nan (a : Double) : a + nan = nan := by
  rw [add_def]; simp [add, isNaN]

theorem nan_add (a : Double) : nan + a = nan := by
  rw [add_def]; simp [add, isNaN]

theorem sub_nan (a : Double) : a - nan = nan := by
  rw [sub_def]; simp [add, neg, isNaN]

theorem nan_sub (a : Double) : nan - a = nan := by
  rw [sub_def]; simp [add, isNaN]

theorem div_nan (a : Double) : a / nan = nan := by
  rw [div_def]; simp [div, isNaN]

theorem nan_div (a : Double) : nan / a = nan := by
  rw [div_def]; simp [div, isNaN]

theorem zero_div_zero : num 0 / num 0 = nan := by
  rw [div_def]; simp [div, isNaN, isInf, isZero]

theorem nan_eq (a : Double) : Double.eq nan a = false := by
  cases a <;> rfl

theorem not_lt_nan (a : Double) : ¬ a < nan := by
  show ¬ (lt a nan = true)
  cases a <;> simp [lt]

theorem not_nan_lt (a : Double) : ¬ nan < a := by
  show ¬ (lt nan a = true)
  simp [lt]

theorem ofRat_zero (s : Bool) : ofRat s 0 = zero s := by
  simp only [ofRat, roundNearest_zero]
  norm_num

/-- The product of a positive number and `+0` is `+0`. -/
theorem mul_pos_zero (a : ℚ) (ha : 0 < a) : num a * num 0 = num 0 := by
  rw [mul_num, mul_zero, ofRat_zero]
  simp [zero, not_lt.2 ha.le]

theorem zero_mul_pos (a : ℚ) (ha : 0 < a) : num 0 * num a = num 0 := by
  rw [mul_num, zero_mul, ofRat_zero]
  simp [zero, not_lt.2 ha.le]

theorem zero_mul_zero : num 0 * num 0 = num 0 := by
  rw [mul_num, zero_mul, ofRat_zero]
  simp [zero]

theorem zero_add_zero : num 0 + num 0 = num 0 := by
  rw [add_num, add_zero, ofRat_zero]
  simp [zero]

theorem zero_div_pos (a : ℚ) (ha : 0 < a) : num 0 / num a = num 0 := by
  rw [div_num 0 a ha.ne', zero_div, ofRat_zero]
  simp [zero, not_lt.2 ha.le]

end Double

namespace Double

/-! ## Operations with one relative rounding error -/

/-- The least positive normal number is below `1e-300` and `2^1023` is above `1e300`. -/
theorem normal_range :
    (2 : ℚ) ^ (-1022 : ℤ) ≤ 1 / 10 ^ 300 ∧ (10 : ℚ) ^ 300 ≤ 2 ^ 1023 := by
  constructor
  · rw [zpow_neg, ← one_div]
    apply one_div_le_one_div_of_le (by positivity)
    norm_num
  · norm_num

/-- A number of magnitude between `1e-300` and `1e300`, or zero. -/
theorem factor_of_moderate (x : ℚ) (h : x = 0 ∨ (1 / 10 ^ 300 ≤ |x| ∧ |x| ≤ 10 ^ 300)) :
    |x| ≤ 2 ^ 1023 ∧ ∃ d : ℚ, |d| ≤ unitRoundoff ∧ roundNearest x = x * (1 + d) := by
  obtain ⟨n1, n2⟩ := normal_range
  rcases h with h | ⟨h1, h2⟩
  · refine ⟨by rw [h, abs_zero]; positivity, roundNearest_factor x (Or.inl h)⟩
  · exact ⟨le_trans h2 n2, roundNearest_factor x (Or.inr (le_trans n1 h1))⟩

theorem mul_factor (a b : Double) (ha : a.IsFinite) (hb : b.IsFinite)
    (h : a.toRat * b.toRat = 0
      ∨ (1 / 10 ^ 300 ≤ |a.toRat * b.toRat| ∧ |a.toRat * b.toRat| ≤ 10 ^ 300)) :
    (a * b).IsFinite ∧
    ∃ d : ℚ, |d| ≤ unitRoundoff ∧ (a * b).toRat = a.toRat * b.toRat * (1 + d) := by
  obtain ⟨hr, d, hd, e⟩ := factor_of_moderate _ h
  obtain ⟨f, e2⟩ := mul_finite a b ha hb hr
  exact ⟨f, d, hd, e2.trans e⟩

theorem add_factor (a b : Double) (ha : a.IsFinite) (hb : b.IsFinite)
    (h : a.toRat + b.toRat = 0
      ∨ (1 / 10 ^ 300 ≤ |a.toRat + b.toRat| ∧ |a.toRat + b.toRat| ≤ 10 ^ 300)) :
    (a + b).IsFinite ∧
    ∃ d : ℚ, |d| ≤ unitRoundoff ∧ (a + b).toRat = (a.toRat + b.toRat) * (1 + d) := by
  obtain ⟨hr, d, hd, e⟩ := factor_of_moderate _ h
  obtain ⟨f, e2⟩ := add_finite a b ha hb hr
  exact ⟨f, d, hd, e2.trans e⟩

theorem sub_factor (a b : Double) (ha : a.IsFinite) (hb : b.IsFinite)
    (h : a.toRat - b.toRat = 0
      ∨ (1 / 10 ^ 300 ≤ |a.toRat - b.toRat| ∧ |a.toRat - b.toRat| ≤ 10 ^ 300)) :
    (a - b).IsFinite ∧
    ∃ d : ℚ, |d| ≤ unitRoundoff ∧ (a - b).toRat = (a.toRat - b.toRat) * (1 + d) := by
  obtain ⟨hr, d, hd, e⟩ := factor_of_moderate _ h
  obtain ⟨f, e2⟩ := sub_finite a b ha hb hr
  exact ⟨f, d, hd, e2.trans e⟩

theorem div_factor (a b : Double) (ha : a.IsFinite) (hb : b.IsFinite) (h0 : b.toRat ≠ 0)
    (h : a.toRat / b.toRat = 0
      ∨ (1 / 10 ^ 300 ≤ |a.toRat / b.toRat| ∧ |a.toRat / b.toRat| ≤ 10 ^ 300)) :
    (a / b).IsFinite ∧
    ∃ d : ℚ, |d| ≤ unitRoundoff ∧ (a / b).toRat = a.toRat / b.toRat * (1 + d) := by
  obtain ⟨hr, d, hd, e⟩ := factor_of_moderate _ h
  obtain ⟨f, e2⟩ := div_finite a b ha hb h0 hr
  exact ⟨f, d, hd, e2.trans e⟩

/-- A factor `1 + d` with `|d| ≤ 2^-53` lies between `1 - 2^-53` and `1 + 2^-53`. -/
theorem one_add_bounds (d : ℚ) (hd : |d| ≤ unitRoundoff) :
    1 - unitRoundoff ≤ 1 + d ∧ 1 + d ≤ 1 + unitRoundoff := by
  obtain ⟨h1, h2⟩ := abs_le.1 hd
  constructor <;> linarith

theorem toRat_num (q : ℚ) : (num q).toRat = q := rfl

end Double

namespace IEEE
open Double

/-! ## The constructor for two grains with pair energy zero -/

theorem lit_three_quarters : (0.75 : Double) = num (3 / 4) :=
  lit_eval _ 0.75 _ (-1) 6755399441055744 rfl (by norm_num) (by norm_num) (by norm_num)
    (by norm_num) (by norm_num) (by norm_num) (by norm_num) (by norm_num)

theorem lit_tolerance : (1.0e-9 : Double) = num (4835703278458517 / 2 ^ 82) :=
  lit_eval _ 1.0e-9 _ (-30) 4835703278458517 rfl (by norm_num) (by norm_num) (by norm_num)
    (by norm_num) (by norm_num) (by norm_num) (by norm_num) (by norm_num)

theorem lit_two : (2.0 : Double) = num 2 :=
  lit_eval _ 2.0 _ 1 4503599627370496 rfl (by norm_num) (by norm_num) (by norm_num)
    (by norm_num) (by norm_num) (by norm_num) (by norm_num) (by norm_num)

theorem lit_six : (6.0 : Double) = num 6 :=
  lit_eval _ 6.0 _ 2 6755399441055744 rfl (by norm_num) (by norm_num) (by norm_num)
    (by norm_num) (by norm_num) (by norm_num) (by norm_num) (by norm_num)

theorem JtoeV_eq : JtoeV = num 6241509740000000000 :=
  lit_eval _ 6.24150974e18 _ 62 6095224355468750 rfl (by norm_num) (by norm_num) (by norm_num)
    (by norm_num) (by norm_num) (by norm_num) (by norm_num) (by norm_num)

theorem six_eq : (6 : Double) = num 6 := by
  rw [ofNat_def]; norm_num

theorem zero_eq : (0 : Double) = num 0 := by
  rw [ofNat_def]; norm_num

/-- The quartic of a NaN is a NaN. -/
theorem y_of_g2_nan : y_of_g2 nan = nan := by
  simp only [y_of_g2, mul_nan, nan_mul, nan_sub, nan_add]

/-- The interface function of a NaN is a NaN. -/
theorem f_interf_of_nan : f_interf_of nan nan = nan := by
  simp only [f_interf_of, mul_nan, nan_mul, nan_sub, nan_add]

/-- The unit conversion of two grains with input energy 0 and unit scales: the converted
energy and both extremes are `+0`. -/
theorem convertUnits_zero (mob : Table Double) :
    (convertUnits 1 1 2 (fun _ _ => 0) mob).sigma 0 1 = num 0 ∧
    (convertUnits 1 1 2 (fun _ _ => 0) mob).sigma_big = num 0 ∧
    (convertUnits 1 1 2 (fun _ _ => 0) mob).sigma_small = num 0 := by
  have h1 : num 1 * num 1 = num 1 :=
    Double.mul_eval (1) (1) (1) 0 4503599627370496 (by norm_num) (by norm_num) (by norm_num)
      (by norm_num) (by norm_num) (by norm_num) (by norm_num) (by norm_num)
  have h2 : num 6241509740000000000 * num 1 = num 6241509740000000000 :=
    Double.mul_eval (6241509740000000000) (1) (6241509740000000000) 62 6095224355468750
      (by norm_num) (by norm_num) (by norm_num) (by norm_num) (by norm_num) (by norm_num)
      (by norm_num) (by norm_num)
  have h3 : (0 : Double) * (JtoeV * ((1 : Double) * 1)) = num 0 := by
    rw [zero_eq, one_eq, JtoeV_eq, h1, h2]
    exact zero_mul_pos _ (by norm_num)
  simp only [convertUnits, pairs_two, List.foldl, convertStep, Table.set, and_self, if_true, h3]

/-- Lines 140-141 with both extremes `+0` and `wGB = 6`: `mu_qp` is `+0`. -/
theorem mu_of_scan_zero (s : ScanState Double) (hb : s.sigma_big = num 0)
    (hs : s.sigma_small = num 0) : mu_of_scan 6 s = num 0 := by
  simp only [mu_of_scan, hb, hs, zero_add_zero, lit_two, lit_six, six_eq]
  rw [zero_div_pos 2 (by norm_num), mul_pos_zero 6 (by norm_num), zero_div_pos 6 (by norm_num)]

/-- The loop body with pair energy `+0`, `mu_qp = +0`, `wGB = 6` and the iterate `0.75`:
`kappa_star` is `+0`, `g2` is `0/0`, and `y`, `gamma_star`, `f_interf` and `a_star` are NaNs. -/
theorem calibBody_zero (s : CalibLocals Double) (hs : s.a_star = num (3 / 4)) :
    calibBody 6 (num 0) (num 0) s
      = { g2 := nan, f_interf := nan, a_0 := num (3 / 4), a_star := nan, kappa_star := num 0,
          gamma_star := nan, y := nan, yyy := nan } := by
  have h1 : num (3 / 4) * num 6 = num (9 / 2) :=
    Double.mul_eval (3 / 4) (6) (9 / 2) 2 5066549580791808 (by norm_num) (by norm_num)
      (by norm_num) (by norm_num) (by norm_num) (by norm_num) (by norm_num) (by norm_num)
  have h2 : num (9 / 2) * num 0 = num 0 := mul_pos_zero _ (by norm_num)
  simp only [calibBody, hs, six_eq, h1, h2, zero_mul_zero, zero_div_zero, y_of_g2_nan, div_nan,
    nan_mul, f_interf_of_nan, nan_div]
  rfl

/-- The loop test at the entry of the first pair is true. -/
theorem first_test_true :
    Double.abs ((pairEntry initLocals).a_0 - (pairEntry initLocals).a_star) > 1.0e-9 := by
  simp only [pairEntry, initLocals, lit_zero, lit_three_quarters, lit_tolerance]
  have h34 : |(0 : ℚ) - 3 / 4| = 3 / 4 := by
    rw [abs_of_neg (by norm_num)]; norm_num
  obtain ⟨f, e⟩ := sub_finite (num 0) (num (3 / 4)) (num_finite _) (num_finite _)
    (by rw [Double.toRat_num, Double.toRat_num, h34]; norm_num)
  rw [Double.toRat_num, Double.toRat_num] at e
  have hr := roundNearest_rel (0 - 3 / 4) (by rw [h34]; norm_num)
  rw [h34] at hr
  have hlt : roundNearest (0 - 3 / 4) < -(1 / 2) := by
    have := (abs_le.1 hr).2
    have hu := unitRoundoff_lt
    norm_num at this hu ⊢
    linarith
  have hne : (num 0 - num (3 / 4) : Double).toRat ≠ 0 := by
    rw [e]; linarith
  rw [eq_num_of_finite _ f hne, e]
  show Double.lt _ _ = true
  simp only [Double.abs, Double.lt, Double.toRat_num, decide_eq_true_eq]
  rw [abs_of_neg (by linarith)]
  norm_num at hlt ⊢
  linarith

/-- With two grains the constructor is the single `while` loop for the pair `(0,1)`. -/
theorem construct_two_grains (P : Params Double) (fuel : Nat) (sigma mob Q : Table Double)
    (hN : P.ncrys = 2) :
    construct P fuel sigma mob Q
      = match calibWhile P.wGB
          (mu_of_scan P.wGB (convertUnits P.length_scale P.time_scale 2 sigma mob))
          ((convertUnits P.length_scale P.time_scale 2 sigma mob).sigma 0 1) fuel
          (pairEntry initLocals) with
        | none => none
        | some r => some
          { sigma := (convertUnits P.length_scale P.time_scale 2 sigma mob).sigma
            mob := (convertUnits P.length_scale P.time_scale 2 sigma mob).mob
            Q := Q
            kappa_gamma := (storePair initCalib 0 1 r).kappa_gamma
            a_g2 := (storePair initCalib 0 1 r).a_g2
            mu_qp := mu_of_scan P.wGB (convertUnits P.length_scale P.time_scale 2 sigma mob) } := by
  unfold construct
  simp only [hN, pairs_two, calibPairs, calibPair]
  rw [show pairEntry (initCalib).loc = pairEntry initLocals from rfl]
  rcases calibWhile P.wGB (mu_of_scan P.wGB (convertUnits P.length_scale P.time_scale 2 sigma mob))
      ((convertUnits P.length_scale P.time_scale 2 sigma mob).sigma 0 1) fuel
      (pairEntry initLocals) with _ | r
  · rfl
  · rfl

/-- The `while` loop of the pair `(0,1)` with pair energy `+0`, `mu_qp = +0` and `wGB = 6`:
the body runs once and the test is then false because `a_star` is a NaN. -/
theorem calibWhile_zero_energy :
    calibWhile 6 (num 0) (num 0) 0 (pairEntry initLocals) = none ∧
    calibWhile 6 (num 0) (num 0) 1 (pairEntry initLocals)
      = some { g2 := nan, f_interf := nan, a_0 := num (3 / 4), a_star := nan,
               kappa_star := num 0, gamma_star := nan, y := nan, yyy := nan } := by
  have hb := calibBody_zero (pairEntry initLocals)
    (by simp only [pairEntry, initLocals, lit_three_quarters])
  have hexit : ¬ Double.abs ((num (3 / 4) : Double) - nan) > 1.0e-9 := by
    rw [sub_nan]
    exact not_lt_nan _
  constructor
  · rw [calibWhile, if_pos first_test_true]
  · rw [calibWhile, if_pos first_test_true]
    simp only [hb]
    rw [calibWhile, if_neg hexit]

/-- Outcome of the constructor for two grains with input energy 0, unit scales and
`wGB = 6`: the loop body runs once and NaNs are stored. -/
theorem construct_zero_energy :
    construct (exParams 2) 0 (fun _ _ => 0) (fun _ _ => 1) (fun _ _ => 1) = none ∧
    ∃ M, construct (exParams 2) 1 (fun _ _ => 0) (fun _ _ => 1) (fun _ _ => 1) = some M ∧
      M.sigma 0 1 = num 0 ∧ M.mu_qp = num 0 ∧ M.kappa_gamma 0 1 = num 0 ∧
      M.kappa_gamma 1 0 = nan ∧ M.a_g2 0 1 = nan ∧ M.a_g2 1 0 = nan := by
  obtain ⟨c1, c2, c3⟩ := convertUnits_zero (fun _ _ => 1)
  have hmu := mu_of_scan_zero _ c2 c3
  obtain ⟨w0, w1⟩ := calibWhile_zero_energy
  have hP : (exParams 2).wGB = 6 ∧ (exParams 2).length_scale = 1 ∧ (exParams 2).time_scale = 1 :=
    ⟨rfl, rfl, rfl⟩
  constructor
  · rw [construct_two_grains _ _ _ _ _ rfl, hP.1, hP.2.1, hP.2.2, hmu, c1, w0]
  · rw [construct_two_grains _ _ _ _ _ rfl, hP.1, hP.2.1, hP.2.2, hmu, c1, w1]
    refine ⟨_, rfl, c1, ?_, ?_, ?_, ?_, ?_⟩
    · simp only
    · simp [storePair, Table.set]
    · simp [storePair, Table.set]
    · simp [storePair, Table.set]
    · simp [storePair, Table.set]

end IEEE

namespace IEEE
open Double

/-! ## The weight of a pair in binary64 arithmetic -/

theorem tiny_le_one : (2 : ℚ) ^ (-1075 : ℤ) ≤ 1 := by
  rw [zpow_neg]
  apply inv_le_one_of_one_le₀
  exact one_le_zpow₀ (by norm_num) (by norm_num)

/-- The factor `100000.0 * v * v + 0.01` of line 218 for an order parameter of magnitude at
most `1e6`: finite, at least `0.009` and at most `4e17`. -/
theorem weightFactor_finite (v : ℚ) (hv : |v| ≤ 1000000) :
    ((100000.0 : Double) * num v * num v + 0.01).IsFinite ∧
    9 / 1000 ≤ ((100000.0 : Double) * num v * num v + 0.01).toRat ∧
    ((100000.0 : Double) * num v * num v + 0.01).toRat ≤ 4 * 10 ^ 17 := by
  have hu := unitRoundoff_lt
  have hu0 := unitRoundoff_pos
  have ht := tiny_le_one
  rw [lit_100000, lit_hundredth]
  have b1 : |(100000 : ℚ) * v| ≤ 10 ^ 11 := by
    rw [abs_mul, abs_of_pos (by norm_num : (0 : ℚ) < 100000)]
    linarith
  obtain ⟨f1, e1⟩ := mul_finite (num 100000) (num v) (num_finite _) (num_finite _)
    (by rw [toRat_num, toRat_num]; exact le_trans b1 (by norm_num))
  rw [toRat_num, toRat_num] at e1
  have a1 : |roundNearest (100000 * v)| ≤ 2 * 10 ^ 11 := by
    have := roundNearest_abs_le (100000 * v)
    have h2 : (1 + unitRoundoff) * |(100000 : ℚ) * v| ≤ (1 + 1 / 2 ^ 52) * 10 ^ 11 :=
      mul_le_mul (by linarith) b1 (abs_nonneg _) (by positivity)
    have h3 : (1 + 1 / 2 ^ 52 : ℚ) * 10 ^ 11 + 1 ≤ 2 * 10 ^ 11 := by norm_num
    linarith
  have s1 : 0 ≤ roundNearest (100000 * v) * v := by
    rcases le_total 0 v with h | h
    · exact mul_nonneg (roundNearest_nonneg _ (by linarith)) h
    · exact mul_nonneg_of_nonpos_of_nonpos (roundNearest_nonpos _ (by linarith)) h
  have b2 : |roundNearest (100000 * v) * v| ≤ 2 * 10 ^ 17 := by
    rw [abs_mul]
    calc |roundNearest (100000 * v)| * |v| ≤ (2 * 10 ^ 11) * 1000000 :=
          mul_le_mul a1 hv (abs_nonneg _) (by positivity)
      _ = 2 * 10 ^ 17 := by norm_num
  obtain ⟨f2, e2⟩ := mul_finite (num 100000 * num v) (num v) f1 (num_finite _)
    (by rw [e1, toRat_num]; exact le_trans b2 (by norm_num))
  rw [e1, toRat_num] at e2
  have p2 : 0 ≤ roundNearest (roundNearest (100000 * v) * v) := roundNearest_nonneg _ s1
  have a2 : roundNearest (roundNearest (100000 * v) * v) ≤ 3 * 10 ^ 17 := by
    have := roundNearest_abs_le (roundNearest (100000 * v) * v)
    rw [abs_of_nonneg p2] at this
    have h2 : (1 + unitRoundoff) * |roundNearest (100000 * v) * v|
        ≤ (1 + 1 / 2 ^ 52) * (2 * 10 ^ 17) :=
      mul_le_mul (by linarith) b2 (abs_nonneg _) (by positivity)
    have h3 : (1 + 1 / 2 ^ 52 : ℚ) * (2 * 10 ^ 17) + 1 ≤ 3 * 10 ^ 17 := by norm_num
    linarith
  set p := roundNearest (roundNearest (100000 * v) * v) with hp
  have hsum : (0 : ℚ) < p + 5764607523034235 / 2 ^ 59 := by positivity
  obtain ⟨f3, d, hd, e3⟩ := add_factor (num 100000 * num v * num v)
    (num (5764607523034235 / 2 ^ 59)) f2 (num_finite _) (by
      right
      rw [e2, toRat_num, abs_of_pos hsum]
      constructor
      · have : (1 : ℚ) / 10 ^ 300 ≤ 5764607523034235 / 2 ^ 59 := by norm_num
        linarith
      · have : (3 : ℚ) * 10 ^ 17 + 5764607523034235 / 2 ^ 59 ≤ 10 ^ 300 := by norm_num
        linarith)
  rw [e2, toRat_num] at e3
  obtain ⟨d1, d2⟩ := one_add_bounds d hd
  refine ⟨f3, ?_, ?_⟩
  · rw [e3]
    have h1 : (5764607523034235 / 2 ^ 59 : ℚ) * (1 - 1 / 2 ^ 52) ≤ (p + 5764607523034235 / 2 ^ 59) * (1 + d) :=
      mul_le_mul (by linarith) (by linarith) (by norm_num) hsum.le
    have h2 : (9 : ℚ) / 1000 ≤ 5764607523034235 / 2 ^ 59 * (1 - 1 / 2 ^ 52) := by norm_num
    linarith
  · rw [e3]
    have h1 : (p + 5764607523034235 / 2 ^ 59) * (1 + d)
        ≤ (3 * 10 ^ 17 + 5764607523034235 / 2 ^ 59) * (1 + 1 / 2 ^ 52) :=
      mul_le_mul (by linarith) (by linarith) (by linarith) (by positivity)
    have h2 : (3 * 10 ^ 17 + 5764607523034235 / 2 ^ 59 : ℚ) * (1 + 1 / 2 ^ 52) ≤ 4 * 10 ^ 17 := by
      norm_num
    linarith

/-- The weight `Val` of line 218 for two order parameters of magnitude at most `1e6`: finite,
at least `8e-5` and at most `2e35`. -/
theorem pairVal_finite (vals : Nat → Double) (m n : Nat) (vm vn : ℚ) (hm : vals m = num vm)
    (hn : vals n = num vn) (bm : |vm| ≤ 1000000) (bn : |vn| ≤ 1000000) :
    (pairVal vals m n).IsFinite ∧ 8 / 100000 ≤ (pairVal vals m n).toRat ∧
    (pairVal vals m n).toRat ≤ 2 * 10 ^ 35 := by
  have hu := unitRoundoff_lt
  have hu0 := unitRoundoff_pos
  obtain ⟨f1, l1, u1⟩ := weightFactor_finite vm bm
  obtain ⟨f2, l2, u2⟩ := weightFactor_finite vn bn
  unfold pairVal
  rw [hm, hn]
  set a := ((100000.0 : Double) * num vm * num vm + 0.01) with ha
  set b := ((100000.0 : Double) * num vn * num vn + 0.01) with hb
  have hab : (81 : ℚ) / 1000000 ≤ a.toRat * b.toRat := by
    calc (81 : ℚ) / 1000000 = 9 / 1000 * (9 / 1000) := by norm_num
      _ ≤ a.toRat * b.toRat := mul_le_mul l1 l2 (by norm_num) (by linarith)
  have hab2 : a.toRat * b.toRat ≤ 16 * 10 ^ 34 := by
    calc a.toRat * b.toRat ≤ (4 * 10 ^ 17) * (4 * 10 ^ 17) :=
          mul_le_mul u1 u2 (by linarith) (by positivity)
      _ = 16 * 10 ^ 34 := by norm_num
  have hpos : 0 < a.toRat * b.toRat := lt_of_lt_of_le (by norm_num) hab
  obtain ⟨f, d, hd, e⟩ := mul_factor a b f1 f2 (by
    right
    rw [abs_of_pos hpos]
    constructor
    · have : (1 : ℚ) / 10 ^ 300 ≤ 81 / 1000000 := by norm_num
      linarith
    · have : (16 : ℚ) * 10 ^ 34 ≤ 10 ^ 300 := by norm_num
      linarith)
  obtain ⟨d1, d2⟩ := one_add_bounds d hd
  refine ⟨f, ?_, ?_⟩
  · rw [e]
    have h1 : (81 / 1000000 : ℚ) * (1 - 1 / 2 ^ 52) ≤ a.toRat * b.toRat * (1 + d) :=
      mul_le_mul hab (by linarith) (by norm_num) hpos.le
    have h2 : (8 : ℚ) / 100000 ≤ 81 / 1000000 * (1 - 1 / 2 ^ 52) := by norm_num
    linarith
  · rw [e]
    have h1 : a.toRat * b.toRat * (1 + d) ≤ (16 * 10 ^ 34) * (1 + 1 / 2 ^ 52) :=
      mul_le_mul hab2 (by linarith) (by linarith) (by positivity)
    have h2 : (16 * 10 ^ 34 : ℚ) * (1 + 1 / 2 ^ 52) ≤ 2 * 10 ^ 35 := by norm_num
    linarith

end IEEE

namespace Double

/-! ## Magnitudes under rounding -/

theorem ZeroOrBetween.mono {lo hi lo2 hi2 y : ℚ} (h : ZeroOrBetween lo hi y) (h1 : lo2 ≤ lo)
    (h2 : hi ≤ hi2) : ZeroOrBetween lo2 hi2 y := by
  rcases h with h | ⟨a, b⟩
  · exact Or.inl h
  · exact Or.inr ⟨le_trans h1 a, le_trans b h2⟩

theorem ZeroOrBetween.mul_rounding {lo hi y d : ℚ} (h : ZeroOrBetween lo hi y)
    (hd : |d| ≤ unitRoundoff) : ZeroOrBetween (lo / 2) (2 * hi) (y * (1 + d)) := by
  obtain ⟨d1, d2⟩ := one_add_bounds d hd
  have hu := unitRoundoff_lt
  have hp : 0 < 1 + d := by
    have : (1 : ℚ) / 2 ^ 52 ≤ 1 / 2 := by norm_num
    linarith
  rcases h with h | ⟨a, b⟩
  · left; rw [h, zero_mul]
  · right
    rw [abs_mul, abs_of_pos hp]
    have : (1 : ℚ) / 2 ^ 52 ≤ 1 / 2 := by norm_num
    constructor
    · calc lo / 2 = lo * (1 / 2) := by ring
        _ ≤ |y| * (1 + d) := mul_le_mul a (by linarith) (by norm_num) (abs_nonneg y)
    · calc |y| * (1 + d) ≤ hi * 2 :=
            mul_le_mul b (by linarith) hp.le (le_trans (abs_nonneg y) b)
        _ = 2 * hi := by ring

theorem ZeroOrBetween.mul_pos {lo hi y v a b : ℚ} (h : ZeroOrBetween lo hi y)
    (ha : 0 < a) (hav : a ≤ v) (hvb : v ≤ b) : ZeroOrBetween (lo * a) (hi * b) (y * v) := by
  have hv : 0 < v := lt_of_lt_of_le ha hav
  rcases h with h | ⟨l, u⟩
  · left; rw [h, zero_mul]
  · right
    rw [abs_mul, abs_of_pos hv]
    exact ⟨mul_le_mul l hav ha.le (abs_nonneg y),
      mul_le_mul u hvb hv.le (le_trans (abs_nonneg y) u)⟩

theorem ZeroOrBetween.div_pos {lo hi y v a b : ℚ} (h : ZeroOrBetween lo hi y)
    (ha : 0 < a) (hav : a ≤ v) (hvb : v ≤ b) : ZeroOrBetween (lo / b) (hi / a) (y / v) := by
  have hv : 0 < v := lt_of_lt_of_le ha hav
  have hb : 0 < b := lt_of_lt_of_le hv hvb
  rcases h with h | ⟨l, u⟩
  · left; rw [h, zero_div]
  · right
    rw [abs_div, abs_of_pos hv]
    constructor
    · exact div_le_div₀ (abs_nonneg y) l hv hvb
    · exact div_le_div₀ (le_trans (abs_nonneg y) u) u ha hav

/-- The quotient of four rounding factors by one is within `2^-50` of 1. -/
theorem ratio_near_one (a1 a2 a3 a4 b : ℚ)
    (h1 : 1 - unitRoundoff ≤ a1 ∧ a1 ≤ 1 + unitRoundoff)
    (h2 : 1 - unitRoundoff ≤ a2 ∧ a2 ≤ 1 + unitRoundoff)
    (h3 : 1 - unitRoundoff ≤ a3 ∧ a3 ≤ 1 + unitRoundoff)
    (h4 : 1 - unitRoundoff ≤ a4 ∧ a4 ≤ 1 + unitRoundoff)
    (hb : 1 - unitRoundoff ≤ b ∧ b ≤ 1 + unitRoundoff) :
    |a1 * a2 * a3 * a4 / b - 1| ≤ 1 / 2 ^ 50 := by
  have hu : unitRoundoff = 1 / 2 ^ 53 := rfl
  rw [hu] at h1 h2 h3 h4 hb
  have l0 : (0 : ℚ) ≤ 1 - 1 / 2 ^ 53 := by norm_num
  have hb0 : 0 < b := lt_of_lt_of_le (by norm_num) hb.1
  have p12 : (1 - 1 / 2 ^ 53) * (1 - 1 / 2 ^ 53) ≤ a1 * a2 :=
    mul_le_mul h1.1 h2.1 l0 (le_trans l0 h1.1)
  have q12 : a1 * a2 ≤ (1 + 1 / 2 ^ 53) * (1 + 1 / 2 ^ 53) :=
    mul_le_mul h1.2 h2.2 (le_trans l0 h2.1) (by norm_num)
  have p123 : (1 - 1 / 2 ^ 53) * (1 - 1 / 2 ^ 53) * (1 - 1 / 2 ^ 53) ≤ a1 * a2 * a3 :=
    mul_le_mul p12 h3.1 l0 (le_trans (by norm_num) p12)
  have q123 : a1 * a2 * a3 ≤ (1 + 1 / 2 ^ 53) * (1 + 1 / 2 ^ 53) * (1 + 1 / 2 ^ 53) :=
    mul_le_mul q12 h3.2 (le_trans l0 h3.1) (by norm_num)
  have p1234 : (1 - 1 / 2 ^ 53) * (1 - 1 / 2 ^ 53) * (1 - 1 / 2 ^ 53) * (1 - 1 / 2 ^ 53)
      ≤ a1 * a2 * a3 * a4 :=
    mul_le_mul p123 h4.1 l0 (le_trans (by norm_num) p123)
  have q1234 : a1 * a2 * a3 * a4
      ≤ (1 + 1 / 2 ^ 53) * (1 + 1 / 2 ^ 53) * (1 + 1 / 2 ^ 53) * (1 + 1 / 2 ^ 53) :=
    mul_le_mul q123 h4.2 (le_trans l0 h4.1) (by norm_num)
  rw [abs_le]
  constructor
  · rw [le_sub_iff_add_le, le_div_iff₀ hb0]
    have : (-(1 / 2 ^ 50) + 1 : ℚ) * b ≤ (-(1 / 2 ^ 50) + 1) * (1 + 1 / 2 ^ 53) :=
      mul_le_mul_of_nonneg_left hb.2 (by norm_num)
    have h5 : (-(1 / 2 ^ 50) + 1 : ℚ) * (1 + 1 / 2 ^ 53)
        ≤ (1 - 1 / 2 ^ 53) * (1 - 1 / 2 ^ 53) * (1 - 1 / 2 ^ 53) * (1 - 1 / 2 ^ 53) := by
      norm_num
    linarith
  · rw [sub_le_iff_le_add, div_le_iff₀ hb0]
    have : (1 / 2 ^ 50 + 1 : ℚ) * (1 - 1 / 2 ^ 53) ≤ (1 / 2 ^ 50 + 1) * b :=
      mul_le_mul_of_nonneg_left hb.1 (by norm_num)
    have h5 : (1 + 1 / 2 ^ 53) * (1 + 1 / 2 ^ 53) * (1 + 1 / 2 ^ 53) * (1 + 1 / 2 ^ 53)
        ≤ (1 / 2 ^ 50 + 1 : ℚ) * (1 - 1 / 2 ^ 53) := by
      norm_num
    linarith

end Double

namespace IEEE
open Double

/-! ## One pair: the outputs against the table entries -/

/-- The quotient `(0.0 + A * Val) / (0.0 + Val)` for a finite `A` that is `x` up to one
rounding factor and a weight between `8e-5` and `2e35`: finite and within `2^-50 |x|`
of `x`. -/
theorem quotient_near (A V : Double) (x a0 : ℚ) (hA : A.IsFinite) (eA : A.toRat = x * a0)
    (ha0 : 1 - unitRoundoff ≤ a0 ∧ a0 ≤ 1 + unitRoundoff)
    (hx : ZeroOrBetween (1 / 10 ^ 100) (10 ^ 100) x) (hV : V.IsFinite)
    (lV : 8 / 100000 ≤ V.toRat) (uV : V.toRat ≤ 2 * 10 ^ 35) :
    ((0.0 + A * V) / (0.0 + V)).IsFinite ∧
    |((0.0 + A * V) / (0.0 + V)).toRat - x| ≤ |x| / 2 ^ 50 := by
  have hu := unitRoundoff_lt
  have hu0 := unitRoundoff_pos
  have hsmall : (1 : ℚ) / 2 ^ 52 ≤ 1 / 2 := by norm_num
  have hV0 : 0 < V.toRat := lt_of_lt_of_le (by norm_num) lV
  rw [lit_zero]
  -- the product
  have m0 : ZeroOrBetween (1 / 10 ^ 100 / 2) (2 * 10 ^ 100) (x * a0) := by
    have := hx.mul_rounding (d := a0 - 1) (by rw [abs_le]; constructor <;> linarith)
    rwa [add_sub_cancel] at this
  have m1 : ZeroOrBetween (1 / 10 ^ 100 / 2 * (8 / 100000)) (2 * 10 ^ 100 * (2 * 10 ^ 35))
      (A.toRat * V.toRat) := by
    rw [eA]; exact m0.mul_pos (by norm_num) lV uV
  obtain ⟨fP, d1, hd1, eP⟩ := mul_factor A V hA hV (m1.mono (by norm_num) (by norm_num))
  have m2 := m1.mul_rounding hd1
  rw [← eP] at m2
  -- the two sums
  obtain ⟨fK, d2, hd2, eK⟩ := add_factor (num 0) (A * V) (num_finite _) fP (by
    rw [toRat_num, zero_add]; exact m2.mono (by norm_num) (by norm_num))
  rw [toRat_num, zero_add] at eK
  have m3 := m2.mul_rounding hd2
  rw [← eK] at m3
  obtain ⟨fS, d3, hd3, eS⟩ := add_factor (num 0) V (num_finite _) hV (by
    right
    rw [toRat_num, zero_add, abs_of_pos hV0]
    exact ⟨by linarith [show (1 : ℚ) / 10 ^ 300 ≤ 8 / 100000 by norm_num],
      by linarith [show (2 : ℚ) * 10 ^ 35 ≤ 10 ^ 300 by norm_num]⟩)
  rw [toRat_num, zero_add] at eS
  obtain ⟨b1, b2⟩ := one_add_bounds d3 hd3
  have hS0 : 0 < (num 0 + V).toRat := by
    rw [eS]; exact mul_pos hV0 (by linarith)
  have lS : 8 / 100000 / 2 ≤ (num 0 + V).toRat := by
    rw [eS]
    calc (8 : ℚ) / 100000 / 2 = 8 / 100000 * (1 / 2) := by ring
      _ ≤ V.toRat * (1 + d3) := mul_le_mul lV (by linarith) (by norm_num) hV0.le
  have uS : (num 0 + V).toRat ≤ 2 * 10 ^ 35 * 2 := by
    rw [eS]
    exact mul_le_mul uV (by linarith) (by linarith) (by positivity)
  -- the quotient
  have m4 := m3.div_pos (by norm_num) lS uS
  obtain ⟨fR, d4, hd4, eR⟩ := div_factor (num 0 + A * V) (num 0 + V) fK fS hS0.ne'
    (m4.mono (by norm_num) (by norm_num))
  refine ⟨fR, ?_⟩
  have hval : ((num 0 + A * V) / (num 0 + V)).toRat
      = x * (a0 * (1 + d1) * (1 + d2) * (1 + d4) / (1 + d3)) := by
    rw [eR, eK, eP, eS, eA]
    have : (1 + d3) ≠ 0 := by linarith
    field_simp
    ring
  rw [hval]
  have hr := ratio_near_one a0 (1 + d1) (1 + d2) (1 + d4) (1 + d3) ha0 (one_add_bounds d1 hd1)
    (one_add_bounds d2 hd2) (one_add_bounds d4 hd4) (one_add_bounds d3 hd3)
  rw [show x * (a0 * (1 + d1) * (1 + d2) * (1 + d4) / (1 + d3)) - x
      = x * (a0 * (1 + d1) * (1 + d2) * (1 + d4) / (1 + d3) - 1) by ring, abs_mul]
  calc |x| * |a0 * (1 + d1) * (1 + d2) * (1 + d4) / (1 + d3) - 1| ≤ |x| * (1 / 2 ^ 50) :=
        mul_le_mul_of_nonneg_left hr (abs_nonneg x)
    _ = |x| / 2 ^ 50 := by ring

theorem num_mul_one (x : ℚ) (hx : ZeroOrBetween (1 / 10 ^ 100) (10 ^ 100) x) :
    (num x * (1.0 : Double)).IsFinite ∧
    ∃ a0 : ℚ, (1 - unitRoundoff ≤ a0 ∧ a0 ≤ 1 + unitRoundoff) ∧
      (num x * (1.0 : Double)).toRat = x * a0 := by
  rw [lit_one]
  obtain ⟨f, d, hd, e⟩ := mul_factor (num x) (num 1) (num_finite _) (num_finite _) (by
    rw [toRat_num, toRat_num, mul_one]
    exact hx.mono (by norm_num) (by norm_num))
  rw [toRat_num, toRat_num, mul_one] at e
  exact ⟨f, 1 + d, one_add_bounds d hd, e⟩

end IEEE

theorem length_pairs_le (N : Nat) : (pairs N).length ≤ N * N := by
  have h1 : (pairs N).toFinset ⊆ Finset.range N ×ˢ Finset.range N := by
    intro p hp
    rw [List.mem_toFinset] at hp
    obtain ⟨a, b⟩ := pairs_lt hp
    simp only [Finset.mem_product, Finset.mem_range]
    omega
  have h2 := Finset.card_le_card h1
  rw [List.toFinset_card_of_nodup (nodup_pairs N), Finset.card_product, Finset.card_range] at h2
  exact h2

namespace Double

/-! ## Accumulated rounding factors -/

theorem pow_one_sub_bounds (i : Nat) (hi : i ≤ 2000000) :
    1 / 2 ≤ (1 - unitRoundoff) ^ i ∧ (1 - unitRoundoff) ^ i ≤ 1 := by
  have hu : unitRoundoff = 1 / 2 ^ 53 := rfl
  constructor
  · have h := one_add_mul_le_pow (a := -unitRoundoff) (by rw [hu]; norm_num) i
    rw [← sub_eq_add_neg] at h
    have hi2 : (i : ℚ) ≤ 2000000 := by exact_mod_cast hi
    have : (i : ℚ) * unitRoundoff ≤ 2000000 * unitRoundoff :=
      mul_le_mul_of_nonneg_right hi2 unitRoundoff_pos.le
    have h3 : (2000000 : ℚ) * unitRoundoff ≤ 1 / 2 := by rw [hu]; norm_num
    linarith
  · exact pow_le_one₀ (by rw [hu]; norm_num) (by rw [hu]; norm_num)

theorem pow_one_add_bounds (i : Nat) (hi : i ≤ 2000000) :
    1 ≤ (1 + unitRoundoff) ^ i ∧ (1 + unitRoundoff) ^ i ≤ 2 := by
  have hu : unitRoundoff = 1 / 2 ^ 53 := rfl
  obtain ⟨l, -⟩ := pow_one_sub_bounds i hi
  constructor
  · exact one_le_pow₀ (by rw [hu]; norm_num)
  · have hprod : (1 + unitRoundoff) ^ i * (1 - unitRoundoff) ^ i ≤ 1 := by
      rw [← mul_pow]
      apply pow_le_one₀
      · rw [hu]; norm_num
      · rw [hu]; norm_num
    have hp : 0 < (1 + unitRoundoff) ^ i := pow_pos (by rw [hu]; norm_num) i
    nlinarith

/-- One more term under an upper bound: `X ≤ c r T` and `Y ≤ c w V` with `w ≤ r` give
`(X + Y) f ≤ c (r (1 + u)) (T + V)` for a rounding factor `f`. -/
theorem sum_step_upper (c r w T V X Y f : ℚ) (hc : 0 ≤ c) (hV : 0 ≤ V) (hw : w ≤ r)
    (hX : X ≤ c * r * T) (hY : Y ≤ c * w * V) (h0 : 0 ≤ X + Y)
    (hf : f ≤ 1 + unitRoundoff) :
    (X + Y) * f ≤ c * (r * (1 + unitRoundoff)) * (T + V) := by
  have hu := unitRoundoff_pos
  have h1 : (X + Y) * f ≤ (X + Y) * (1 + unitRoundoff) := mul_le_mul_of_nonneg_left hf h0
  have h2 : c * w * V ≤ c * r * V := by
    apply mul_le_mul_of_nonneg_right _ hV
    exact mul_le_mul_of_nonneg_left hw hc
  have h3 : (X + Y) * (1 + unitRoundoff) ≤ (c * r * T + c * r * V) * (1 + unitRoundoff) :=
    mul_le_mul_of_nonneg_right (by linarith) (by linarith)
  calc (X + Y) * f ≤ (c * r * T + c * r * V) * (1 + unitRoundoff) := le_trans h1 h3
    _ = c * (r * (1 + unitRoundoff)) * (T + V) := by ring

/-- One more term under a lower bound: `c r T ≤ X` and `c w V ≤ Y` with `r ≤ w` give
`c (r (1 - u)) (T + V) ≤ (X + Y) f` for a rounding factor `f`. -/
theorem sum_step_lower (c r w T V X Y f : ℚ) (hc : 0 ≤ c) (hV : 0 ≤ V) (hw : r ≤ w)
    (hX : c * r * T ≤ X) (hY : c * w * V ≤ Y) (h0 : 0 ≤ X + Y)
    (hf : 1 - unitRoundoff ≤ f) :
    c * (r * (1 - unitRoundoff)) * (T + V) ≤ (X + Y) * f := by
  have hu := unitRoundoff_lt
  have h1 : (X + Y) * (1 - unitRoundoff) ≤ (X + Y) * f := mul_le_mul_of_nonneg_left hf h0
  have h2 : c * r * V ≤ c * w * V := by
    apply mul_le_mul_of_nonneg_right _ hV
    exact mul_le_mul_of_nonneg_left hw hc
  have h4 : (0 : ℚ) ≤ 1 - unitRoundoff := by
    have : (1 : ℚ) / 2 ^ 52 ≤ 1 := by norm_num
    linarith
  have h3 : (c * r * T + c * r * V) * (1 - unitRoundoff) ≤ (X + Y) * (1 - unitRoundoff) :=
    mul_le_mul_of_nonneg_right (by linarith) h4
  calc c * (r * (1 - unitRoundoff)) * (T + V)
      = (c * r * T + c * r * V) * (1 - unitRoundoff) := by ring
    _ ≤ (X + Y) * f := le_trans h3 h1

end Double

namespace IEEE
open Double

/-! ## The sums of the pair loop in binary64 arithmetic -/

/-- One more term `A * Val` added to a sum that is within its bounds after `i` pairs: the new
sum is finite and within the bounds for `i + 1` pairs. -/
theorem accumulate_term (lo hi : ℚ) (hlo : 1 / 10 ^ 100 ≤ lo) (hhi : hi ≤ 10 ^ 100) (i : Nat)
    (hi6 : i < 1000000) (T : ℚ) (hT0 : 0 ≤ T) (hT : T ≤ 2 * 10 ^ 35 * (i : ℚ))
    (K A V : Double) (x a0 : ℚ) (fK : K.IsFinite)
    (lK : lo * (1 - unitRoundoff) ^ (i + 2) * T ≤ K.toRat)
    (uK : K.toRat ≤ hi * (1 + unitRoundoff) ^ (i + 2) * T) (hA : A.IsFinite)
    (eA : A.toRat = x * a0) (ha0 : 1 - unitRoundoff ≤ a0 ∧ a0 ≤ 1 + unitRoundoff)
    (hx : lo ≤ x ∧ x ≤ hi) (hV : V.IsFinite) (lV : 8 / 100000 ≤ V.toRat)
    (uV : V.toRat ≤ 2 * 10 ^ 35) :
    (K + A * V).IsFinite ∧
    lo * (1 - unitRoundoff) ^ (i + 1 + 2) * (T + V.toRat) ≤ (K + A * V).toRat ∧
    (K + A * V).toRat ≤ hi * (1 + unitRoundoff) ^ (i + 1 + 2) * (T + V.toRat) := by
  have hu := unitRoundoff_lt
  have hu0 := unitRoundoff_pos
  have hsmall : (1 : ℚ) / 2 ^ 52 ≤ 1 / 2 := by norm_num
  have hlo0 : 0 < lo := lt_of_lt_of_le (by norm_num) hlo
  have hx0 : 0 < x := lt_of_lt_of_le hlo0 hx.1
  have hhi0 : 0 < hi := lt_of_lt_of_le hx0 hx.2
  have hV0 : 0 < V.toRat := lt_of_lt_of_le (by norm_num) lV
  have ha00 : 0 < a0 := by linarith [ha0.1]
  obtain ⟨pl, pu⟩ := pow_one_sub_bounds (i + 2) (by omega)
  obtain ⟨ql, qu⟩ := pow_one_add_bounds (i + 2) (by omega)
  have hi6q : (i : ℚ) ≤ 1000000 := by exact_mod_cast hi6.le
  have hTu : T ≤ 2 * 10 ^ 41 := by
    have : (2 : ℚ) * 10 ^ 35 * (i : ℚ) ≤ 2 * 10 ^ 35 * 1000000 :=
      mul_le_mul_of_nonneg_left hi6q (by positivity)
    have e : (2 : ℚ) * 10 ^ 35 * 1000000 = 2 * 10 ^ 41 := by norm_num
    linarith
  -- the product
  have zx : ZeroOrBetween (1 / 10 ^ 100) (10 ^ 100) x :=
    Or.inr ⟨by rw [abs_of_pos hx0]; linarith, by rw [abs_of_pos hx0]; linarith⟩
  have m0 : ZeroOrBetween (1 / 10 ^ 100 / 2) (2 * 10 ^ 100) (x * a0) := by
    have := zx.mul_rounding (d := a0 - 1) (by rw [abs_le]; constructor <;> linarith [ha0.1, ha0.2])
    rwa [add_sub_cancel] at this
  have m1 : ZeroOrBetween (1 / 10 ^ 100 / 2 * (8 / 100000)) (2 * 10 ^ 100 * (2 * 10 ^ 35))
      (A.toRat * V.toRat) := by
    rw [eA]; exact m0.mul_pos (by norm_num) lV uV
  obtain ⟨fP, d1, hd1, eP⟩ := mul_factor A V hA hV (m1.mono (by norm_num) (by norm_num))
  obtain ⟨e1, e2⟩ := one_add_bounds d1 hd1
  have hP0 : 0 < (A * V).toRat := by
    rw [eP, eA]
    have : 0 < 1 + d1 := by linarith
    exact mul_pos (mul_pos (mul_pos hx0 ha00) hV0) this
  have lP : lo * (1 - unitRoundoff) ^ 2 * V.toRat ≤ (A * V).toRat := by
    rw [eP, eA, pow_two]
    have h1 : lo * (1 - unitRoundoff) ≤ x * a0 :=
      mul_le_mul hx.1 ha0.1 (by linarith) hx0.le
    have h2 : lo * (1 - unitRoundoff) * V.toRat ≤ x * a0 * V.toRat :=
      mul_le_mul_of_nonneg_right h1 hV0.le
    have h3 : lo * (1 - unitRoundoff) * V.toRat * (1 - unitRoundoff)
        ≤ x * a0 * V.toRat * (1 + d1) :=
      mul_le_mul h2 e1 (by linarith) (mul_pos (mul_pos hx0 ha00) hV0).le
    calc lo * ((1 - unitRoundoff) * (1 - unitRoundoff)) * V.toRat
        = lo * (1 - unitRoundoff) * V.toRat * (1 - unitRoundoff) := by ring
      _ ≤ x * a0 * V.toRat * (1 + d1) := h3
  have uP : (A * V).toRat ≤ hi * (1 + unitRoundoff) ^ 2 * V.toRat := by
    rw [eP, eA, pow_two]
    have h1 : x * a0 ≤ hi * (1 + unitRoundoff) :=
      mul_le_mul hx.2 ha0.2 ha00.le hhi0.le
    have h2 : x * a0 * V.toRat ≤ hi * (1 + unitRoundoff) * V.toRat :=
      mul_le_mul_of_nonneg_right h1 hV0.le
    have h3 : x * a0 * V.toRat * (1 + d1)
        ≤ hi * (1 + unitRoundoff) * V.toRat * (1 + unitRoundoff) :=
      mul_le_mul h2 e2 (by linarith)
        (mul_pos (mul_pos hhi0 (by linarith)) hV0).le
    calc x * a0 * V.toRat * (1 + d1)
        ≤ hi * (1 + unitRoundoff) * V.toRat * (1 + unitRoundoff) := h3
      _ = hi * ((1 + unitRoundoff) * (1 + unitRoundoff)) * V.toRat := by ring
  have m2 := m1.mul_rounding hd1
  rw [← eP] at m2
  -- the sum
  have hK0 : 0 ≤ K.toRat :=
    le_trans (mul_nonneg (mul_nonneg hlo0.le (by linarith)) hT0) lK
  have hKu : K.toRat ≤ 10 ^ 100 * 2 * (2 * 10 ^ 41) := by
    calc K.toRat ≤ hi * (1 + unitRoundoff) ^ (i + 2) * T := uK
      _ ≤ 10 ^ 100 * 2 * (2 * 10 ^ 41) :=
        mul_le_mul (mul_le_mul hhi qu (by linarith) (by norm_num)) hTu hT0 (by norm_num)
  have hsum : ZeroOrBetween (1 / 10 ^ 300) (10 ^ 300) (K.toRat + (A * V).toRat) := by
    right
    rw [abs_of_pos (by linarith)]
    rcases m2 with m2 | ⟨m2l, m2u⟩
    · exact absurd m2 hP0.ne'
    · rw [abs_of_pos hP0] at m2l m2u
      constructor
      · have : (1 : ℚ) / 10 ^ 300 ≤ 1 / 10 ^ 100 / 2 * (8 / 100000) / 2 := by norm_num
        linarith
      · have : (10 : ℚ) ^ 100 * 2 * (2 * 10 ^ 41) + 2 * (2 * 10 ^ 100 * (2 * 10 ^ 35))
            ≤ 10 ^ 300 := by norm_num
        linarith
  obtain ⟨fS, d2, hd2, eS⟩ := add_factor K (A * V) fK fP hsum
  obtain ⟨g1, g2⟩ := one_add_bounds d2 hd2
  refine ⟨fS, ?_, ?_⟩
  · rw [eS, pow_succ (1 - unitRoundoff) (i + 2)]
    exact sum_step_lower lo ((1 - unitRoundoff) ^ (i + 2)) ((1 - unitRoundoff) ^ 2) T V.toRat
      K.toRat (A * V).toRat (1 + d2) hlo0.le hV0.le
      (pow_le_pow_of_le_one (by linarith) (by linarith) (by omega)) lK lP (by linarith) g1
  · rw [eS, pow_succ (1 + unitRoundoff) (i + 2)]
    exact sum_step_upper hi ((1 + unitRoundoff) ^ (i + 2)) ((1 + unitRoundoff) ^ 2) T V.toRat
      K.toRat (A * V).toRat (1 + d2) hhi0.le hV0.le
      (pow_le_pow_right₀ (by linarith) (by omega)) uK uP (by linarith) g2

end IEEE

namespace IEEE
open Double

/-- The weight `Val` added to `sum_val` when that sum is within its bounds after `i` pairs: the
new sum is finite and within the bounds for `i + 1` pairs. -/
theorem accumulate_weight (i : Nat) (hi6 : i < 1000000) (T : ℚ) (hT0 : 0 ≤ T)
    (hT : T ≤ 2 * 10 ^ 35 * (i : ℚ)) (S V : Double) (fS : S.IsFinite)
    (lS : (1 - unitRoundoff) ^ i * T ≤ S.toRat) (uS : S.toRat ≤ (1 + unitRoundoff) ^ i * T)
    (hV : V.IsFinite) (lV : 8 / 100000 ≤ V.toRat) (uV : V.toRat ≤ 2 * 10 ^ 35) :
    (S + V).IsFinite ∧ (1 - unitRoundoff) ^ (i + 1) * (T + V.toRat) ≤ (S + V).toRat ∧
    (S + V).toRat ≤ (1 + unitRoundoff) ^ (i + 1) * (T + V.toRat) := by
  have hu := unitRoundoff_lt
  have hu0 := unitRoundoff_pos
  have hsmall : (1 : ℚ) / 2 ^ 52 ≤ 1 / 2 := by norm_num
  have hV0 : 0 < V.toRat := lt_of_lt_of_le (by norm_num) lV
  obtain ⟨pl, pu⟩ := pow_one_sub_bounds i (by omega)
  obtain ⟨ql, qu⟩ := pow_one_add_bounds i (by omega)
  have hi6q : (i : ℚ) ≤ 1000000 := by exact_mod_cast hi6.le
  have hTu : T ≤ 2 * 10 ^ 41 := by
    have : (2 : ℚ) * 10 ^ 35 * (i : ℚ) ≤ 2 * 10 ^ 35 * 1000000 :=
      mul_le_mul_of_nonneg_left hi6q (by norm_num)
    have e : (2 : ℚ) * 10 ^ 35 * 1000000 = 2 * 10 ^ 41 := by norm_num
    linarith
  have hS0 : 0 ≤ S.toRat := le_trans (mul_nonneg (by linarith) hT0) lS
  have hSu : S.toRat ≤ 2 * (2 * 10 ^ 41) :=
    le_trans uS (mul_le_mul qu hTu hT0 (by norm_num))
  have hsum : ZeroOrBetween (1 / 10 ^ 300) (10 ^ 300) (S.toRat + V.toRat) := by
    right
    rw [abs_of_pos (by linarith)]
    constructor
    · have : (1 : ℚ) / 10 ^ 300 ≤ 8 / 100000 := by norm_num
      linarith
    · have : (2 : ℚ) * (2 * 10 ^ 41) + 2 * 10 ^ 35 ≤ 10 ^ 300 := by norm_num
      linarith
  obtain ⟨fSV, d, hd, e⟩ := add_factor S V fS hV hsum
  obtain ⟨g1, g2⟩ := one_add_bounds d hd
  refine ⟨fSV, ?_, ?_⟩
  · rw [e, pow_succ]
    have := sum_step_lower 1 ((1 - unitRoundoff) ^ i) 1 T V.toRat S.toRat V.toRat (1 + d)
      zero_le_one hV0.le pu (by rw [one_mul]; exact lS) (by rw [one_mul, one_mul]) (by linarith) g1
    rwa [one_mul] at this
  · rw [e, pow_succ]
    have := sum_step_upper 1 ((1 + unitRoundoff) ^ i) 1 T V.toRat S.toRat V.toRat (1 + d)
      zero_le_one hV0.le ql (by rw [one_mul]; exact uS) (by rw [one_mul, one_mul]) (by linarith) g2
    rwa [one_mul] at this

/-- The literal `1.0` is the number 1. -/
theorem lit_one_toRat : ((1.0 : Double)).toRat = 1 := by rw [lit_one, toRat_num]

/-- One pass of the pair loop without inclination dependence keeps the sums within their
bounds. -/
theorem evalStep_sums (F : MathFns Double) (P : Params Double) (M : Members Double)
    (q : QpInput Double) (hinc : P.inclination_anisotropy = false) (lo hi lo2 hi2 : ℚ)
    (hlo : 1 / 10 ^ 100 ≤ lo) (hhi : hi ≤ 10 ^ 100) (hlo2 : 1 / 10 ^ 100 ≤ lo2)
    (hhi2 : hi2 ≤ 10 ^ 100) (i : Nat) (hi6 : i < 1000000) (T : ℚ) (a : EvalAcc Double)
    (h : SumsWithin lo hi lo2 hi2 i T a) (p : Nat × Nat) (vm vn k g : ℚ)
    (hm : q.vals p.1 = num vm) (hn : q.vals p.2 = num vn) (bm : |vm| ≤ 1000000)
    (bn : |vn| ≤ 1000000) (hk : M.kappa_gamma p.1 p.2 = num k)
    (hg : M.kappa_gamma p.2 p.1 = num g) (hkb : lo ≤ k ∧ k ≤ hi) (hgb : lo2 ≤ g ∧ g ≤ hi2) :
    ∃ a1, evalStep F P M q a p = Except.ok a1 ∧
      SumsWithin lo hi lo2 hi2 (i + 1) (T + (pairVal q.vals p.1 p.2).toRat) a1 := by
  obtain ⟨hf, fS, fK, fG, lT, uT, lS, uS, lK, uK, lG, uG⟩ := h
  have hu0 := unitRoundoff_pos
  obtain ⟨fV, lV, uV⟩ := pairVal_finite q.vals p.1 p.2 vm vn hm hn bm bn
  have hT0 : 0 ≤ T := le_trans (mul_nonneg (by norm_num) (Nat.cast_nonneg i)) lT
  have hk0 : 0 < k := lt_of_lt_of_le (lt_of_lt_of_le (by norm_num) hlo) hkb.1
  have zk : ZeroOrBetween (1 / 10 ^ 100) (10 ^ 100) k :=
    Or.inr ⟨by rw [abs_of_pos hk0]; linarith [hkb.1], by rw [abs_of_pos hk0]; linarith [hkb.2]⟩
  obtain ⟨fA, a0, ha0, eA⟩ := num_mul_one k zk
  obtain ⟨s1, s2, s3⟩ := accumulate_weight i hi6 T hT0 uT a.sum_val (pairVal q.vals p.1 p.2)
    fS lS uS fV lV uV
  obtain ⟨k1, k2, k3⟩ := accumulate_term lo hi hlo hhi i hi6 T hT0 uT a.sum_kappa
    (num k * (1.0 : Double)) (pairVal q.vals p.1 p.2) k a0 fK lK uK fA eA ha0 hkb fV lV uV
  obtain ⟨g1, g2, g3⟩ := accumulate_term lo2 hi2 hlo2 hhi2 i hi6 T hT0 uT a.sum_gamma
    (num g) (pairVal q.vals p.1 p.2) g 1 fG lG uG (num_finite g) (by rw [toRat_num, mul_one])
    ⟨by linarith, by linarith⟩ hgb fV lV uV
  refine ⟨_, by simp only [evalStep, hinc]; rfl, ?_⟩
  simp only [accumulate, SumsWithin, hf, hk, hg]
  refine ⟨trivial, s1, k1, g1, ?_, ?_, s2, s3, k2, k3, g2, g3⟩
  · push_cast; linarith
  · push_cast; linarith

end IEEE

namespace Double

/-- Growth of the accumulated rounding factor: `(1 + u)^k ≤ 1 + 2 k u`. -/
theorem pow_one_add_le (k : Nat) (hk : k ≤ 2000000) :
    (1 + unitRoundoff) ^ k ≤ 1 + 2 * (k : ℚ) * unitRoundoff := by
  have hu : unitRoundoff = 1 / 2 ^ 53 := rfl
  have hu0 := unitRoundoff_pos
  induction k with
  | zero => simp
  | succ k ih =>
    have ih2 := ih (by omega)
    have hk2 : (k : ℚ) ≤ 2000000 := by exact_mod_cast (by omega : k ≤ 2000000)
    have h1 : 2 * (k : ℚ) * unitRoundoff ≤ 1 := by
      rw [hu]
      have : 2 * (k : ℚ) * (1 / 2 ^ 53) ≤ 2 * 2000000 * (1 / 2 ^ 53) := by
        apply mul_le_mul_of_nonneg_right _ (by norm_num)
        linarith
      exact le_trans this (by norm_num)
    have h2 : 2 * (k : ℚ) * unitRoundoff * unitRoundoff ≤ unitRoundoff :=
      mul_le_of_le_one_left hu0.le h1
    rw [pow_succ]
    calc (1 + unitRoundoff) ^ k * (1 + unitRoundoff)
        ≤ (1 + 2 * (k : ℚ) * unitRoundoff) * (1 + unitRoundoff) :=
          mul_le_mul_of_nonneg_right ih2 (by linarith)
      _ = 1 + 2 * (k : ℚ) * unitRoundoff + unitRoundoff
            + 2 * (k : ℚ) * unitRoundoff * unitRoundoff := by ring
      _ ≤ 1 + 2 * ((k + 1 : Nat) : ℚ) * unitRoundoff := by push_cast; linarith

/-- Decay of the accumulated rounding factor: `1 - k u ≤ (1 - u)^k`. -/
theorem pow_one_sub_ge (k : Nat) : 1 - (k : ℚ) * unitRoundoff ≤ (1 - unitRoundoff) ^ k := by
  have hu : unitRoundoff = 1 / 2 ^ 53 := rfl
  have h := one_add_mul_le_pow (a := -unitRoundoff) (by rw [hu]; norm_num) k
  rw [← sub_eq_add_neg] at h
  linarith

/-- The rounding accumulated by `n` pairs and the final division, as one relative excess. -/
theorem ratio_upper (n : Nat) (hn : n ≤ 1000000) :
    (1 + unitRoundoff) ^ (n + 3) ≤ (1 + ((n : ℚ) + 2) / 2 ^ 50) * (1 - unitRoundoff) ^ n := by
  have hu : unitRoundoff = 1 / 2 ^ 53 := rfl
  have h1 := pow_one_add_le (n + 3) (by omega)
  have h2 := pow_one_sub_ge n
  have hn2 : (n : ℚ) ≤ 1000000 := by exact_mod_cast hn
  have hn0 : (0 : ℚ) ≤ (n : ℚ) := Nat.cast_nonneg n
  have e : ((n : ℚ) + 2) / 2 ^ 50 = 8 * ((n : ℚ) + 2) * unitRoundoff := by rw [hu]; ring
  have hnu : (n : ℚ) * unitRoundoff ≤ 1 / 2 := by
    rw [hu]
    have : (n : ℚ) * (1 / 2 ^ 53) ≤ 1000000 * (1 / 2 ^ 53) :=
      mul_le_mul_of_nonneg_right hn2 (by norm_num)
    exact le_trans this (by norm_num)
  have hnu0 : 0 ≤ (n : ℚ) * unitRoundoff := mul_nonneg hn0 unitRoundoff_pos.le
  have hpos : 0 ≤ 1 + ((n : ℚ) + 2) / 2 ^ 50 := by
    have : 0 ≤ ((n : ℚ) + 2) / 2 ^ 50 := div_nonneg (by linarith) (by norm_num)
    linarith
  have key : 1 + 2 * (((n + 3 : Nat) : ℚ)) * unitRoundoff
      ≤ (1 + ((n : ℚ) + 2) / 2 ^ 50) * (1 - (n : ℚ) * unitRoundoff) := by
    rw [e]
    push_cast
    have hx : 0 ≤ 8 * ((n : ℚ) + 2) * unitRoundoff * (1 / 2 - (n : ℚ) * unitRoundoff) :=
      mul_nonneg (mul_nonneg (by linarith) unitRoundoff_pos.le) (by linarith)
    have hu0 := unitRoundoff_pos
    nlinarith
  calc (1 + unitRoundoff) ^ (n + 3) ≤ 1 + 2 * (((n + 3 : Nat) : ℚ)) * unitRoundoff := h1
    _ ≤ (1 + ((n : ℚ) + 2) / 2 ^ 50) * (1 - (n : ℚ) * unitRoundoff) := key
    _ ≤ (1 + ((n : ℚ) + 2) / 2 ^ 50) * (1 - unitRoundoff) ^ n :=
      mul_le_mul_of_nonneg_left h2 hpos

/-- The rounding accumulated by `n` pairs and the final division, as one relative deficit. -/
theorem ratio_lower (n : Nat) (hn : n ≤ 1000000) :
    (1 - ((n : ℚ) + 2) / 2 ^ 50) * (1 + unitRoundoff) ^ n ≤ (1 - unitRoundoff) ^ (n + 3) := by
  have hu : unitRoundoff = 1 / 2 ^ 53 := rfl
  have h1 := pow_one_add_le n (by omega)
  have h2 := pow_one_sub_ge (n + 3)
  have hn2 : (n : ℚ) ≤ 1000000 := by exact_mod_cast hn
  have hn0 : (0 : ℚ) ≤ (n : ℚ) := Nat.cast_nonneg n
  have e : ((n : ℚ) + 2) / 2 ^ 50 = 8 * ((n : ℚ) + 2) * unitRoundoff := by rw [hu]; ring
  have hd1 : ((n : ℚ) + 2) / 2 ^ 50 ≤ 1 := by
    rw [div_le_iff₀ (by norm_num)]
    have : (1000000 : ℚ) + 2 ≤ 1 * 2 ^ 50 := by norm_num
    linarith
  have hnu0 : 0 ≤ (n : ℚ) * unitRoundoff := mul_nonneg hn0 unitRoundoff_pos.le
  have hu0 := unitRoundoff_pos
  have key : (1 - ((n : ℚ) + 2) / 2 ^ 50) * (1 + 2 * (n : ℚ) * unitRoundoff)
      ≤ 1 - (((n + 3 : Nat) : ℚ)) * unitRoundoff := by
    rw [e]
    push_cast
    have hx : 0 ≤ 8 * ((n : ℚ) + 2) * unitRoundoff * (2 * (n : ℚ) * unitRoundoff) :=
      mul_nonneg (mul_nonneg (by linarith) hu0.le) (by linarith)
    nlinarith
  calc (1 - ((n : ℚ) + 2) / 2 ^ 50) * (1 + unitRoundoff) ^ n
      ≤ (1 - ((n : ℚ) + 2) / 2 ^ 50) * (1 + 2 * (n : ℚ) * unitRoundoff) :=
        mul_le_mul_of_nonneg_left h1 (by linarith)
    _ ≤ 1 - (((n + 3 : Nat) : ℚ)) * unitRoundoff := key
    _ ≤ (1 - unitRoundoff) ^ (n + 3) := h2

end Double

namespace IEEE
open Double

/-- The division of lines 227-228: an accumulated sum within its bounds after `n ≥ 1` pairs,
divided by the accumulated weight, is finite and within the relative distance
`(n + 2) / 2 ^ 50` of the interval of the table entries. -/
theorem quotient_within (lo hi : ℚ) (hlo : 1 / 10 ^ 100 ≤ lo) (hlh : lo ≤ hi)
    (hhi : hi ≤ 10 ^ 100) (n : Nat) (hn1 : 1 ≤ n) (hn6 : n ≤ 1000000) (T : ℚ)
    (lT : 8 / 100000 * (n : ℚ) ≤ T) (K S : Double) (fK : K.IsFinite) (fS : S.IsFinite)
    (lS : (1 - unitRoundoff) ^ n * T ≤ S.toRat) (uS : S.toRat ≤ (1 + unitRoundoff) ^ n * T)
    (lK : lo * (1 - unitRoundoff) ^ (n + 2) * T ≤ K.toRat)
    (uK : K.toRat ≤ hi * (1 + unitRoundoff) ^ (n + 2) * T) :
    (K / S).IsFinite ∧ lo * (1 - ((n : ℚ) + 2) / 2 ^ 50) ≤ (K / S).toRat ∧
    (K / S).toRat ≤ hi * (1 + ((n : ℚ) + 2) / 2 ^ 50) := by
  have hu := unitRoundoff_lt
  have hu0 := unitRoundoff_pos
  have hsmall : (1 : ℚ) / 2 ^ 52 ≤ 1 / 2 := by norm_num
  have hlo0 : 0 < lo := lt_of_lt_of_le (by norm_num) hlo
  have hhi0 : 0 < hi := lt_of_lt_of_le hlo0 hlh
  have hn1q : (1 : ℚ) ≤ (n : ℚ) := by exact_mod_cast hn1
  have hT0 : 0 < T := lt_of_lt_of_le (by linarith) lT
  obtain ⟨pl, pu⟩ := pow_one_sub_bounds n (by omega)
  obtain ⟨ql, qu⟩ := pow_one_add_bounds n (by omega)
  obtain ⟨pl2, pu2⟩ := pow_one_sub_bounds (n + 2) (by omega)
  obtain ⟨ql2, qu2⟩ := pow_one_add_bounds (n + 2) (by omega)
  set A := (1 - unitRoundoff) ^ (n + 2) with hA
  set B := (1 + unitRoundoff) ^ n with hB
  set C := (1 + unitRoundoff) ^ (n + 2) with hC
  set D := (1 - unitRoundoff) ^ n with hD
  have hS0 : 0 < S.toRat := lt_of_lt_of_le (mul_pos (by linarith) hT0) lS
  have hK0 : 0 < K.toRat := lt_of_lt_of_le (mul_pos (mul_pos hlo0 (by linarith)) hT0) lK
  have hBT : 0 < B * T := mul_pos (by linarith) hT0
  have hDT : 0 < D * T := mul_pos (by linarith) hT0
  -- the exact quotient
  have q1 : lo * A / B ≤ K.toRat / S.toRat := by
    have : lo * A / B = lo * A * T / (B * T) := by field_simp; ring
    rw [this]
    exact div_le_div₀ hK0.le lK hS0 uS
  have q2 : K.toRat / S.toRat ≤ hi * C / D := by
    have : hi * C / D = hi * C * T / (D * T) := by field_simp; ring
    rw [this]
    exact div_le_div₀ (mul_nonneg (mul_nonneg hhi0.le (by linarith)) hT0.le) uK hDT lS
  have hq0 : 0 < K.toRat / S.toRat := div_pos hK0 hS0
  have m1 : 1 / 10 ^ 300 ≤ K.toRat / S.toRat := by
    have h1 : lo * (1 / 2) / 2 ≤ lo * A / B :=
      div_le_div₀ (mul_nonneg hlo0.le (by linarith)) (mul_le_mul_of_nonneg_left pl2 hlo0.le)
        (by linarith) qu
    have h2 : (1 : ℚ) / 10 ^ 300 ≤ 1 / 10 ^ 100 * (1 / 2) / 2 := by norm_num
    have h3 : (1 : ℚ) / 10 ^ 100 * (1 / 2) / 2 ≤ lo * (1 / 2) / 2 := by linarith
    linarith
  have m2 : K.toRat / S.toRat ≤ 10 ^ 300 := by
    have h1 : hi * C / D ≤ hi * 2 / (1 / 2) :=
      div_le_div₀ (mul_nonneg hhi0.le (by norm_num)) (mul_le_mul_of_nonneg_left qu2 hhi0.le)
        (by norm_num) pl
    have h2 : (10 : ℚ) ^ 100 * 2 / (1 / 2) ≤ 10 ^ 300 := by norm_num
    have h3 : hi * 2 / (1 / 2) ≤ 10 ^ 100 * 2 / (1 / 2) := by
      apply div_le_div_of_nonneg_right _ (by norm_num)
      linarith
    linarith
  obtain ⟨fQ, d, hd, e⟩ := div_factor K S fK fS hS0.ne'
    (Or.inr ⟨by rw [abs_of_pos hq0]; exact m1, by rw [abs_of_pos hq0]; exact m2⟩)
  obtain ⟨g1, g2⟩ := one_add_bounds d hd
  have hD0 : 0 < D := by linarith
  have hB0 : 0 < B := by linarith
  refine ⟨fQ, ?_, ?_⟩
  · rw [e]
    have r := ratio_lower n hn6
    rw [pow_succ (1 - unitRoundoff) (n + 2), ← hA, ← hB] at r
    have r2 : 1 - ((n : ℚ) + 2) / 2 ^ 50 ≤ A * (1 - unitRoundoff) / B := by
      rw [le_div_iff₀ hB0]; exact r
    calc lo * (1 - ((n : ℚ) + 2) / 2 ^ 50) ≤ lo * (A * (1 - unitRoundoff) / B) :=
          mul_le_mul_of_nonneg_left r2 hlo0.le
      _ = lo * A / B * (1 - unitRoundoff) := by ring
      _ ≤ K.toRat / S.toRat * (1 + d) :=
          mul_le_mul q1 g1 (by linarith) hq0.le
  · rw [e]
    have r := ratio_upper n hn6
    rw [pow_succ (1 + unitRoundoff) (n + 2), ← hC, ← hD] at r
    have r2 : C * (1 + unitRoundoff) / D ≤ 1 + ((n : ℚ) + 2) / 2 ^ 50 := by
      rw [div_le_iff₀ hD0]; exact r
    calc K.toRat / S.toRat * (1 + d) ≤ hi * C / D * (1 + unitRoundoff) :=
          mul_le_mul q2 g2 (by linarith)
            (div_nonneg (mul_nonneg hhi0.le (by linarith)) hD0.le)
      _ = hi * (C * (1 + unitRoundoff) / D) := by ring
      _ ≤ hi * (1 + ((n : ℚ) + 2) / 2 ^ 50) := mul_le_mul_of_nonneg_left r2 hhi0.le

/-- The pair loop without inclination dependence over any list of pairs keeps the sums within
their bounds. -/
theorem evalPairs_sums (F : MathFns Double) (P : Params Double) (M : Members Double)
    (q : QpInput Double) (hinc : P.inclination_anisotropy = false) (lo hi lo2 hi2 : ℚ)
    (hlo : 1 / 10 ^ 100 ≤ lo) (hhi : hi ≤ 10 ^ 100) (hlo2 : 1 / 10 ^ 100 ≤ lo2)
    (hhi2 : hi2 ≤ 10 ^ 100) (v : Nat → ℚ) (k : Nat → Nat → ℚ) (ps : List (Nat × Nat))
    (hv : ∀ p ∈ ps, (q.vals p.1 = num (v p.1) ∧ |v p.1| ≤ 1000000) ∧
      (q.vals p.2 = num (v p.2) ∧ |v p.2| ≤ 1000000))
    (hk : ∀ p ∈ ps, (M.kappa_gamma p.1 p.2 = num (k p.1 p.2) ∧
      M.kappa_gamma p.2 p.1 = num (k p.2 p.1)) ∧ (lo ≤ k p.1 p.2 ∧ k p.1 p.2 ≤ hi) ∧
      (lo2 ≤ k p.2 p.1 ∧ k p.2 p.1 ≤ hi2)) :
    ∀ (i : Nat) (T : ℚ) (a : EvalAcc Double), i + ps.length ≤ 1000000 →
      SumsWithin lo hi lo2 hi2 i T a →
      ∃ a1 T1, evalPairs F P M q ps a = Except.ok a1 ∧
        SumsWithin lo hi lo2 hi2 (i + ps.length) T1 a1 := by
  induction ps with
  | nil =>
    intro i T a _ h
    exact ⟨a, T, rfl, h⟩
  | cons p ps ih =>
    intro i T a hlen h
    rw [List.length_cons] at hlen
    obtain ⟨⟨v1, b1⟩, v2, b2⟩ := hv p (List.mem_cons_self _ _)
    obtain ⟨⟨k1, k2⟩, kb, gb⟩ := hk p (List.mem_cons_self _ _)
    obtain ⟨a1, e1, s1⟩ := evalStep_sums F P M q hinc lo hi lo2 hi2 hlo hhi hlo2 hhi2 i
      (by omega) T a h p (v p.1) (v p.2) (k p.1 p.2) (k p.2 p.1) v1 v2 b1 b2 k1 k2 kb gb
    obtain ⟨a2, T2, e2, s2⟩ := ih (fun p hp => hv p (List.mem_cons_of_mem _ hp))
      (fun p hp => hk p (List.mem_cons_of_mem _ hp)) (i + 1) _ a1 (by omega) s1
    refine ⟨a2, T2, ?_, ?_⟩
    · rw [evalPairs, e1]; exact e2
    · rw [List.length_cons, ← Nat.add_assoc, Nat.add_right_comm]
      exact (Nat.add_right_comm i 1 ps.length) ▸ s2

/-- The accumulators before the pair loop satisfy the bounds for no pair. -/
theorem initAcc_sums (M : Members Double) (lo hi lo2 hi2 : ℚ) :
    SumsWithin lo hi lo2 hi2 0 0 (initAcc M) := by
  have z : ((0.0 : Double)).toRat = 0 := by rw [lit_zero, toRat_num]
  have f : ((0.0 : Double)).IsFinite := by rw [lit_zero]; exact num_finite 0
  refine ⟨rfl, f, f, f, by norm_num, by norm_num, ?_, ?_, ?_, ?_, ?_, ?_⟩ <;>
    simp only [initAcc, z, mul_zero, le_refl]

end IEEE

namespace Double

theorem sub_num (a b : ℚ) : ∃ s, num a - num b = ofRat s (a - b) := by
  rw [sub_def]
  by_cases hb : b = 0
  · subst hb
    refine ⟨decide (a < 0), ?_⟩
    simp [neg, add, isNaN, isInf, toRat, signBit]
  · refine ⟨if a + -b = 0 then decide (a < 0) && decide (-b < 0) else decide (a + -b < 0), ?_⟩
    simp only [neg, if_neg hb, add, isNaN, isInf, toRat, Bool.or_self, Bool.false_eq_true,
      if_false, sub_eq_add_neg, signBit]

/-- Evaluation of a difference with a positive exact value. -/
theorem sub_eval (a b c : ℚ) (e m : ℤ) (he : -1022 ≤ e) (he2 : e ≤ 1022)
    (hc : c = m * 2 ^ (e - 52)) (h1 : (2 : ℚ) ^ e ≤ a - b) (h2 : a - b < 2 ^ (e + 1))
    (hm1 : (2 * (m : ℚ) - 1) * 2 ^ (e - 52) ≤ 2 * (a - b))
    (hm2 : 2 * (a - b) ≤ (2 * (m : ℚ) + 1) * 2 ^ (e - 52))
    (ht : (2 * (a - b) = (2 * (m : ℚ) - 1) * 2 ^ (e - 52)
      ∨ 2 * (a - b) = (2 * (m : ℚ) + 1) * 2 ^ (e - 52)) → m % 2 = 0) : num a - num b = num c := by
  obtain ⟨s, hs⟩ := sub_num a b
  rw [hs, ofRat_eval _ _ e m he he2 h1 h2 hm1 hm2 ht, hc]

end Double

namespace IEEE
open Double

theorem lit_guard : (1.0e-7 : Double) = num (944473296573929 / 2 ^ 73) :=
  lit_eval _ 1.0e-7 _ (-24) 7555786372591432 rfl (by norm_num) (by norm_num) (by norm_num)
    (by norm_num) (by norm_num) (by norm_num) (by norm_num) (by norm_num)

theorem lit_cos_half_pi :
    (6.123233995736766e-17 : Double) = num (4967757600021511 / 2 ^ 106) :=
  lit_eval _ 6.123233995736766e-17 _ (-54) 4967757600021511 rfl (by norm_num) (by norm_num)
    (by norm_num) (by norm_num) (by norm_num) (by norm_num) (by norm_num) (by norm_num)

theorem lit_half : (0.5 : Double) = num (1 / 2) :=
  lit_eval _ 0.5 _ (-1) 4503599627370496 rfl (by norm_num) (by norm_num) (by norm_num)
    (by norm_num) (by norm_num) (by norm_num) (by norm_num) (by norm_num)

/-- The local `cos_2phi` at the steep example point is the `double` after 1. -/
theorem cos_2phi_steep :
    cos_2phi_of exFns exInclined exSteepPoint 0 1 = num (4503599627370497 / 2 ^ 52) := by
  have a0 : (1000000009 : Double) = num 1000000009 := by rw [ofNat_def]; norm_num
  have b0 : (1000000008 : Double) = num 1000000008 := by rw [ofNat_def]; norm_num
  have ga : num 1000000009 - num 0 = num 1000000009 :=
    Double.sub_eval 1000000009 0 1000000009 29 (1000000009 * 2 ^ 23) (by norm_num)
      (by norm_num) (by norm_num) (by norm_num) (by norm_num) (by norm_num) (by norm_num)
      (by norm_num)
  have gb : num 1000000008 - num 0 = num 1000000008 :=
    Double.sub_eval 1000000008 0 1000000008 29 (1000000008 * 2 ^ 23) (by norm_num)
      (by norm_num) (by norm_num) (by norm_num) (by norm_num) (by norm_num) (by norm_num)
      (by norm_num)
  have h1 : num 1000000009 * num 1000000009
      = num 1000000018000000128 :=
    Double.mul_eval 1000000009 1000000009
      1000000018000000128 59 7812500140625001
      (by norm_num) (by norm_num) (by norm_num) (by norm_num)
      (by norm_num) (by norm_num) (by norm_num) (by norm_num)
  have h2 : num 1000000008 * num 1000000008
      = num 1000000016000000000 :=
    Double.mul_eval 1000000008 1000000008
      1000000016000000000 59 7812500125000000
      (by norm_num) (by norm_num) (by norm_num) (by norm_num)
      (by norm_num) (by norm_num) (by norm_num) (by norm_num)
  have h3 : num 1000000018000000128 + num 1000000016000000000
      = num 2000000034000000000 :=
    Double.add_eval 1000000018000000128 1000000016000000000
      2000000034000000000 60 7812500132812500
      (by norm_num) (by norm_num) (by norm_num) (by norm_num)
      (by norm_num) (by norm_num) (by norm_num) (by norm_num)
  have h4 : num 2000000034000000000 + num (944473296573929 / 2 ^ 73)
      = num 2000000034000000000 :=
    Double.add_eval 2000000034000000000 (944473296573929 / 2 ^ 73)
      2000000034000000000 60 7812500132812500
      (by norm_num) (by norm_num) (by norm_num) (by norm_num)
      (by norm_num) (by norm_num) (by norm_num) (by norm_num)
  have h5 : num 1000000018000000128 - num 1000000016000000000
      = num 2000000128 :=
    Double.sub_eval 1000000018000000128 1000000016000000000
      2000000128 30 8388608536870912
      (by norm_num) (by norm_num) (by norm_num) (by norm_num)
      (by norm_num) (by norm_num) (by norm_num) (by norm_num)
  have h6 : num (4967757600021511 / 2 ^ 106) * num 2000000128
      = num (4626585094219071 / 2 ^ 75) :=
    Double.mul_eval (4967757600021511 / 2 ^ 106) 2000000128
      (4626585094219071 / 2 ^ 75) (-23) 4626585094219071
      (by norm_num) (by norm_num) (by norm_num) (by norm_num)
      (by norm_num) (by norm_num) (by norm_num) (by norm_num)
  have h7 : num (4626585094219071 / 2 ^ 75) / num 2000000034000000000
      = num (5334089357339143 / 2 ^ 136) :=
    Double.div_eval (4626585094219071 / 2 ^ 75) 2000000034000000000
      (5334089357339143 / 2 ^ 136) (-84) 5334089357339143
      (by norm_num) (by norm_num) (by norm_num) (by norm_num)
      (by norm_num) (by norm_num) (by norm_num) (by norm_num) (by norm_num)
  have h8 : num 1 * num 2
      = num 2 :=
    Double.mul_eval 1 2
      2 1 4503599627370496
      (by norm_num) (by norm_num) (by norm_num) (by norm_num)
      (by norm_num) (by norm_num) (by norm_num) (by norm_num)
  have h9 : num 2 * num 1000000009
      = num 2000000018 :=
    Double.mul_eval 2 1000000009
      2000000018 30 8388608075497472
      (by norm_num) (by norm_num) (by norm_num) (by norm_num)
      (by norm_num) (by norm_num) (by norm_num) (by norm_num)
  have h10 : num 2000000018 * num 1000000008
      = num 2000000034000000256 :=
    Double.mul_eval 2000000018 1000000008
      2000000034000000256 60 7812500132812501
      (by norm_num) (by norm_num) (by norm_num) (by norm_num)
      (by norm_num) (by norm_num) (by norm_num) (by norm_num)
  have h11 : num 2000000034000000256 / num 2000000034000000000
      = num (4503599627370497 / 2 ^ 52) :=
    Double.div_eval 2000000034000000256 2000000034000000000
      (4503599627370497 / 2 ^ 52) 0 4503599627370497
      (by norm_num) (by norm_num) (by norm_num) (by norm_num)
      (by norm_num) (by norm_num) (by norm_num) (by norm_num) (by norm_num)
  have h12 : num (5334089357339143 / 2 ^ 136) + num (4503599627370497 / 2 ^ 52)
      = num (4503599627370497 / 2 ^ 52) :=
    Double.add_eval (5334089357339143 / 2 ^ 136) (4503599627370497 / 2 ^ 52)
      (4503599627370497 / 2 ^ 52) 0 4503599627370497
      (by norm_num) (by norm_num) (by norm_num) (by norm_num)
      (by norm_num) (by norm_num) (by norm_num) (by norm_num)
  show (6.123233995736766e-17 : Double)
        * (((1000000009 : Double) - 0) * ((1000000009 : Double) - 0)
          - ((1000000008 : Double) - 0) * ((1000000008 : Double) - 0))
        / (((1000000009 : Double) - 0) * ((1000000009 : Double) - 0)
          + ((1000000008 : Double) - 0) * ((1000000008 : Double) - 0) + 1.0e-7)
      + (1.0 : Double) * 2.0 * ((1000000009 : Double) - 0) * ((1000000008 : Double) - 0)
        / (((1000000009 : Double) - 0) * ((1000000009 : Double) - 0)
          + ((1000000008 : Double) - 0) * ((1000000008 : Double) - 0) + 1.0e-7) = _
  rw [a0, b0, zero_eq, ga, gb, lit_guard, lit_cos_half_pi, lit_one, lit_two, h1, h2, h3, h4, h5,
    h6, h7, h8, h9, h10, h11, h12]

/-- The local `cos_4phi` at the steep example point. -/
theorem cos_4phi_steep :
    cos_4phi_of exFns exInclined exSteepPoint 0 1 = num (1125899906842625 / 2 ^ 50) := by
  have h13 : num 2 * num (4503599627370497 / 2 ^ 52)
      = num (4503599627370497 / 2 ^ 51) :=
    Double.mul_eval 2 (4503599627370497 / 2 ^ 52)
      (4503599627370497 / 2 ^ 51) 1 4503599627370497
      (by norm_num) (by norm_num) (by norm_num) (by norm_num)
      (by norm_num) (by norm_num) (by norm_num) (by norm_num)
  have h14 : num (4503599627370497 / 2 ^ 51) * num (4503599627370497 / 2 ^ 52)
      = num (2251799813685249 / 2 ^ 50) :=
    Double.mul_eval (4503599627370497 / 2 ^ 51) (4503599627370497 / 2 ^ 52)
      (2251799813685249 / 2 ^ 50) 1 4503599627370498
      (by norm_num) (by norm_num) (by norm_num) (by norm_num)
      (by norm_num) (by norm_num) (by norm_num) (by norm_num)
  have h15 : num (2251799813685249 / 2 ^ 50) - num 1
      = num (1125899906842625 / 2 ^ 50) :=
    Double.sub_eval (2251799813685249 / 2 ^ 50) 1
      (1125899906842625 / 2 ^ 50) 0 4503599627370500
      (by norm_num) (by norm_num) (by norm_num) (by norm_num)
      (by norm_num) (by norm_num) (by norm_num) (by norm_num)
  rw [cos_4phi_of, cos_2phi_steep, lit_two, lit_one, h13, h14, h15]

/-- The factor `f_sigma` at the steep example point. -/
theorem f_sigma_steep (M : Members Double) (a : EvalAcc Double) :
    (inclination exFns exInclined M exSteepPoint 0 1 a).f_sigma
      = num (3377699720527873 / 2 ^ 51) := by
  have h16 : num (1 / 2) * num (1125899906842625 / 2 ^ 50)
      = num (1125899906842625 / 2 ^ 51) :=
    Double.mul_eval (1 / 2) (1125899906842625 / 2 ^ 50)
      (1125899906842625 / 2 ^ 51) (-1) 4503599627370500
      (by norm_num) (by norm_num) (by norm_num) (by norm_num)
      (by norm_num) (by norm_num) (by norm_num) (by norm_num)
  have h17 : num 1 + num (1125899906842625 / 2 ^ 51)
      = num (3377699720527873 / 2 ^ 51) :=
    Double.add_eval 1 (1125899906842625 / 2 ^ 51)
      (3377699720527873 / 2 ^ 51) 0 6755399441055746
      (by norm_num) (by norm_num) (by norm_num) (by norm_num)
      (by norm_num) (by norm_num) (by norm_num) (by norm_num)
  have e : (inclination exFns exInclined M exSteepPoint 0 1 a).f_sigma
      = 1.0 + exInclined.delta_sigma * cos_4phi_of exFns exInclined exSteepPoint 0 1 := rfl
  have d : exInclined.delta_sigma = 0.5 := rfl
  rw [e, d, cos_4phi_steep, lit_half, lit_one, h16, h17]

end IEEE

namespace Double

/-! ## Magnitude bounds through one operation -/

/-- The error of one rounding, normal or subnormal. -/
theorem roundNearest_err (q : ℚ) :
    |roundNearest q - q| ≤ unitRoundoff * |q| + 1 / 10 ^ 300 := by
  have h1 := roundNearest_sub_le q
  have ht : (2 : ℚ) ^ (-1022 : ℤ) ≤ 1 / 10 ^ 300 := normal_range.1
  have hp := two_zpow_pos (-1075)
  have hu := mul_nonneg unitRoundoff_pos.le (abs_nonneg q)
  by_cases hq : q = 0
  · rw [hq, roundNearest_zero, sub_zero, abs_zero, mul_zero, zero_add]
    norm_num
  by_cases h : (2 : ℚ) ^ (-1022 : ℤ) ≤ |q|
  · have := roundNearest_rel q h
    have : (0 : ℚ) ≤ 1 / 10 ^ 300 := by norm_num
    linarith
  · rw [ulpExp_subnormal q hq (not_le.1 h)] at h1
    have e : (2 : ℚ) ^ (-1074 : ℤ) / 2 ≤ 2 ^ (-1022 : ℤ) := by
      have h2 : (2 : ℚ) ^ (-1074 : ℤ) ≤ 2 ^ (-1022 : ℤ) :=
        zpow_le_zpow_right₀ (by norm_num) (by norm_num)
      have h3 := two_zpow_pos (-1074)
      linarith
    linarith

/-- The magnitude of one rounding. -/
theorem roundNearest_le (q x : ℚ) (h : |q| ≤ x) :
    |roundNearest q| ≤ (1 + unitRoundoff) * x + 1 / 10 ^ 300 := by
  have h1 := roundNearest_err q
  have h3 : |roundNearest q| ≤ |q| + |roundNearest q - q| := by
    have := abs_add (roundNearest q - q) q
    rw [sub_add_cancel] at this
    linarith
  have h4 : (1 + unitRoundoff) * |q| ≤ (1 + unitRoundoff) * x :=
    mul_le_mul_of_nonneg_left h (by linarith [unitRoundoff_pos])
  linarith

/-- One rounding of a non-negative number from below. -/
theorem roundNearest_ge (q x : ℚ) (hx : 0 ≤ x) (h : x ≤ q) :
    (1 - unitRoundoff) * x - 1 / 10 ^ 300 ≤ roundNearest q := by
  have h1 := (abs_le.1 (roundNearest_err q)).1
  have hq : 0 ≤ q := le_trans hx h
  rw [abs_of_nonneg hq] at h1
  have h4 : (1 - unitRoundoff) * x ≤ (1 - unitRoundoff) * q :=
    mul_le_mul_of_nonneg_left h (by linarith [unitRoundoff_lt, (by norm_num : (1:ℚ) / 2 ^ 52 ≤ 1)])
  linarith

theorem mul_abs_le (a b : Double) (ha : a.IsFinite) (hb : b.IsFinite) (x y : ℚ)
    (hx : |a.toRat| ≤ x) (hy : |b.toRat| ≤ y) (hxy : x * y ≤ 2 ^ 1023) :
    (a * b).IsFinite ∧ |(a * b).toRat| ≤ (1 + unitRoundoff) * (x * y) + 1 / 10 ^ 300 := by
  have h : |a.toRat * b.toRat| ≤ x * y := by
    rw [abs_mul]
    exact mul_le_mul hx hy (abs_nonneg _) (le_trans (abs_nonneg _) hx)
  obtain ⟨f, e⟩ := mul_finite a b ha hb (le_trans h hxy)
  exact ⟨f, by rw [e]; exact roundNearest_le _ _ h⟩

theorem add_abs_le (a b : Double) (ha : a.IsFinite) (hb : b.IsFinite) (x y : ℚ)
    (hx : |a.toRat| ≤ x) (hy : |b.toRat| ≤ y) (hxy : x + y ≤ 2 ^ 1023) :
    (a + b).IsFinite ∧ |(a + b).toRat| ≤ (1 + unitRoundoff) * (x + y) + 1 / 10 ^ 300 := by
  have h : |a.toRat + b.toRat| ≤ x + y := le_trans (abs_add _ _) (add_le_add hx hy)
  obtain ⟨f, e⟩ := add_finite a b ha hb (le_trans h hxy)
  exact ⟨f, by rw [e]; exact roundNearest_le _ _ h⟩

theorem sub_abs_le (a b : Double) (ha : a.IsFinite) (hb : b.IsFinite) (x : ℚ)
    (hx : |a.toRat - b.toRat| ≤ x) (hxy : x ≤ 2 ^ 1023) :
    (a - b).IsFinite ∧ |(a - b).toRat| ≤ (1 + unitRoundoff) * x + 1 / 10 ^ 300 := by
  obtain ⟨f, e⟩ := sub_finite a b ha hb (le_trans hx hxy)
  exact ⟨f, by rw [e]; exact roundNearest_le _ _ hx⟩

theorem div_abs_le (a b : Double) (ha : a.IsFinite) (hb : b.IsFinite) (x z : ℚ)
    (hx : |a.toRat| ≤ x) (hz0 : 0 < z) (hz : z ≤ |b.toRat|) (hxz : x / z ≤ 2 ^ 1023) :
    (a / b).IsFinite ∧ |(a / b).toRat| ≤ (1 + unitRoundoff) * (x / z) + 1 / 10 ^ 300 := by
  have hb0 : b.toRat ≠ 0 := abs_pos.1 (lt_of_lt_of_le hz0 hz)
  have h : |a.toRat / b.toRat| ≤ x / z := by
    rw [abs_div]
    exact div_le_div₀ (le_trans (abs_nonneg _) hx) hx hz0 hz
  obtain ⟨f, e⟩ := div_finite a b ha hb hb0 (le_trans h hxz)
  exact ⟨f, by rw [e]; exact roundNearest_le _ _ h⟩

/-- A sum of non-negative numbers from below. -/
theorem add_ge (a b : Double) (ha : a.IsFinite) (hb : b.IsFinite) (x : ℚ) (hx : 0 ≤ x)
    (h : x ≤ a.toRat + b.toRat) (hxy : a.toRat + b.toRat ≤ 2 ^ 1023) :
    (a + b).IsFinite ∧ (1 - unitRoundoff) * x - 1 / 10 ^ 300 ≤ (a + b).toRat ∧
      0 ≤ (a + b).toRat := by
  have h0 : 0 ≤ a.toRat + b.toRat := le_trans hx h
  obtain ⟨f, e⟩ := add_finite a b ha hb (by rw [abs_of_nonneg h0]; exact hxy)
  exact ⟨f, by rw [e]; exact roundNearest_ge _ _ hx h, by
    rw [e]; exact roundNearest_nonneg _ h0⟩

/-- A square: finite, non-negative, within one rounding of the exact square. -/
theorem square_bounds (a : Double) (ha : a.IsFinite) (h : |a.toRat| ≤ 10 ^ 100) :
    (a * a).IsFinite ∧ 0 ≤ (a * a).toRat ∧
    (1 - unitRoundoff) * a.toRat ^ 2 - 1 / 10 ^ 300 ≤ (a * a).toRat ∧
    (a * a).toRat ≤ (1 + unitRoundoff) * a.toRat ^ 2 + 1 / 10 ^ 300 := by
  have hsq : a.toRat * a.toRat = a.toRat ^ 2 := by ring
  have h0 : 0 ≤ a.toRat * a.toRat := mul_self_nonneg _
  have hle : a.toRat * a.toRat ≤ 10 ^ 100 * 10 ^ 100 := by
    rw [← abs_mul_abs_self]
    exact mul_le_mul h h (abs_nonneg _) (by norm_num)
  obtain ⟨f, e⟩ := mul_finite a a ha ha (by
    rw [abs_of_nonneg h0]; exact le_trans hle (by norm_num))
  refine ⟨f, ?_, ?_, ?_⟩
  · rw [e]; exact roundNearest_nonneg _ h0
  · rw [e, ← hsq]; exact roundNearest_ge _ _ h0 (le_refl _)
  · rw [e, ← hsq]
    have := roundNearest_le (a.toRat * a.toRat) (a.toRat * a.toRat) (by rw [abs_of_nonneg h0])
    exact le_trans (le_abs_self _) this

end Double

namespace IEEE
open Double

/-! ## The inclination factors in binary64 arithmetic -/

/-- Cauchy-Schwarz for the double-angle expression with a cosine and a sine whose squares add
up to at most `1 + 2^-50`. -/
theorem angle_weight_le (c s a b : ℚ) (h : c ^ 2 + s ^ 2 ≤ 1 + 1 / 2 ^ 50) :
    |c| * |a ^ 2 - b ^ 2| + |s| * (2 * (|a| * |b|)) ≤ (1 + 1 / 2 ^ 50) * (a ^ 2 + b ^ 2) := by
  have hG : 0 ≤ a ^ 2 + b ^ 2 := by positivity
  have hb : 0 ≤ (1 + 1 / 2 ^ 50) * (a ^ 2 + b ^ 2) := mul_nonneg (by norm_num) hG
  refine (abs_le_of_sq_le_sq' ?_ hb).2
  have e1 : |c| ^ 2 = c ^ 2 := sq_abs c
  have e2 : |s| ^ 2 = s ^ 2 := sq_abs s
  have e3 : |a ^ 2 - b ^ 2| ^ 2 = (a ^ 2 - b ^ 2) ^ 2 := sq_abs _
  have e4 : (2 * (|a| * |b|)) ^ 2 = 4 * a ^ 2 * b ^ 2 := by
    rw [mul_pow, mul_pow, sq_abs, sq_abs]; ring
  have key : (|c| * |a ^ 2 - b ^ 2| + |s| * (2 * (|a| * |b|))) ^ 2
      = (c ^ 2 + s ^ 2) * (a ^ 2 + b ^ 2) ^ 2
        - (|c| * (2 * (|a| * |b|)) - |s| * |a ^ 2 - b ^ 2|) ^ 2 := by
    have : (|c| * |a ^ 2 - b ^ 2| + |s| * (2 * (|a| * |b|))) ^ 2
        + (|c| * (2 * (|a| * |b|)) - |s| * |a ^ 2 - b ^ 2|) ^ 2
        = (|c| ^ 2 + |s| ^ 2) * (|a ^ 2 - b ^ 2| ^ 2 + (2 * (|a| * |b|)) ^ 2) := by ring
    rw [e1, e2, e3, e4] at this
    have e5 : (a ^ 2 - b ^ 2) ^ 2 + 4 * a ^ 2 * b ^ 2 = (a ^ 2 + b ^ 2) ^ 2 := by ring
    rw [e5] at this
    linarith
  have h2 : 0 ≤ (|c| * (2 * (|a| * |b|)) - |s| * |a ^ 2 - b ^ 2|) ^ 2 := sq_nonneg _
  have h3 : (c ^ 2 + s ^ 2) * (a ^ 2 + b ^ 2) ^ 2 ≤ (1 + 1 / 2 ^ 50) * (a ^ 2 + b ^ 2) ^ 2 :=
    mul_le_mul_of_nonneg_right h (sq_nonneg _)
  have h4 : (1 + 1 / 2 ^ 50 : ℚ) * (a ^ 2 + b ^ 2) ^ 2
      ≤ ((1 + 1 / 2 ^ 50) * (a ^ 2 + b ^ 2)) ^ 2 := by
    rw [mul_pow]
    exact mul_le_mul_of_nonneg_right (by norm_num) (sq_nonneg _)
  linarith

/-- The denominator `ab` of line 205: finite and at least `(1 - u)^3 (a^2 + b^2 + 9e-8)`. -/
theorem denominator_bounds (ga gb : Double) (fa : ga.IsFinite) (fb : gb.IsFinite)
    (ha : |ga.toRat| ≤ 10 ^ 100) (hb : |gb.toRat| ≤ 10 ^ 100) :
    (ga * ga + gb * gb + 1.0e-7).IsFinite ∧
    (1 - unitRoundoff) ^ 3 * (ga.toRat ^ 2 + gb.toRat ^ 2 + 9 / 10 ^ 8)
      ≤ (ga * ga + gb * gb + 1.0e-7).toRat := by
  have hu : unitRoundoff = 1 / 2 ^ 53 := rfl
  have hw : (0 : ℚ) ≤ 1 - unitRoundoff := by rw [hu]; norm_num
  obtain ⟨fA, A0, lA, uA⟩ := square_bounds ga fa ha
  obtain ⟨fB, B0, lB, uB⟩ := square_bounds gb fb hb
  have ha2 : ga.toRat ^ 2 ≤ 10 ^ 200 := by
    have := pow_le_pow_left₀ (abs_nonneg _) ha 2
    rw [sq_abs] at this
    exact le_trans this (by norm_num)
  have hb2 : gb.toRat ^ 2 ≤ 10 ^ 200 := by
    have := pow_le_pow_left₀ (abs_nonneg _) hb 2
    rw [sq_abs] at this
    exact le_trans this (by norm_num)
  have hAu : (ga * ga).toRat ≤ 2 * 10 ^ 200 := by
    have : (1 + unitRoundoff) * ga.toRat ^ 2 ≤ (1 + unitRoundoff) * 10 ^ 200 :=
      mul_le_mul_of_nonneg_left ha2 (by rw [hu]; norm_num)
    have h2 : (1 + unitRoundoff) * 10 ^ 200 + 1 / 10 ^ 300 ≤ (2 : ℚ) * 10 ^ 200 := by
      rw [hu]; norm_num
    linarith
  have hBu : (gb * gb).toRat ≤ 2 * 10 ^ 200 := by
    have : (1 + unitRoundoff) * gb.toRat ^ 2 ≤ (1 + unitRoundoff) * 10 ^ 200 :=
      mul_le_mul_of_nonneg_left hb2 (by rw [hu]; norm_num)
    have h2 : (1 + unitRoundoff) * 10 ^ 200 + 1 / 10 ^ 300 ≤ (2 : ℚ) * 10 ^ 200 := by
      rw [hu]; norm_num
    linarith
  have hbig : (5 : ℚ) * 10 ^ 200 ≤ 2 ^ 1023 := by norm_num
  obtain ⟨fS, lS, S0⟩ := add_ge (ga * ga) (gb * gb) fA fB _ (add_nonneg A0 B0) (le_refl _)
    (by linarith)
  obtain ⟨-, uS⟩ := add_abs_le (ga * ga) (gb * gb) fA fB _ _ (le_of_eq (abs_of_nonneg A0))
    (le_of_eq (abs_of_nonneg B0)) (by linarith)
  rw [abs_of_nonneg S0] at uS
  have hSu : (ga * ga + gb * gb).toRat ≤ 5 * 10 ^ 200 := by
    have : (1 + unitRoundoff) * ((ga * ga).toRat + (gb * gb).toRat)
        ≤ (1 + unitRoundoff) * (4 * 10 ^ 200) :=
      mul_le_mul_of_nonneg_left (by linarith) (by rw [hu]; norm_num)
    have h2 : (1 + unitRoundoff) * (4 * 10 ^ 200) + 1 / 10 ^ 300 ≤ (5 : ℚ) * 10 ^ 200 := by
      rw [hu]; norm_num
    linarith
  rw [lit_guard]
  have c0 : (0 : ℚ) ≤ 944473296573929 / 2 ^ 73 := by norm_num
  have c1 : (944473296573929 : ℚ) / 2 ^ 73 ≤ 1 := by norm_num
  obtain ⟨fD, lD, -⟩ := add_ge (ga * ga + gb * gb) (num (944473296573929 / 2 ^ 73)) fS
    (num_finite _) _ (add_nonneg S0 c0) (le_refl _) (by rw [toRat_num]; linarith)
  refine ⟨fD, le_trans ?_ lD⟩
  -- the three roundings below the exact sum
  have s1 : (1 - unitRoundoff) * (ga.toRat ^ 2 + gb.toRat ^ 2) - 2 * (1 / 10 ^ 300)
      ≤ (ga * ga).toRat + (gb * gb).toRat := by linarith
  have s2 : (1 - unitRoundoff) * ((1 - unitRoundoff) * (ga.toRat ^ 2 + gb.toRat ^ 2)
        - 2 * (1 / 10 ^ 300)) - 1 / 10 ^ 300 ≤ (ga * ga + gb * gb).toRat :=
    le_trans (sub_le_sub_right (mul_le_mul_of_nonneg_left s1 hw) _) lS
  have s3 : (1 - unitRoundoff) * ((1 - unitRoundoff) * ((1 - unitRoundoff)
        * (ga.toRat ^ 2 + gb.toRat ^ 2) - 2 * (1 / 10 ^ 300)) - 1 / 10 ^ 300
        + 944473296573929 / 2 ^ 73) - 1 / 10 ^ 300
      ≤ (1 - unitRoundoff) * ((ga * ga + gb * gb).toRat + 944473296573929 / 2 ^ 73)
        - 1 / 10 ^ 300 :=
    sub_le_sub_right (mul_le_mul_of_nonneg_left (by linarith) hw) _
  refine le_trans ?_ s3
  have e : (1 - unitRoundoff) * ((1 - unitRoundoff) * ((1 - unitRoundoff)
        * (ga.toRat ^ 2 + gb.toRat ^ 2) - 2 * (1 / 10 ^ 300)) - 1 / 10 ^ 300
        + 944473296573929 / 2 ^ 73) - 1 / 10 ^ 300
      = (1 - unitRoundoff) ^ 3 * (ga.toRat ^ 2 + gb.toRat ^ 2)
        + ((1 - unitRoundoff) * (944473296573929 / 2 ^ 73)
          - (2 * (1 - unitRoundoff) ^ 2 + (1 - unitRoundoff) + 1) * (1 / 10 ^ 300)) := by ring
  rw [e, mul_add]
  have n : (1 - unitRoundoff) ^ 3 * (9 / 10 ^ 8)
      ≤ (1 - unitRoundoff) * (944473296573929 / 2 ^ 73)
        - (2 * (1 - unitRoundoff) ^ 2 + (1 - unitRoundoff) + 1) * (1 / 10 ^ 300) := by
    rw [hu]; norm_num
  linarith

end IEEE

namespace IEEE
open Double

theorem quot_scale (x w g : ℚ) (hw : w ≠ 0) : x / w * (w * g) = x * g := by
  field_simp
  ring

/-- The accumulated rounding of `cos_2phi`: the numeric constant of the bound. -/
theorem cos_2phi_constant :
    (1 + unitRoundoff) * ((1 + unitRoundoff)
        * (((1 + unitRoundoff) ^ 3 * (1 + 1 / 2 ^ 50) + 5 * unitRoundoff)
          / (1 - unitRoundoff) ^ 3) + 2 * (1 / 10 ^ 300)) + 1 / 10 ^ 300
      ≤ 1 + 1 / 2 ^ 48 := by
  have hu : unitRoundoff = 1 / 2 ^ 53 := rfl
  rw [hu]; norm_num

/-- The local `cos_2phi` of lines 206-207 in binary64 arithmetic, for a cosine and a sine whose
squares add up to at most `1 + 2^-50` and gradient differences of magnitude at most `1e100`:
finite and of magnitude at most `1 + 2^-48`. -/
theorem cos_2phi_bound (c s ga gb : Double) (fc : c.IsFinite) (fs : s.IsFinite)
    (fa : ga.IsFinite) (fb : gb.IsFinite)
    (hcs : c.toRat ^ 2 + s.toRat ^ 2 ≤ 1 + 1 / 2 ^ 50)
    (ha : |ga.toRat| ≤ 10 ^ 100) (hb : |gb.toRat| ≤ 10 ^ 100) :
    (c * (ga * ga - gb * gb) / (ga * ga + gb * gb + 1.0e-7)
        + s * 2.0 * ga * gb / (ga * ga + gb * gb + 1.0e-7)).IsFinite ∧
    |(c * (ga * ga - gb * gb) / (ga * ga + gb * gb + 1.0e-7)
        + s * 2.0 * ga * gb / (ga * ga + gb * gb + 1.0e-7)).toRat| ≤ 1 + 1 / 2 ^ 48 := by
  have hu : unitRoundoff = 1 / 2 ^ 53 := rfl
  have hu0 := unitRoundoff_pos
  have hk1 : 1 + unitRoundoff ≤ 5 / 4 := by rw [hu]; norm_num
  have hk0 : (0 : ℚ) ≤ 1 + unitRoundoff := by linarith only [hu0]
  have hk2 : (1 : ℚ) ≤ 1 + unitRoundoff := by linarith only [hu0]
  have hw3 : (1 : ℚ) / 2 ≤ (1 - unitRoundoff) ^ 3 := by rw [hu]; norm_num
  obtain ⟨fA, A0, lA, uA⟩ := square_bounds ga fa ha
  obtain ⟨fB, B0, lB, uB⟩ := square_bounds gb fb hb
  obtain ⟨fDen, lDen⟩ := denominator_bounds ga gb fa fb ha hb
  -- the exact quantities
  obtain ⟨a, hadef⟩ : ∃ a, a = ga.toRat := ⟨_, rfl⟩
  obtain ⟨b, hbdef⟩ : ∃ b, b = gb.toRat := ⟨_, rfl⟩
  rw [← hadef] at ha lA uA lDen
  rw [← hbdef] at hb lB uB lDen
  have ha2 : a ^ 2 ≤ 10 ^ 200 := by
    have := pow_le_pow_left₀ (abs_nonneg _) ha 2
    rw [sq_abs] at this
    exact le_trans this (by norm_num)
  have hb2 : b ^ 2 ≤ 10 ^ 200 := by
    have := pow_le_pow_left₀ (abs_nonneg _) hb 2
    rw [sq_abs] at this
    exact le_trans this (by norm_num)
  have ha0 : 0 ≤ a ^ 2 := sq_nonneg a
  have hb0 : 0 ≤ b ^ 2 := sq_nonneg b
  obtain ⟨G, hG⟩ : ∃ G, G = a ^ 2 + b ^ 2 := ⟨_, rfl⟩
  rw [← hG] at lDen
  have hG0 : 0 ≤ G := by linarith only [hG, ha0, hb0]
  have hGu : G ≤ 2 * 10 ^ 200 := by linarith only [hG, ha2, hb2]
  obtain ⟨E, hE⟩ : ∃ E, E = unitRoundoff * G := ⟨_, rfl⟩
  have hE0 : 0 ≤ E := by rw [hE]; exact mul_nonneg hu0.le hG0
  have hEG : E ≤ G := by
    rw [hE]
    exact mul_le_of_le_one_left hG0 (by rw [hu]; norm_num)
  obtain ⟨X, hX⟩ : ∃ X, X = |a ^ 2 - b ^ 2| := ⟨_, rfl⟩
  have hX0 : 0 ≤ X := by rw [hX]; exact abs_nonneg _
  have hXG : X ≤ G := by
    rw [hX, abs_le]; constructor <;> linarith only [hG, ha0, hb0]
  obtain ⟨Y, hY⟩ : ∃ Y, Y = 2 * (|a| * |b|) := ⟨_, rfl⟩
  have hab : |a| * |b| ≤ 10 ^ 100 * 10 ^ 100 := mul_le_mul ha hb (abs_nonneg _) (by norm_num)
  have hY0 : 0 ≤ Y := by
    rw [hY]; exact mul_nonneg (by norm_num) (mul_nonneg (abs_nonneg _) (abs_nonneg _))
  obtain ⟨L, hL⟩ : ∃ L, L = (1 - unitRoundoff) ^ 3 * (G + 9 / 10 ^ 8) := ⟨_, rfl⟩
  rw [← hL] at lDen
  have hL1 : (1 : ℚ) / 10 ^ 8 ≤ L := by
    rw [hL]
    have : (1 : ℚ) / 2 * (G + 9 / 10 ^ 8) ≤ (1 - unitRoundoff) ^ 3 * (G + 9 / 10 ^ 8) :=
      mul_le_mul_of_nonneg_right hw3 (by linarith only [hG0])
    linarith only [this, hG0]
  have hL0 : 0 < L := lt_of_lt_of_le (by norm_num) hL1
  have hLden := le_trans lDen (le_abs_self _)
  obtain ⟨γ, hγ⟩ : ∃ γ, γ = |c.toRat| := ⟨_, rfl⟩
  obtain ⟨σ, hσ⟩ : ∃ σ, σ = |s.toRat| := ⟨_, rfl⟩
  have hγ0 : 0 ≤ γ := by rw [hγ]; exact abs_nonneg _
  have hσ0 : 0 ≤ σ := by rw [hσ]; exact abs_nonneg _
  have hγ2 : γ ≤ 2 := by
    rw [hγ]
    have h4 : c.toRat ^ 2 ≤ 2 ^ 2 := by
      have h5 := sq_nonneg s.toRat
      have h6 : (1 : ℚ) + 1 / 2 ^ 50 ≤ 2 ^ 2 := by norm_num
      linarith only [h5, h6, hcs]
    exact abs_le.2 (abs_le_of_sq_le_sq' h4 (by norm_num))
  have hσ2 : σ ≤ 2 := by
    rw [hσ]
    have h4 : s.toRat ^ 2 ≤ 2 ^ 2 := by
      have h5 := sq_nonneg c.toRat
      have h6 : (1 : ℚ) + 1 / 2 ^ 50 ≤ 2 ^ 2 := by norm_num
      linarith only [h5, h6, hcs]
    exact abs_le.2 (abs_le_of_sq_le_sq' h4 (by norm_num))
  have hCS : γ * X + σ * Y ≤ (1 + 1 / 2 ^ 50) * G := by
    rw [hγ, hσ, hX, hY, hG]
    exact angle_weight_le _ _ _ _ hcs
  have hk3 : (1 + unitRoundoff) ^ 2 ≤ 2 := by rw [hu]; norm_num
  have hk4 : (1 + unitRoundoff) ^ 3 ≤ 2 := by rw [hu]; norm_num
  have hk5 : (1 + unitRoundoff) ^ 2 ≤ (1 + unitRoundoff) ^ 3 :=
    pow_le_pow_right₀ hk2 (by norm_num)
  have hk6 : (0 : ℚ) ≤ (1 + unitRoundoff) ^ 2 := sq_nonneg _
  have hE2 : E = unitRoundoff * a ^ 2 + unitRoundoff * b ^ 2 := by rw [hE, hG]; ring
  have hbig : (10 : ℚ) ^ 220 ≤ 2 ^ 1023 := by norm_num
  have hdiv : ∀ x : ℚ, x ≤ 10 ^ 202 → x / L ≤ 10 ^ 210 := by
    intro x hx
    rw [div_le_iff₀ hL0]
    have : (10 : ℚ) ^ 210 * (1 / 10 ^ 8) ≤ 10 ^ 210 * L :=
      mul_le_mul_of_nonneg_left hL1 (by norm_num)
    have e : (10 : ℚ) ^ 210 * (1 / 10 ^ 8) = 10 ^ 202 := by norm_num
    linarith only [this, e, hx]
  rw [lit_two]
  -- the difference of the squares
  have hAB : |(ga * ga).toRat - (gb * gb).toRat| ≤ X + E + 2 * (1 / 10 ^ 300) := by
    have h1 := le_abs_self (a ^ 2 - b ^ 2)
    have h2 := neg_abs_le (a ^ 2 - b ^ 2)
    rw [← hX] at h1 h2
    have e1 : (1 + unitRoundoff) * a ^ 2 = a ^ 2 + unitRoundoff * a ^ 2 := by ring
    have e2 : (1 + unitRoundoff) * b ^ 2 = b ^ 2 + unitRoundoff * b ^ 2 := by ring
    have e3 : (1 - unitRoundoff) * a ^ 2 = a ^ 2 - unitRoundoff * a ^ 2 := by ring
    have e4 : (1 - unitRoundoff) * b ^ 2 = b ^ 2 - unitRoundoff * b ^ 2 := by ring
    rw [e1] at uA
    rw [e2] at uB
    rw [e3] at lA
    rw [e4] at lB
    rw [abs_le]
    constructor <;> linarith only [h1, h2, uA, uB, lA, lB, hE2]
  obtain ⟨fD, uD⟩ := sub_abs_le (ga * ga) (gb * gb) fA fB _ hAB (by
    have : (2 : ℚ) * 10 ^ 200 + 2 * 10 ^ 200 + 2 * (1 / 10 ^ 300) ≤ 10 ^ 220 := by norm_num
    linarith only [this, hXG, hGu, hEG, hbig])
  have hD : |(ga * ga - gb * gb).toRat|
      ≤ (1 + unitRoundoff) * X + 2 * E + 4 * (1 / 10 ^ 300) := by
    have e1 : (1 + unitRoundoff) * (X + E + 2 * (1 / 10 ^ 300))
        = (1 + unitRoundoff) * X + (1 + unitRoundoff) * E
          + (1 + unitRoundoff) * (2 * (1 / 10 ^ 300)) := by ring
    have e2 : (1 + unitRoundoff) * E ≤ 2 * E :=
      mul_le_mul_of_nonneg_right (by linarith only [hk1]) hE0
    have e3 : (1 + unitRoundoff) * (2 * (1 / 10 ^ 300)) ≤ 2 * (2 * (1 / 10 ^ 300)) :=
      mul_le_mul_of_nonneg_right (by linarith only [hk1]) (by norm_num)
    linarith only [uD, e1, e2, e3, hk1]
  have hDu : (1 + unitRoundoff) * X + 2 * E + 4 * (1 / 10 ^ 300) ≤ 10 ^ 201 := by
    have : (1 + unitRoundoff) * X ≤ 5 / 4 * (2 * 10 ^ 200) :=
      mul_le_mul hk1 (le_trans hXG hGu) hX0 (by norm_num)
    have e : (5 : ℚ) / 4 * (2 * 10 ^ 200) + 2 * (2 * 10 ^ 200) + 4 * (1 / 10 ^ 300)
        ≤ 10 ^ 201 := by norm_num
    linarith only [this, e, hEG, hGu]
  have hD0 : 0 ≤ (1 + unitRoundoff) * X + 2 * E + 4 * (1 / 10 ^ 300) :=
    le_trans (abs_nonneg _) hD
  -- the first numerator
  obtain ⟨fN, uN⟩ := mul_abs_le c (ga * ga - gb * gb) fc fD γ _ (le_of_eq hγ.symm) hD (by
    have : γ * ((1 + unitRoundoff) * X + 2 * E + 4 * (1 / 10 ^ 300)) ≤ 2 * 10 ^ 201 :=
      mul_le_mul hγ2 hDu hD0 (by norm_num)
    have e : (2 : ℚ) * 10 ^ 201 ≤ 10 ^ 220 := by norm_num
    linarith only [this, e, hbig])
  obtain ⟨bN, hbN⟩ : ∃ bN, bN = (1 + unitRoundoff) ^ 2 * (γ * X) + 5 * E
      + 11 * (1 / 10 ^ 300) := ⟨_, rfl⟩
  have hγX : γ * X ≤ 2 * (2 * 10 ^ 200) := mul_le_mul hγ2 (le_trans hXG hGu) hX0 (by norm_num)
  have hγX0 : 0 ≤ γ * X := mul_nonneg hγ0 hX0
  have hN : |(c * (ga * ga - gb * gb)).toRat| ≤ bN := by
    rw [hbN]
    have e1 : (1 + unitRoundoff) * (γ * ((1 + unitRoundoff) * X + 2 * E + 4 * (1 / 10 ^ 300)))
        = (1 + unitRoundoff) ^ 2 * (γ * X)
          + ((1 + unitRoundoff) * γ) * (2 * E + 4 * (1 / 10 ^ 300)) := by ring
    have e2 : (1 + unitRoundoff) * γ ≤ 5 / 4 * 2 := mul_le_mul hk1 hγ2 hγ0 (by norm_num)
    have e3 : ((1 + unitRoundoff) * γ) * (2 * E + 4 * (1 / 10 ^ 300))
        ≤ 5 / 4 * 2 * (2 * E + 4 * (1 / 10 ^ 300)) :=
      mul_le_mul_of_nonneg_right e2 (by linarith only [hE0])
    linarith only [uN, e1, e3]
  have hbNu : bN ≤ 10 ^ 202 := by
    rw [hbN]
    have : (1 + unitRoundoff) ^ 2 * (γ * X) ≤ 2 * (2 * (2 * 10 ^ 200)) :=
      mul_le_mul hk3 hγX hγX0 (by norm_num)
    have e : (2 : ℚ) * (2 * (2 * 10 ^ 200)) + 5 * (2 * 10 ^ 200) + 11 * (1 / 10 ^ 300)
        ≤ 10 ^ 202 := by norm_num
    linarith only [this, e, hEG, hGu]
  obtain ⟨fQ1, uQ1⟩ := div_abs_le _ _ fN fDen bN L hN hL0 hLden
    (le_trans (hdiv bN hbNu) (by norm_num))
  -- the second numerator
  obtain ⟨fs2, us2⟩ := mul_abs_le s (num 2) fs (num_finite 2) σ 2 (le_of_eq hσ.symm)
    (by rw [toRat_num]; norm_num) (by
      have : (2 : ℚ) * 2 ≤ 2 ^ 1023 := by norm_num
      linarith only [this, hσ2])
  have hs2u : (1 + unitRoundoff) * (σ * 2) + 1 / 10 ^ 300 ≤ 6 := by
    have : (1 + unitRoundoff) * (σ * 2) ≤ 5 / 4 * (2 * 2) :=
      mul_le_mul hk1 (by linarith only [hσ2]) (by linarith only [hσ0]) (by norm_num)
    have e : (5 : ℚ) / 4 * (2 * 2) + 1 / 10 ^ 300 ≤ 6 := by norm_num
    linarith only [this, e]
  obtain ⟨fP1, uP1⟩ := mul_abs_le (s * num 2) ga fs2 fa _ |a| us2 (by rw [hadef]) (by
    have : ((1 + unitRoundoff) * (σ * 2) + 1 / 10 ^ 300) * |a| ≤ 6 * 10 ^ 100 :=
      mul_le_mul hs2u ha (abs_nonneg _) (by norm_num)
    have e : (6 : ℚ) * 10 ^ 100 ≤ 10 ^ 220 := by norm_num
    linarith only [this, e, hbig])
  have hσa : σ * |a| ≤ 2 * 10 ^ 100 := mul_le_mul hσ2 ha (abs_nonneg _) (by norm_num)
  have hσa0 : 0 ≤ σ * |a| := mul_nonneg hσ0 (abs_nonneg _)
  have hP1 : |(s * num 2 * ga).toRat|
      ≤ 2 * (1 + unitRoundoff) ^ 2 * (σ * |a|) + 1 / 10 ^ 199 := by
    have e1 : (1 + unitRoundoff) * (((1 + unitRoundoff) * (σ * 2) + 1 / 10 ^ 300) * |a|)
        = 2 * (1 + unitRoundoff) ^ 2 * (σ * |a|)
          + (1 + unitRoundoff) * (1 / 10 ^ 300 * |a|) := by ring
    have e2 : (1 : ℚ) / 10 ^ 300 * |a| ≤ 1 / 10 ^ 300 * 10 ^ 100 :=
      mul_le_mul_of_nonneg_left ha (by norm_num)
    have e3 : (1 + unitRoundoff) * (1 / 10 ^ 300 * |a|) ≤ 5 / 4 * (1 / 10 ^ 300 * 10 ^ 100) :=
      mul_le_mul hk1 e2 (mul_nonneg (by norm_num) (abs_nonneg _)) (by norm_num)
    have e4 : (5 : ℚ) / 4 * (1 / 10 ^ 300 * 10 ^ 100) + 1 / 10 ^ 300 ≤ 1 / 10 ^ 199 := by
      norm_num
    linarith only [uP1, e1, e3, e4]
  have hP1u : 2 * (1 + unitRoundoff) ^ 2 * (σ * |a|) + 1 / 10 ^ 199 ≤ 10 ^ 101 := by
    have h22 : 2 * (1 + unitRoundoff) ^ 2 ≤ 2 * 2 := by linarith only [hk3]
    have : 2 * (1 + unitRoundoff) ^ 2 * (σ * |a|) ≤ 2 * 2 * (2 * 10 ^ 100) :=
      mul_le_mul h22 hσa hσa0 (by norm_num)
    have e : (2 : ℚ) * 2 * (2 * 10 ^ 100) + 1 / 10 ^ 199 ≤ 10 ^ 101 := by norm_num
    linarith only [this, e]
  obtain ⟨fP2, uP2⟩ := mul_abs_le (s * num 2 * ga) gb fP1 fb _ |b| hP1 (by rw [hbdef]) (by
    have : (2 * (1 + unitRoundoff) ^ 2 * (σ * |a|) + 1 / 10 ^ 199) * |b|
        ≤ 10 ^ 101 * 10 ^ 100 := mul_le_mul hP1u hb (abs_nonneg _) (by norm_num)
    have e : (10 : ℚ) ^ 101 * 10 ^ 100 ≤ 10 ^ 220 := by norm_num
    linarith only [this, e, hbig])
  obtain ⟨bP, hbP⟩ : ∃ bP, bP = (1 + unitRoundoff) ^ 3 * (σ * Y) + 1 / 10 ^ 98 := ⟨_, rfl⟩
  have hσY0 : 0 ≤ σ * Y := mul_nonneg hσ0 hY0
  have hσY : σ * Y ≤ 2 * (2 * (10 ^ 100 * 10 ^ 100)) := by
    rw [hY]
    exact mul_le_mul hσ2 (mul_le_mul_of_nonneg_left hab (by norm_num))
      (mul_nonneg (by norm_num) (mul_nonneg (abs_nonneg _) (abs_nonneg _))) (by norm_num)
  have hP : |(s * num 2 * ga * gb).toRat| ≤ bP := by
    rw [hbP, hY]
    have e1 : (1 + unitRoundoff) * ((2 * (1 + unitRoundoff) ^ 2 * (σ * |a|) + 1 / 10 ^ 199) * |b|)
        = (1 + unitRoundoff) ^ 3 * (σ * (2 * (|a| * |b|)))
          + (1 + unitRoundoff) * (1 / 10 ^ 199 * |b|) := by ring
    have e2 : (1 : ℚ) / 10 ^ 199 * |b| ≤ 1 / 10 ^ 199 * 10 ^ 100 :=
      mul_le_mul_of_nonneg_left hb (by norm_num)
    have e3 : (1 + unitRoundoff) * (1 / 10 ^ 199 * |b|) ≤ 5 / 4 * (1 / 10 ^ 199 * 10 ^ 100) :=
      mul_le_mul hk1 e2 (mul_nonneg (by norm_num) (abs_nonneg _)) (by norm_num)
    have e4 : (5 : ℚ) / 4 * (1 / 10 ^ 199 * 10 ^ 100) + 1 / 10 ^ 300 ≤ 1 / 10 ^ 98 := by
      norm_num
    linarith only [uP2, e1, e3, e4]
  have hbPu : bP ≤ 10 ^ 202 := by
    rw [hbP]
    have : (1 + unitRoundoff) ^ 3 * (σ * Y) ≤ 2 * (2 * (2 * (10 ^ 100 * 10 ^ 100))) :=
      mul_le_mul hk4 hσY hσY0 (by norm_num)
    have e : (2 : ℚ) * (2 * (2 * (10 ^ 100 * 10 ^ 100))) + 1 / 10 ^ 98 ≤ 10 ^ 202 := by norm_num
    linarith only [this, e]
  obtain ⟨fQ2, uQ2⟩ := div_abs_le _ _ fP2 fDen bP L hP hL0 hLden
    (le_trans (hdiv bP hbPu) (by norm_num))
  -- the sum of the quotients
  have hq1 := hdiv bN hbNu
  have hq2 := hdiv bP hbPu
  obtain ⟨fR, uR⟩ := add_abs_le _ _ fQ1 fQ2 _ _ uQ1 uQ2 (by
    have h1 : (1 + unitRoundoff) * (bN / L) ≤ 5 / 4 * 10 ^ 210 :=
      mul_le_mul hk1 hq1 (div_nonneg (le_trans (abs_nonneg _) hN) hL0.le) (by norm_num)
    have h2 : (1 + unitRoundoff) * (bP / L) ≤ 5 / 4 * 10 ^ 210 :=
      mul_le_mul hk1 hq2 (div_nonneg (le_trans (abs_nonneg _) hP) hL0.le) (by norm_num)
    have e : (5 : ℚ) / 4 * 10 ^ 210 + 1 / 10 ^ 300 + (5 / 4 * 10 ^ 210 + 1 / 10 ^ 300)
        ≤ 10 ^ 220 := by norm_num
    linarith only [h1, h2, e, hbig])
  refine ⟨fR, le_trans uR ?_⟩
  have hsum : bN + bP
      ≤ ((1 + unitRoundoff) ^ 3 * (1 + 1 / 2 ^ 50) + 5 * unitRoundoff) * (G + 9 / 10 ^ 8) := by
    rw [hbN, hbP]
    have e1 : (1 + unitRoundoff) ^ 2 * (γ * X) ≤ (1 + unitRoundoff) ^ 3 * (γ * X) :=
      mul_le_mul_of_nonneg_right hk5 hγX0
    have e2 : (1 + unitRoundoff) ^ 3 * (γ * X + σ * Y)
        ≤ (1 + unitRoundoff) ^ 3 * ((1 + 1 / 2 ^ 50) * G) :=
      mul_le_mul_of_nonneg_left hCS (by linarith only [hk5, hk6])
    have e3 : ((1 + unitRoundoff) ^ 3 * (1 + 1 / 2 ^ 50) + 5 * unitRoundoff) * (G + 9 / 10 ^ 8)
        = (1 + unitRoundoff) ^ 3 * ((1 + 1 / 2 ^ 50) * G) + 5 * (unitRoundoff * G)
          + ((1 + unitRoundoff) ^ 3 * (1 + 1 / 2 ^ 50) + 5 * unitRoundoff) * (9 / 10 ^ 8) := by
      ring
    have e4 : (11 : ℚ) * (1 / 10 ^ 300) + 1 / 10 ^ 98
        ≤ ((1 + unitRoundoff) ^ 3 * (1 + 1 / 2 ^ 50) + 5 * unitRoundoff) * (9 / 10 ^ 8) := by
      rw [hu]; norm_num
    have e5 : (1 + unitRoundoff) ^ 3 * (γ * X + σ * Y)
        = (1 + unitRoundoff) ^ 3 * (γ * X) + (1 + unitRoundoff) ^ 3 * (σ * Y) := by ring
    rw [e3, ← hE]
    linarith only [e1, e2, e4, e5]
  have hw0 : (0 : ℚ) < (1 - unitRoundoff) ^ 3 := by linarith only [hw3]
  have hq : bN / L + bP / L
      ≤ ((1 + unitRoundoff) ^ 3 * (1 + 1 / 2 ^ 50) + 5 * unitRoundoff)
        / (1 - unitRoundoff) ^ 3 := by
    rw [← add_div, div_le_iff₀ hL0, hL]
    have e : ((1 + unitRoundoff) ^ 3 * (1 + 1 / 2 ^ 50) + 5 * unitRoundoff)
          / (1 - unitRoundoff) ^ 3 * ((1 - unitRoundoff) ^ 3 * (G + 9 / 10 ^ 8))
        = ((1 + unitRoundoff) ^ 3 * (1 + 1 / 2 ^ 50) + 5 * unitRoundoff) * (G + 9 / 10 ^ 8) :=
      quot_scale _ _ _ hw0.ne'
    rw [e]
    exact hsum
  have hfin : (1 + unitRoundoff) * ((1 + unitRoundoff) * (bN / L) + 1 / 10 ^ 300
        + ((1 + unitRoundoff) * (bP / L) + 1 / 10 ^ 300)) + 1 / 10 ^ 300
      ≤ (1 + unitRoundoff) * ((1 + unitRoundoff)
        * (((1 + unitRoundoff) ^ 3 * (1 + 1 / 2 ^ 50) + 5 * unitRoundoff)
          / (1 - unitRoundoff) ^ 3) + 2 * (1 / 10 ^ 300)) + 1 / 10 ^ 300 := by
    have e1 : (1 + unitRoundoff) * (bN / L) + 1 / 10 ^ 300
          + ((1 + unitRoundoff) * (bP / L) + 1 / 10 ^ 300)
        = (1 + unitRoundoff) * (bN / L + bP / L) + 2 * (1 / 10 ^ 300) := by ring
    rw [e1]
    have e2 := mul_le_mul_of_nonneg_left hq hk0
    have e3 := mul_le_mul_of_nonneg_left (add_le_add_right e2 (2 * (1 / 10 ^ 300))) hk0
    linarith only [e3]
  exact le_trans hfin cos_2phi_constant

end IEEE

namespace Double

theorem roundHalfEven_ge (x : ℚ) (m : ℤ) (h : (m : ℚ) ≤ x) : m ≤ roundHalfEven x := by
  have h0 : m ≤ ⌊x⌋ := Int.le_floor.2 h
  unfold roundHalfEven
  split_ifs <;> omega

/-- Rounding does not go below `-1`. -/
theorem roundNearest_ge_neg_one (x : ℚ) (h : -1 ≤ x) : -1 ≤ roundNearest x := by
  by_cases h0 : 0 ≤ x
  · exact le_trans (by norm_num) (roundNearest_nonneg x h0)
  have hx : |x| ≤ 1 := by rw [abs_le]; constructor <;> linarith
  have hx0 : 0 < |x| := abs_pos.2 (by intro e; rw [e] at h0; exact h0 (le_refl _))
  have hlog : Int.log 2 |x| < 1 :=
    (Int.lt_zpow_iff_log_lt (b := 2) (by norm_num) hx0).1 (by
      have : (1 : ℚ) < ((2 : ℕ) : ℚ) ^ (1 : ℤ) := by norm_num
      linarith)
  have he : ulpExp x ≤ 0 := by
    unfold ulpExp
    have : max (Int.log 2 |x|) (-1022) ≤ 0 := max_le (by omega) (by norm_num)
    omega
  obtain ⟨k, hk⟩ : ∃ k : ℕ, ulpExp x = -(k : ℤ) := ⟨(-ulpExp x).toNat, by
    rw [Int.toNat_of_nonneg (by omega)]; ring⟩
  have hU : (2 : ℚ) ^ ulpExp x = 1 / 2 ^ k := by
    rw [hk, zpow_neg, zpow_natCast, one_div]
  have hpos : (0 : ℚ) < 2 ^ k := by positivity
  have h1 : ((-(2 ^ k : ℤ) : ℤ) : ℚ) ≤ x / 2 ^ ulpExp x := by
    rw [hU, div_div_eq_mul_div, div_one]
    push_cast
    have : -1 * 2 ^ k ≤ x * 2 ^ k := mul_le_mul_of_nonneg_right h hpos.le
    linarith
  have h2 := roundHalfEven_ge _ _ h1
  have h3 : ((-(2 ^ k : ℤ) : ℤ) : ℚ) ≤ (roundHalfEven (x / 2 ^ ulpExp x) : ℚ) := by
    exact_mod_cast h2
  unfold roundNearest
  rw [hU] at h3 ⊢
  push_cast at h3
  have h4 := mul_le_mul_of_nonneg_right h3 (by positivity : (0 : ℚ) ≤ 1 / 2 ^ k)
  have e : -(2 : ℚ) ^ k * (1 / 2 ^ k) = -1 := by field_simp
  rw [e] at h4
  exact h4

end Double

namespace IEEE
open Double

/-- The local `cos_4phi` of line 208 for a `cos_2phi` of magnitude at most `1 + 2^-48`: finite,
at least `-1` and at most `1 + 2^-45`. -/
theorem cos_4phi_bound (R : Double) (fR : R.IsFinite) (hR : |R.toRat| ≤ 1 + 1 / 2 ^ 48) :
    (2.0 * R * R - 1.0).IsFinite ∧ -1 ≤ (2.0 * R * R - 1.0).toRat ∧
    (2.0 * R * R - 1.0).toRat ≤ 1 + 1 / 2 ^ 45 := by
  have hu : unitRoundoff = 1 / 2 ^ 53 := rfl
  rw [lit_two, lit_one]
  obtain ⟨f1, e1⟩ := mul_finite (num 2) R (num_finite 2) fR (by
    rw [toRat_num, abs_mul, abs_of_pos (by norm_num : (0 : ℚ) < 2)]
    have : (2 : ℚ) * (1 + 1 / 2 ^ 48) ≤ 2 ^ 1023 := by norm_num
    linarith)
  obtain ⟨-, u1⟩ := mul_abs_le (num 2) R (num_finite 2) fR 2 _ (by rw [toRat_num]; norm_num) hR
    (by norm_num)
  have hb1 : (1 + unitRoundoff) * (2 * (1 + 1 / 2 ^ 48)) + 1 / 10 ^ 300 ≤ 3 := by
    rw [hu]; norm_num
  obtain ⟨f2, u2⟩ := mul_abs_le (num 2 * R) R f1 fR _ _ u1 hR (by
    rw [hu]; norm_num)
  obtain ⟨-, e2⟩ := mul_finite (num 2 * R) R f1 fR (by
    have h := mul_le_mul (le_trans u1 hb1) hR (abs_nonneg _) (by norm_num)
    rw [← abs_mul] at h
    exact le_trans h (by norm_num))
  have hprod : 0 ≤ (num 2 * R).toRat * R.toRat := by
    rw [e1, toRat_num]
    rcases le_total 0 R.toRat with h | h
    · exact mul_nonneg (roundNearest_nonneg _ (by linarith)) h
    · exact mul_nonneg_of_nonpos_of_nonpos (roundNearest_nonpos _ (by linarith)) h
  have h20 : 0 ≤ (num 2 * R * R).toRat := by rw [e2]; exact roundNearest_nonneg _ hprod
  rw [abs_of_nonneg h20] at u2
  have hd : |(num 2 * R * R).toRat - (num 1).toRat|
      ≤ (1 + unitRoundoff) * ((1 + unitRoundoff) * (2 * (1 + 1 / 2 ^ 48)) + 1 / 10 ^ 300)
          * (1 + 1 / 2 ^ 48) + 1 / 10 ^ 300 - 1 := by
    rw [toRat_num, abs_le]
    have c : (2 : ℚ) ≤ (1 + unitRoundoff) * ((1 + unitRoundoff) * (2 * (1 + 1 / 2 ^ 48))
        + 1 / 10 ^ 300) * (1 + 1 / 2 ^ 48) + 1 / 10 ^ 300 := by rw [hu]; norm_num
    have e : (1 + unitRoundoff) * (((1 + unitRoundoff) * (2 * (1 + 1 / 2 ^ 48))
        + 1 / 10 ^ 300) * (1 + 1 / 2 ^ 48))
        = (1 + unitRoundoff) * ((1 + unitRoundoff) * (2 * (1 + 1 / 2 ^ 48)) + 1 / 10 ^ 300)
          * (1 + 1 / 2 ^ 48) := by ring
    rw [e] at u2
    constructor <;> linarith
  obtain ⟨f3, u3⟩ := sub_abs_le (num 2 * R * R) (num 1) f2 (num_finite 1) _ hd (by
    rw [hu]; norm_num)
  obtain ⟨-, e3⟩ := sub_finite (num 2 * R * R) (num 1) f2 (num_finite 1)
    (le_trans hd (by rw [hu]; norm_num))
  refine ⟨f3, ?_, le_trans (le_abs_self _) (le_trans u3 (by rw [hu]; norm_num))⟩
  rw [e3, toRat_num]
  exact roundNearest_ge_neg_one _ (by linarith)

/-- The factor `1.0 + delta * cos_4phi` of lines 210-211 for a finite `delta` of magnitude at
most `1e100`: finite, within `(1 + 2^-44) |delta| + 2^-52` of 1, and positive when
`|delta| ≤ 1 - 2^-40`. -/
theorem factor_bound (d C : Double) (fd : d.IsFinite) (fC : C.IsFinite)
    (hd : |d.toRat| ≤ 10 ^ 100) (hC1 : -1 ≤ C.toRat) (hC2 : C.toRat ≤ 1 + 1 / 2 ^ 45) :
    (1.0 + d * C).IsFinite ∧
    |(1.0 + d * C).toRat - 1| ≤ (1 + 1 / 2 ^ 44) * |d.toRat| + 1 / 2 ^ 52 ∧
    (|d.toRat| ≤ 1 - 1 / 2 ^ 40 → 0 < (1.0 + d * C).toRat) := by
  have hu : unitRoundoff = 1 / 2 ^ 53 := rfl
  have hk1 : 1 + unitRoundoff ≤ 5 / 4 := by rw [hu]; norm_num
  have hk0 : (0 : ℚ) ≤ 1 + unitRoundoff := by rw [hu]; norm_num
  rw [lit_one]
  have hC : |C.toRat| ≤ 1 + 1 / 2 ^ 45 := by
    rw [abs_le]; constructor <;> linarith
  obtain ⟨δ, hδ⟩ : ∃ δ, δ = |d.toRat| := ⟨_, rfl⟩
  rw [← hδ] at hd ⊢
  have hδ0 : 0 ≤ δ := by rw [hδ]; exact abs_nonneg _
  obtain ⟨f1, u1⟩ := mul_abs_le d C fd fC δ _ (le_of_eq hδ.symm) hC (by
    have : δ * (1 + 1 / 2 ^ 45) ≤ 10 ^ 100 * (1 + 1 / 2 ^ 45) :=
      mul_le_mul_of_nonneg_right hd (by norm_num)
    exact le_trans this (by norm_num))
  have hp : |(d * C).toRat| ≤ 10 ^ 101 := by
    have h1 : δ * (1 + 1 / 2 ^ 45) ≤ 10 ^ 100 * (1 + 1 / 2 ^ 45) :=
      mul_le_mul_of_nonneg_right hd (by norm_num)
    have h2 : (1 + unitRoundoff) * (δ * (1 + 1 / 2 ^ 45))
        ≤ 5 / 4 * (10 ^ 100 * (1 + 1 / 2 ^ 45)) :=
      mul_le_mul hk1 h1 (mul_nonneg hδ0 (by norm_num)) (by norm_num)
    have h3 : (5 : ℚ) / 4 * (10 ^ 100 * (1 + 1 / 2 ^ 45)) + 1 / 10 ^ 300 ≤ 10 ^ 101 := by
      norm_num
    linarith
  have hs : |(num 1).toRat + (d * C).toRat| ≤ 1 + |(d * C).toRat| := by
    rw [toRat_num]
    have := abs_add (1 : ℚ) (d * C).toRat
    rwa [abs_one] at this
  obtain ⟨f2, e2⟩ := add_finite (num 1) (d * C) (num_finite 1) f1 (by
    have : (1 : ℚ) + 10 ^ 101 ≤ 2 ^ 1023 := by norm_num
    linarith)
  have herr := roundNearest_err ((num 1).toRat + (d * C).toRat)
  rw [← e2] at herr
  have hmain : |(num 1 + d * C).toRat - 1|
      ≤ (1 + 1 / 2 ^ 44) * δ + 1 / 2 ^ 52 := by
    have h1 : (num 1 + d * C).toRat - 1
        = ((num 1 + d * C).toRat - ((num 1).toRat + (d * C).toRat)) + (d * C).toRat := by
      rw [toRat_num]; ring
    have h2 := abs_add ((num 1 + d * C).toRat - ((num 1).toRat + (d * C).toRat)) (d * C).toRat
    rw [← h1] at h2
    have h3 : unitRoundoff * |(num 1).toRat + (d * C).toRat|
        ≤ unitRoundoff * (1 + |(d * C).toRat|) :=
      mul_le_mul_of_nonneg_left hs unitRoundoff_pos.le
    have h4 : (1 + unitRoundoff) * |(d * C).toRat|
        ≤ (1 + unitRoundoff) * ((1 + unitRoundoff) * (δ * (1 + 1 / 2 ^ 45)) + 1 / 10 ^ 300) :=
      mul_le_mul_of_nonneg_left u1 hk0
    have h5 : (1 + unitRoundoff) * ((1 + unitRoundoff) * (δ * (1 + 1 / 2 ^ 45)) + 1 / 10 ^ 300)
        = ((1 + unitRoundoff) ^ 2 * (1 + 1 / 2 ^ 45)) * δ
          + (1 + unitRoundoff) * (1 / 10 ^ 300) := by ring
    have h6 : ((1 + unitRoundoff) ^ 2 * (1 + 1 / 2 ^ 45)) * δ ≤ (1 + 1 / 2 ^ 44) * δ :=
      mul_le_mul_of_nonneg_right (by rw [hu]; norm_num) hδ0
    have h7 : unitRoundoff + (1 + unitRoundoff) * (1 / 10 ^ 300) + 1 / 10 ^ 300
        ≤ 1 / 2 ^ 52 := by rw [hu]; norm_num
    have h8 : unitRoundoff * (1 + |(d * C).toRat|)
        = unitRoundoff + unitRoundoff * |(d * C).toRat| := by ring
    have h9 : (1 + unitRoundoff) * |(d * C).toRat|
        = |(d * C).toRat| + unitRoundoff * |(d * C).toRat| := by ring
    linarith
  refine ⟨f2, hmain, ?_⟩
  intro hsmall
  have h1 := (abs_le.1 hmain).1
  have h2 : (1 + 1 / 2 ^ 44) * δ ≤ (1 + 1 / 2 ^ 44) * (1 - 1 / 2 ^ 40) :=
    mul_le_mul_of_nonneg_left hsmall (by norm_num)
  have h3 : (1 + 1 / 2 ^ 44 : ℚ) * (1 - 1 / 2 ^ 40) + 1 / 2 ^ 52 < 1 := by norm_num
  linarith

/-- A difference of two gradient components of magnitude at most `1e99`. -/
theorem gradient_difference (x y : Double) (fx : x.IsFinite) (fy : y.IsFinite)
    (hx : |x.toRat| ≤ 10 ^ 99) (hy : |y.toRat| ≤ 10 ^ 99) :
    (x - y).IsFinite ∧ |(x - y).toRat| ≤ 10 ^ 100 := by
  have hu : unitRoundoff = 1 / 2 ^ 53 := rfl
  have h : |x.toRat - y.toRat| ≤ 2 * 10 ^ 99 := by
    have := abs_sub x.toRat y.toRat
    linarith
  obtain ⟨f, u⟩ := sub_abs_le x y fx fy _ h (by norm_num)
  exact ⟨f, le_trans u (by rw [hu]; norm_num)⟩

end IEEE

/-! ## Claims about the calibration loop -/

/-- C1 (counterexample): in the first iteration for a pair with energy 1, `wGB = 6` and
`mu_qp = 1` the loop has `g2 = 2/9`, `y = y(2/9)`, and the `f_interf` it computes is not the
degree-8 expression in `y`. -/
theorem f_interf_not_degree_eight :
    (calibBody Real.sqrt 6 1 1 (pairEntry initLocals)).g2 = 2 / 9 ∧
    (calibBody Real.sqrt 6 1 1 (pairEntry initLocals)).y = y_of_g2 (2 / 9) ∧
    (calibBody Real.sqrt 6 1 1 (pairEntry initLocals)).f_interf ≠
      0.05676 * (calibBody Real.sqrt 6 1 1 (pairEntry initLocals)).y ^ 8
      - 0.2924 * (calibBody Real.sqrt 6 1 1 (pairEntry initLocals)).y ^ 6
      + 0.6367 * (calibBody Real.sqrt 6 1 1 (pairEntry initLocals)).y ^ 5
      - 0.7749 * (calibBody Real.sqrt 6 1 1 (pairEntry initLocals)).y ^ 4
      + 0.6107 * (calibBody Real.sqrt 6 1 1 (pairEntry initLocals)).y ^ 2
      - 0.4324 * (calibBody Real.sqrt 6 1 1 (pairEntry initLocals)).y + 0.2792 := by
  have hg : (calibBody Real.sqrt 6 1 1 (pairEntry initLocals)).g2 = 2 / 9 := by
    simp only [calibBody, pairEntry, initLocals]; norm_num
  have hy : (calibBody Real.sqrt 6 1 1 (pairEntry initLocals)).y = 109360573 / 164025000 := by
    simp only [calibBody, pairEntry, initLocals, y_of_g2]; norm_num
  have hf : (calibBody Real.sqrt 6 1 1 (pairEntry initLocals)).f_interf
      = f_interf (109360573 / 164025000) := by
    simp only [calibBody, pairEntry, initLocals, y_of_g2, f_interf]; norm_num
  refine ⟨hg, ?_, ?_⟩
  · rw [hy]; unfold y_of_g2; norm_num
  · rw [hf, hy, f_interf_eq]; norm_num

/-- C1 (amended): the interface function of the loop is the degree-6 polynomial
`0.05676 y^6 - 0.2924 y^5 + 0.6367 y^4 - 0.7749 y^3 + 0.6107 y^2 - 0.4324 y + 0.2792`;
in every iteration `y` is the quartic of the current `g2`, `f_interf` is that polynomial at
`y`, and the next iterate is `a_star = sqrt (f_interf / g2)`. -/
theorem calibBody_next_iterate (wGB mu_qp sigma_mn : ℝ) (s : CalibLocals ℝ) :
    (∀ y : ℝ, f_interf y = 0.05676 * y^6 - 0.2924 * y^5 + 0.6367 * y^4 - 0.7749 * y^3
        + 0.6107 * y^2 - 0.4324 * y + 0.2792) ∧
    (calibBody Real.sqrt wGB mu_qp sigma_mn s).y
      = -5.288 * (calibBody Real.sqrt wGB mu_qp sigma_mn s).g2 ^ 4
        - 0.09364 * (calibBody Real.sqrt wGB mu_qp sigma_mn s).g2 ^ 3
        + 9.965 * (calibBody Real.sqrt wGB mu_qp sigma_mn s).g2 ^ 2
        - 8.183 * (calibBody Real.sqrt wGB mu_qp sigma_mn s).g2 + 2.007 ∧
    (calibBody Real.sqrt wGB mu_qp sigma_mn s).f_interf
      = f_interf (calibBody Real.sqrt wGB mu_qp sigma_mn s).y ∧
    (calibBody Real.sqrt wGB mu_qp sigma_mn s).a_star
      = Real.sqrt (f_interf (calibBody Real.sqrt wGB mu_qp sigma_mn s).y
          / (calibBody Real.sqrt wGB mu_qp sigma_mn s).g2) :=
  ⟨f_interf_eq, y_of_g2_eq _, rfl, rfl⟩

/-- C2 (counterexample): three grains, all input energies 1, unit scales, `wGB = 6`.  The
loop of the pair `(0,1)` ends, the loop of the next pair `(0,2)` is entered, and the first
`kappa_star` it computes is not `0.75 * wGB * sigma[0][2]`. -/
theorem later_pair_not_from_initial_guess :
    pairs 3 = [(0, 1), (0, 2), (1, 2)] ∧
    ∃ s1, calibPairs Real.sqrt 6
        (mu_of_scan 6 (convertUnits 1 1 3 (fun _ _ => 1) (fun _ _ => 1)))
        (convertUnits 1 1 3 (fun _ _ => 1) (fun _ _ => 1)).sigma 3 [(0, 1)] initCalib
        = some s1 ∧
      |(pairEntry s1.loc).a_0 - (pairEntry s1.loc).a_star| > 1.0e-9 ∧
      (calibBody Real.sqrt 6 (mu_of_scan 6 (convertUnits 1 1 3 (fun _ _ => 1) (fun _ _ => 1)))
          ((convertUnits 1 1 3 (fun _ _ => 1) (fun _ _ => 1)).sigma 0 2)
          (pairEntry s1.loc)).kappa_star
        ≠ 0.75 * 6 * (convertUnits 1 1 3 (fun _ _ => (1 : ℝ)) (fun _ _ => 1)).sigma 0 2 := by
  refine ⟨pairs_three, ?_⟩
  have hsig : ∀ m n, m < n → n < 3 →
      (convertUnits 1 1 3 (fun _ _ => (1 : ℝ)) (fun _ _ => 1)).sigma m n = 6.24150974e18 := by
    intro m n hmn hn
    rw [convertUnits_sigma, if_pos ⟨hmn, hn⟩]
    simp only [sigmaFactor, JtoeV]
    norm_num
  obtain ⟨hb, hs⟩ := convertUnits_uniform (1 : ℝ) 1 3 (fun _ _ => 1) (fun _ _ => 1) 1
    (by decide) (fun _ _ _ _ => rfl)
  have hmu : mu_of_scan 6 (convertUnits 1 1 3 (fun _ _ => (1 : ℝ)) (fun _ _ => 1))
      = 6 * 6.24150974e18 / 6 := by
    rw [mu_of_scan_uniform 6 _ _ hb hs]
    simp only [sigmaFactor, JtoeV]
    norm_num
  rw [hmu, hsig 0 2 (by decide) (by decide)]
  have hrun := uniform_run 6 6.24150974e18 (by norm_num) (by norm_num) initLocals
    initLocals_a_0 3
  rw [if_pos (le_refl 3)] at hrun
  obtain ⟨r, hr⟩ : ∃ r, calibWhile Real.sqrt 6 (6 * 6.24150974e18 / 6) 6.24150974e18 3
      (pairEntry initLocals) = some r := ⟨_, hrun⟩
  obtain ⟨-, -, hu⟩ := uniform_exit 6 6.24150974e18 initLocals initLocals_a_0 3 r hr
  obtain ⟨ha0, -⟩ := hu (by norm_num) (by norm_num)
  refine ⟨storePair initCalib 0 1 r, ?_, ?_, ?_⟩
  · simp only [calibPairs, calibPair, hsig 0 1 (by decide) (by decide)]
    rw [show pairEntry (initCalib (α := ℝ)).loc = pairEntry initLocals from rfl, hr]
  · rw [pairEntry_entered_iff]
    simp only [storePair]
    rw [ha0]
    have h2 := iterate2_bounds.1
    rw [abs_of_pos (by norm_num at h2 ⊢; linarith)]
    norm_num at h2 ⊢
    linarith
  · have hk : ∀ (s : CalibLocals ℝ) (mu sg : ℝ),
        (calibBody Real.sqrt 6 mu sg (pairEntry s)).kappa_star = s.a_0 * 6 * sg :=
      fun _ _ _ => rfl
    rw [hk]
    simp only [storePair]
    rw [ha0]
    have h2 := iterate2_bounds.2
    intro heq
    have h6 : (6 : ℝ) * 6.24150974e18 ≠ 0 := by norm_num
    rw [mul_assoc, mul_assoc] at heq
    have := mul_right_cancel₀ h6 heq
    rw [this] at h2
    norm_num at h2

/-- C2 (amended): for at least two grains the first pair visited is `(0,1)`, its loop is
entered and the first `kappa_star` computed is `0.75 * wGB * sigma[0][1]`; for any pair, the
first `kappa_star` computed is `a_0 * wGB * sigma[m][n]` with `a_0` the value left by the
pairs visited before, and a pair whose loop was entered leaves in `a_0` the iterate from which
its stored `kappa_gamma[m][n]` was computed. -/
theorem first_kappa_star {α : Type} [LinearOrderedField α] (sqrt : α → α) (wGB mu_qp : α)
    (sigma : Table α) (fuel : Nat) (N : Nat) (hN : 2 ≤ N) :
    (∃ rest, pairs N = (0, 1) :: rest) ∧
    |(pairEntry (initCalib (α := α)).loc).a_0 - (pairEntry (initCalib (α := α)).loc).a_star|
      > 1.0e-9 ∧
    (calibBody sqrt wGB mu_qp (sigma 0 1) (pairEntry (initCalib (α := α)).loc)).kappa_star
      = 0.75 * wGB * sigma 0 1 ∧
    (∀ (s : CalibState α) (m n : Nat),
      (calibBody sqrt wGB mu_qp (sigma m n) (pairEntry s.loc)).kappa_star
        = s.loc.a_0 * wGB * sigma m n) ∧
    (∀ (s c : CalibState α) (m n : Nat), m < n → 1.0e-9 < |s.loc.a_0| →
      calibPair sqrt wGB mu_qp sigma fuel s (m, n) = some c →
        c.kappa_gamma m n = c.loc.a_0 * wGB * sigma m n) := by
  refine ⟨pairs_cons hN, initLocals_entered, rfl, fun _ _ _ => rfl, ?_⟩
  intro s c m n hmn hent hc
  obtain ⟨r, hr, rfl⟩ := calibPair_some sqrt wGB mu_qp sigma fuel s c (m, n) hc
  obtain ⟨-, hcase⟩ := calibWhile_some sqrt wGB mu_qp (sigma m n) fuel _ r hr
  rcases hcase with ⟨hnot, -⟩ | ⟨-, hb, -⟩
  · exact absurd ((pairEntry_entered_iff s.loc).2 hent) hnot
  · have hne : (m, n) ≠ (n, m) := fun h => by
      have := congrArg Prod.fst h
      simp only at this
      omega
    simp only [storePair]
    rw [Table.set_other _ _ _ _ _ _ hne, Table.set_same, hb]

/-- C2 (witness): three grains, all converted energies 1, `wGB = 6`, `mu_qp = 1`. -/
theorem first_kappa_star_witness :
    (∃ rest, pairs 3 = (0, 1) :: rest) ∧
    (calibBody Real.sqrt 6 1 1 (pairEntry (initCalib (α := ℝ)).loc)).kappa_star
      = 0.75 * 6 * 1 :=
  let h := first_kappa_star Real.sqrt 6 1 (fun _ _ => (1 : ℝ)) 3 3 (by decide)
  ⟨h.1, h.2.2.1⟩

/-- C3 (counterexample): for two grains with input energy 1, unit scales and `wGB = 6` the
constructor returns, and the stored `kappa_gamma[0][1]` differs from
`a_g2[0][1] * wGB * sigma[0][1]`. -/
theorem kappa_star_not_from_a_star :
    ∃ M, construct Real.sqrt (exParams ℝ 2) 3 (fun _ _ => 1) (fun _ _ => 1) (fun _ _ => 1)
        = some M ∧
      M.kappa_gamma 0 1 ≠ M.a_g2 0 1 * (exParams ℝ 2).wGB * M.sigma 0 1 := by
  obtain ⟨M, hM⟩ := (construct_two_real (exParams ℝ 2) 3 (fun _ _ => 1) (fun _ _ => 1)
    (fun _ _ => 1) rfl).1 (le_refl 3)
  refine ⟨M, hM, ?_⟩
  obtain ⟨r, ⟨b1, -⟩, -, hu, e1, -, e3, -⟩ :=
    (construct_two_real (exParams ℝ 2) 3 (fun _ _ => 1) (fun _ _ => 1) (fun _ _ => 1) rfl).2 M hM
  obtain ⟨c, -, hsig, -⟩ := construct_some Real.sqrt (exParams ℝ 2) 3 (fun _ _ => 1)
    (fun _ _ => 1) (fun _ _ => 1) M hM
  have hs : M.sigma 0 1 = 6.24150974e18 := by
    rw [hsig, convertUnits_sigma]
    simp only [exParams, sigmaFactor, JtoeV]
    norm_num
  have hw : (exParams ℝ 2).wGB = 6 := rfl
  obtain ⟨ha0, has⟩ := hu (by rw [hw]; norm_num) (by rw [hs]; norm_num)
  rw [e1, e3, b1, ha0, has, hs, hw]
  have h2 := iterate2_bounds.1
  have h3 := iterate3_bounds.2
  intro heq
  have : uniformStep Real.sqrt (uniformStep Real.sqrt (3 / 4))
      = uniformStep Real.sqrt (uniformStep Real.sqrt (uniformStep Real.sqrt (3 / 4))) := by
    have h6 : (6 : ℝ) * 6.24150974e18 ≠ 0 := by norm_num
    have := heq
    rw [mul_assoc, mul_assoc] at this
    exact mul_right_cancel₀ h6 this
  rw [← this] at h3
  norm_num at h2 h3
  linarith

/-- C3 (amended): after construction from positive pair energies (with a length scale, a
width and energies of moderate size), for every pair `m < n` the stored `kappa_gamma[m][n]` is
`a0 * wGB * sigma[m][n]` for the iterate `a0` preceding the stored `a_g2[m][n]`, with
`|a0 - a_g2[m][n]| ≤ 1e-9`; hence `kappa_gamma[m][n]` and `a_g2[m][n] * wGB * sigma[m][n]`
differ by at most `1e-9 * |wGB * sigma[m][n]|`. -/
theorem kappa_star_near_a_star (P : Params ℝ) (fuel : Nat) (sigma mob Q : Table ℝ)
    (M : Members ℝ) (hM : construct Real.sqrt P fuel sigma mob Q = some M)
    (hl : Moderate P.length_scale) (hw : Moderate P.wGB)
    (hpos : ∀ m n, m < n → n < P.ncrys → 0 < sigma m n ∧ Moderate (sigma m n))
    (m n : Nat) (hmn : m < n) (hn : n < P.ncrys) :
    ∃ a0 : ℝ, M.kappa_gamma m n = a0 * P.wGB * M.sigma m n ∧ |a0 - M.a_g2 m n| ≤ 1e-9 ∧
      |M.kappa_gamma m n - M.a_g2 m n * P.wGB * M.sigma m n|
        ≤ 1e-9 * |P.wGB * M.sigma m n| := by
  obtain ⟨c, hc, hsig, -, -, hk, ha, hmu⟩ := construct_some Real.sqrt P fuel sigma mob Q M hM
  obtain ⟨hwm, hall⟩ := positive_input P sigma mob (by omega) hw.ne_zero hl.ne_zero
    (fun i j hij hj => (hpos i j hij hj).1)
  rw [← hsig, ← hmu] at hc hall
  rw [← hmu] at hwm
  obtain ⟨r, ⟨b1, -⟩, hx, -, e1, -, e3, -⟩ :=
    positive_pair_entries P.wGB M.mu_qp M.sigma fuel P.ncrys hwm hall c hc m n hmn hn
  rw [hk, ha, e1, e3]
  refine ⟨r.a_0, b1, ?_, ?_⟩
  · norm_num at hx ⊢; exact hx
  · rw [b1, show r.a_0 * P.wGB * M.sigma m n - r.a_star * P.wGB * M.sigma m n
        = (r.a_0 - r.a_star) * (P.wGB * M.sigma m n) by ring, abs_mul]
    apply mul_le_mul_of_nonneg_right _ (abs_nonneg _)
    norm_num at hx ⊢; exact hx

/-- C3 (witness): the second pair `(0,2)` of three grains with input energies 1, unit scales,
`wGB = 6`. -/
theorem kappa_star_near_a_star_witness :
    ∃ M, construct Real.sqrt (exParams ℝ 3) 3 (fun _ _ => 1) (fun _ _ => 1) (fun _ _ => 1)
        = some M ∧
      ∃ a0 : ℝ, M.kappa_gamma 0 2 = a0 * (exParams ℝ 3).wGB * M.sigma 0 2 ∧
        |a0 - M.a_g2 0 2| ≤ 1e-9 ∧
        |M.kappa_gamma 0 2 - M.a_g2 0 2 * (exParams ℝ 3).wGB * M.sigma 0 2|
          ≤ 1e-9 * |(exParams ℝ 3).wGB * M.sigma 0 2| :=
  let hM := construct_three_uniform
  ⟨hM.choose, hM.choose_spec.1,
    kappa_star_near_a_star (exParams ℝ 3) 3 (fun _ _ => 1) (fun _ _ => 1)
      (fun _ _ => 1) hM.choose hM.choose_spec.1 (exParams_moderate 3).1 (exParams_moderate 3).2.1
      (exParams_moderate 3).2.2 0 2 (by decide) (by decide)⟩

/-- C4 (amended): after construction from positive pair energies (with a length scale, a
width and energies of moderate size), for every pair `m < n`
`a_g2[n][m] = sigma[m][n]^2 / (kappa_gamma[m][n] * mu_qp)` and
`kappa_gamma[n][m] = 1 / y(a_g2[n][m])`; every pair's loop runs at least once, and the
denominator `kappa_gamma[m][n] * mu_qp` and `a_g2[n][m]` are positive. -/
theorem lower_triangle_consistent (P : Params ℝ) (fuel : Nat) (sigma mob Q : Table ℝ)
    (M : Members ℝ) (hM : construct Real.sqrt P fuel sigma mob Q = some M)
    (hl : Moderate P.length_scale) (hw : Moderate P.wGB)
    (hpos : ∀ m n, m < n → n < P.ncrys → 0 < sigma m n ∧ Moderate (sigma m n))
    (m n : Nat) (hmn : m < n) (hn : n < P.ncrys) :
    M.a_g2 n m = M.sigma m n ^ 2 / (M.kappa_gamma m n * M.mu_qp) ∧
    M.kappa_gamma n m
      = 1 / (-5.288 * M.a_g2 n m ^ 4 - 0.09364 * M.a_g2 n m ^ 3 + 9.965 * M.a_g2 n m ^ 2
          - 8.183 * M.a_g2 n m + 2.007) ∧
    PairEntered Real.sqrt P.wGB M.mu_qp M.sigma fuel P.ncrys m n ∧
    0 < M.kappa_gamma m n * M.mu_qp ∧ 0 < M.a_g2 n m := by
  obtain ⟨c, hc, hsig, -, -, hk, ha, hmu⟩ := construct_some Real.sqrt P fuel sigma mob Q M hM
  obtain ⟨hwm, hall⟩ := positive_input P sigma mob (by omega) hw.ne_zero hl.ne_zero
    (fun i j hij hj => (hpos i j hij hj).1)
  rw [← hsig, ← hmu] at hc hall
  rw [← hmu] at hwm
  have he := pairEntered_of_pos P.wGB M.mu_qp M.sigma fuel P.ncrys hwm hall c hc m n hmn hn
  obtain ⟨r, ⟨b1, b2, -⟩, -, ha0, e1, -, -, e4⟩ :=
    positive_pair_entries P.wGB M.mu_qp M.sigma fuel P.ncrys hwm hall c hc m n hmn hn
  have hg : M.a_g2 n m = M.sigma m n ^ 2 / (M.kappa_gamma m n * M.mu_qp) := by
    rw [hk, ha, e4, e1, b2, pow_two]
  have hs := (hall (m, n) (mem_pairs.2 ⟨hmn, hn⟩)).1
  simp only at hs
  have hkm : 0 < M.kappa_gamma m n * M.mu_qp := by
    rw [hk, e1, b1]
    have h9 : 0 < r.a_0 := lt_of_lt_of_le (by norm_num) ha0
    have : 0 < r.a_0 * M.sigma m n * (P.wGB * M.mu_qp) := by positivity
    calc (0 : ℝ) < r.a_0 * M.sigma m n * (P.wGB * M.mu_qp) := this
      _ = r.a_0 * P.wGB * M.sigma m n * M.mu_qp := by ring
  refine ⟨hg, ?_, he, hkm, ?_⟩
  · rw [hk, ha, calibPairs_gamma_entries Real.sqrt P.wGB M.mu_qp M.sigma fuel P.ncrys c hc m n
      hmn hn, y_of_g2_eq]
  · rw [hg]; positivity

/-- C4 (witness): the second pair `(0,2)` of three grains with input energies 1, unit scales,
`wGB = 6`. -/
theorem lower_triangle_consistent_witness :
    ∃ M, construct Real.sqrt (exParams ℝ 3) 3 (fun _ _ => 1) (fun _ _ => 1) (fun _ _ => 1)
        = some M ∧
      M.a_g2 2 0 = M.sigma 0 2 ^ 2 / (M.kappa_gamma 0 2 * M.mu_qp) ∧
      M.kappa_gamma 2 0
        = 1 / (-5.288 * M.a_g2 2 0 ^ 4 - 0.09364 * M.a_g2 2 0 ^ 3 + 9.965 * M.a_g2 2 0 ^ 2
            - 8.183 * M.a_g2 2 0 + 2.007) :=
  let hM := construct_three_uniform
  let h := lower_triangle_consistent (exParams ℝ 3) 3 (fun _ _ => 1) (fun _ _ => 1)
    (fun _ _ => 1) hM.choose hM.choose_spec.1 (exParams_moderate 3).1 (exParams_moderate 3).2.1
    (exParams_moderate 3).2.2 0 2 (by decide) (by decide)
  ⟨hM.choose, hM.choose_spec.1, h.1, h.2.1⟩

/-- C5 (amended): for two grains with a length scale, a width and a pair energy of moderate
size (in particular none of them zero), the constructor over the reals returns once three
iterations of the loop are allowed, and whenever it returns, the stored `kappa_gamma[0][1]`,
`a_g2[1][0]`, `kappa_gamma[1][0]` were computed from the iterate `a0` reached from `0.75` in
two steps, with `a_g2[0][1] = sqrt (f (y (g2)) / g2)` and `|a0 - a_g2[0][1]| < 1e-9`. -/
theorem two_grain_fixed_point (P : Params ℝ) (sigma mob Q : Table ℝ) (hN : P.ncrys = 2)
    (hl : Moderate P.length_scale) (hw : Moderate P.wGB) (hs : Moderate (sigma 0 1)) :
    (∀ fuel, 3 ≤ fuel → ∃ M, construct Real.sqrt P fuel sigma mob Q = some M) ∧
    ∀ fuel M, construct Real.sqrt P fuel sigma mob Q = some M →
      ∃ a0 : ℝ, a0 = uniformStep Real.sqrt (uniformStep Real.sqrt 0.75) ∧
        M.kappa_gamma 0 1 = a0 * P.wGB * M.sigma 0 1 ∧
        M.a_g2 1 0 = M.sigma 0 1 * M.sigma 0 1 / (M.kappa_gamma 0 1 * M.mu_qp) ∧
        M.kappa_gamma 1 0 = 1 / y_of_g2 (M.a_g2 1 0) ∧
        M.a_g2 0 1 = Real.sqrt (f_interf (y_of_g2 (M.a_g2 1 0)) / M.a_g2 1 0) ∧
        |a0 - M.a_g2 0 1| < 1e-9 ∧
        M.kappa_gamma 0 1 * M.mu_qp ≠ 0 ∧ M.a_g2 1 0 ≠ 0 := by
  refine ⟨fun fuel hf => (construct_two_real P fuel sigma mob Q hN).1 hf, fun fuel M hM => ?_⟩
  obtain ⟨r, ⟨b1, b2, b3, b4, b5⟩, hlt, hu, e1, e2, e3, e4⟩ :=
    (construct_two_real P fuel sigma mob Q hN).2 M hM
  obtain ⟨c, -, hsig, -, -, -, -, hmu⟩ := construct_some Real.sqrt P fuel sigma mob Q M hM
  have hs0 : M.sigma 0 1 ≠ 0 := by
    rw [hsig, convertUnits_sigma, if_pos ⟨by decide, by omega⟩]
    refine mul_ne_zero hs.ne_zero ?_
    unfold sigmaFactor JtoeV
    exact mul_ne_zero (by norm_num) (mul_ne_zero hl.ne_zero hl.ne_zero)
  obtain ⟨ha0, -⟩ := hu hw.ne_zero hs0
  have hmu2 : M.mu_qp = 6 * M.sigma 0 1 / P.wGB := by
    rw [hmu, mu_of_scan_two P sigma mob hN, hsig]
  have h2 := iterate2_bounds.1
  have hapos : r.a_0 ≠ 0 := by
    rw [ha0]
    norm_num at h2 ⊢
    intro h0
    rw [h0] at h2
    norm_num at h2
  have hkm : M.kappa_gamma 0 1 * M.mu_qp ≠ 0 := by
    rw [e1, b1, hmu2]
    have := hw.ne_zero
    field_simp
  refine ⟨r.a_0, ?_, ?_, ?_, ?_, ?_, ?_, hkm, ?_⟩
  · rw [ha0]; norm_num
  · rw [e1, b1]
  · rw [e4, e1, b2]
  · rw [e2, e4, b4, b3]
  · rw [e3, e4, b5, b3]
  · rw [e3]; exact hlt
  · rw [e4, b2, ← e1]
    exact div_ne_zero (mul_ne_zero hs0 hs0) hkm

/-- C5 (witness): input energy 1, unit scales, `wGB = 6`. -/
theorem two_grain_fixed_point_witness :
    ∃ M, construct Real.sqrt (exParams ℝ 2) 3 (fun _ _ => 1) (fun _ _ => 1) (fun _ _ => 1)
        = some M ∧
      ∃ a0 : ℝ, M.kappa_gamma 0 1 = a0 * 6 * M.sigma 0 1 ∧ |a0 - M.a_g2 0 1| < 1e-9 :=
  let h := two_grain_fixed_point (exParams ℝ 2) (fun _ _ => 1) (fun _ _ => 1) (fun _ _ => 1) rfl
    (exParams_moderate 2).1 (exParams_moderate 2).2.1
    ((exParams_moderate 2).2.2 0 1 (by decide) (by decide)).2
  let hM := h.1 3 (le_refl 3)
  let ha := h.2 3 hM.choose hM.choose_spec
  ⟨hM.choose, hM.choose_spec, ha.choose, ha.choose_spec.2.1, ha.choose_spec.2.2.2.2.2.1⟩

/-! ## Claims about the file read and the unit conversion -/

/-- C17: the unit-conversion loop multiplies `sigma[m][n]` by `JtoeV * length_scale^2` and
`mob[m][n]` by `time_scale / (JtoeV * length_scale^4)` for every pair `m < n < ncrys`, leaves
every other entry of the two tables as read, and the constructor stores these tables and the
table `Q` as read. -/
theorem unit_conversion_frame {α : Type} [LinearOrderedField α] (P : Params α)
    (sigma mob : Table α) :
    (∀ m n, m < n → n < P.ncrys →
      (convertUnits P.length_scale P.time_scale P.ncrys sigma mob).sigma m n
        = sigma m n * (JtoeV * P.length_scale ^ 2) ∧
      (convertUnits P.length_scale P.time_scale P.ncrys sigma mob).mob m n
        = mob m n * (P.time_scale / (JtoeV * P.length_scale ^ 4))) ∧
    (∀ m n, n ≤ m →
      (convertUnits P.length_scale P.time_scale P.ncrys sigma mob).sigma m n = sigma m n ∧
      (convertUnits P.length_scale P.time_scale P.ncrys sigma mob).mob m n = mob m n) ∧
    ∀ (sqrt : α → α) (fuel : Nat) (Q : Table α) (M : Members α),
      construct sqrt P fuel sigma mob Q = some M →
        M.sigma = (convertUnits P.length_scale P.time_scale P.ncrys sigma mob).sigma ∧
        M.mob = (convertUnits P.length_scale P.time_scale P.ncrys sigma mob).mob ∧
        M.Q = Q := by
  refine ⟨fun m n hmn hn => ?_, fun m n hnm => ?_, fun sqrt fuel Q M hM => ?_⟩
  · rw [convertUnits_sigma, convertUnits_mob, if_pos ⟨hmn, hn⟩, if_pos ⟨hmn, hn⟩]
    simp only [sigmaFactor, mobFactor]
    constructor
    · ring
    · ring
  · rw [convertUnits_sigma, convertUnits_mob, if_neg (by omega), if_neg (by omega)]
    exact ⟨rfl, rfl⟩
  · obtain ⟨c, -, h1, h2, h3, -⟩ := construct_some sqrt P fuel sigma mob Q M hM
    exact ⟨h1, h2, h3⟩

/-- C18: for an input of exactly `3 * N * N` numbers after the header, the loader stores the
number of index `i * N + j` in `sigma[i][j]`, that of index `(N + i) * N + j` in `mob[i][j]`
and that of index `(2 * N + i) * N + j` in `Q[i][j]`, for all `i, j < N`. -/
theorem loader_layout {α : Type} [Zero α] (N : Nat) (data0 : α) (input : List α)
    (hlen : input.length = 3 * N * N) (i j : Nat) (hi : i < N) (hj : j < N) :
    input[i * N + j]? = some ((readTables N data0 input).sigma i j) ∧
    input[(N + i) * N + j]? = some ((readTables N data0 input).mob i j) ∧
    input[(2 * N + i) * N + j]? = some ((readTables N data0 input).Q i j) := by
  obtain ⟨-, htab⟩ := readTables_fold N data0 input hlen (3 * N) (le_refl _)
  obtain ⟨h1, h2, h3⟩ := htab i j
  have hl1 : (i + 1) * N ≤ input.length := by
    rw [hlen]; exact Nat.mul_le_mul_right N (by omega)
  have hl2 : (N + i + 1) * N ≤ input.length := by
    rw [hlen]; exact Nat.mul_le_mul_right N (by omega)
  have hl3 : (2 * N + i + 1) * N ≤ input.length := by
    rw [hlen]; exact Nat.mul_le_mul_right N (by omega)
  unfold readTables
  rw [h1, h2, h3, if_pos ⟨hi, by omega⟩, if_pos ⟨hi, by omega⟩, if_pos (by omega)]
  exact ⟨rowEntry_eq N input i j hj hl1, rowEntry_eq N input (N + i) j hj hl2,
    rowEntry_eq N input (2 * N + i) j hj hl3⟩

/-- C18 (witness): two grains, the numbers 1 to 12, entry `[1][0]` of each table. -/
theorem loader_layout_witness :
    ([1, 2, 3, 4, 5, 6, 7, 8, 9, 10, 11, 12] : List ℚ)[1 * 2 + 0]?
      = some ((readTables 2 0 [1, 2, 3, 4, 5, 6, 7, 8, 9, 10, 11, 12]).sigma 1 0) ∧
    ([1, 2, 3, 4, 5, 6, 7, 8, 9, 10, 11, 12] : List ℚ)[(2 + 1) * 2 + 0]?
      = some ((readTables 2 0 [1, 2, 3, 4, 5, 6, 7, 8, 9, 10, 11, 12]).mob 1 0) ∧
    ([1, 2, 3, 4, 5, 6, 7, 8, 9, 10, 11, 12] : List ℚ)[(2 * 2 + 1) * 2 + 0]?
      = some ((readTables 2 0 [1, 2, 3, 4, 5, 6, 7, 8, 9, 10, 11, 12]).Q 1 0) :=
  loader_layout 2 0 [1, 2, 3, 4, 5, 6, 7, 8, 9, 10, 11, 12] rfl 1 0 (by decide) (by decide)

/-! ## Claims about the example scenario and the interface width -/

/-- C13: two grains, converted energy `sigma[0][1] = 1` and `wGB = 6`: `mu_qp = 1`, the first
iteration of the loop has `a_0 = 0.75`, and the loop ends after exactly three iterations (the
constructor does not return when two iterations are allowed, and returns when three, or 49,
are). -/
theorem example_scenario (P : Params ℝ) (sigma mob Q : Table ℝ) (hN : P.ncrys = 2)
    (hw : P.wGB = 6)
    (hs : (convertUnits P.length_scale P.time_scale P.ncrys sigma mob).sigma 0 1 = 1) :
    mu_of_scan P.wGB (convertUnits P.length_scale P.time_scale P.ncrys sigma mob) = 1 ∧
    (calibBody Real.sqrt P.wGB 1 1 (pairEntry initLocals)).a_0 = 0.75 ∧
    (calibBody Real.sqrt P.wGB 1 1 (pairEntry initLocals)).kappa_star = 0.75 * 6 * 1 ∧
    construct Real.sqrt P 2 sigma mob Q = none ∧
    (∃ M, construct Real.sqrt P 3 sigma mob Q = some M ∧ M.mu_qp = 1) ∧
    (∃ M, construct Real.sqrt P 49 sigma mob Q = some M ∧ M.mu_qp = 1) := by
  have hmu : mu_of_scan P.wGB (convertUnits P.length_scale P.time_scale P.ncrys sigma mob)
      = 1 := by
    rw [mu_of_scan_two P sigma mob hN, hs, hw]; norm_num
  have hrun : ∀ fuel, calibWhile Real.sqrt P.wGB
      (6 * (convertUnits P.length_scale P.time_scale P.ncrys sigma mob).sigma 0 1 / P.wGB)
      ((convertUnits P.length_scale P.time_scale P.ncrys sigma mob).sigma 0 1) fuel
      (pairEntry initLocals) = if 3 ≤ fuel then _ else none := fun fuel =>
    uniform_run P.wGB _ (by rw [hw]; norm_num) (by rw [hs]; norm_num) initLocals
      initLocals_a_0 fuel
  have hsome : ∀ fuel, 3 ≤ fuel →
      ∃ M, construct Real.sqrt P fuel sigma mob Q = some M ∧ M.mu_qp = 1 := by
    intro fuel hf
    obtain ⟨M, hM⟩ := (construct_two_real P fuel sigma mob Q hN).1 hf
    obtain ⟨c, -, -, -, -, -, -, h6⟩ := construct_some Real.sqrt P fuel sigma mob Q M hM
    exact ⟨M, hM, h6.trans hmu⟩
  refine ⟨hmu, rfl, ?_, ?_, hsome 3 (le_refl 3), hsome 49 (by decide)⟩
  · simp only [calibBody, pairEntry, initLocals, hw]
  · rw [construct_two Real.sqrt P 2 sigma mob Q hN, hrun 2, if_neg (by decide)]

/-- C13 (witness): unit length scale and input energy `1 / JtoeV`. -/
theorem example_scenario_witness :
    mu_of_scan (exParams ℝ 2).wGB (convertUnits (exParams ℝ 2).length_scale
      (exParams ℝ 2).time_scale (exParams ℝ 2).ncrys (fun _ _ => 1 / JtoeV) (fun _ _ => 1)) = 1 ∧
    construct Real.sqrt (exParams ℝ 2) 2 (fun _ _ => 1 / JtoeV) (fun _ _ => 1) (fun _ _ => 1)
      = none ∧
    ∃ M, construct Real.sqrt (exParams ℝ 2) 3 (fun _ _ => 1 / JtoeV) (fun _ _ => 1)
      (fun _ _ => 1) = some M ∧ M.mu_qp = 1 :=
  let h := example_scenario (exParams ℝ 2) (fun _ _ => 1 / JtoeV) (fun _ _ => 1)
    (fun _ _ => 1) rfl rfl (by
      rw [convertUnits_sigma, if_pos ⟨by decide, by decide⟩]
      simp only [exParams, sigmaFactor, JtoeV]
      norm_num)
  ⟨h.1, h.2.2.2.1, h.2.2.2.2.1⟩

/-- C6: for at least two grains the constant `mu_qp` is `6 * ((max + min) / 2) / wGB` with
`max` and `min` the greatest and the least of the unit-converted `sigma[m][n]` over all pairs
`m < n`; the converted energies are the input energies times `JtoeV * length_scale^2`, and
the constructor stores exactly this table and this constant. -/
theorem mu_qp_true_extremes {α : Type} [LinearOrderedField α] (P : Params α)
    (sigma mob : Table α) (hN : 2 ≤ P.ncrys) :
    ∃ big small : α,
      IsGreatest {x | ∃ m n, m < n ∧ n < P.ncrys ∧
        x = (convertUnits P.length_scale P.time_scale P.ncrys sigma mob).sigma m n} big ∧
      IsLeast {x | ∃ m n, m < n ∧ n < P.ncrys ∧
        x = (convertUnits P.length_scale P.time_scale P.ncrys sigma mob).sigma m n} small ∧
      (∀ m n, m < n → n < P.ncrys →
        (convertUnits P.length_scale P.time_scale P.ncrys sigma mob).sigma m n
          = sigma m n * (JtoeV * P.length_scale ^ 2)) ∧
      mu_of_scan P.wGB (convertUnits P.length_scale P.time_scale P.ncrys sigma mob)
        = 6 * ((big + small) / 2) / P.wGB ∧
      ∀ (sqrt : α → α) (fuel : Nat) (Q : Table α) (M : Members α),
        construct sqrt P fuel sigma mob Q = some M →
          M.sigma = (convertUnits P.length_scale P.time_scale P.ncrys sigma mob).sigma ∧
          M.mu_qp = 6 * ((big + small) / 2) / P.wGB := by
  obtain ⟨hb, hs⟩ := convertUnits_extremes P.length_scale P.time_scale P.ncrys sigma mob hN
  have hmu : mu_of_scan P.wGB (convertUnits P.length_scale P.time_scale P.ncrys sigma mob)
      = 6 * (((convertUnits P.length_scale P.time_scale P.ncrys sigma mob).sigma_big
          + (convertUnits P.length_scale P.time_scale P.ncrys sigma mob).sigma_small) / 2)
        / P.wGB := by
    unfold mu_of_scan; norm_num
  refine ⟨_, _, hb, hs, ?_, hmu, ?_⟩
  · intro m n hmn hn
    rw [convertUnits_sigma, if_pos ⟨hmn, hn⟩, sigmaFactor, pow_two]
  · intro sqrt fuel Q M hM
    obtain ⟨c, -, h1, -, -, -, -, h6⟩ := construct_some sqrt P fuel sigma mob Q M hM
    exact ⟨h1, h6.trans hmu⟩

/-- C6 (witness): three grains with input energies 2, 5, 3 for the pairs (0,1), (0,2), (1,2). -/
theorem mu_qp_true_extremes_witness :
    ∃ big small : ℝ,
      IsGreatest {x | ∃ m n, m < n ∧ n < 3 ∧
        x = (convertUnits 1 1 3 (fun i j => if i = 0 then (if j = 1 then 2 else 5) else 3)
          (fun _ _ => 1)).sigma m n} big ∧
      IsLeast {x | ∃ m n, m < n ∧ n < 3 ∧
        x = (convertUnits 1 1 3 (fun i j => if i = 0 then (if j = 1 then 2 else 5) else 3)
          (fun _ _ => 1)).sigma m n} small ∧
      mu_of_scan 6 (convertUnits 1 1 3 (fun i j => if i = 0 then (if j = 1 then 2 else 5) else 3)
          (fun _ _ => (1 : ℝ))) = 6 * ((big + small) / 2) / 6 :=
  let h := mu_qp_true_extremes (exParams ℝ 3)
    (fun i j => if i = 0 then (if j = 1 then 2 else 5) else 3) (fun _ _ => 1)
    (by decide : 2 ≤ 3)
  ⟨h.choose, h.choose_spec.choose, h.choose_spec.choose_spec.1, h.choose_spec.choose_spec.2.1,
    h.choose_spec.choose_spec.2.2.2.1⟩

/-! ## Claims about the evaluator -/

/-- C7 (amended): for at least two grains the weight sum accumulated by the evaluator at a
sample point is strictly positive, whatever the order parameters; the evaluator reaches the
divisions whenever it does not stop with the 3-D error. -/
theorem sum_val_pos {α : Type} [LinearOrderedField α] (F : MathFns α) (P : Params α)
    (M : Members α) (q : QpInput α) (hN : 2 ≤ P.ncrys) :
    (P.inclination_anisotropy = false ∨ P.mesh_dimension ≠ 3 →
      ∃ a, evalPairs F P M q (pairs P.ncrys) (initAcc M) = Except.ok a) ∧
    ∀ a, evalPairs F P M q (pairs P.ncrys) (initAcc M) = Except.ok a → 0 < a.sum_val := by
  refine ⟨fun h => evalPairs_ok F P M q h _ _, fun a ha => ?_⟩
  rw [evalPairs_sum_val F P M q _ _ _ ha]
  have hne : pairs P.ncrys ≠ [] := by
    obtain ⟨rest, hr⟩ := pairs_cons hN
    rw [hr]; exact List.cons_ne_nil _ _
  have := sum_pairVal_pos q.vals _ hne
  simp only [initAcc]
  norm_num
  exact this

/-- C7 (witness): two grains, both order parameters zero. -/
theorem sum_val_pos_witness :
    (2 : Nat) ≤ 2 ∧
    ((false = false ∨ 2 ≠ 3 →
      ∃ a, evalPairs (MathFns.mk Real.exp Real.sin Real.cos Real.pi)
        (Params.mk 2 1 1 6 1 0 0 false 2) (Members.mk 0 0 0 0 0 1) (QpInput.mk 300 0 0)
        (pairs 2) (initAcc (Members.mk 0 0 0 0 0 1)) = Except.ok a) ∧
    ∀ a, evalPairs (MathFns.mk Real.exp Real.sin Real.cos Real.pi)
        (Params.mk 2 1 1 6 1 0 0 false 2) (Members.mk 0 0 0 0 0 1) (QpInput.mk 300 0 0)
        (pairs 2) (initAcc (Members.mk 0 0 0 0 0 1)) = Except.ok a → 0 < a.sum_val) :=
  ⟨le_refl 2, sum_val_pos (MathFns.mk Real.exp Real.sin Real.cos Real.pi)
    (Params.mk 2 1 1 6 1 0 0 false 2) (Members.mk 0 0 0 0 0 1) (QpInput.mk 300 0 0)
    (le_refl 2)⟩

/-- C7 (counterexample): with a single grain no pair is visited and the weight sum by which
`kappa`, `gamma` and `L` are divided is zero. -/
theorem sum_val_single_grain :
    ∃ a, evalPairs (MathFns.mk Real.exp Real.sin Real.cos Real.pi)
        (Params.mk 2 1 1 6 1 0 0 false 1) (Members.mk 0 0 0 0 0 1) (QpInput.mk 300 1 0)
        (pairs 1) (initAcc (Members.mk 0 0 0 0 0 1)) = Except.ok a ∧ ¬ 0 < a.sum_val := by
  refine ⟨_, rfl, ?_⟩
  simp only [initAcc]
  norm_num

/-- C11 (counterexample): inclination anisotropy on a 1-D mesh, two grains, one sample point:
the evaluation returns outputs and raises no error. -/
theorem one_dimensional_no_error :
    ∃ os, computeProperties (MathFns.mk Real.exp Real.sin Real.cos Real.pi)
      { exParams ℝ 2 with mesh_dimension := 1, inclination_anisotropy := true }
      (exMembers ℝ) [exPoint ℝ] = Except.ok os :=
  computeProperties_ok _ _ _ (Or.inr (by decide)) _

/-- C11 (amended): with inclination anisotropy on a 3-D mesh, at least two grains and at
least one sample point the evaluation stops with the error of line 197; without inclination
anisotropy, or with a mesh dimension other than 3, it returns outputs for every point. -/
theorem three_dimensional_error {α : Type} [LinearOrderedField α] (F : MathFns α)
    (P : Params α) (M : Members α) (q : QpInput α) (qs : List (QpInput α)) :
    (P.inclination_anisotropy = true → P.mesh_dimension = 3 → 2 ≤ P.ncrys →
      computeProperties F P M (q :: qs)
        = Except.error "This material doesn't support inclination dependence for 3D for now!") ∧
    (P.inclination_anisotropy = false ∨ P.mesh_dimension ≠ 3 →
      ∃ os, computeProperties F P M (q :: qs) = Except.ok os ∧ os.length = (q :: qs).length) := by
  constructor
  · intro hinc hd hN
    obtain ⟨rest, hr⟩ := pairs_cons hN
    apply computeProperties_cons_error
    simp only [computeQp, hr, evalPairs_error F P M q hinc hd]
  · intro h
    obtain ⟨os, hos⟩ := computeProperties_ok F P M h (q :: qs)
    exact ⟨os, hos, ((computeProperties_ok_iff F P M _ _).1 hos).length_eq.symm⟩

/-- C11 (witness): three dimensions and two grains give the error; two dimensions do not. -/
theorem three_dimensional_error_witness :
    (computeProperties (MathFns.mk Real.exp Real.sin Real.cos Real.pi)
      { exParams ℝ 2 with mesh_dimension := 3, inclination_anisotropy := true }
      (exMembers ℝ) [exPoint ℝ]
        = Except.error "This material doesn't support inclination dependence for 3D for now!") ∧
    ∃ os, computeProperties (MathFns.mk Real.exp Real.sin Real.cos Real.pi)
      { exParams ℝ 2 with mesh_dimension := 2, inclination_anisotropy := true }
      (exMembers ℝ) [exPoint ℝ] = Except.ok os ∧ os.length = 1 :=
  ⟨(three_dimensional_error (MathFns.mk Real.exp Real.sin Real.cos Real.pi)
      { exParams ℝ 2 with mesh_dimension := 3, inclination_anisotropy := true }
      (exMembers ℝ) (exPoint ℝ) []).1 rfl rfl (le_refl 2),
   (three_dimensional_error (MathFns.mk Real.exp Real.sin Real.cos Real.pi)
      { exParams ℝ 2 with mesh_dimension := 2, inclination_anisotropy := true }
      (exMembers ℝ) (exPoint ℝ) []).2 (Or.inr (by decide))⟩

/-- C15: in every successful call, at every sample point, `L` is the sum over the pairs of
`Val * (mob[m][n] * exp (-Q[m][n] / (kb * T))) * f_mob / (wGB * a_g2[m][n])` divided by the
sum of `Val`, with `mob` the table stored by the constructor: the Arrhenius factor of a point
is applied once to the stored prefactor, whatever the points evaluated before. -/
theorem kinetic_coefficient {α : Type} [LinearOrderedField α] (F : MathFns α) (P : Params α)
    (M : Members α) (qs : List (QpInput α)) (os : List (QpOutput α))
    (h : computeProperties F P M qs = Except.ok os) :
    List.Forall₂ (fun q o =>
      o.L = ((pairs P.ncrys).map fun p =>
          pairVal q.vals p.1 p.2 * (M.mob p.1 p.2 * F.exp (-M.Q p.1 p.2 / (kb * q.T)))
            * pair_f_mob F P q p.1 p.2 / (P.wGB * M.a_g2 p.1 p.2)).sum
        / ((pairs P.ncrys).map fun p => pairVal q.vals p.1 p.2).sum) qs os := by
  refine List.Forall₂.imp ?_ ((computeProperties_ok_iff F P M qs os).1 h)
  intro q o ho
  exact (computeQp_closed F P M q o ho).2.2

/-- C15 (witness): two grains, the example point evaluated twice in one call. -/
theorem kinetic_coefficient_witness :
    ∃ os, computeProperties (MathFns.mk Real.exp Real.sin Real.cos Real.pi) (exParams ℝ 2)
        (exMembers ℝ) [exPoint ℝ, exPoint ℝ] = Except.ok os ∧
      List.Forall₂ (fun q o =>
        o.L = ((pairs 2).map fun p =>
            pairVal q.vals p.1 p.2 * ((exMembers ℝ).mob p.1 p.2
              * Real.exp (-(exMembers ℝ).Q p.1 p.2 / (kb * q.T)))
              * pair_f_mob (MathFns.mk Real.exp Real.sin Real.cos Real.pi) (exParams ℝ 2) q
                  p.1 p.2 / ((exParams ℝ 2).wGB * (exMembers ℝ).a_g2 p.1 p.2)).sum
          / ((pairs 2).map fun p => pairVal q.vals p.1 p.2).sum) [exPoint ℝ, exPoint ℝ] os :=
  let h := computeProperties_ok (MathFns.mk Real.exp Real.sin Real.cos Real.pi) (exParams ℝ 2)
    (exMembers ℝ) (Or.inl rfl) [exPoint ℝ, exPoint ℝ]
  ⟨h.choose, h.choose_spec, kinetic_coefficient _ _ _ _ _ h.choose_spec⟩

/-- C16: a call of `computeProperties` that returns leaves `sigma`, `mob`, `Q`, `kappa_gamma`,
`a_g2` and `mu_qp` of the object as they were; the properties it assigns at the quadrature
point `i` are the outputs of the loop body on the tables and the coupled values of that point
alone; and in a later call on the resulting object the tables are again unchanged and a point
with the same coupled values gets the same properties, whatever its position. -/
theorem evaluation_frame {α : Type} [LinearOrderedField α] (F : MathFns α) (P : Params α)
    (qs : List (QpInput α)) (s s' : Material α)
    (h : computePropertiesOn F P qs s = Except.ok s') :
    (s'.tables.sigma = s.tables.sigma ∧ s'.tables.mob = s.tables.mob ∧
      s'.tables.Q = s.tables.Q ∧ s'.tables.kappa_gamma = s.tables.kappa_gamma ∧
      s'.tables.a_g2 = s.tables.a_g2 ∧ s'.tables.mu_qp = s.tables.mu_qp) ∧
    (∀ (i : Nat) (q : QpInput α), qs[i]? = some q →
      computeQp F P s.tables q = Except.ok (s'.propsAt i)) ∧
    (∀ (qs2 : List (QpInput α)) (s2 : Material α),
      computePropertiesOn F P qs2 s' = Except.ok s2 →
        s2.tables = s.tables ∧
        ∀ (i j : Nat) (q : QpInput α), qs[i]? = some q → qs2[j]? = some q →
          s2.propsAt j = s'.propsAt i) := by
  obtain ⟨t1, c1, -⟩ := qpLoop_ok F P qs _ _ h
  simp only [Nat.zero_add] at t1 c1
  refine ⟨⟨by rw [t1], by rw [t1], by rw [t1], by rw [t1], by rw [t1], by rw [t1]⟩, c1, ?_⟩
  intro qs2 s2 h2
  obtain ⟨t2, c2, -⟩ := qpLoop_ok F P qs2 _ _ h2
  simp only [Nat.zero_add] at t2 c2
  refine ⟨t2.trans t1, fun i j q hi hj => ?_⟩
  have e1 := c1 i q hi
  have e2 := c2 j q hj
  rw [t1, e1, Except.ok.injEq] at e2
  exact e2.symm

/-- C16 (witness): the example object; a call on the example point, then a call on another
point followed by the example point. -/
theorem evaluation_frame_witness :
    ∃ s' s2, computePropertiesOn (MathFns.mk Real.exp Real.sin Real.cos Real.pi) (exParams ℝ 2)
        [exPoint ℝ] (exMaterial ℝ) = Except.ok s' ∧
      computePropertiesOn (MathFns.mk Real.exp Real.sin Real.cos Real.pi) (exParams ℝ 2)
        [{ exPoint ℝ with T := 500 }, exPoint ℝ] s' = Except.ok s2 ∧
      s'.tables.mob = (exMaterial ℝ).tables.mob ∧ s2.tables = (exMaterial ℝ).tables ∧
      s2.propsAt 1 = s'.propsAt 0 :=
  let h := qpLoop_total (MathFns.mk Real.exp Real.sin Real.cos Real.pi) (exParams ℝ 2)
    (Or.inl rfl) [exPoint ℝ] { exMaterial ℝ with qp := 0 }
  let h2 := qpLoop_total (MathFns.mk Real.exp Real.sin Real.cos Real.pi) (exParams ℝ 2)
    (Or.inl rfl) [{ exPoint ℝ with T := 500 }, exPoint ℝ] { h.choose with qp := 0 }
  let t := evaluation_frame (MathFns.mk Real.exp Real.sin Real.cos Real.pi) (exParams ℝ 2)
    [exPoint ℝ] (exMaterial ℝ) h.choose h.choose_spec
  ⟨h.choose, h2.choose, h.choose_spec, h2.choose_spec, t.1.2.1,
    (t.2.2 _ h2.choose h2.choose_spec).1,
    (t.2.2 _ h2.choose h2.choose_spec).2 0 1 (exPoint ℝ) rfl rfl⟩

namespace IEEE
open Double

/-! ## Claims settled in binary64 arithmetic -/

/-- C4 (counterexample): two grains with pair energy 0 in binary64 arithmetic. The constructor
returns after one pass of the loop, whose iterate is a NaN; the stored `a_g2[1][0]` and
`kappa_gamma[1][0]` are NaN, so the comparison with `sigma^2 / (kappa_gamma[0][1] * mu_qp)` and
with `1 / y (a_g2[1][0])` is false. -/
theorem lower_triangle_nan :
    ∃ M, construct (exParams 2) 1 (fun _ _ => 0) (fun _ _ => 1) (fun _ _ => 1) = some M ∧
      M.a_g2 1 0 = nan ∧ M.kappa_gamma 1 0 = nan ∧
      Double.eq (M.a_g2 1 0)
        (M.sigma 0 1 * M.sigma 0 1 / (M.kappa_gamma 0 1 * M.mu_qp)) = false ∧
      Double.eq (M.kappa_gamma 1 0) (1.0 / y_of_g2 (M.a_g2 1 0)) = false := by
  obtain ⟨-, M, hM, -, -, -, h4, -, h6⟩ := construct_zero_energy
  refine ⟨M, hM, h6, h4, ?_, ?_⟩
  · rw [h6]; exact nan_eq _
  · rw [h4]; exact nan_eq _

/-- C5 (counterexample): two grains with pair energy 0 in binary64 arithmetic. The loop
terminates (the test `|a_0 - a_star| > 1e-9` is false for a NaN) and the stored `a_g2[0][1]`
is a NaN: no iterate `a0` satisfies `|a0 - a_g2[0][1]| < 1e-9`. -/
theorem two_grain_nan_exit :
    ∃ M, construct (exParams 2) 1 (fun _ _ => 0) (fun _ _ => 1) (fun _ _ => 1) = some M ∧
      M.a_g2 0 1 = nan ∧ ∀ a0 : Double, ¬ (Double.abs (a0 - M.a_g2 0 1) < 1.0e-9) := by
  obtain ⟨-, M, hM, -, -, -, -, h5, -⟩ := construct_zero_energy
  refine ⟨M, hM, h5, ?_⟩
  intro a0
  rw [h5, sub_nan]
  exact not_nan_lt _

/-- C8 (counterexample): two grains, no inclination anisotropy, `kappa_gamma[0][1] = 5`,
`kappa_gamma[1][0] = 7`, both order parameters 1: the output `gamma` is `7 + 2^-50`, the
`double` after 7, not the stored `kappa_gamma[1][0]`. -/
theorem roundtrip_not_exact :
    ∃ o, computeQp exFns (exParams 2) (exMembers 5 7) exPoint = Except.ok o ∧
      o.gamma = num (7 + 1 / 2 ^ 50) ∧ (exMembers 5 7).kappa_gamma 1 0 = num 7 ∧
      o.gamma ≠ (exMembers 5 7).kappa_gamma 1 0 := by
  obtain ⟨o, ho, -, hg⟩ := computeQp_two exFns (exParams 2) (exMembers 5 7) exPoint rfl rfl
  have e7 : (exMembers 5 7).kappa_gamma 1 0 = num 7 := by
    simp only [exMembers]
    rw [if_neg (by decide), ofNat_def]
    norm_num
  have hv : exPoint.vals = fun _ => 1 := rfl
  rw [e7, hv, pairVal_ones, mean_of_seven] at hg
  refine ⟨o, ho, hg, e7, ?_⟩
  rw [hg, e7]
  intro h
  have := Double.num.inj h
  norm_num at this

/-- C8 (amended): for two grains without inclination anisotropy, order parameters of magnitude
at most `1e6` and table entries `kappa_gamma[0][1] = k`, `kappa_gamma[1][0] = g` that are zero
or of magnitude between `1e-100` and `1e100`, the evaluation in binary64 arithmetic returns
finite outputs with `|kappa - k| ≤ 2^-50 |k|` and `|gamma - g| ≤ 2^-50 |g|`, at every
temperature. -/
theorem single_pair_roundtrip (F : MathFns Double) (P : Params Double) (M : Members Double)
    (q : QpInput Double) (hN : P.ncrys = 2) (hinc : P.inclination_anisotropy = false)
    (v0 v1 k g : ℚ) (hv0 : q.vals 0 = num v0) (hv1 : q.vals 1 = num v1)
    (hb0 : |v0| ≤ 1000000) (hb1 : |v1| ≤ 1000000)
    (hk : M.kappa_gamma 0 1 = num k) (hg : M.kappa_gamma 1 0 = num g)
    (hkr : ZeroOrBetween (1 / 10 ^ 100) (10 ^ 100) k)
    (hgr : ZeroOrBetween (1 / 10 ^ 100) (10 ^ 100) g) :
    ∃ o, computeQp F P M q = Except.ok o ∧ o.kappa.IsFinite ∧ o.gamma.IsFinite ∧
      |o.kappa.toRat - k| ≤ |k| / 2 ^ 50 ∧ |o.gamma.toRat - g| ≤ |g| / 2 ^ 50 := by
  obtain ⟨o, ho, ek, eg⟩ := computeQp_two F P M q hN hinc
  obtain ⟨fV, lV, uV⟩ := pairVal_finite q.vals 0 1 v0 v1 hv0 hv1 hb0 hb1
  obtain ⟨fA, a0, ha0, eA⟩ := num_mul_one k hkr
  have hu0 := unitRoundoff_pos
  obtain ⟨r1, r2⟩ := quotient_near _ _ k a0 fA eA ha0 hkr fV lV uV
  obtain ⟨r3, r4⟩ := quotient_near (num g) _ g 1 (num_finite _) (by rw [toRat_num, mul_one])
    ⟨by linarith, by linarith⟩ hgr fV lV uV
  rw [hk] at ek
  rw [hg] at eg
  rw [← ek] at r1 r2
  rw [← eg] at r3 r4
  exact ⟨o, ho, r1, r3, r2, r4⟩


/-- C8 (witness): two grains with `kappa_gamma[0][1] = 5` and `kappa_gamma[1][0] = 7` at the
example point. -/
theorem single_pair_roundtrip_witness :
    ∃ o, computeQp exFns (exParams 2) (exMembers 5 7) exPoint = Except.ok o ∧
      o.kappa.IsFinite ∧ o.gamma.IsFinite ∧
      |o.kappa.toRat - 5| ≤ |(5 : ℚ)| / 2 ^ 50 ∧ |o.gamma.toRat - 7| ≤ |(7 : ℚ)| / 2 ^ 50 :=
  single_pair_roundtrip exFns (exParams 2) (exMembers 5 7) exPoint rfl rfl 1 1 5 7
    (by simp only [exPoint, ofNat_def]; norm_num) (by simp only [exPoint, ofNat_def]; norm_num)
    (by norm_num) (by norm_num)
    (by simp only [exMembers, ofNat_def]; norm_num)
    (by simp only [exMembers, ofNat_def]; norm_num)
    (Or.inr ⟨by norm_num, by norm_num⟩) (Or.inr ⟨by norm_num, by norm_num⟩)

/-- C20 (counterexample): two grains, no inclination anisotropy, `kappa_gamma[0][1] = 7`,
both order parameters 1: the only pair makes 7 the least and the greatest `kappa_gamma[m][n]`,
and the output `kappa` is `7 + 2^-50`, above it. -/
theorem kappa_above_maximum :
    ∃ o, computeQp exFns (exParams 2) (exMembers 7 5) exPoint = Except.ok o ∧
      (∀ m n, m < n → n < (exParams 2).ncrys → (exMembers 7 5).kappa_gamma m n = num 7) ∧
      o.kappa = num (7 + 1 / 2 ^ 50) ∧ num 7 < o.kappa := by
  obtain ⟨o, ho, hk, -⟩ := computeQp_two exFns (exParams 2) (exMembers 7 5) exPoint rfl rfl
  have e7 : ∀ m n, m < n → (exMembers 7 5).kappa_gamma m n = num 7 := by
    intro m n hmn
    simp only [exMembers]
    rw [if_pos hmn, ofNat_def]
    norm_num
  have hv : exPoint.vals = fun _ => 1 := rfl
  rw [e7 0 1 (by decide), hv, pairVal_ones, seven_times_one, mean_of_seven] at hk
  refine ⟨o, ho, fun m n hmn _ => e7 m n hmn, hk, ?_⟩
  rw [hk]
  show Double.lt (num 7) (num (7 + 1 / 2 ^ 50)) = true
  simp only [Double.lt, toRat]
  norm_num

/-- C20: in binary64 arithmetic, without inclination anisotropy, for `2 ≤ N ≤ 1000` grains,
order parameters of magnitude at most `1e6` and table entries between `lo` and `hi` above the
diagonal and between `lo2` and `hi2` below it (all between `1e-100` and `1e100`), the evaluator
returns finite `kappa` and `gamma` with `lo * (1 - d) ≤ kappa ≤ hi * (1 + d)` and
`lo2 * (1 - d) ≤ gamma ≤ hi2 * (1 + d)`, where `d = (N * N + 2) / 2 ^ 50` bounds the
accumulated rounding. -/
theorem outputs_near_extremes (F : MathFns Double) (P : Params Double) (M : Members Double)
    (q : QpInput Double) (hN : 2 ≤ P.ncrys) (hN2 : P.ncrys ≤ 1000)
    (hinc : P.inclination_anisotropy = false) (v : Nat → ℚ) (k : Nat → Nat → ℚ)
    (hv : ∀ i, i < P.ncrys → q.vals i = num (v i) ∧ |v i| ≤ 1000000)
    (hk : ∀ m n, m < P.ncrys → n < P.ncrys → M.kappa_gamma m n = num (k m n))
    (lo hi lo2 hi2 : ℚ) (hlo : 1 / 10 ^ 100 ≤ lo) (hhi : hi ≤ 10 ^ 100)
    (hlo2 : 1 / 10 ^ 100 ≤ lo2) (hhi2 : hi2 ≤ 10 ^ 100)
    (hkb : ∀ m n, m < n → n < P.ncrys → lo ≤ k m n ∧ k m n ≤ hi)
    (hgb : ∀ m n, m < n → n < P.ncrys → lo2 ≤ k n m ∧ k n m ≤ hi2) :
    ∃ o, computeQp F P M q = Except.ok o ∧ o.kappa.IsFinite ∧ o.gamma.IsFinite ∧
      lo * (1 - ((P.ncrys : ℚ) * (P.ncrys : ℚ) + 2) / 2 ^ 50) ≤ o.kappa.toRat ∧
      o.kappa.toRat ≤ hi * (1 + ((P.ncrys : ℚ) * (P.ncrys : ℚ) + 2) / 2 ^ 50) ∧
      lo2 * (1 - ((P.ncrys : ℚ) * (P.ncrys : ℚ) + 2) / 2 ^ 50) ≤ o.gamma.toRat ∧
      o.gamma.toRat ≤ hi2 * (1 + ((P.ncrys : ℚ) * (P.ncrys : ℚ) + 2) / 2 ^ 50) := by
  have hlen := length_pairs_le P.ncrys
  have hNN : P.ncrys * P.ncrys ≤ 1000000 := by nlinarith
  obtain ⟨rest, hr⟩ := pairs_cons hN
  have hlen1 : 1 ≤ (pairs P.ncrys).length := by rw [hr]; simp
  have h01 := hkb 0 1 (by decide) (by omega)
  have h10 := hgb 0 1 (by decide) (by omega)
  have hlo0 : 0 < lo := lt_of_lt_of_le (by norm_num) hlo
  have hlo20 : 0 < lo2 := lt_of_lt_of_le (by norm_num) hlo2
  obtain ⟨a, T, ea, hf, fS, fK, fG, lT, -, lS, uS, lK, uK, lG, uG⟩ :=
    evalPairs_sums F P M q hinc lo hi lo2 hi2 hlo hhi hlo2 hhi2 v k (pairs P.ncrys)
      (fun p hp => ⟨hv p.1 (by have := pairs_lt hp; omega), hv p.2 (pairs_lt hp).2⟩)
      (fun p hp => ⟨⟨hk p.1 p.2 (by have := pairs_lt hp; omega) (pairs_lt hp).2,
          hk p.2 p.1 (pairs_lt hp).2 (by have := pairs_lt hp; omega)⟩,
        hkb p.1 p.2 (pairs_lt hp).1 (pairs_lt hp).2,
        hgb p.1 p.2 (pairs_lt hp).1 (pairs_lt hp).2⟩)
      0 0 (initAcc M) (by omega) (initAcc_sums M lo hi lo2 hi2)
  rw [Nat.zero_add] at lT lS uS lK uK lG uG
  obtain ⟨c1, c2, c3⟩ := quotient_within lo hi hlo (le_trans h01.1 h01.2) hhi
    (pairs P.ncrys).length hlen1 (by omega) T lT a.sum_kappa a.sum_val fK fS lS uS lK uK
  obtain ⟨d1, d2, d3⟩ := quotient_within lo2 hi2 hlo2 (le_trans h10.1 h10.2) hhi2
    (pairs P.ncrys).length hlen1 (by omega) T lT a.sum_gamma a.sum_val fG fS lS uS lG uG
  have hcast : (((pairs P.ncrys).length : ℚ) + 2) / 2 ^ 50
      ≤ ((P.ncrys : ℚ) * (P.ncrys : ℚ) + 2) / 2 ^ 50 := by
    apply div_le_div_of_nonneg_right _ (by norm_num)
    have : ((pairs P.ncrys).length : ℚ) ≤ ((P.ncrys * P.ncrys : Nat) : ℚ) := by
      exact_mod_cast hlen
    push_cast at this
    linarith
  have hhi0 : 0 < hi := lt_of_lt_of_le hlo0 (le_trans h01.1 h01.2)
  have hhi20 : 0 < hi2 := lt_of_lt_of_le hlo20 (le_trans h10.1 h10.2)
  refine ⟨outputs P M a, by rw [computeQp, ea], c1, d1, ?_, ?_, ?_, ?_⟩
  · exact le_trans (mul_le_mul_of_nonneg_left (by linarith) hlo0.le) c2
  · exact le_trans c3 (mul_le_mul_of_nonneg_left (by linarith) hhi0.le)
  · exact le_trans (mul_le_mul_of_nonneg_left (by linarith) hlo20.le) d2
  · exact le_trans d3 (mul_le_mul_of_nonneg_left (by linarith) hhi20.le)

/-- C20 (witness): two grains with `kappa_gamma[0][1] = 5` and `kappa_gamma[1][0] = 7` at the
example point. -/
theorem outputs_near_extremes_witness :
    ∃ o, computeQp exFns (exParams 2) (exMembers 5 7) exPoint = Except.ok o ∧
      o.kappa.IsFinite ∧ o.gamma.IsFinite ∧
      5 * (1 - (((exParams 2).ncrys : ℚ) * ((exParams 2).ncrys : ℚ) + 2) / 2 ^ 50)
        ≤ o.kappa.toRat ∧
      o.kappa.toRat
        ≤ 5 * (1 + (((exParams 2).ncrys : ℚ) * ((exParams 2).ncrys : ℚ) + 2) / 2 ^ 50) ∧
      7 * (1 - (((exParams 2).ncrys : ℚ) * ((exParams 2).ncrys : ℚ) + 2) / 2 ^ 50)
        ≤ o.gamma.toRat ∧
      o.gamma.toRat
        ≤ 7 * (1 + (((exParams 2).ncrys : ℚ) * ((exParams 2).ncrys : ℚ) + 2) / 2 ^ 50) :=
  outputs_near_extremes exFns (exParams 2) (exMembers 5 7) exPoint (by decide) (by decide) rfl
    (fun _ => 1) (fun i j => if i < j then 5 else 7)
    (fun _ _ => ⟨by simp only [exPoint, ofNat_def]; norm_num, by norm_num⟩)
    (fun m n _ _ => by
      simp only [exMembers, ofNat_def]
      split_ifs <;> norm_num)
    5 5 7 7 (by norm_num) (by norm_num) (by norm_num) (by norm_num)
    (fun m n hmn _ => by simp only [if_pos hmn, le_refl, and_self])
    (fun m n hmn _ => by
      simp only [if_neg (by omega : ¬ n < m), le_refl, and_self])

/-- C19 (counterexample): two grains, `delta_sigma = 0.5`, gradient `(1000000009, 1000000008)`
of grain 0 and none of grain 1, `sin` and `cos` of the angle `pi / 2` of the pair `(0, 1)`:
in binary64 arithmetic `cos_2phi = 1 + 2^-52` is not below 1, `cos_4phi = 1 + 2^-50` is not
below 1, and `f_sigma = 1.5 + 2^-51` exceeds `1 + |delta_sigma|`. -/
theorem inclination_factor_above :
    cos_2phi_of exFns exInclined exSteepPoint 0 1 = num (1 + 1 / 2 ^ 52) ∧
    cos_4phi_of exFns exInclined exSteepPoint 0 1 = num (1 + 1 / 2 ^ 50) ∧
    exInclined.delta_sigma = num (1 / 2) ∧
    (inclination exFns exInclined (exMembers 5 7) exSteepPoint 0 1
        (initAcc (exMembers 5 7))).f_sigma = num (3 / 2 + 1 / 2 ^ 51) := by
  refine ⟨?_, ?_, lit_half, ?_⟩
  · rw [cos_2phi_steep]; norm_num
  · rw [cos_4phi_steep]; norm_num
  · rw [f_sigma_steep]; norm_num

/-- C19: in the inclination branch in binary64 arithmetic, for library `sin` and `cos` returning
finite values whose squares add up to at most `1 + 2^-50`, finite gradient components of
magnitude at most `1e99` and finite `delta_sigma`, `delta_mob` of magnitude at most `1e100`:
`cos_2phi` is finite with `|cos_2phi| ≤ 1 + 2^-48`; `cos_4phi` is finite and lies in
`[-1, 1 + 2^-45]`; `f_sigma` and `f_mob` are finite and within `(1 + 2^-44) |delta| + 2^-52`
of 1, and positive when `|delta| ≤ 1 - 2^-40`. -/
theorem inclination_factors_near (F : MathFns Double) (P : Params Double) (M : Members Double)
    (q : QpInput Double) (m n : Nat) (a : EvalAcc Double)
    (hF : ∀ x, (F.cos x).IsFinite ∧ (F.sin x).IsFinite ∧
      (F.cos x).toRat ^ 2 + (F.sin x).toRat ^ 2 ≤ 1 + 1 / 2 ^ 50)
    (hg : ∀ i j, (q.grad_vals i j).IsFinite ∧ |(q.grad_vals i j).toRat| ≤ 10 ^ 99)
    (hs : P.delta_sigma.IsFinite ∧ |P.delta_sigma.toRat| ≤ 10 ^ 100)
    (hm : P.delta_mob.IsFinite ∧ |P.delta_mob.toRat| ≤ 10 ^ 100) :
    ((cos_2phi_of F P q m n).IsFinite ∧ |(cos_2phi_of F P q m n).toRat| ≤ 1 + 1 / 2 ^ 48) ∧
    ((cos_4phi_of F P q m n).IsFinite ∧ -1 ≤ (cos_4phi_of F P q m n).toRat ∧
      (cos_4phi_of F P q m n).toRat ≤ 1 + 1 / 2 ^ 45) ∧
    ((inclination F P M q m n a).f_sigma.IsFinite ∧
      |(inclination F P M q m n a).f_sigma.toRat - 1|
        ≤ (1 + 1 / 2 ^ 44) * |P.delta_sigma.toRat| + 1 / 2 ^ 52 ∧
      (|P.delta_sigma.toRat| ≤ 1 - 1 / 2 ^ 40 →
        0 < (inclination F P M q m n a).f_sigma.toRat)) ∧
    ((inclination F P M q m n a).f_mob.IsFinite ∧
      |(inclination F P M q m n a).f_mob.toRat - 1|
        ≤ (1 + 1 / 2 ^ 44) * |P.delta_mob.toRat| + 1 / 2 ^ 52 ∧
      (|P.delta_mob.toRat| ≤ 1 - 1 / 2 ^ 40 →
        0 < (inclination F P M q m n a).f_mob.toRat)) := by
  obtain ⟨fa, ha⟩ := gradient_difference _ _ (hg m 0).1 (hg n 0).1 (hg m 0).2 (hg n 0).2
  obtain ⟨fb, hb⟩ := gradient_difference _ _ (hg m 1).1 (hg n 1).1 (hg m 1).2 (hg n 1).2
  obtain ⟨fc, fs, hcs⟩ := hF (2.0 * (F.pi * (n : Double) / (2.0 * (P.ncrys : Double))))
  have h2 := cos_2phi_bound _ _ _ _ fc fs fa fb hcs ha hb
  have e2 : cos_2phi_of F P q m n
      = F.cos (2.0 * (F.pi * (n : Double) / (2.0 * (P.ncrys : Double))))
          * ((q.grad_vals m 0 - q.grad_vals n 0) * (q.grad_vals m 0 - q.grad_vals n 0)
            - (q.grad_vals m 1 - q.grad_vals n 1) * (q.grad_vals m 1 - q.grad_vals n 1))
          / ((q.grad_vals m 0 - q.grad_vals n 0) * (q.grad_vals m 0 - q.grad_vals n 0)
            + (q.grad_vals m 1 - q.grad_vals n 1) * (q.grad_vals m 1 - q.grad_vals n 1)
            + 1.0e-7)
        + F.sin (2.0 * (F.pi * (n : Double) / (2.0 * (P.ncrys : Double)))) * 2.0
          * (q.grad_vals m 0 - q.grad_vals n 0) * (q.grad_vals m 1 - q.grad_vals n 1)
          / ((q.grad_vals m 0 - q.grad_vals n 0) * (q.grad_vals m 0 - q.grad_vals n 0)
            + (q.grad_vals m 1 - q.grad_vals n 1) * (q.grad_vals m 1 - q.grad_vals n 1)
            + 1.0e-7) := rfl
  rw [← e2] at h2
  have h4 := cos_4phi_bound (cos_2phi_of F P q m n) h2.1 h2.2
  have e4 : cos_4phi_of F P q m n
      = 2.0 * cos_2phi_of F P q m n * cos_2phi_of F P q m n - 1.0 := rfl
  rw [← e4] at h4
  have es : (inclination F P M q m n a).f_sigma
      = 1.0 + P.delta_sigma * cos_4phi_of F P q m n := rfl
  have em : (inclination F P M q m n a).f_mob
      = 1.0 + P.delta_mob * cos_4phi_of F P q m n := rfl
  rw [es, em]
  exact ⟨h2, h4, factor_bound _ _ hs.1 h4.1 hs.2 h4.2.1 h4.2.2,
    factor_bound _ _ hm.1 h4.1 hm.2 h4.2.1 h4.2.2⟩

/-- C19 (witness): the steep example point with `delta_sigma = delta_mob = 0.5`. -/
theorem inclination_factors_near_witness :
    |(cos_2phi_of exFns exInclined exSteepPoint 0 1).toRat| ≤ 1 + 1 / 2 ^ 48 ∧
    -1 ≤ (cos_4phi_of exFns exInclined exSteepPoint 0 1).toRat ∧
    (cos_4phi_of exFns exInclined exSteepPoint 0 1).toRat ≤ 1 + 1 / 2 ^ 45 ∧
    |(inclination exFns exInclined (exMembers 5 7) exSteepPoint 0 1
        (initAcc (exMembers 5 7))).f_sigma.toRat - 1|
      ≤ (1 + 1 / 2 ^ 44) * |exInclined.delta_sigma.toRat| + 1 / 2 ^ 52 ∧
    0 < (inclination exFns exInclined (exMembers 5 7) exSteepPoint 0 1
        (initAcc (exMembers 5 7))).f_sigma.toRat := by
  have hd : exInclined.delta_sigma = num (1 / 2) := lit_half
  have hm : exInclined.delta_mob = num (1 / 2) := lit_half
  have h := inclination_factors_near exFns exInclined (exMembers 5 7) exSteepPoint 0 1
    (initAcc (exMembers 5 7))
    (fun _ => by
      have ec : exFns.cos = fun _ => num (4967757600021511 / 2 ^ 106) := by
        funext x; exact lit_cos_half_pi
      have es : exFns.sin = fun _ => num 1 := by
        funext x; exact lit_one
      rw [ec, es]
      exact ⟨num_finite _, num_finite _, by simp only [toRat_num]; norm_num⟩)
    (fun i j => by
      simp only [exSteepPoint]
      split_ifs <;> rw [ofNat_def] <;> exact ⟨num_finite _, by rw [toRat_num]; norm_num⟩)
    (by
      rw [hd]
      exact ⟨num_finite _, by
        rw [toRat_num, abs_of_pos (by norm_num : (0 : ℚ) < 1 / 2)]; norm_num⟩)
    (by
      rw [hm]
      exact ⟨num_finite _, by
        rw [toRat_num, abs_of_pos (by norm_num : (0 : ℚ) < 1 / 2)]; norm_num⟩)
  exact ⟨h.1.2, h.2.1.2.1, h.2.1.2.2, h.2.2.1.2.1,
    h.2.2.1.2.2 (by
      rw [hd, toRat_num, abs_of_pos (by norm_num : (0 : ℚ) < 1 / 2)]; norm_num)⟩

end IEEE

end GBAnisotropy
